import Mathlib

/-!
# KMTableLib: the columnar table engine

A shallow embedding of `km::Table` (src/src/Table.cpp, include/kmt/Table.hpp),
`km::Column` (include/kmt/Column.hpp), `km::Variant` (include/kmt/Core.hpp) and the K types
(include/kmt/Types.hpp), followed by theorems about the table's invariants.

Conventions of the embedding:
* `std::vector` is a `List`; `IndexType` / `SizeType` (`std::size_t`) is a `Nat`.
* `KInt32` / `KInt64` payloads are `Int` (cells are only stored and compared here).
* `KFloat32` / `KFloat64` payloads are rationals: every finite IEEE value is a rational and
  `<`, `>` agree with the rational order. NaN and the infinities are outside the model.
* A C++ call that may throw returns `Except Exn _`.
* Reading a vector outside its bounds is undefined behaviour in C++; here such a read yields
  the value-initialised element of the column type and such a write is dropped. The theorems
  carry the well-formedness hypothesis under which every access is in bounds.
-/

namespace km

/-! ## Types.hpp -/

/-- Value `INVALID_INDEX` of Types.hpp: `std::size_t(-1)`. -/
def INVALID_INDEX : Nat := 2 ^ 64 - 1

/-- Expression `n - 1` on `std::size_t`: the subtraction wraps around at zero. -/
def sizeDec (n : Nat) : Nat := if n = 0 then INVALID_INDEX else n - 1

/-- Expression `++n` on `std::size_t`: the increment wraps around at `SIZE_MAX`. -/
def sizeInc (n : Nat) : Nat := if n = INVALID_INDEX then 0 else n + 1

/-- Struct `date_t`: year is a `uint16_t`, month and day are `uint8_t`. -/
structure KDate where
  year : Fin 65536
  month : Fin 256
  day : Fin 256
deriving DecidableEq, Repr

/-- Struct `date_time_t::time_t_`. -/
structure KTime where
  hour : Fin 256
  minute : Fin 256
  second : Fin 256
deriving DecidableEq, Repr

/-- Struct `date_time_t`. -/
structure KDateTime where
  date : KDate
  time : KTime
deriving DecidableEq, Repr

/-- Function `toSeconds`. -/
def toSeconds (t : KTime) : Int :=
  t.hour.val * 3600 + t.minute.val * 60 + t.second.val

/-- Function `integralRepresentationOf`; the value fits an `int32_t` for every `date_t`. -/
def integralRepresentationOf (d : KDate) : Int :=
  d.year.val * 10000 + d.month.val * 100 + d.day.val

namespace KDate

/-- Operator `==` on `KDate`. -/
def eq (date1 date2 : KDate) : Bool :=
  (date1.day == date2.day) && (date1.month == date2.month) && (date1.year == date2.year)

/-- Operator `>` on `KDate`. -/
def gt (date1 date2 : KDate) : Bool :=
  decide (integralRepresentationOf date1 > integralRepresentationOf date2)

/-- Operator `<` on `KDate`. -/
def lt (date1 date2 : KDate) : Bool :=
  decide (integralRepresentationOf date1 < integralRepresentationOf date2)

/-- Operator `>=` on `KDate`. -/
def ge (date1 date2 : KDate) : Bool :=
  decide (integralRepresentationOf date1 ≥ integralRepresentationOf date2)

/-- Operator `<=` on `KDate`. -/
def le (date1 date2 : KDate) : Bool :=
  decide (integralRepresentationOf date1 ≤ integralRepresentationOf date2)

end KDate

namespace KDateTime

/-- Operator `==` on `KDateTime`. -/
def eq (a b : KDateTime) : Bool :=
  KDate.eq a.date b.date && (a.time.hour == b.time.hour) && (a.time.minute == b.time.minute)
    && (a.time.second == b.time.second)

/-- Operator `>` on `KDateTime`. -/
def gt (a b : KDateTime) : Bool :=
  if KDate.gt a.date b.date then true
  else if KDate.lt a.date b.date then false
  else decide (toSeconds a.time > toSeconds b.time)

/-- Operator `<` on `KDateTime`. -/
def lt (a b : KDateTime) : Bool :=
  if KDate.lt a.date b.date then true
  else if KDate.gt a.date b.date then false
  else decide (toSeconds a.time < toSeconds b.time)

/-- Operator `<=` on `KDateTime`. -/
def le (a b : KDateTime) : Bool := !(gt a b)

/-- Operator `>=` on `KDateTime`. -/
def ge (a b : KDateTime) : Bool := !(lt a b)

end KDateTime

/-! ## Core.hpp -/

/-- The eight K types: the template argument of `Column<Type_>` and the alternatives of the
`std::variant` inside `Variant`, in declaration order. -/
inductive KType where
  | KInt32 | KInt64 | KFloat32 | KFloat64 | KString | KBoolean | KDate | KDateTime
deriving DecidableEq, Repr

/-- Enum `DataType : uint16_t`; a value need not be one of the eight enumerators. -/
abbrev DataType := Nat

def DataType.INT32 : DataType := 0x0001
def DataType.INT64 : DataType := 0x0002
def DataType.FLOAT32 : DataType := 0x0004
def DataType.FLOAT64 : DataType := 0x0008
def DataType.STRING : DataType := 0x0010
def DataType.BOOLEAN : DataType := 0x0020
def DataType.DATE : DataType := 0x0040
def DataType.DATE_TIME : DataType := 0x0080

/-- Loop of `indexForDataType`, started at `i` with `fuel` iterations left (`i < 8` bounds it). -/
def indexForDataTypeLoop (data_type : DataType) (otherwise : Nat) : Nat → Nat → Nat
  | 0, _ => otherwise
  | fuel + 1, i =>
    if (1 <<< i) ≤ data_type ∧ i < 8 then
      if (1 <<< i) = data_type then i else indexForDataTypeLoop data_type otherwise fuel (i + 1)
    else otherwise

/-- Function `indexForDataType`. -/
def indexForDataType (data_type : DataType) (otherwise : Nat) : Nat :=
  indexForDataTypeLoop data_type otherwise 9 0

/-- Function `isValidDataType`. -/
def isValidDataType (data_type : DataType) : Bool :=
  indexForDataType data_type INVALID_INDEX != INVALID_INDEX

/-- Function `toDataType`. -/
def toDataType (index : Nat) : DataType := 1 <<< index

/-- Class `Variant`: a value of one of the eight K types. -/
inductive Variant where
  | int32 (v : Int)
  | int64 (v : Int)
  | float32 (v : ℚ)
  | float64 (v : ℚ)
  | string (v : String)
  | boolean (v : Bool)
  | date (v : KDate)
  | dateTime (v : KDateTime)
deriving DecidableEq

namespace Variant

/-- Method `Variant::index`. -/
def index : Variant → Nat
  | int32 _ => 0
  | int64 _ => 1
  | float32 _ => 2
  | float64 _ => 3
  | string _ => 4
  | boolean _ => 5
  | date _ => 6
  | dateTime _ => 7

end Variant

/-- Function `dataTypeOf`. -/
def dataTypeOf (v : Variant) : DataType := toDataType v.index

/-- Exceptions that the modelled code can raise. -/
inductive Exn where
  | bad_variant_access
  | invalid_argument (what : String)
  | exception (what : String)
deriving DecidableEq, Repr

/-- Function-like definition `KM_IA_EXCEPTION(str)` of KException.h: the exception
`std::invalid_argument` whose message is `str` followed by the reference to the logs. -/
def KM_IA_EXCEPTION (str : String) : Exn :=
  .invalid_argument (str ++ ", see logs for more information!")

namespace KType

/-- Position of the type among the alternatives of the variant. -/
def index : KType → Nat
  | KInt32 => 0
  | KInt64 => 1
  | KFloat32 => 2
  | KFloat64 => 3
  | KString => 4
  | KBoolean => 5
  | KDate => 6
  | KDateTime => 7

/-- Value-initialised element `Type_()`. -/
def zero : KType → Variant
  | KInt32 => .int32 0
  | KInt64 => .int64 0
  | KFloat32 => .float32 0
  | KFloat64 => .float64 0
  | KString => .string ""
  | KBoolean => .boolean false
  | KDate => .date ⟨0, 0, 0⟩
  | KDateTime => .dateTime ⟨⟨0, 0, 0⟩, ⟨0, 0, 0⟩⟩

/-- Value `std::numeric_limits<Type_>::epsilon()` for the float types (binary32 and binary64);
the other column types have no epsilon member and the field is unused for them. -/
def defaultEpsilon : KType → ℚ
  | KFloat32 => 1 / 2 ^ 23
  | KFloat64 => 1 / 2 ^ 52
  | _ => 0

end KType

/-- Function template `dataTypeFor<Type_>()` of Column.hpp. -/
def dataTypeFor : KType → DataType
  | .KInt32 => DataType.INT32
  | .KInt64 => DataType.INT64
  | .KFloat32 => DataType.FLOAT32
  | .KFloat64 => DataType.FLOAT64
  | .KString => DataType.STRING
  | .KBoolean => DataType.BOOLEAN
  | .KDate => DataType.DATE
  | .KDateTime => DataType.DATE_TIME

/-- Method `std::string::compare` on the characters of two strings: lexicographic on the
character codes, a proper prefix being smaller; the sign of the result is returned. -/
def stringCompare : List Char → List Char → Int
  | [], [] => 0
  | [], _ :: _ => -1
  | _ :: _, [] => 1
  | a :: as, b :: bs =>
    if a.toNat < b.toNat then -1
    else if b.toNat < a.toNat then 1
    else stringCompare as bs

namespace Variant

/-- Method `Variant::as<Type_>`: `std::get<Type_>` succeeds exactly when the variant currently
holds alternative `Type_`, and throws `std::bad_variant_access` otherwise. -/
def as (v : Variant) (T : KType) : Except Exn Variant :=
  if v.index = T.index then .ok v else .error .bad_variant_access

/-- Operator `<` of the payload type, on two values of one type (Core.cpp `cmp::isLess<T>`,
`Column<Type_>::isLess`). Two different alternatives never meet inside a column. -/
def less : Variant → Variant → Bool
  | int32 a, int32 b => decide (a < b)
  | int64 a, int64 b => decide (a < b)
  | float32 a, float32 b => decide (a < b)
  | float64 a, float64 b => decide (a < b)
  | string a, string b => decide (stringCompare a.data b.data < 0)
  | boolean a, boolean b => decide (a < b)
  | date a, date b => KDate.lt a b
  | dateTime a, dateTime b => KDateTime.lt a b
  | _, _ => false

/-- Operator `>` of the payload type, on two values of one type. -/
def greater : Variant → Variant → Bool
  | int32 a, int32 b => decide (a > b)
  | int64 a, int64 b => decide (a > b)
  | float32 a, float32 b => decide (a > b)
  | float64 a, float64 b => decide (a > b)
  | string a, string b => decide (stringCompare a.data b.data > 0)
  | boolean a, boolean b => decide (a > b)
  | date a, date b => KDate.gt a b
  | dateTime a, dateTime b => KDateTime.gt a b
  | _, _ => false

/-- Operator `<=` of the payload type, on two values of one type. -/
def lessEq : Variant → Variant → Bool
  | int32 a, int32 b => decide (a ≤ b)
  | int64 a, int64 b => decide (a ≤ b)
  | float32 a, float32 b => decide (a ≤ b)
  | float64 a, float64 b => decide (a ≤ b)
  | string a, string b => decide (stringCompare a.data b.data ≤ 0)
  | boolean a, boolean b => decide (a ≤ b)
  | date a, date b => KDate.le a b
  | dateTime a, dateTime b => KDateTime.le a b
  | _, _ => false

/-- Operator `>=` of the payload type, on two values of one type. -/
def greaterEq : Variant → Variant → Bool
  | int32 a, int32 b => decide (a ≥ b)
  | int64 a, int64 b => decide (a ≥ b)
  | float32 a, float32 b => decide (a ≥ b)
  | float64 a, float64 b => decide (a ≥ b)
  | string a, string b => decide (stringCompare a.data b.data ≥ 0)
  | boolean a, boolean b => decide (a ≥ b)
  | date a, date b => KDate.ge a b
  | dateTime a, dateTime b => KDateTime.ge a b
  | _, _ => false

/-- Operator `==` of the payload type, on two values of one type (the generic
`Column<Type_>::isEqual`). -/
def equal : Variant → Variant → Bool
  | int32 a, int32 b => decide (a = b)
  | int64 a, int64 b => decide (a = b)
  | float32 a, float32 b => decide (a = b)
  | float64 a, float64 b => decide (a = b)
  | string a, string b => decide (a = b)
  | boolean a, boolean b => decide (a = b)
  | date a, date b => KDate.eq a b
  | dateTime a, dateTime b => KDateTime.eq a b
  | _, _ => false

/-- Test `std::abs(a - b) < epsilon` of the float column specialisations. -/
def equalEps (epsilon : ℚ) : Variant → Variant → Bool
  | float32 a, float32 b => decide (|a - b| < epsilon)
  | float64 a, float64 b => decide (|a - b| < epsilon)
  | a, b => equal a b

end Variant

/-! ## Column.hpp -/

/-- Struct `ColumnMetaData`. -/
structure ColumnMetaData where
  column_name : String
  display_name : String
  data_type : DataType
deriving DecidableEq, Repr

/-- Class `Column<Type_>` behind the `AbstractColumn` interface: the element type, the
metadata, the epsilon of the float specialisations and the data vector. -/
structure Column where
  ktype : KType
  column_name : String
  display_name : String
  m_epsilon : ℚ
  m_data_vec : List Variant
deriving DecidableEq

namespace Column

/-- Constructor `Column<Type_>(column_name, display_name)`; `AbstractColumn` replaces an empty
display name by the column name. -/
def mk0 (T : KType) (column_name display_name : String) : Column :=
  { ktype := T
    column_name := column_name
    display_name := if display_name.isEmpty then column_name else display_name
    m_epsilon := T.defaultEpsilon
    m_data_vec := [] }

/-- Method `getName`. -/
def getName (c : Column) : String := c.column_name

/-- Method `getDataType`. -/
def getDataType (c : Column) : DataType := dataTypeFor c.ktype

/-- Method `getDisplayName`. -/
def getDisplayName (c : Column) : String := c.display_name

/-- Method `setDisplayName`. -/
def setDisplayName (c : Column) (display_name : String) : Column :=
  { c with display_name := if display_name.isEmpty then c.column_name else display_name }

/-- Method `getMetaData`. -/
def getMetaData (c : Column) : ColumnMetaData :=
  ⟨c.column_name, c.display_name, dataTypeFor c.ktype⟩

/-- Method `getSameTypeColumn`: a fresh, empty column of the same element type. -/
def getSameTypeColumn (c : Column) (column_name : String) : Column :=
  mk0 c.ktype column_name c.getDisplayName

/-- Method `setEpsilon`: only the float specialisations override it. -/
def setEpsilon (c : Column) (epsilon : Variant) : Except Exn Column :=
  match c.ktype, epsilon with
  | .KFloat32, .float32 e => .ok { c with m_epsilon := e }
  | .KFloat32, _ => .error .bad_variant_access
  | .KFloat64, .float64 e => .ok { c with m_epsilon := e }
  | .KFloat64, _ => .error .bad_variant_access
  | _, _ => .ok c

/-- Method `resize`: `std::vector::resize` with value-initialised new elements. -/
def resize (c : Column) (size : Nat) : Column :=
  { c with m_data_vec :=
      c.m_data_vec.take size ++ List.replicate (size - c.m_data_vec.length) c.ktype.zero }

/-- Method `reserve`: capacity only, the contents are unchanged. -/
def reserve (c : Column) (_size : Nat) : Column := c

/-- Method `setData`. -/
def setData (c : Column) (data : Variant) (index : Nat) : Except Exn Column :=
  match data.as c.ktype with
  | .ok x => .ok { c with m_data_vec := c.m_data_vec.set index x }
  | .error e => .error e

/-- Method `getData`. -/
def getData (c : Column) (index : Nat) : Variant :=
  c.m_data_vec.getD index c.ktype.zero

/-- Method `pushData`. -/
def pushData (c : Column) (data : Variant) : Except Exn Column :=
  match data.as c.ktype with
  | .ok x => .ok { c with m_data_vec := c.m_data_vec ++ [x] }
  | .error e => .error e

/-- Method `popData`. -/
def popData (c : Column) : Column :=
  if !c.m_data_vec.isEmpty then { c with m_data_vec := c.m_data_vec.dropLast } else c

/-- Method `createSpace`. -/
def createSpace (c : Column) : Column :=
  { c with m_data_vec := c.m_data_vec ++ [c.ktype.zero] }

/-- Method `isGreater`. -/
def isGreater (c : Column) (index1 index2 : Nat) : Bool :=
  Variant.greater (c.getData index1) (c.getData index2)

/-- Method `isEqual`; the float specialisations compare within epsilon. -/
def isEqual (c : Column) (index1 index2 : Nat) : Bool :=
  Variant.equalEps c.m_epsilon (c.getData index1) (c.getData index2)

/-- Method `isLess`. -/
def isLess (c : Column) (index1 index2 : Nat) : Bool :=
  Variant.less (c.getData index1) (c.getData index2)

/-- Method `isGreaterV`. -/
def isGreaterV (c : Column) (index : Nat) (data : Variant) : Except Exn Bool :=
  match data.as c.ktype with
  | .ok x => .ok (Variant.greater (c.getData index) x)
  | .error e => .error e

/-- Method `isEqualV`. -/
def isEqualV (c : Column) (index : Nat) (data : Variant) : Except Exn Bool :=
  match data.as c.ktype with
  | .ok x => .ok (Variant.equalEps c.m_epsilon (c.getData index) x)
  | .error e => .error e

/-- Method `isLessV`. -/
def isLessV (c : Column) (index : Nat) (data : Variant) : Except Exn Bool :=
  match data.as c.ktype with
  | .ok x => .ok (Variant.less (c.getData index) x)
  | .error e => .error e

end Column

/-! ## Library algorithms used by the table -/

/-- Loop of `std::upper_bound` (libstdc++ `__upper_bound`): `first` and `len` are the loop
variables, `comp mid` is `__comp(__val, __middle)`. The first argument bounds the number of
iterations; `len` at least halves in each one. -/
def upper_bound_loop (xs : List Nat) (comp : Nat → Bool) : Nat → Nat → Nat → Nat
  | 0, first, _ => first
  | fuel + 1, first, len =>
    if len > 0 then
      let half := len / 2
      let middle := first + half
      if comp (xs.getD middle 0) then upper_bound_loop xs comp fuel first half
      else upper_bound_loop xs comp fuel (middle + 1) (len - half - 1)
    else first

/-- Function `std::upper_bound(begin, end, value, comp)`, returned as an offset from `begin`. -/
def upper_bound (xs : List Nat) (comp : Nat → Bool) : Nat :=
  upper_bound_loop xs comp xs.length 0 xs.length

/-- Function `std::stable_sort(begin, end, comp)`. The standard fixes its result: the sorted
permutation in which equivalent elements keep their order. It is computed here by insertion
sort; `comp` is the strict comparison. -/
def stable_sort (xs : List Nat) (comp : Nat → Nat → Bool) : List Nat :=
  xs.insertionSort (fun a b => comp b a = false)

/-- Method `std::vector::insert(begin + pos, value)`. -/
def vectorInsert (xs : List Nat) (pos : Nat) (value : Nat) : List Nat :=
  xs.take pos ++ value :: xs.drop pos

/-! ## AbstractTable.hpp -/

/-- Enum `SortingOrder`. -/
inductive SortingOrder where
  | ASCENDING
  | DESCENDING
deriving DecidableEq, Repr

/-- Function `std::isalpha` in the "C" locale. -/
def isalpha (c : Char) : Bool := ('a' ≤ c && c ≤ 'z') || ('A' ≤ c && c ≤ 'Z')

/-- Function `std::isalnum` in the "C" locale. -/
def isalnum (c : Char) : Bool := isalpha c || ('0' ≤ c && c ≤ '9')

/-- Function `std::isprint` in the "C" locale. -/
def isprint (c : Char) : Bool := 0x20 ≤ c.toNat && c.toNat ≤ 0x7e

/-- Function `std::isspace` in the "C" locale. -/
def isspace (c : Char) : Bool := c.toNat = 0x20 || (0x09 ≤ c.toNat && c.toNat ≤ 0x0d)

/-- Function `isValidColumnName`. -/
def isValidColumnName (column_name : String) : Bool :=
  match column_name.data with
  | [] => false
  | c :: _ =>
    if !(isalpha c || c = '_') then false
    else column_name.data.all (fun c => isalnum c || c = '_')

/-- Function `isValidTableName`. -/
def isValidTableName (table_name : String) : Bool :=
  match table_name.data with
  | [] => false
  | c :: _ =>
    if !(isalpha c || c = '_') then false
    else table_name.data.all
      (fun c => !(!isprint c || (isspace c && c != ' ') || c = '/' || c = '\\'))

/-- Function `createColumn`; `none` is the null pointer of the `default` branch. -/
def createColumn (column_name display_name : String) (data_type : DataType) : Option Column :=
  if data_type = DataType.INT32 then some (Column.mk0 .KInt32 column_name display_name)
  else if data_type = DataType.INT64 then some (Column.mk0 .KInt64 column_name display_name)
  else if data_type = DataType.FLOAT32 then some (Column.mk0 .KFloat32 column_name display_name)
  else if data_type = DataType.FLOAT64 then some (Column.mk0 .KFloat64 column_name display_name)
  else if data_type = DataType.STRING then some (Column.mk0 .KString column_name display_name)
  else if data_type = DataType.BOOLEAN then some (Column.mk0 .KBoolean column_name display_name)
  else if data_type = DataType.DATE then some (Column.mk0 .KDate column_name display_name)
  else if data_type = DataType.DATE_TIME then
    some (Column.mk0 .KDateTime column_name display_name)
  else none

/-! ## Table.hpp, Table.cpp -/

/-- Class `Table` with the members it inherits from `AbstractTable`. The pointer
`m_base_column` always aliases `m_columns.front()` (it is assigned in the constructor, when
the first column is added and in `freeSpace`) and `m_comparator` is fixed by `m_sorder`, so
both are derived from the other members. The list of dependent views is not part of the
table's own data. -/
structure Table where
  m_name : String
  m_decorated_name : String
  m_sorder : SortingOrder
  m_no_sorting : Bool
  m_process_event : Bool
  m_key_column : Nat
  m_indices : List Nat
  m_columns : List Column
  m_free_space : List Nat
  m_mfst : Nat
deriving DecidableEq

/-- A compiled token vector as the table uses it: run on one row, reading cells through
`getDataWC`. -/
structure Formula where
  eval : (Nat → Nat → Variant) → Nat → Except Exn Variant

namespace Table

/-- Method `rowCount`. -/
def rowCount (t : Table) : Nat := t.m_indices.length

/-- Method `columnCount`. -/
def columnCount (t : Table) : Nat := t.m_columns.length

/-- Method `isSortingPaused`. -/
def isSortingPaused (t : Table) : Bool := t.m_no_sorting

/-- Method `getKeyColumn`. -/
def getKeyColumn (t : Table) : Nat := t.m_key_column

/-- Method `getSortingOrder`. -/
def getSortingOrder (t : Table) : SortingOrder := t.m_sorder

/-- Method `setMaxFreeSpaceTolerance`. -/
def setMaxFreeSpaceTolerance (t : Table) (size : Nat) : Table := { t with m_mfst := size }

/-- Member `m_comparator`, as set in the constructor's initialiser list. -/
def m_comparator (t : Table) : Column → Nat → Nat → Bool :=
  if t.m_sorder = SortingOrder.ASCENDING then Column.isLess else Column.isGreater

/-- Expression `(m_base_column->*m_comparator)(index1, index2)`. -/
def baseCompare (t : Table) (index1 index2 : Nat) : Bool :=
  match t.m_columns.head? with
  | some base => t.m_comparator base index1 index2
  | none => false

/-- Loop of `findColumn` over the columns from position `i` on. -/
def findColumnLoop (column_name : String) : List Column → Nat → Option (Nat × DataType)
  | [], _ => none
  | c :: cs, i =>
    if c.getName = column_name then some (i, c.getDataType)
    else findColumnLoop column_name cs (i + 1)

/-- Method `findColumn`. -/
def findColumn (t : Table) (column_name : String) : Option (Nat × DataType) :=
  findColumnLoop column_name t.m_columns 0

/-- Method `columnAt`. -/
def columnAt (t : Table) (column_index : Nat) : Option (String × DataType) :=
  if column_index ≥ t.columnCount then none
  else (t.m_columns.get? column_index).map (fun c => (c.getName, c.getDataType))

/-- Method `getDataWC`: no bound checking. -/
def getDataWC (t : Table) (row_index column_index : Nat) : Variant :=
  match t.m_columns.get? column_index with
  | some c => c.getData (t.m_indices.getD row_index 0)
  | none => Variant.int32 0

/-- Method `getData`. -/
def getData (t : Table) (row_index column_index : Nat) : Option Variant :=
  if row_index ≥ t.rowCount ∨ column_index ≥ t.columnCount then none
  else some (t.getDataWC row_index column_index)

/-- Method `setDataWC`. -/
def setDataWC (t : Table) (row_index column_index : Nat) (data : Variant) : Except Exn Table :=
  match t.m_columns.get? column_index with
  | some c =>
    match c.setData data (t.m_indices.getD row_index 0) with
    | .ok c1 => .ok { t with m_columns := t.m_columns.set column_index c1 }
    | .error e => .error e
  | none => .ok t

/-- Method `sort`. -/
def sort (t : Table) : Table :=
  { t with m_indices := stable_sort t.m_indices t.baseCompare }

/-- Method `pauseSorting`. -/
def pauseSorting (t : Table) : Table :=
  { t with m_process_event := false, m_no_sorting := true }

/-- Method `resumeSorting`. -/
def resumeSorting (t : Table) : Table :=
  if t.isSortingPaused then { ({ t with m_process_event := true } : Table).sort with m_no_sorting := false }
  else t

/-- Loop of the free-slot branch of `insertRow`: `m_columns[i]->setData(values[i], index)` for
every column in turn. A throw stops the loop; the columns written before it stay written. -/
def setRowLoop : List Column → List Variant → Nat → List Column × Option Exn
  | [], _, _ => ([], none)
  | c :: cs, [], _ => (c :: cs, none)
  | c :: cs, v :: vs, index =>
    match c.setData v index with
    | .error e => (c :: cs, some e)
    | .ok c1 => ((c1 :: (setRowLoop cs vs index).1), (setRowLoop cs vs index).2)

/-- Loop of the append branch of `insertRow`: `m_columns[i]->pushData(values[i])` for every
column in turn. When column `i` throws, the inner handler pops the cell pushed to each of the
columns `i-1, ..., 0` and rethrows. -/
def pushRowLoop : List Column → List Variant → List Column × Option Exn
  | [], _ => ([], none)
  | c :: cs, [] => (c :: cs, none)
  | c :: cs, v :: vs =>
    match c.pushData v with
    | .error e => (c :: cs, some e)
    | .ok c1 =>
      match (pushRowLoop cs vs).2 with
      | none => (c1 :: (pushRowLoop cs vs).1, none)
      | some e => (c1.popData :: (pushRowLoop cs vs).1, some e)

/-- Tail of `insertRow` (Table.cpp lines 161-177): enter slot `index` into `m_indices`. -/
def insertIndex (t : Table) (index : Nat) : Table × Nat :=
  if !t.isSortingPaused then
    let insertion_index := upper_bound t.m_indices (fun mid => t.baseCompare index mid)
    ({ t with m_indices := vectorInsert t.m_indices insertion_index index }, insertion_index)
  else
    ({ t with m_indices := t.m_indices ++ [index] }, (t.m_indices ++ [index]).length - 1)

/-- Method `insertRow`. It is `noexcept`: both handlers log and fall through to
`return INVALID_INDEX`. -/
def insertRow (t : Table) (values : List Variant) : Table × Nat :=
  if t.m_columns.isEmpty || values.length != t.m_columns.length then (t, INVALID_INDEX)
  else if !t.m_free_space.isEmpty then
    let index := t.m_free_space.getLastD 0
    match setRowLoop t.m_columns values index with
    | (cols, some _) => ({ t with m_columns := cols }, INVALID_INDEX)
    | (cols, none) =>
      insertIndex { t with m_columns := cols, m_free_space := t.m_free_space.dropLast } index
  else
    let index := t.m_indices.length
    match pushRowLoop t.m_columns values with
    | (cols, some _) => ({ t with m_columns := cols }, INVALID_INDEX)
    | (cols, none) => insertIndex { t with m_columns := cols } index

/-- Inner loop of `freeSpace`: push the live cells of `column_ptr`, in logical order, to the
fresh column `tmp_column`. -/
def freeSpaceFill (column_ptr : Column) : Column → List Nat → Except Exn Column
  | tmp_column, [] => .ok tmp_column
  | tmp_column, i :: rest =>
    match tmp_column.pushData (column_ptr.getData i) with
    | .ok tmp1 => freeSpaceFill column_ptr tmp1 rest
    | .error e => .error e

/-- Outer loop of `freeSpace`: replace every column by its compacted copy. -/
def freeSpaceColumns (indices : List Nat) : List Column → Except Exn (List Column)
  | [] => .ok []
  | column_ptr :: rest =>
    match freeSpaceFill column_ptr
        ((column_ptr.getSameTypeColumn column_ptr.getName).reserve indices.length) indices with
    | .error e => .error e
    | .ok tmp_column =>
      match freeSpaceColumns indices rest with
      | .error e => .error e
      | .ok rest1 => .ok (tmp_column :: rest1)

/-- Method `freeSpace`. -/
def freeSpace (t : Table) : Except Exn Table :=
  match freeSpaceColumns t.m_indices t.m_columns with
  | .error e => .error e
  | .ok cols =>
    .ok { t with m_columns := cols, m_indices := List.range t.rowCount, m_free_space := [] }

/-- Method `dropRow`. -/
def dropRow (t : Table) (row_index : Nat) : Except Exn (Table × Bool) :=
  if row_index ≥ t.rowCount then .ok (t, false)
  else
    let t1 : Table :=
      { t with m_free_space := t.m_free_space ++ [t.m_indices.getD row_index 0]
               m_indices := t.m_indices.eraseIdx row_index }
    if t1.m_mfst ≤ t1.m_free_space.length then
      match t1.freeSpace with
      | .ok t2 => .ok (t2, true)
      | .error e => .error e
    else .ok (t1, true)

/-- Method `validateForNewColumn`. -/
def validateForNewColumn (t : Table) (column : String) (data_type : DataType) : Bool :=
  if !isValidColumnName column then false
  else if (t.findColumn column).isSome then false
  else if !isValidDataType data_type then false
  else true

/-- Tail shared by the three `addColumn` methods: a table that has just received its first
column takes it as base column and sorts. -/
def sortIfFirstColumn (t : Table) : Table :=
  if t.m_columns.length = 1 then t.sort else t

/-- Loop `for (IndexType i : m_indices) column_ptr->setData(fill_with, i)` of `addColumn`. -/
def fillLoop (fill_with : Variant) : Column → List Nat → Except Exn Column
  | column_ptr, [] => .ok column_ptr
  | column_ptr, i :: rest =>
    match column_ptr.setData fill_with i with
    | .ok c1 => fillLoop fill_with c1 rest
    | .error e => .error e

/-- Method `addColumn`. A null column pointer cannot arise after `validateForNewColumn`; the
model reports it as an exception. -/
def addColumn (t : Table) (column : ColumnMetaData) (fill_with : Variant) :
    Except Exn (Table × Bool) :=
  if !t.validateForNewColumn column.column_name column.data_type then .ok (t, false)
  else if (1 <<< fill_with.index) ≠ column.data_type then .ok (t, false)
  else
    match createColumn column.column_name column.display_name column.data_type with
    | none => .error (.exception "null column")
    | some column_ptr =>
      match fillLoop fill_with (column_ptr.resize (t.rowCount + t.m_free_space.length))
          t.m_indices with
      | .error e => .error e
      | .ok c1 => .ok (sortIfFirstColumn { t with m_columns := t.m_columns ++ [c1] }, true)

/-- Loop `column_ptr->setData(functor(i, args...), m_indices[i])` of `addColumnF`, from row `i`
on; the second list is the part of `m_indices` from position `i`. -/
def functorLoop (functor : Nat → Variant) : Column → Nat → List Nat → Except Exn Column
  | column_ptr, _, [] => .ok column_ptr
  | column_ptr, i, slot :: rest =>
    match column_ptr.setData (functor i) slot with
    | .ok c1 => functorLoop functor c1 (i + 1) rest
    | .error e => .error e

/-- Method `addColumnF`; the callable is a function of the row index. The only exception the
body can raise is `std::bad_variant_access`, which the handler turns into `false`. -/
def addColumnF (t : Table) (column : ColumnMetaData) (functor : Nat → Variant) :
    Except Exn (Table × Bool) :=
  if !t.validateForNewColumn column.column_name column.data_type then .ok (t, false)
  else
    match createColumn column.column_name column.display_name column.data_type with
    | none => .error (.exception "null column")
    | some column_ptr =>
      match functorLoop functor (column_ptr.resize (t.rowCount + t.m_free_space.length)) 0
          t.m_indices with
      | .error .bad_variant_access => .ok (t, false)
      | .error e => .error e
      | .ok c1 => .ok (sortIfFirstColumn { t with m_columns := t.m_columns ++ [c1] }, true)

/-- Row loop of `parse::evaluateFormula(token_vec, table, target_column, start_r, end_r)`:
`count` rows starting at `row_index`. -/
def evaluateRows (token_vec : Formula) (target_column : Nat) : Nat → Nat → Table → Except Exn Table
  | 0, _, t => .ok t
  | count + 1, row_index, t =>
    match token_vec.eval t.getDataWC row_index with
    | .error e => .error e
    | .ok v =>
      match t.setDataWC row_index target_column v with
      | .error e => .error e
      | .ok t1 => evaluateRows token_vec target_column count (row_index + 1) t1

/-- Function `parse::evaluateFormula` over the inclusive row range `[start_r, end_r]`; `++end_r`
wraps around for `end_r = SIZE_MAX`. -/
def evaluateFormula (token_vec : Formula) (t : Table) (target_column start_r end_r : Nat) :
    Except Exn Table :=
  evaluateRows token_vec target_column (sizeInc end_r - start_r) start_r t

/-- Method `addColumnE`. The compiler `parse::getCheckedToken(formula, tokens, this, type)` is
a parameter: `none` is its `false` result, `some tokens` its `true` result. -/
def addColumnE (getCheckedToken : String → Table → DataType → Option Formula)
    (t : Table) (column : ColumnMetaData) (formula : String) : Except Exn (Table × Bool) :=
  if !t.validateForNewColumn column.column_name column.data_type then .ok (t, false)
  else
    match createColumn column.column_name column.display_name column.data_type with
    | none => .error (.exception "null column")
    | some column_ptr =>
      let t1 : Table := { t with m_columns := t.m_columns ++ [column_ptr] }
      let row_count := t1.rowCount
      if row_count ≠ 0 then
        let t2 : Table :=
          { t with m_columns :=
              t.m_columns ++ [column_ptr.resize (row_count + t.m_free_space.length)] }
        match getCheckedToken formula t2 column.data_type with
        | none => .ok ({ t2 with m_columns := t2.m_columns.dropLast }, false)
        | some tokens =>
          match evaluateFormula tokens t2 (t2.m_columns.length - 1) 0 (row_count - 1) with
          | .error e => .error e
          | .ok t3 => .ok (sortIfFirstColumn t3, true)
      else .ok (sortIfFirstColumn t1, true)

/-- Method `transformColumn`, with the compiler as a parameter as in `addColumnE`. The end row
`rowCount() - 1` wraps around on an empty table. -/
def transformColumn (getCheckedToken : String → Table → DataType → Option Formula)
    (t : Table) (column_name formula : String) : Except Exn (Table × Bool) :=
  match t.findColumn column_name with
  | none => .ok (t, false)
  | some (column_index, column_datatype) =>
    match getCheckedToken formula t column_datatype with
    | none => .ok (t, false)
    | some token_vec =>
      match evaluateFormula token_vec t column_index 0 (sizeDec t.rowCount) with
      | .error e => .error e
      | .ok t1 => if column_index = 0 then .ok (t1.sort, true) else .ok (t1, true)

/-- Method `setData`. -/
def setData (t : Table) (row_index column_index : Nat) (data : Variant) :
    Except Exn (Table × Bool) :=
  if column_index = 0 ∨ row_index ≥ t.rowCount ∨ column_index ≥ t.columnCount then .ok (t, false)
  else
    match t.m_columns.get? column_index with
    | none => .ok (t, false)
    | some c =>
      if (1 <<< data.index) ≠ c.getDataType then .ok (t, false)
      else
        match t.setDataWC row_index column_index data with
        | .ok t1 => .ok (t1, true)
        | .error e => .error e

/-- Search `std::find_if(current_it + 1, end_it, ...)` of `validateColumnList`: position in
`rest` of the first column with the given name. -/
def findDuplicate (name : String) : List ColumnMetaData → Nat → Option Nat
  | [], _ => none
  | a :: rest, i => if name = a.column_name then some i else findDuplicate name rest (i + 1)

/-- Function `validateColumnList`: the error code (0 for none) of the first offending column. -/
def validateColumnList : List ColumnMetaData → Nat
  | [] => 0
  | c :: rest =>
    if !isValidColumnName c.column_name then 2
    else if (findDuplicate c.column_name rest 0).isSome then 1
    else if !isValidDataType c.data_type then 3
    else validateColumnList rest

/-- Loop of the constructor creating the columns. -/
def createColumns : List ColumnMetaData → List Column
  | [] => []
  | c :: rest =>
    match createColumn c.column_name c.display_name c.data_type with
    | some column_ptr => column_ptr :: createColumns rest
    | none => createColumns rest

/-- Member initialisers and body of the constructor, after the validation has passed. -/
def init (table_name : String) (column_list : List ColumnMetaData)
    (sorting_order : SortingOrder) : Table :=
  { m_name := table_name
    m_decorated_name := "Table[" ++ table_name ++ "]"
    m_sorder := sorting_order
    m_no_sorting := false
    m_process_event := true
    m_key_column := 0
    m_indices := []
    m_columns := createColumns column_list
    m_free_space := []
    m_mfst := 64 }

/-- Constructor `Table(table_name, column_list, sorting_order)`. -/
def new (table_name : String) (column_list : List ColumnMetaData) (sorting_order : SortingOrder) :
    Except Exn Table :=
  if !isValidTableName table_name then .error (KM_IA_EXCEPTION "Table ~ invalid name")
  else if validateColumnList column_list = 1 then
    .error (KM_IA_EXCEPTION "Table ~ duplicate column name")
  else if validateColumnList column_list = 2 then
    .error (KM_IA_EXCEPTION "Table ~ invalid column name")
  else if validateColumnList column_list = 3 then
    .error (KM_IA_EXCEPTION "Table ~ Invalid data type")
  else .ok (init table_name column_list sorting_order)

end Table

/-! ## Vocabulary of the specification -/

/-- Every cell of the column holds the column's element type (what `Column<Type_>` guarantees
by construction of its `std::vector<Type_>`). -/
def Column.Typed (c : Column) : Prop := ∀ v ∈ c.m_data_vec, v.index = c.ktype.index

instance (c : Column) : Decidable c.Typed := by
  unfold Column.Typed
  infer_instance

/-- The column `c1` is `c`, possibly with the cell at `slot` overwritten by a value of the
column's type: the trace that a failed `insertRow` may leave in a free slot. -/
def Column.WrittenAt (slot : Nat) (c c1 : Column) : Prop :=
  c1 = c ∨ ∃ v : Variant, v.index = c.ktype.index ∧
    c1 = { c with m_data_vec := c.m_data_vec.set slot v }

/-- Result of rebuilding the column in `freeSpace`: a fresh column of the same type and name
that holds the cells of the slots `indices`, in that order. -/
def Column.compacted (c : Column) (indices : List Nat) : Column :=
  { c.getSameTypeColumn c.getName with m_data_vec := indices.map c.getData }

/-- A strict weak ordering, the requirement of `std::stable_sort` and `std::upper_bound` on
their comparison. -/
structure StrictWeak (cmp : Nat → Nat → Bool) : Prop where
  irrefl : ∀ a, cmp a a = false
  trans : ∀ a b c, cmp a b = true → cmp b c = true → cmp a c = true
  negtrans : ∀ a b c, cmp a b = false → cmp b c = false → cmp a c = false

/-- The values of a row fit the columns: as many values as columns, each value holding the
element type of its column (the precondition of `insertRow`). -/
def rowMatches : List Column → List Variant → Bool
  | [], [] => true
  | c :: cs, v :: vs => (v.index == c.ktype.index) && rowMatches cs vs
  | _, _ => false

namespace Table

/-- Number of physical slots the table accounts for: live rows plus free slots. -/
def capacity (t : Table) : Nat := t.m_indices.length + t.m_free_space.length

/-- Representation invariant of the table: the slot identifiers in `m_indices` and
`m_free_space` are pairwise different and below the capacity, every column has exactly
`capacity` cells, and every column is typed. -/
structure WF (t : Table) : Prop where
  nodup : (t.m_indices ++ t.m_free_space).Nodup
  bound : ∀ s ∈ t.m_indices ++ t.m_free_space, s < t.capacity
  cap : ∀ c ∈ t.m_columns, c.m_data_vec.length = t.capacity
  typed : ∀ c ∈ t.m_columns, c.Typed

/-- Every slot identifier below the capacity occurs exactly once in `m_indices` and
`m_free_space` taken together, and no other identifier occurs in either. -/
def SlotsPartition (t : Table) : Prop :=
  ∀ s, t.m_indices.count s + t.m_free_space.count s = if s < t.capacity then 1 else 0

/-- The cell `a` may stand directly before the cell `b` in the key column: `a <= b` when the
table is ascending, `a >= b` when it is descending. -/
def keyOrdered (t : Table) (a b : Variant) : Bool :=
  match t.m_sorder with
  | .ASCENDING => Variant.lessEq a b
  | .DESCENDING => Variant.greaterEq a b

/-- The key column read through the logical order is sorted: every adjacent pair of logical
rows is in order. -/
def Sorted (t : Table) : Prop :=
  ∀ i, i < t.rowCount - 1 → t.keyOrdered (t.getDataWC i 0) (t.getDataWC (i + 1) 0) = true

instance (t : Table) : Decidable t.Sorted := by
  unfold Sorted
  infer_instance

/-- The slot list is sorted under the comparison of the key column. -/
def IdxSorted (t : Table) : Prop :=
  t.m_indices.Pairwise (fun a b => t.baseCompare b a = false)

/-- Cell of column `column_index` at the physical slot `slot`, so that
`getDataWC r c = cellAt c (m_indices[r])`. -/
def cellAt (t : Table) (column_index slot : Nat) : Variant :=
  match t.m_columns.get? column_index with
  | some c => c.getData slot
  | none => Variant.int32 0

/-- The table after `dropRow` has moved the slot of logical row `row_index` from `m_indices`
to `m_free_space`, before any compaction. -/
def released (t : Table) (row_index : Nat) : Table :=
  { t with m_free_space := t.m_free_space ++ [t.m_indices.getD row_index 0]
           m_indices := t.m_indices.eraseIdx row_index }

/-- The compacted table: every column rebuilt from its live cells in logical order, the slots
renumbered `0 .. rowCount - 1`, no free slot. -/
def compacted (t : Table) : Table :=
  { t with m_columns := t.m_columns.map (fun c => c.compacted t.m_indices)
           m_indices := List.range t.rowCount
           m_free_space := [] }

/-- The table `t1` differs from `t` at most in the cells of column `target`: every other
member and every other column is the same, and typed columns stay typed. -/
def OnlyColumn (target : Nat) (t t1 : Table) : Prop :=
  (∃ cols, t1 = { t with m_columns := cols }) ∧
  t1.m_columns.length = t.m_columns.length ∧
  (∀ k, k ≠ target → t1.m_columns[k]? = t.m_columns[k]?) ∧
  ((∀ c ∈ t.m_columns, c.Typed) → ∀ c ∈ t1.m_columns, c.Typed)

/-- Slot that `insertRow` writes: the last free slot when there is one, a new slot at the end
of the columns otherwise. -/
def nextSlot (t : Table) : Nat :=
  if !t.m_free_space.isEmpty then t.m_free_space.getLastD 0 else t.m_indices.length

/-- State of `insertRow` between the cell writes and the update of `m_indices`, for a row that
fits the columns. -/
def writeRow (t : Table) (values : List Variant) : Table :=
  if !t.m_free_space.isEmpty then
    { t with
      m_columns := List.zipWith
        (fun (c : Column) v => { c with m_data_vec := c.m_data_vec.set (t.m_free_space.getLastD 0) v })
        t.m_columns values
      m_free_space := t.m_free_space.dropLast }
  else
    { t with
      m_columns := List.zipWith
        (fun (c : Column) v => { c with m_data_vec := c.m_data_vec ++ [v] }) t.m_columns values }

end Table

/-! ## Fixtures of the test suite -/

/-- Schema of `test_local::getStudentTable` (tests/test_helper.cpp). -/
def studentSchema : List ColumnMetaData :=
  [⟨"name", "your name", DataType.STRING⟩, ⟨"id", "your id", DataType.INT32⟩]

/-- Rows of `test_local::getStudentTable`, in insertion order. -/
def studentRows : List (List Variant) :=
  [[.string "Keshav", .int32 1], [.string "Hemant", .int32 2], [.string "Hema", .int32 3],
   [.string "Hema", .int32 4], [.string "Aarati", .int32 6], [.string "Chhatrapal", .int32 5],
   [.string "Ketan", .int32 8], [.string "Bhupendra", .int32 7], [.string "Teman", .int32 9],
   [.string "Janaki", .int32 10]]

/-- Table built by `test_local::getStudentTable`. -/
def studentTable : Table :=
  studentRows.foldl (fun t row => (t.insertRow row).1)
    (Table.init "table" studentSchema SortingOrder.ASCENDING)

/-- A table with one `int32` key column whose only row has been inserted and dropped again:
no live row, one free slot. -/
def emptiedTable : Table :=
  match ((Table.init "t" [⟨"k", "", DataType.INT32⟩] SortingOrder.ASCENDING).insertRow
      [Variant.int32 1]).1.dropRow 0 with
  | .ok (t, _) => t
  | .error _ => Table.init "t" [] SortingOrder.ASCENDING

/-- Logical rows of a table, each as the list of its cells. -/
def Table.rows (t : Table) : List (List (Option Variant)) :=
  (List.range t.rowCount).map (fun r => (List.range t.columnCount).map (fun c => t.getData r c))

end km

namespace km

/-! ## Table.cpp: search -/

/-- Loop of `std::lower_bound` (libstdc++ `__lower_bound`): `first` and `len` are the loop
variables, `comp mid` is `__comp(__middle, __val)`, which may throw. The first argument bounds
the number of iterations; `len` at least halves in each one. -/
def lower_bound_loop (xs : List Nat) (comp : Nat → Except Exn Bool) :
    Nat → Nat → Nat → Except Exn Nat
  | 0, first, _ => .ok first
  | fuel + 1, first, len =>
    if len > 0 then
      let half := len / 2
      let middle := first + half
      match comp (xs.getD middle 0) with
      | .error e => .error e
      | .ok true => lower_bound_loop xs comp fuel (middle + 1) (len - half - 1)
      | .ok false => lower_bound_loop xs comp fuel first half
    else .ok first

/-- Function `std::lower_bound(begin, end, value, comp)`, returned as an offset from `begin`. -/
def lower_bound (xs : List Nat) (comp : Nat → Except Exn Bool) : Except Exn Nat :=
  lower_bound_loop xs comp xs.length 0 xs.length

namespace Table

/-- Loop `while (start_index != INVALID_INDEX && isEqualV(m_indices[start_index], data))
--start_index;` of `searchInKeyColumn`; the first argument bounds the number of iterations. -/
def searchBackward (t : Table) (base : Column) (data : Variant) : Nat → Nat → Except Exn Nat
  | 0, start_index => .ok start_index
  | fuel + 1, start_index =>
    if start_index ≠ INVALID_INDEX then
      match base.isEqualV (t.m_indices.getD start_index 0) data with
      | .error e => .error e
      | .ok true => searchBackward t base data fuel (sizeDec start_index)
      | .ok false => .ok start_index
    else .ok start_index

/-- Loop `while (end_index < rowCount() && isEqualV(m_indices[end_index], data)) ++end_index;`
of `searchInKeyColumn`. -/
def searchForward (t : Table) (base : Column) (data : Variant) : Nat → Nat → Except Exn Nat
  | 0, end_index => .ok end_index
  | fuel + 1, end_index =>
    if end_index < t.rowCount then
      match base.isEqualV (t.m_indices.getD end_index 0) data with
      | .error e => .error e
      | .ok true => searchForward t base data fuel (sizeInc end_index)
      | .ok false => .ok end_index
    else .ok end_index

/-- Loop `for (; ++start_index != end_index;) result_indices.push_back(start_index);` of
`searchInKeyColumn`. -/
def searchCollect : Nat → Nat → Nat → List Nat → List Nat
  | 0, _, _, result_indices => result_indices
  | fuel + 1, start_index, end_index, result_indices =>
    if sizeInc start_index ≠ end_index then
      searchCollect fuel (sizeInc start_index) end_index
        (result_indices ++ [sizeInc start_index])
    else result_indices

/-- Part of `searchInKeyColumn` after `index` is settled: the two scans of the equality run
and the collection of the result. -/
def searchRun (t : Table) (base : Column) (data : Variant) (index : Nat) :
    Except Exn (List Nat) :=
  match searchBackward t base data (t.rowCount + 1) (sizeDec index) with
  | .error e => .error e
  | .ok start_index =>
    match searchForward t base data (t.rowCount + 1) index with
    | .error e => .error e
    | .ok end_index => .ok (searchCollect (t.rowCount + 1) start_index end_index [])

/-- Method `searchInKeyColumn`. The pointer `m_base_column` is null while the table has no
column; the model reports its dereference as an exception. -/
def searchInKeyColumn (t : Table) (data : Variant) : Except Exn (List Nat) :=
  if t.rowCount = 0 then .ok []
  else
    match t.m_columns.head? with
    | none => .error (.exception "null base column")
    | some base =>
      if data.index ≠ indexForDataType base.getDataType INVALID_INDEX then .ok []
      else
        match lower_bound t.m_indices (fun index =>
            if t.m_sorder = SortingOrder.ASCENDING then base.isLessV index data
            else base.isGreaterV index data) with
        | .error e => .error e
        | .ok index =>
          if index = t.rowCount then
            match base.isEqualV (t.m_indices.getD (sizeDec index) 0) data with
            | .error e => .error e
            | .ok false => .ok []
            | .ok true => searchRun t base data (sizeDec index)
          else searchRun t base data index

/-- Loop of `search` over the rows from `index` on; the second list is the part of
`m_indices` from position `index`. -/
def searchLinear (column_ptr : Column) (data : Variant) :
    List Nat → Nat → List Nat → Except Exn (List Nat)
  | [], _, result_indices => .ok result_indices
  | slot :: rest, index, result_indices =>
    match column_ptr.isEqualV slot data with
    | .error e => .error e
    | .ok true => searchLinear column_ptr data rest (index + 1) (result_indices ++ [index])
    | .ok false => searchLinear column_ptr data rest (index + 1) result_indices

/-- Method `search`. -/
def search (t : Table) (column_name : String) (data : Variant) : Except Exn (List Nat) :=
  if t.rowCount = 0 then .ok []
  else
    match t.findColumn column_name with
    | none => .ok []
    | some (column_index, data_type) =>
      if data.index ≠ indexForDataType data_type INVALID_INDEX then .ok []
      else if column_index = 0 then t.searchInKeyColumn data
      else
        match t.m_columns[column_index]? with
        | none => .error (.exception "null column")
        | some column_ptr => searchLinear column_ptr data t.m_indices 0 []

end Table

/-! ## Vocabulary for `setData` -/

/-- Guard of `Table::setData` read positively: the column is not the key column, the row and
the column exist and the value holds the column's type. -/
def Table.setDataAccepts (t : Table) (row_index column_index : Nat) (data : Variant) : Bool :=
  decide (column_index ≠ 0) && decide (row_index < t.rowCount) &&
    (match t.m_columns[column_index]? with
     | some col => decide (dataTypeOf data = col.getDataType)
     | none => false)

/-- The table after the cell of logical row `row_index` in column `column_index` has been
overwritten with `data`. -/
def Table.setCell (t : Table) (row_index column_index : Nat) (data : Variant) : Table :=
  match t.m_columns[column_index]? with
  | some col =>
    { t with m_columns := (t.m_columns.set column_index
        ({ col with m_data_vec := col.m_data_vec.set (t.m_indices.getD row_index 0) data }
          : Column)) }
  | none => t

/-- Two `setData` calls in a row: the final table and the results of the first and of the
second call. -/
def Table.setDataTwice (t : Table) (r1 c1 : Nat) (v1 : Variant) (r2 c2 : Nat) (v2 : Variant) :
    Except Exn (Table × Bool × Bool) :=
  match t.setData r1 c1 v1 with
  | .error e => .error e
  | .ok (ta, b1) =>
    match ta.setData r2 c2 v2 with
    | .error e => .error e
    | .ok (tb, b2) => .ok (tb, b1, b2)

/-! ## Vocabulary for `search` -/

/-- Reference result of a search, by linear scan: the logical rows, in ascending order, whose
cell in the column equals the value under the column's equality (within the column's epsilon
for a float column). -/
def Table.linearScan (t : Table) (column_index : Nat) (data : Variant) : List Nat :=
  (List.range t.rowCount).filter (fun r =>
    match t.m_columns[column_index]? with
    | some c => Variant.equalEps c.m_epsilon (t.getDataWC r column_index) data
    | none => false)

/-- A date or date-time whose month and day are below 100 and whose minute and second are
below 60: on such values the field-wise `==` and the order by `integralRepresentationOf` and
`toSeconds` agree. Every value of another type qualifies. -/
def Variant.Canonical : Variant → Prop
  | .date d => d.month.val < 100 ∧ d.day.val < 100
  | .dateTime d =>
    d.date.month.val < 100 ∧ d.date.day.val < 100 ∧ d.time.minute.val < 60 ∧
      d.time.second.val < 60
  | _ => True

/-- Two rows appended while sorting is paused, the larger key first. -/
def pausedPair : Table :=
  (((Table.init "t" [⟨"k", "", DataType.INT32⟩] SortingOrder.ASCENDING).pauseSorting.insertRow
    [Variant.int32 2]).1.insertRow [Variant.int32 1]).1

/-- A sorted table keyed by dates that are not calendar dates: day 0 of month 2 and day 100 of
month 1 have the same integral representation. -/
def oddDates : Table :=
  (((Table.init "t" [⟨"d", "", DataType.DATE⟩] SortingOrder.ASCENDING).insertRow
    [Variant.date ⟨2020, 2, 0⟩]).1.insertRow [Variant.date ⟨2020, 1, 100⟩]).1

/-! ## Vocabulary for names -/

/-- The regular expression `[A-Za-z_][A-Za-z0-9_ ]*` of the specification, as a matcher of the
whole string: a letter or an underscore, followed by letters, digits, underscores and spaces
only. -/
def matchesTableNamePattern (name : String) : Bool :=
  match name.data with
  | [] => false
  | c :: rest =>
    (isalpha c || c = '_') && rest.all (fun x => isalnum x || x = '_' || x = ' ')

/-! ## Vocabulary for filling a column -/

/-- Cells of a column after the value `f i`, `f (i + 1)`, ... has been written to the first,
second, ... slot of the list. -/
def writeCells (f : Nat → Variant) : List Variant → Nat → List Nat → List Variant
  | cells, _, [] => cells
  | cells, i, slot :: rest => writeCells f (cells.set slot (f i)) (i + 1) rest

/-- A compiled formula reads, on row `r`, only cells of row `r`: every column token pushes
`table->getDataWC(row_index, column)` for the row being evaluated. -/
def Formula.RowLocal (f : Formula) : Prop :=
  ∀ (g1 g2 : Nat → Nat → Variant) (r : Nat), (∀ c, g1 r c = g2 r c) → f.eval g1 r = f.eval g2 r

/-- A stand-in for the compiler on the formula `add($id, 100)` over the student table: the
program reads the `id` cell (column 1) of its row and adds 100. -/
def addHundredToId : Formula :=
  { eval := fun get r =>
      match get r 1 with
      | Variant.int32 x => .ok (Variant.int32 (x + 100))
      | _ => .error Exn.bad_variant_access }

/-- Value of `add($id, 100)` on row `r` of the student table. -/
def idPlusHundred (r : Nat) : Variant :=
  match studentTable.getDataWC r 1 with
  | Variant.int32 x => Variant.int32 (x + 100)
  | v => v

/-- The student table at the moment `addColumnE` compiles the formula of a new `int32` column
"bonus": the new column is already appended, with a zeroed cell for every slot. -/
def studentTableWithBonus : Table :=
  { studentTable with
    m_columns := studentTable.m_columns ++
      [(Column.mk0 KType.KInt32 "bonus" "").resize
        (studentTable.rowCount + studentTable.m_free_space.length)] }

end km

namespace km

/-! ## AbstractView.hpp, BasicView.hpp, BasicView.cpp -/

/-- The virtual methods of `AbstractTable` that a view calls on its source, which is a table
or another view. -/
structure AbstractTable where
  rowCount : Nat
  columnCount : Nat
  isSortingPaused : Bool
  getDataWC : Nat → Nat → Variant
  columnAt : Nat → Option (String × DataType)
  findColumn : String → Option (Nat × DataType)

/-- A `Table` seen through an `AbstractTable` pointer. -/
def Table.toAbstractTable (t : Table) : AbstractTable :=
  { rowCount := t.rowCount
    columnCount := t.columnCount
    isSortingPaused := t.isSortingPaused
    getDataWC := t.getDataWC
    columnAt := t.columnAt
    findColumn := t.findColumn }

/-- The compiled filter `m_filtered_token` as the view uses it: `empty` is
`m_filtered_token.empty()`, `refersTo c` tells whether some column token (`token_type ==
0x0040`) names the source column `c`, and `run` is `parse::filter(tokens, table, row)` on the
cell reader of `table`. -/
structure FilterTokens where
  empty : Bool
  refersTo : Nat → Bool
  run : (Nat → Nat → Variant) → Nat → Bool

/-- The cleared token vector of a view without filter. -/
def FilterTokens.none : FilterTokens :=
  { empty := true, refersTo := fun _ => false, run := fun _ _ => false }

/-- Class `BasicView` with the members it inherits from `AbstractTable`. The source pointer
`m_source_table` is passed to every method that dereferences it; the list of dependent views
is not part of the view's own data. -/
structure BasicView where
  m_name : String
  m_decorated_name : String
  m_sorder : SortingOrder
  m_key_column : Nat
  m_indices : List Nat
  m_selected_columns : List Nat
  m_filtered_token : FilterTokens
  m_exp : String

/-- The comparison `fnc` chosen in `sortBy`, `mapToLocal` and `insertablePosition`:
`isLessComparatorFor(type)` when the order is ascending, `isGreaterComparatorFor(type)`
otherwise. For the type of a column these are `cmp::isLess<T>` and `cmp::isGreater<T>`, which
throw on a value of another type; on the cells of that column, which all hold `T`, they are
`Variant.less` and `Variant.greater`. -/
def comparatorFor (s_order : SortingOrder) (_data_type : DataType) :
    Variant → Variant → Bool :=
  if s_order = SortingOrder.ASCENDING then Variant.less else Variant.greater

/-- Value `std::optional::value()`: throws `std::bad_optional_access` on an empty optional. -/
def optionalValue {α : Type} : Option α → Except Exn α
  | some a => .ok a
  | none => .error (.exception "bad optional access")

/-- Constructor of `UniqueNameContainer`: the names in order, each kept at its first
occurrence. -/
def uniqueNames : List String → List String → List String
  | m_container, [] => m_container
  | m_container, s :: rest =>
    if m_container.contains s then uniqueNames m_container rest
    else uniqueNames (m_container ++ [s]) rest

/-- Loop of `getIndicesOf` over the unique names: the source index of every name, or the
cleared vector as soon as a name is not a column of the source. -/
def getIndicesOfLoop (table : AbstractTable) : List String → List Nat → List Nat
  | [], ivec => ivec
  | column_name :: rest, ivec =>
    match table.findColumn column_name with
    | some opt => getIndicesOfLoop table rest (ivec ++ [opt.1])
    | none => []

/-- Function `getIndicesOf`. -/
def getIndicesOf (table : AbstractTable) (column_names : List String) : List Nat :=
  if column_names.isEmpty then List.range table.columnCount
  else getIndicesOfLoop table (uniqueNames [] column_names) []

namespace BasicView

/-- Method `rowCount`. -/
def rowCount (v : BasicView) : Nat := v.m_indices.length

/-- Method `columnCount`. -/
def columnCount (v : BasicView) : Nat := v.m_selected_columns.length

/-- Method `getKeyColumn`. -/
def getKeyColumn (v : BasicView) : Nat := v.m_key_column

/-- Method `getSortingOrder`. -/
def getSortingOrder (v : BasicView) : SortingOrder := v.m_sorder

/-- Method `columnAt`. -/
def columnAt (v : BasicView) (src : AbstractTable) (column_index : Nat) :
    Option (String × DataType) :=
  if column_index ≥ v.columnCount then none
  else src.columnAt (v.m_selected_columns.getD column_index 0)

/-- Method `getDataWC`: no bound checking. -/
def getDataWC (v : BasicView) (src : AbstractTable) (row_index column_index : Nat) : Variant :=
  src.getDataWC (v.m_indices.getD row_index 0) (v.m_selected_columns.getD column_index 0)

/-- Loop of `findColumn` over the view's columns from position `i` on; `count` columns are
left. -/
def findColumnLoop (v : BasicView) (src : AbstractTable) (column_name : String) :
    Nat → Nat → Except Exn (Option (Nat × DataType))
  | 0, _ => .ok none
  | count + 1, i =>
    match optionalValue (src.columnAt (v.m_selected_columns.getD i 0)) with
    | .error e => .error e
    | .ok col =>
      if col.1 = column_name then .ok (some (i, col.2))
      else findColumnLoop v src column_name count (i + 1)

/-- Method `findColumn`. -/
def findColumn (v : BasicView) (src : AbstractTable) (column_name : String) :
    Except Exn (Option (Nat × DataType)) :=
  findColumnLoop v src column_name v.columnCount 0

/-- Method `sortBy(SortingOrder)`. -/
def sortByOrder (v : BasicView) (s_order : SortingOrder) : BasicView :=
  if v.m_sorder ≠ s_order then
    { v with m_indices := v.m_indices.reverse, m_sorder := s_order }
  else v

/-- Method `sortBy(const std::string &)`. -/
def sortByColumn (v : BasicView) (src : AbstractTable) (column_name : String) :
    Except Exn BasicView :=
  match v.findColumn src column_name with
  | .error e => .error e
  | .ok none => .ok v
  | .ok (some (idx, type)) =>
    let original_clm_index := v.m_selected_columns.getD idx 0
    let fnc := comparatorFor v.getSortingOrder type
    .ok { v with
      m_indices := stable_sort v.m_indices (fun index1 index2 =>
        fnc (src.getDataWC index1 original_clm_index) (src.getDataWC index2 original_clm_index))
      m_key_column := idx }

/-- Method `sortBy(const std::string &, SortingOrder)`. -/
def sortBy (v : BasicView) (src : AbstractTable) (column_name : String)
    (s_order : SortingOrder) : Except Exn BasicView :=
  sortByColumn { v with m_sorder := s_order } src column_name

/-- Loop of `mapToLocal(src_row_index, key_data)`: `lower` and `upper` are `int64_t`; the
first argument bounds the number of iterations. -/
def mapToLocalLoop (v : BasicView) (src : AbstractTable) (fnc : Variant → Variant → Bool)
    (src_row_index : Nat) (key_data : Variant) : Nat → Int → Int → Nat
  | 0, _, _ => INVALID_INDEX
  | fuel + 1, lower, upper =>
    if lower ≤ upper then
      let mid := (lower + upper) / 2
      if v.m_indices.getD mid.toNat 0 = src_row_index then mid.toNat
      else if fnc key_data (v.getDataWC src mid.toNat v.getKeyColumn) then
        mapToLocalLoop v src fnc src_row_index key_data fuel lower (mid - 1)
      else mapToLocalLoop v src fnc src_row_index key_data fuel (mid + 1) upper
    else INVALID_INDEX

/-- Method `mapToLocal(src_row_index, key_data)`. -/
def mapToLocalKey (v : BasicView) (src : AbstractTable) (src_row_index : Nat)
    (key_data : Variant) : Except Exn Nat :=
  match optionalValue (v.columnAt src v.getKeyColumn) with
  | .error e => .error e
  | .ok col =>
    .ok (mapToLocalLoop v src (comparatorFor v.getSortingOrder col.2) src_row_index key_data
      (v.m_indices.length + 1) 0 ((v.m_indices.length : Int) - 1))

/-- Method `mapToLocal(src_row_index)`; `none` is the null source pointer. -/
def mapToLocal (v : BasicView) (src : Option AbstractTable) (src_row_index : Nat) :
    Except Exn Nat :=
  match src with
  | none => .ok INVALID_INDEX
  | some s =>
    v.mapToLocalKey s src_row_index
      (s.getDataWC src_row_index (v.m_selected_columns.getD v.getKeyColumn 0))

/-- Method `insertablePosition`. -/
def insertablePosition (v : BasicView) (src : AbstractTable) (data : Variant) :
    Except Exn Nat :=
  if v.m_indices.isEmpty then .ok 0
  else
    match optionalValue (v.columnAt src v.getKeyColumn) with
    | .error e => .error e
    | .ok col =>
      let source_clm_index := v.m_selected_columns.getD v.getKeyColumn 0
      let fnc := comparatorFor v.getSortingOrder col.2
      .ok (upper_bound v.m_indices (fun middle =>
        fnc data (src.getDataWC middle source_clm_index)))

/-- Slot `rowInserted`. -/
def rowInserted (v : BasicView) (src : AbstractTable) (row_index : Nat) :
    Except Exn BasicView :=
  let v1 : BasicView :=
    { v with m_indices := v.m_indices.map (fun index =>
        if index ≥ row_index then index + 1 else index) }
  if !v1.m_filtered_token.empty && !v1.m_filtered_token.run src.getDataWC row_index then .ok v1
  else
    let data := src.getDataWC row_index (v1.m_selected_columns.getD v1.getKeyColumn 0)
    match v1.insertablePosition src data with
    | .error e => .error e
    | .ok view_row_index =>
      .ok { v1 with m_indices := vectorInsert v1.m_indices view_row_index row_index }

/-- Slot `rowDropped`. -/
def rowDropped (v : BasicView) (src : AbstractTable) (row_index : Nat) :
    Except Exn BasicView :=
  match v.mapToLocal (some src) row_index with
  | .error e => .error e
  | .ok view_row_index =>
    let v1 : BasicView :=
      if view_row_index ≠ INVALID_INDEX then
        { v with m_indices := v.m_indices.eraseIdx view_row_index }
      else v
    .ok { v1 with m_indices := v1.m_indices.map (fun index =>
        if index > row_index then index - 1 else index) }

/-- Slot `dataUpdated`. -/
def dataUpdated (v : BasicView) (src : AbstractTable) (src_row_index src_column_index : Nat)
    (old_data : Variant) : Except Exn BasicView :=
  let should_filter := v.m_filtered_token.refersTo src_column_index
  let change_in_key_column :=
    decide (src_column_index = v.m_selected_columns.getD v.getKeyColumn 0)
  match (if change_in_key_column then v.mapToLocalKey src src_row_index old_data
      else v.mapToLocal (some src) src_row_index) with
  | .error e => .error e
  | .ok local_row_index =>
    let row_exists := decide (local_row_index ≠ INVALID_INDEX)
    let filter_result :=
      if should_filter then v.m_filtered_token.run src.getDataWC src_row_index else false
    if (!should_filter || filter_result) && row_exists && !change_in_key_column then .ok v
    else if (!should_filter || !filter_result) && !row_exists then .ok v
    else if should_filter && filter_result && !row_exists then
      let new_data := src.getDataWC src_row_index (v.m_selected_columns.getD v.getKeyColumn 0)
      match v.insertablePosition src new_data with
      | .error e => .error e
      | .ok new_pos => .ok { v with m_indices := vectorInsert v.m_indices new_pos src_row_index }
    else if should_filter && !filter_result && row_exists then
      .ok { v with m_indices := v.m_indices.eraseIdx local_row_index }
    else if (!should_filter || filter_result) && row_exists && change_in_key_column then
      let v1 : BasicView := { v with m_indices := v.m_indices.eraseIdx local_row_index }
      let new_data :=
        src.getDataWC src_row_index (v1.m_selected_columns.getD v1.getKeyColumn 0)
      match v1.insertablePosition src new_data with
      | .error e => .error e
      | .ok new_pos =>
        .ok { v1 with m_indices := vectorInsert v1.m_indices new_pos src_row_index }
    else .ok v

/-- Part of the constructor that settles the column to sort by and the key column: the given
column, which must be a selected column of the source, or else the first selected column. -/
def keyFor (source_table : AbstractTable) (m_selected_columns : List Nat) (sort_by : String) :
    Except Exn (String × Nat) :=
  if !sort_by.isEmpty then
    match source_table.findColumn sort_by with
    | Option.none => .error (KM_IA_EXCEPTION "BasicView ~ Column doesn't exist")
    | some index_sb =>
      if m_selected_columns.contains index_sb.1 then
        .ok (sort_by, m_selected_columns.indexOf index_sb.1)
      else .error (KM_IA_EXCEPTION "BasicView ~ Column doesn't exist")
  else
    match optionalValue (source_table.columnAt (m_selected_columns.headD 0)) with
    | .error e => .error e
    | .ok col => .ok (col.1, 0)

/-- Part of the constructor that fills `m_indices` before the sort: every source row, or the
rows that pass the filter, in source order. -/
def initialIndices (source_table : AbstractTable) (formula : String)
    (m_filtered_token : FilterTokens) : List Nat :=
  if formula.isEmpty then List.range source_table.rowCount
  else (List.range source_table.rowCount).filter
    (fun row_index => m_filtered_token.run source_table.getDataWC row_index)

/-- Function `checkPreConditions`: the compiled filter, or the exception thrown. The
compiler `parse::getCheckedToken(formula, m_filtered_token, source_table, BOOLEAN)` is a
parameter: `none` is its `false` result. -/
def checkPreConditions (getCheckedToken : String → AbstractTable → Option FilterTokens)
    (view_name : String) (source_table : AbstractTable) (formula : String) :
    Except Exn FilterTokens :=
  if source_table.isSortingPaused then .error (KM_IA_EXCEPTION "BasicView ~ invalid table")
  else if source_table.columnCount = 0 then
    .error (KM_IA_EXCEPTION "BasicView ~ empty table")
  else if !isValidTableName view_name then
    .error (KM_IA_EXCEPTION "BasicView ~ invalid name")
  else if !formula.isEmpty then
    match getCheckedToken formula source_table with
    | Option.none => .error (KM_IA_EXCEPTION "BasicView ~ invalid formula")
    | some tokens => .ok tokens
  else .ok FilterTokens.none

/-- Constructor `BasicView(view_name, source_table, column_names, formula, sort_by,
s_order)`. -/
def new (getCheckedToken : String → AbstractTable → Option FilterTokens) (view_name : String)
    (source_table : AbstractTable) (column_names : List String) (formula sort_by : String)
    (s_order : SortingOrder) : Except Exn BasicView :=
  match checkPreConditions getCheckedToken view_name source_table formula with
  | .error e => .error e
  | .ok m_filtered_token =>
    if (getIndicesOf source_table column_names).isEmpty then
      .error (KM_IA_EXCEPTION "BasicView ~ Column doesn't exist")
    else
      match keyFor source_table (getIndicesOf source_table column_names) sort_by with
      | .error e => .error e
      | .ok (sort_name, key_column) =>
        sortBy
          { m_name := view_name
            m_decorated_name := "BasicView[" ++ view_name ++ "]"
            m_sorder := s_order
            m_key_column := key_column
            m_indices := initialIndices source_table formula m_filtered_token
            m_selected_columns := getIndicesOf source_table column_names
            m_filtered_token := m_filtered_token
            m_exp := formula }
          source_table sort_name s_order

end BasicView

/-- Method `Table::dropRow` with one view installed on the table: the signal
`rowDropEvent(row_index)` runs the view's slot `rowDropped` after the row has left
`m_indices` and before any compaction. -/
def Table.dropRowObserved (t : Table) (v : BasicView) (row_index : Nat) :
    Except Exn (Table × BasicView × Bool) :=
  if row_index ≥ t.rowCount then .ok (t, v, false)
  else
    let t1 : Table :=
      { t with m_free_space := t.m_free_space ++ [t.m_indices.getD row_index 0]
               m_indices := t.m_indices.eraseIdx row_index }
    match (if t1.m_process_event then v.rowDropped t1.toAbstractTable row_index
        else .ok v) with
    | .error e => .error e
    | .ok v1 =>
      if t1.m_mfst ≤ t1.m_free_space.length then
        match t1.freeSpace with
        | .ok t2 => .ok (t2, v1, true)
        | .error e => .error e
      else .ok (t1, v1, true)

/-! ## Vocabulary for views -/

namespace BasicView

/-- Key cell of the source row `r`: its cell in the source column `selected[keyColumn]`. -/
def keyOf (v : BasicView) (src : AbstractTable) (r : Nat) : Variant :=
  src.getDataWC r (v.m_selected_columns.getD v.m_key_column 0)

/-- The cell `a` may stand directly before the cell `b` in the view: `a <= b` when the view is
ascending, `a >= b` when it is descending. -/
def keyOrdered (v : BasicView) (a b : Variant) : Bool :=
  match v.m_sorder with
  | .ASCENDING => Variant.lessEq a b
  | .DESCENDING => Variant.greaterEq a b

/-- Comparison of the view's order on the key cells of two source rows: the comparison that
`sortBy`, `insertablePosition` and `mapToLocal` apply. -/
def compare (v : BasicView) (src : AbstractTable) (index1 index2 : Nat) : Bool :=
  comparatorFor v.m_sorder 0 (v.keyOf src index1) (v.keyOf src index2)

/-- The view is in order: every adjacent pair of its rows is in order by the key cells of the
source. -/
def Sorted (v : BasicView) (src : AbstractTable) : Prop :=
  ∀ i, i < v.rowCount - 1 →
    v.keyOrdered (v.keyOf src (v.m_indices.getD i 0))
      (v.keyOf src (v.m_indices.getD (i + 1) 0)) = true

instance (v : BasicView) (src : AbstractTable) : Decidable (v.Sorted src) := by
  unfold Sorted
  infer_instance

/-- Rows of the view with equal keys (neither key less than the other) stand in ascending
source-row order. -/
def TiesAscending (v : BasicView) (src : AbstractTable) : Prop :=
  ∀ i j, i < j → j < v.rowCount →
    Variant.less (v.keyOf src (v.m_indices.getD i 0)) (v.keyOf src (v.m_indices.getD j 0))
      = false →
    Variant.less (v.keyOf src (v.m_indices.getD j 0)) (v.keyOf src (v.m_indices.getD i 0))
      = false →
    v.m_indices.getD i 0 < v.m_indices.getD j 0

end BasicView

/-- A source whose every column holds values of one type, and whose `findColumn` and
`columnAt` agree on the name of a found column (true of every `Table` and view). -/
structure AbstractTable.Coherent (src : AbstractTable) : Prop where
  typed : ∀ c r1 r2, (src.getDataWC r1 c).index = (src.getDataWC r2 c).index
  named : ∀ name k dt, src.findColumn name = some (k, dt) →
    ∃ dt1, src.columnAt k = some (name, dt1)

/-- The source `src1` is the source `src0` after a row has been inserted at `row_index`: the
rows from `row_index` on have moved one position up, no cell has changed. -/
def AbstractTable.InsertedAt (src0 src1 : AbstractTable) (row_index : Nat) : Prop :=
  ∀ r c, r < src0.rowCount →
    src1.getDataWC (if r ≥ row_index then r + 1 else r) c = src0.getDataWC r c

/-! ## Fixtures of the view tests -/

/-- A compiler that accepts no formula, for views without filter. -/
def noCompiler : String → AbstractTable → Option FilterTokens := fun _ _ => Option.none

/-- The view `BasicView("view", table, {})` of tests/tst_basicview.cpp on the student table:
all columns, no filter, keyed by the first column, ascending. -/
def studentView : BasicView :=
  { m_name := "view"
    m_decorated_name := "BasicView[view]"
    m_sorder := SortingOrder.ASCENDING
    m_key_column := 0
    m_indices := [0, 1, 2, 3, 4, 5, 6, 7, 8, 9]
    m_selected_columns := [0, 1]
    m_filtered_token := FilterTokens.none
    m_exp := "" }

/-- A table with one `int32` key column and the keys 1, 1, 1, 2. -/
def tripleKey : Table :=
  [1, 1, 1, 2].foldl (fun t k => (t.insertRow [Variant.int32 k]).1)
    (Table.init "t" [⟨"k", "", DataType.INT32⟩] SortingOrder.ASCENDING)

/-- The view `BasicView("v", &t, {})` on `tripleKey`. -/
def tripleKeyView : BasicView :=
  { m_name := "v"
    m_decorated_name := "BasicView[v]"
    m_sorder := SortingOrder.ASCENDING
    m_key_column := 0
    m_indices := [0, 1, 2, 3]
    m_selected_columns := [0]
    m_filtered_token := FilterTokens.none
    m_exp := "" }

end km

namespace km

/-! ## FunctionStore.hpp -/

/-- Struct `FunctionInfo`. A registered function receives the argument array. Its outcome is
the value it returns, or an error: the exception `std::bad_variant_access` that an accessor
`as<T>` throws on an argument of another type, or an operation whose result the language
leaves undefined. -/
structure FunctionInfo where
  function : List Variant → Except Exn Variant
  return_type : DataType
  argc : Nat

/-- Class `FunctionStore`: the entries of `m_map` in the order of their registration. -/
structure FunctionStore where
  m_map : List (String × FunctionInfo)

namespace FunctionStore

/-- Method `find`: the entry registered under the name; `none` is `invalid()`. -/
def find (store : FunctionStore) (function_name : String) : Option FunctionInfo :=
  (store.m_map.find? (fun entry => entry.1 == function_name)).map (fun entry => entry.2)

/-- Method `addEntry`: `std::map::insert` keeps an entry that is already registered under the
name. -/
def addEntry (store : FunctionStore) (function_name : String) (function_info : FunctionInfo) :
    FunctionStore × Bool :=
  match store.find function_name with
  | some _ => (store, false)
  | none => ({ m_map := store.m_map ++ [(function_name, function_info)] }, true)

/-- Method `addEntries`. -/
def addEntries (store : FunctionStore) (function_vec : List (String × FunctionInfo)) :
    FunctionStore :=
  function_vec.foldl (fun s entry => (s.addEntry entry.1 entry.2).1) store

/-- Method `count`. -/
def count (store : FunctionStore) : Nat := store.m_map.length

end FunctionStore

/-! ## functions/ArithmeticFunctions.cpp, ComparatorFunctions.cpp, LogicalFunctions.cpp -/

namespace fnc

/-- Element `args[i]` of the argument array; the caller passes `argc` arguments. -/
def arg (args : List Variant) (i : Nat) : Except Exn Variant :=
  match args[i]? with
  | some v => .ok v
  | none => .error (.exception "argument array too short")

/-- Accessor `args[i].as<Type_>()`. -/
def argAs (args : List Variant) (i : Nat) (T : KType) : Except Exn Variant :=
  match arg args i with
  | .ok v => v.as T
  | .error e => .error e

/-- Value of a signed integer type of the given width that has the two's complement bit
pattern of `x`. -/
def wrapSigned (bits : Nat) (x : Int) : Int :=
  (x + 2 ^ (bits - 1)) % 2 ^ bits - 2 ^ (bits - 1)

/-- Sum `a + b` of two values of one type `Type_`: integer sums are reduced to the width of the
type, float sums are exact, strings are concatenated. -/
def plus : Variant → Variant → Except Exn Variant
  | .int32 a, .int32 b => .ok (.int32 (wrapSigned 32 (a + b)))
  | .int64 a, .int64 b => .ok (.int64 (wrapSigned 64 (a + b)))
  | .float32 a, .float32 b => .ok (.float32 (a + b))
  | .float64 a, .float64 b => .ok (.float64 (a + b))
  | .string a, .string b => .ok (.string (a ++ b))
  | _, _ => .error .bad_variant_access

/-- Template `add_<Type_>`. -/
def add_ (Type_ : KType) (args : List Variant) : Except Exn Variant :=
  match argAs args 0 Type_ with
  | .error e => .error e
  | .ok t1 =>
    match argAs args 1 Type_ with
    | .error e => .error e
    | .ok t2 => plus t1 t2

/-- Test `t2 == 0` on an arithmetic value. -/
def isZero : Variant → Bool
  | .int32 a => a == 0
  | .int64 a => a == 0
  | .float32 a => a == 0
  | .float64 a => a == 0
  | _ => false

/-- Conversion `static_cast<CastTo_>(t)` of an arithmetic value; an integer converted to a
float type keeps its value. -/
def castTo (CastTo_ : KType) : Variant → Variant
  | .int32 a =>
    match CastTo_ with
    | .KFloat32 => .float32 a
    | _ => .int32 a
  | .int64 a =>
    match CastTo_ with
    | .KFloat64 => .float64 a
    | _ => .int64 a
  | v => v

/-- Quotient `a / b` of two values of the type `CastTo_`. Integer division truncates toward
zero; the quotient of the least integer by -1 is not a value of the type and the division has
no defined result, nor has an integer division by zero. A float division by zero has no finite
result. -/
def quotient : Variant → Variant → Except Exn Variant
  | .int32 a, .int32 b =>
    if b = 0 ∨ (a = -2147483648 ∧ b = -1) then .error (.exception "undefined integer division")
    else .ok (.int32 (Int.tdiv a b))
  | .int64 a, .int64 b =>
    if b = 0 ∨ (a = -9223372036854775808 ∧ b = -1) then
      .error (.exception "undefined integer division")
    else .ok (.int64 (Int.tdiv a b))
  | .float32 a, .float32 b =>
    if b = 0 then .error (.exception "division by zero") else .ok (.float32 (a / b))
  | .float64 a, .float64 b =>
    if b = 0 then .error (.exception "division by zero") else .ok (.float64 (a / b))
  | _, _ => .error .bad_variant_access

/-- Template `divide_<Type_, CastTo_>`. -/
def divide_ (Type_ CastTo_ : KType) (args : List Variant) : Except Exn Variant :=
  match argAs args 0 Type_ with
  | .error e => .error e
  | .ok t1 =>
    match argAs args 1 Type_ with
    | .error e => .error e
    | .ok t2 =>
      if (CastTo_ = KType.KInt32 ∨ CastTo_ = KType.KInt64) ∧ isZero t2 = true then
        .ok CastTo_.zero
      else quotient (castTo CastTo_ t1) (castTo CastTo_ t2)

/-- Template `isEqual_<Type_>`. -/
def isEqual_ (Type_ : KType) (args : List Variant) : Except Exn Variant :=
  match argAs args 0 Type_ with
  | .error e => .error e
  | .ok t1 =>
    match argAs args 1 Type_ with
    | .error e => .error e
    | .ok t2 => .ok (.boolean (Variant.equal t1 t2))

/-- Function `IF_`: `IF(cond, expr1, expr2)`. -/
def IF_ (args : List Variant) : Except Exn Variant :=
  match argAs args 0 KType.KBoolean with
  | .error e => .error e
  | .ok cond =>
    if cond = Variant.boolean true then arg args 1 else arg args 2

end fnc

/-- The entries that `initArithmeticFunctions`, `initComparatorFunctions` and
`initLogicalFunctions` register for `add`, `divide`, `div`, `intDiv`, `isEqual` and `IF`, in
the order of the source. -/
def arithmeticEntries : List (String × FunctionInfo) :=
  [("add_ii", ⟨fnc.add_ KType.KInt32, DataType.INT32, 2⟩),
   ("add_II", ⟨fnc.add_ KType.KInt64, DataType.INT64, 2⟩),
   ("add_ff", ⟨fnc.add_ KType.KFloat32, DataType.FLOAT32, 2⟩),
   ("add_FF", ⟨fnc.add_ KType.KFloat64, DataType.FLOAT64, 2⟩),
   ("add_ss", ⟨fnc.add_ KType.KString, DataType.STRING, 2⟩),
   ("divide_ii", ⟨fnc.divide_ KType.KInt32 KType.KFloat32, DataType.FLOAT32, 2⟩),
   ("divide_II", ⟨fnc.divide_ KType.KInt64 KType.KFloat64, DataType.FLOAT64, 2⟩),
   ("divide_ff", ⟨fnc.divide_ KType.KFloat32 KType.KFloat32, DataType.FLOAT32, 2⟩),
   ("divide_FF", ⟨fnc.divide_ KType.KFloat64 KType.KFloat64, DataType.FLOAT64, 2⟩),
   ("div_ii", ⟨fnc.divide_ KType.KInt32 KType.KFloat32, DataType.FLOAT32, 2⟩),
   ("div_II", ⟨fnc.divide_ KType.KInt64 KType.KFloat64, DataType.FLOAT64, 2⟩),
   ("div_ff", ⟨fnc.divide_ KType.KFloat32 KType.KFloat32, DataType.FLOAT32, 2⟩),
   ("div_FF", ⟨fnc.divide_ KType.KFloat64 KType.KFloat64, DataType.FLOAT64, 2⟩),
   ("intDiv_ii", ⟨fnc.divide_ KType.KInt32 KType.KInt32, DataType.INT32, 2⟩),
   ("intDiv_II", ⟨fnc.divide_ KType.KInt64 KType.KInt64, DataType.INT64, 2⟩)]

/-- The entries of `initComparatorFunctions` for `isEqual`. -/
def comparatorEntries : List (String × FunctionInfo) :=
  [("isEqual_ii", ⟨fnc.isEqual_ KType.KInt32, DataType.BOOLEAN, 2⟩),
   ("isEqual_II", ⟨fnc.isEqual_ KType.KInt64, DataType.BOOLEAN, 2⟩),
   ("isEqual_ff", ⟨fnc.isEqual_ KType.KFloat32, DataType.BOOLEAN, 2⟩),
   ("isEqual_FF", ⟨fnc.isEqual_ KType.KFloat64, DataType.BOOLEAN, 2⟩),
   ("isEqual_ss", ⟨fnc.isEqual_ KType.KString, DataType.BOOLEAN, 2⟩),
   ("isEqual_dd", ⟨fnc.isEqual_ KType.KDate, DataType.BOOLEAN, 2⟩),
   ("isEqual_DD", ⟨fnc.isEqual_ KType.KDateTime, DataType.BOOLEAN, 2⟩)]

/-- The entries of `initLogicalFunctions` for `IF`. -/
def logicalEntries : List (String × FunctionInfo) :=
  [("IF_bii", ⟨fnc.IF_, DataType.INT32, 3⟩),
   ("IF_bII", ⟨fnc.IF_, DataType.INT64, 3⟩),
   ("IF_bff", ⟨fnc.IF_, DataType.FLOAT32, 3⟩),
   ("IF_bFF", ⟨fnc.IF_, DataType.FLOAT64, 3⟩),
   ("IF_bss", ⟨fnc.IF_, DataType.STRING, 3⟩),
   ("IF_bbb", ⟨fnc.IF_, DataType.BOOLEAN, 3⟩),
   ("IF_bdd", ⟨fnc.IF_, DataType.DATE, 3⟩),
   ("IF_bDD", ⟨fnc.IF_, DataType.DATE_TIME, 3⟩)]

/-- Function `initAllFnc` on the empty store, restricted to the entries above: arithmetic
first, then logical, then comparator functions. -/
def initAllFnc : FunctionStore :=
  ((FunctionStore.mk []).addEntries arithmeticEntries |>.addEntries logicalEntries).addEntries
    comparatorEntries

end km

namespace km

/-! ## Object lifetime: AbstractTable.hpp, AbstractView.cpp, Table.cpp, BasicView.cpp -/

/-- An object behind an `AbstractTable *`, a table or a view, with the members that the
teardown reads and writes. A pointer to an object is its position in the heap.
`m_dependent_views` is the storage of the vector of installed views up to the end it had when
it was longest, `m_dependent_count` is its `size()`: `erase` moves the elements behind the
erased one a slot down and leaves the last slot as it was. -/
structure TableObject where
  view : Option BasicView
  m_source_table : Option Nat
  m_dependent_views : List Nat
  m_dependent_count : Nat
  destructed : Bool

/-- The objects of a program, by address. -/
abbrev Heap := List TableObject

namespace Heap

/-- The object at an address. -/
def object (h : Heap) (p : Nat) : TableObject :=
  h.getD p ⟨none, none, [], 0, true⟩

/-- Method `AbstractTable::installView`: `push_back`. -/
def installView (h : Heap) (self view : Nat) : Heap :=
  let o := h.object self
  h.set self { o with
    m_dependent_views := o.m_dependent_views.take o.m_dependent_count ++ [view]
    m_dependent_count := o.m_dependent_count + 1 }

/-- Method `AbstractTable::uninstallView`: `std::find` over the elements of the vector and
`erase` of the element found. -/
def uninstallView (h : Heap) (self view : Nat) : Heap :=
  let o := h.object self
  let it := (o.m_dependent_views.take o.m_dependent_count).indexOf view
  if it ≠ o.m_dependent_count then
    h.set self { o with
      m_dependent_views :=
        (o.m_dependent_views.eraseIdx it).take (o.m_dependent_count - 1) ++
          o.m_dependent_views.drop (o.m_dependent_count - 1)
      m_dependent_count := o.m_dependent_count - 1 }
  else h

/-- Method `AbstractView::setSourceTable`. -/
def setSourceTable (h : Heap) (self : Nat) (source_table : Option Nat) : Heap :=
  let h1 : Heap :=
    match (h.object self).m_source_table with
    | some s => uninstallView h s self
    | none => h
  let h2 : Heap := h1.set self { object h1 self with m_source_table := source_table }
  match source_table with
  | some s => installView h2 s self
  | none => h2

/-- Loop of `AbstractTable::aboutToDestruct` from position `k` of the vector of `self` to the
end `n` that the vector had when the loop began; `slot` is the slot
`sourceAboutToBeDestructed` of the views. -/
def aboutToDestructLoop (slot : Heap → Nat → Heap) (self n : Nat) : Nat → Nat → Heap → Heap
  | 0, _, h => h
  | count + 1, k, h =>
    if k < n then
      aboutToDestructLoop slot self n count (k + 1)
        (slot h ((h.object self).m_dependent_views.getD k 0))
    else h

/-- Slot `BasicView::sourceAboutToBeDestructed`, with the signal `aboutToDestruct` that it
emits first to the views installed on this view. The first argument bounds the depth of the
nesting of views. -/
def sourceAboutToBeDestructed : Nat → Heap → Nat → Heap
  | 0, h, _ => h
  | depth + 1, h, self =>
    let n := (h.object self).m_dependent_count
    let h1 := aboutToDestructLoop (sourceAboutToBeDestructed depth) self n n 0 h
    let o := h1.object self
    let h2 : Heap := h1.set self { o with
      view := o.view.map (fun v =>
        { v with m_indices := [], m_selected_columns := [], m_key_column := INVALID_INDEX }) }
    setSourceTable h2 self none

/-- Signal `AbstractTable::aboutToDestruct`. -/
def aboutToDestruct (depth : Nat) (h : Heap) (self : Nat) : Heap :=
  let n := (h.object self).m_dependent_count
  aboutToDestructLoop (sourceAboutToBeDestructed depth) self n n 0 h

/-- Destructor `Table::~Table`. -/
def destructTable (depth : Nat) (h : Heap) (self : Nat) : Heap :=
  let h1 := aboutToDestruct depth h self
  h1.set self { h1.object self with destructed := true }

/-- Destructor of a `BasicView`: `~BasicView` is defaulted, `~AbstractView` uninstalls the view
from its source, `~AbstractTable` is defaulted. -/
def destructView (h : Heap) (self : Nat) : Heap :=
  let h1 : Heap :=
    match (h.object self).m_source_table with
    | some s => uninstallView h s self
    | none => h
  h1.set self { h1.object self with destructed := true }

/-- The view at the address has been detached: no rows, no columns, no source. -/
def Detached (h : Heap) (p : Nat) : Prop :=
  (h.object p).m_source_table = none ∧
  ((h.object p).view.map (fun v => (v.m_indices, v.m_selected_columns))) = some ([], [])

/-- The view at the address still points to a source that has been destructed. -/
def Dangling (h : Heap) (p : Nat) : Prop :=
  ∃ s, (h.object p).m_source_table = some s ∧ (h.object s).destructed = true

end Heap

/-- A table at address 0 with the view `v1` at address 1 installed on it, and the view `v2`
at address 2 installed on `v1`. -/
def nestedViews : Heap :=
  [⟨none, none, [1], 1, false⟩,
   ⟨some studentView, some 0, [2], 1, false⟩,
   ⟨some studentView, some 1, [], 0, false⟩]

/-- A table at address 0 with three views, at the addresses 1, 2 and 3, installed on it in
this order. -/
def threeViews : Heap :=
  [⟨none, none, [1, 2, 3], 3, false⟩,
   ⟨some studentView, some 0, [], 0, false⟩,
   ⟨some studentView, some 0, [], 0, false⟩,
   ⟨some studentView, some 0, [], 0, false⟩]

end km

namespace km

/-! ## Parser2.hpp, Parser2.cpp -/

namespace parse

/-- Enumerator `TType::INT32`. -/
def INT32 : Nat := 0x0001
/-- Enumerator `TType::INT64`. -/
def INT64 : Nat := 0x0002
/-- Enumerator `TType::FLOAT32`. -/
def FLOAT32 : Nat := 0x0004
/-- Enumerator `TType::FLOAT64`. -/
def FLOAT64 : Nat := 0x0008
/-- Enumerator `TType::STRING`. -/
def STRING : Nat := 0x0010
/-- Enumerator `TType::BOOLEAN`. -/
def BOOLEAN : Nat := 0x0020
/-- Enumerator `TType::COLUMN`. -/
def COLUMN : Nat := 0x0040
/-- Enumerator `TType::FUNCTION`. -/
def FUNCTION : Nat := 0x0080
/-- Enumerator `TType::COMMA`. -/
def COMMA : Nat := 0x0100
/-- Enumerator `TType::P_OPEN`. -/
def P_OPEN : Nat := 0x0200
/-- Enumerator `TType::P_CLOSE`. -/
def P_CLOSE : Nat := 0x0400
/-- Enumerator `TType::INVALID`. -/
def INVALID : Nat := 0x0800

/-- Constant `TT_DATA`. -/
def TT_DATA : Nat := 0x003f
/-- Constant `TT_DATAC`. -/
def TT_DATAC : Nat := 0x007f

/-- Test `token_type & mask` used as a condition. -/
def hasBit (token_type mask : Nat) : Bool := (token_type &&& mask) != 0

/-- Struct `function_info_t`. -/
structure function_info_t where
  function : List Variant → Except Exn Variant
  argc : Nat
  end_token : Nat

/-- Member `Token::element`: a `std::variant<function_info_t, column_info_t, Variant>`. -/
inductive Element where
  | fncInfo (info : function_info_t)
  | colInfo (index : Nat) (type : DataType)
  | data (v : Variant)

/-- A call through the null function pointer of a value-initialised `function_info_t`. -/
def nullFunction : List Variant → Except Exn Variant :=
  fun _ => .error (.exception "null function pointer")

namespace Element

/-- Accessor `asFncInfo`: `std::get<function_info_t>`. -/
def asFncInfo : Element → Except Exn function_info_t
  | fncInfo info => .ok info
  | _ => .error .bad_variant_access

/-- Accessor `asColInfo`: `std::get<column_info_t>`. -/
def asColInfo : Element → Except Exn (Nat × DataType)
  | colInfo index type => .ok (index, type)
  | _ => .error .bad_variant_access

/-- Accessor `asData`: `std::get<Variant>`. -/
def asData : Element → Except Exn Variant
  | data v => .ok v
  | _ => .error .bad_variant_access

end Element

/-- Struct `Token`. -/
structure Token where
  text : String
  token_type : Nat
  element : Element

/-- Constructor `Token(text)`: the type is `INVALID`, the element holds the first alternative,
value-initialised. -/
def Token.new (text : String) : Token :=
  ⟨text, INVALID, Element.fncInfo ⟨nullFunction, 0, 0⟩⟩

instance : Inhabited Token := ⟨Token.new ""⟩

/-- Character class `\d`. -/
def isdigit (c : Char) : Bool := '0' ≤ c && c ≤ '9'

/-- Character class `\w`. -/
def isword (c : Char) : Bool := isalnum c || c = '_'

/-- Characters that `.` does not match: the line terminators. -/
def isLineTerminator (c : Char) : Bool := c = '\n' || c = '\r'

/-- The text behind an optional leading `-`. -/
def stripMinus : List Char → List Char
  | [] => []
  | c :: cs => if c = '-' then cs else c :: cs

/-- Full match of `\d+`. -/
def matchDigits (cs : List Char) : Bool := !cs.isEmpty && cs.all isdigit

/-- Full match of `\-?\d+`. -/
def regexInt32 (text : List Char) : Bool := matchDigits (stripMinus text)

/-- Full match of `\-?\d+(l|L)?`. -/
def regexInt64 (text : List Char) : Bool :=
  matchDigits (stripMinus text) ||
    (match (stripMinus text).getLast? with
      | some c => (c = 'l' || c = 'L') && matchDigits (stripMinus text).dropLast
      | none => false)

/-- Full match of `\d+\.(\d+)?` followed by the given tail. -/
def matchDecimal (cs tail : List Char) : Bool :=
  !(cs.takeWhile isdigit).isEmpty &&
    (match cs.dropWhile isdigit with
      | c :: rest => c = '.' && rest.dropWhile isdigit = tail
      | [] => false)

/-- Full match of `\-?\d+\.(\d+)?f`. -/
def regexFloat32 (text : List Char) : Bool := matchDecimal (stripMinus text) ['f']

/-- Full match of `\-?\d+\.(\d+)?`. -/
def regexFloat64 (text : List Char) : Bool := matchDecimal (stripMinus text) []

/-- Full match of `".*"`. -/
def regexString (text : List Char) : Bool :=
  match text with
  | c :: rest =>
    c = '"' && rest.getLast? = some '"' && rest.dropLast.all (fun x => !isLineTerminator x)
  | [] => false

/-- Full match of `(True)|(False)`. -/
def regexBoolean (text : List Char) : Bool :=
  text = ['T', 'r', 'u', 'e'] || text = ['F', 'a', 'l', 's', 'e']

/-- Full match of `\$[A-Za-z_]\w*`. -/
def regexColumn (text : List Char) : Bool :=
  match text with
  | d :: c :: rest => d = '$' && (isalpha c || c = '_') && rest.all isword
  | _ => false

/-- Full match of `[A-Za-z]\w*`. -/
def regexFunction (text : List Char) : Bool :=
  match text with
  | c :: rest => isalpha c && rest.all isword
  | [] => false

/-- Function `resolveTokenType`: the type of the first regular expression of `regex_map` that
matches the whole text; a text that none matches keeps its type. -/
def resolveTokenType (token : Token) : Token :=
  if regexInt32 token.text.data then { token with token_type := INT32 }
  else if regexInt64 token.text.data then { token with token_type := INT64 }
  else if regexFloat32 token.text.data then { token with token_type := FLOAT32 }
  else if regexFloat64 token.text.data then { token with token_type := FLOAT64 }
  else if regexString token.text.data then { token with token_type := STRING }
  else if regexBoolean token.text.data then { token with token_type := BOOLEAN }
  else if regexColumn token.text.data then { token with token_type := COLUMN }
  else if regexFunction token.text.data then { token with token_type := FUNCTION }
  else if token.text.data = ['('] then { token with token_type := P_OPEN }
  else if token.text.data = [')'] then { token with token_type := P_CLOSE }
  else if token.text.data = [','] then { token with token_type := COMMA }
  else if token.text.data.all (fun x => !isLineTerminator x) then
    { token with token_type := INVALID }
  else token

/-- Local variables of the first loop of `parseToTokens`. -/
structure LexState where
  token_vec : List Token
  current_token : List Char
  is_string : Bool

/-- Statement `if (!current_token.empty()) { token_vec.push_back({current_token});
current_token.clear(); }`. -/
def LexState.flush (st : LexState) : LexState :=
  if st.current_token.isEmpty then st
  else { st with token_vec := st.token_vec ++ [Token.new (String.mk st.current_token)]
                 current_token := [] }

/-- Body of the first loop of `parseToTokens` for the character `c`. -/
def parseStep (st : LexState) (c : Char) : LexState :=
  if st.is_string then
    if c = '"' then
      { token_vec := st.token_vec ++ [Token.new (String.mk (st.current_token ++ [c]))]
        current_token := []
        is_string := false }
    else { st with current_token := st.current_token ++ [c] }
  else if c = '"' then
    { st.flush with current_token := ['"'], is_string := true }
  else if c = ' ' ∨ c = ',' then
    if c = ',' then
      { st.flush with token_vec := st.flush.token_vec ++ [Token.new ","] }
    else st.flush
  else if c = '(' ∨ c = ')' then
    { st.flush with token_vec := st.flush.token_vec ++ [Token.new (String.mk [c])] }
  else { st with current_token := st.current_token ++ [c] }

/-- Function `parseToTokens`: the tokens, or `none` for the result `false`. -/
def parseToTokens (formula : String) : Option (List Token) :=
  let st := (formula.data ++ [' ']).foldl parseStep ⟨[], [], false⟩
  if st.is_string then none
  else if (st.token_vec.map resolveTokenType).any (fun pt => pt.token_type = INVALID) then none
  else some (st.token_vec.map resolveTokenType)

/-- Local variables of the loop of `checkGrammar`; the stack holds the positions of the
tokens that the pointers on `function_stack` point to. The level `p_level` is an `int16_t`:
its values lie between -32768 and 32767, and `++p_level` and `--p_level` store the result
reduced to 16 bits. -/
structure GrammarState where
  token_vec : List Token
  p_level : Int
  is_vld_tkn : Bool
  fst_op_paren : Bool
  function_stack : List Nat

/-- Body of the loop of `checkGrammar` for the token at `i`. Taking the top of the empty stack
has no defined behaviour and is an error here. -/
def checkGrammarStep (st : GrammarState) (i : Nat) : Except Exn GrammarState :=
  let token_type := (st.token_vec.getD i default).token_type
  let next := (st.token_vec.getD (i + 1) default).token_type
  if token_type = INT32 ∨ token_type = INT64 ∨ token_type = FLOAT32 ∨ token_type = FLOAT64 ∨
      token_type = STRING ∨ token_type = BOOLEAN ∨ token_type = COLUMN then
    .ok { st with is_vld_tkn := hasBit next (COMMA ||| P_CLOSE) }
  else if token_type = FUNCTION then
    .ok { st with is_vld_tkn := hasBit next P_OPEN, function_stack := i :: st.function_stack }
  else if token_type = COMMA then
    .ok { st with is_vld_tkn := hasBit next (TT_DATAC ||| FUNCTION) }
  else if token_type = P_OPEN then
    .ok { st with is_vld_tkn := hasBit next (TT_DATAC ||| FUNCTION ||| P_CLOSE)
                  p_level := fnc.wrapSigned 16 (st.p_level + 1)
                  fst_op_paren := true }
  else if token_type = P_CLOSE then
    match st.function_stack with
    | [] => .error (.exception "top of an empty stack")
    | top :: rest =>
      match (st.token_vec.getD top default).element.asFncInfo with
      | .error e => .error e
      | .ok info =>
        .ok { token_vec := st.token_vec.set top
                { st.token_vec.getD top default with
                  element := Element.fncInfo { info with end_token := i } }
              is_vld_tkn := hasBit next (COMMA ||| P_CLOSE ||| INVALID)
              p_level := fnc.wrapSigned 16 (st.p_level - 1)
              fst_op_paren := st.fst_op_paren
              function_stack := rest }
  else .ok st

/-- Loop of `checkGrammar` from the token at `i` on; the first argument bounds the number of
iterations. The result is the final value of `i` with the state. -/
def checkGrammarLoop (size : Nat) : Nat → Nat → GrammarState → Except Exn (Nat × GrammarState)
  | 0, i, st => .ok (i, st)
  | fuel + 1, i, st =>
    if i < size ∧ st.is_vld_tkn = true ∧
        ¬ ((st.fst_op_paren = true ∧ st.p_level = 0) ∨ st.p_level < 0) then
      match checkGrammarStep st i with
      | .error e => .error e
      | .ok st1 => checkGrammarLoop size fuel (i + 1) st1
    else .ok (i, st)

/-- Function `checkGrammar`: the tokens with the end of every call recorded, or `none` for the
result `false`. -/
def checkGrammar (token_vec : List Token) : Except Exn (Option (List Token)) :=
  if token_vec.length = 0 then .ok none
  else if token_vec.length = 1 then
    if hasBit (token_vec.headD default).token_type TT_DATAC then .ok (some token_vec)
    else .ok none
  else if !hasBit (token_vec.headD default).token_type FUNCTION then .ok none
  else
    match checkGrammarLoop token_vec.length token_vec.length 0
        ⟨token_vec ++ [Token.new "Invalid"], 0, true, false, []⟩ with
    | .error e => .error e
    | .ok (i, st) =>
      if i ≠ token_vec.length ∨ st.p_level ≠ 0 then .ok none
      else .ok (some st.token_vec.dropLast)

/-- Function `leftCircularShift`. -/
def leftCircularShift (token_vec : List Token) (f_pos end_pos : Nat) : List Token :=
  ((List.range' f_pos (end_pos - f_pos)).foldl
    (fun tv i => tv.set i (tv.getD (i + 1) default)) token_vec).set end_pos
    (token_vec.getD f_pos default)

/-- Value of a string of decimal digits. -/
def digitsValue (cs : List Char) : Nat :=
  cs.foldl (fun n c => 10 * n + (c.toNat - '0'.toNat)) 0

/-- Functions `std::stol` and `std::stoll` (both 64 bit wide) on a text without leading
white space: an optional sign and the longest run of digits are converted; no digit throws
`std::invalid_argument`, a value outside the 64 bit range throws `std::out_of_range`. -/
def stoll (text : List Char) : Except Exn Int :=
  let negative := text.head? = some '-'
  let body := if text.head? = some '-' ∨ text.head? = some '+' then text.tail else text
  let digits := body.takeWhile isdigit
  if digits.isEmpty then .error (.invalid_argument "stol")
  else
    let value : Int := if negative then -(digitsValue digits : Int) else digitsValue digits
    if value < -9223372036854775808 ∨ 9223372036854775807 < value then
      .error (.exception "std::out_of_range")
    else .ok value

/-- Largest `e` with `2 ^ e ≤ x`, for a positive rational `x`. -/
def floorLog2 (x : ℚ) : Int :=
  let e : Int := (Nat.log2 x.num.natAbs : Int) - (Nat.log2 x.den : Int)
  if (2 : ℚ) ^ e ≤ x then e else e - 1

/-- The integer nearest to a rational, the even one of two that are equally near. -/
def roundHalfEven (y : ℚ) : Int :=
  if y - y.floor < 1 / 2 then y.floor
  else if 1 / 2 < y - y.floor then y.floor + 1
  else if y.floor % 2 = 0 then y.floor
  else y.floor + 1

/-- The value nearest to a positive rational `x` in the binary floating format with `mant_dig`
digits whose least normal value is `2 ^ (min_exp - 1)` (`FLT_MANT_DIG` and `FLT_MIN_EXP` of
`<cfloat>`), ties going to the even digit, the exponent not limited above: a multiple of
`2 ^ (e - (mant_dig - 1))`, where `2 ^ e` is the largest power of two up to `x`, and of the
least subnormal value `2 ^ (min_exp - mant_dig)` where `x` lies below the normal values. -/
def roundToFloat (mant_dig : Nat) (min_exp : Int) (x : ℚ) : ℚ :=
  let quantum : ℚ := 2 ^ (max (floorLog2 x) (min_exp - 1) - (mant_dig - 1 : Nat))
  roundHalfEven (x / quantum) * quantum

/-- Functions `std::stof` and `std::stod` (libstdc++ over `strtof` and `strtod` of glibc, in
the default rounding mode) on a text of the form `-?\d+\.\d*`, for the format with `mant_dig`
digits and the exponents `min_exp` to `max_exp`: the decimal value is rounded to the nearest
value of the format. `std::out_of_range` is thrown when `strtod` sets `ERANGE`: when the
rounded value reaches `2 ^ max_exp`, and when the result is not exact and, rounded to
`mant_dig` digits without a limit on the exponent (`roundToFloat` with the least exponent set
to that of the value itself), lies below the least normal value. -/
def strtod (mant_dig : Nat) (min_exp max_exp : Int) (text : List Char) : Except Exn ℚ :=
  let negative := text.head? = some '-'
  let body := if text.head? = some '-' ∨ text.head? = some '+' then text.tail else text
  let whole := body.takeWhile isdigit
  let fraction :=
    match body.dropWhile isdigit with
    | c :: rest => if c = '.' then rest.takeWhile isdigit else []
    | [] => []
  if whole.isEmpty ∧ fraction.isEmpty then .error (.invalid_argument "stof")
  else
    let magnitude : ℚ := digitsValue whole + (digitsValue fraction : ℚ) / 10 ^ fraction.length
    if magnitude = 0 then .ok 0
    else
      let value := roundToFloat mant_dig min_exp magnitude
      if (2 : ℚ) ^ max_exp ≤ value then .error (.exception "std::out_of_range")
      else if roundToFloat mant_dig (floorLog2 magnitude + 1) magnitude < 2 ^ (min_exp - 1) ∧
          value ≠ magnitude then .error (.exception "std::out_of_range")
      else .ok (if negative then -value else value)

/-- Function `std::stof`: `float` has 24 digits, `FLT_MIN_EXP` is -125 and `FLT_MAX_EXP`
is 128. -/
def stof (text : List Char) : Except Exn ℚ := strtod 24 (-125) 128 text

/-- Function `std::stod`: `double` has 53 digits, `DBL_MIN_EXP` is -1021 and `DBL_MAX_EXP`
is 1024. -/
def stod (text : List Char) : Except Exn ℚ := strtod 53 (-1021) 1024 text

/-- Function `toDataVariant`. -/
def toDataVariant (token : Token) : Except Exn Token :=
  if token.token_type = INT32 then
    match stoll token.text.data with
    | .error e => .error e
    | .ok v => .ok { token with element := Element.data (.int32 (fnc.wrapSigned 32 v)) }
  else if token.token_type = INT64 then
    match stoll token.text.data with
    | .error e => .error e
    | .ok v => .ok { token with element := Element.data (.int64 v) }
  else if token.token_type = FLOAT32 then
    match stof token.text.data with
    | .error e => .error e
    | .ok v => .ok { token with element := Element.data (.float32 v) }
  else if token.token_type = FLOAT64 then
    match stod token.text.data with
    | .error e => .error e
    | .ok v => .ok { token with element := Element.data (.float64 v) }
  else if token.token_type = STRING then
    .ok { token with
      element := Element.data (.string (String.mk token.text.data.tail.dropLast)) }
  else if token.token_type = BOOLEAN then
    .ok { token with
      element := Element.data (.boolean (decide (token.text = "True"))) }
  else .ok token

/-- Function `findColumn` of the parser: the token with the column found, or `none` for the
result `false`. -/
def findColumn (table : AbstractTable) (token : Token) : Option Token :=
  match table.findColumn (String.mk token.text.data.tail) with
  | none => none
  | some found_column =>
    some { token with element := Element.colInfo found_column.1 found_column.2 }

/-- Function `datatypeToChar`. -/
def datatypeToChar (data_type : DataType) : Char :=
  ['i', 'I', 'f', 'F', 's', 'b', 'd', 'D', 'u'].getD (indexForDataType data_type 8) 'u'

/-- Statement `token_vec[f_pos].text += c`. -/
def appendText (token_vec : List Token) (f_pos : Nat) (c : Char) : List Token :=
  token_vec.set f_pos
    { token_vec.getD f_pos default with text := (token_vec.getD f_pos default).text.push c }

/-- Loop `for (i = f_pos + 2; i < f_end_pos; ++i)` of `resolveFunction`, from `i` on;
`resolve` is the recursive call of `resolveFunction`, and the first argument bounds the number
of iterations. The result is `token_vec`, or `none` for `return false`. -/
def resolveArguments (table : AbstractTable)
    (resolve : List Token → Nat → Nat → Except Exn (Option (List Token × DataType)))
    (f_pos f_end_pos : Nat) : Nat → Nat → List Token → Except Exn (Option (List Token))
  | 0, _, _ => .error (.exception "iteration bound reached")
  | fuel + 1, i, token_vec =>
    if i < f_end_pos then
      if hasBit TT_DATA (token_vec.getD i default).token_type then
        match toDataVariant (token_vec.getD i default) with
        | .error e => .error e
        | .ok token =>
          resolveArguments table resolve f_pos f_end_pos fuel (i + 1)
            (appendText (token_vec.set i token) f_pos (datatypeToChar token.token_type))
      else if hasBit COLUMN (token_vec.getD i default).token_type then
        match findColumn table (token_vec.getD i default) with
        | none => .ok none
        | some token =>
          match token.element.asColInfo with
          | .error e => .error e
          | .ok col =>
            resolveArguments table resolve f_pos f_end_pos fuel (i + 1)
              (appendText (token_vec.set i token) f_pos (datatypeToChar col.2))
      else if hasBit FUNCTION (token_vec.getD i default).token_type then
        match (token_vec.getD i default).element.asFncInfo with
        | .error e => .error e
        | .ok info =>
          match resolve token_vec i info.end_token with
          | .error e => .error e
          | .ok none => .ok none
          | .ok (some (token_vec1, type_l)) =>
            resolveArguments table resolve f_pos f_end_pos fuel (info.end_token + 1)
              (appendText token_vec1 f_pos (datatypeToChar type_l))
      else resolveArguments table resolve f_pos f_end_pos fuel (i + 1) token_vec
    else .ok (some token_vec)

/-- Function `resolveFunction`: `token_vec` and `return_type`, or `none` for the result
`false`. The first argument bounds the depth of the recursion. -/
def resolveFunction (store : FunctionStore) (table : AbstractTable) (c_shift : Bool) :
    Nat → List Token → Nat → Nat → Except Exn (Option (List Token × DataType))
  | 0, _, _, _ => .error (.exception "recursion bound reached")
  | depth + 1, token_vec, f_pos, f_end_pos =>
    match resolveArguments table (resolveFunction store table c_shift depth) f_pos f_end_pos
        (token_vec.length + 1) (f_pos + 2) (appendText token_vec f_pos '_') with
    | .error e => .error e
    | .ok none => .ok none
    | .ok (some token_vec1) =>
      match store.find (token_vec1.getD f_pos default).text with
      | none => .ok none
      | some it =>
        match (token_vec1.getD f_pos default).element.asFncInfo with
        | .error e => .error e
        | .ok info =>
          .ok (some
            ((if c_shift then
                leftCircularShift
                  (token_vec1.set f_pos
                    { token_vec1.getD f_pos default with
                      element := Element.fncInfo
                        { info with function := it.function, argc := it.argc } })
                  f_pos info.end_token
              else
                token_vec1.set f_pos
                  { token_vec1.getD f_pos default with
                    element := Element.fncInfo
                      { info with function := it.function, argc := it.argc } }),
              it.return_type))

/-- Function `checkReference`: the resolved tokens, or `none` for the result `false`. -/
def checkReference (store : FunctionStore) (token_vec : List Token) (table : AbstractTable)
    (required_type : DataType) (c_shift : Bool) : Except Exn (Option (List Token)) :=
  if token_vec.length = 1 then
    if (token_vec.headD default).token_type = COLUMN then
      match findColumn table (token_vec.headD default) with
      | none => .ok none
      | some token =>
        match token.element.asColInfo with
        | .error e => .error e
        | .ok col => if col.2 ≠ required_type then .ok none else .ok (some [token])
    else if required_type ≠ (token_vec.headD default).token_type then .ok none
    else
      match toDataVariant (token_vec.headD default) with
      | .error e => .error e
      | .ok token => .ok (some [token])
  else
    match resolveFunction store table c_shift token_vec.length token_vec 0
        (sizeDec token_vec.length) with
    | .error e => .error e
    | .ok none => .ok none
    | .ok (some (token_vec1, f_return_type)) =>
      if f_return_type ≠ required_type then .ok none else .ok (some token_vec1)

/-- Function `removeSeparator`. -/
def removeSeparator (token_vec : List Token) : List Token :=
  token_vec.filter (fun token =>
    !hasBit token.token_type (P_OPEN ||| P_CLOSE ||| COMMA ||| INVALID))

/-- Loop of `optimize` over the `argc` tokens on top of the stack, from the lowest one: the
arguments collected so far, or `none` after `is_literal = false`. -/
def collectLiterals : List Token → List Variant → Except Exn (Option (List Variant))
  | [], arguments => .ok (some arguments)
  | argToken :: rest, arguments =>
    if !hasBit argToken.token_type TT_DATA then .ok none
    else
      match argToken.element.asData with
      | .error e => .error e
      | .ok v => collectLiterals rest (arguments ++ [v])

/-- Body of the loop of `optimize`. The list `container` is the part `container[0 .. top]` of
the array that the function uses as a stack; reading below its bottom has no defined behaviour
and is an error here. -/
def optimizeStep (container : List Token) (token : Token) : Except Exn (List Token) :=
  if hasBit token.token_type FUNCTION then
    match token.element.asFncInfo with
    | .error e => .error e
    | .ok finfo =>
      if container.length < finfo.argc then .error (.exception "read below the stack")
      else
        match collectLiterals (container.drop (container.length - finfo.argc)) [] with
        | .error e => .error e
        | .ok none => .ok (container ++ [token])
        | .ok (some arguments) =>
          match finfo.function arguments with
          | .error e => .error e
          | .ok result =>
            .ok (container.take (container.length - finfo.argc) ++
              [⟨token.text, INT32, Element.data result⟩])
  else .ok (container ++ [token])

/-- Loop of `optimize` over the tokens. -/
def optimizeLoop : List Token → List Token → Except Exn (List Token)
  | container, [] => .ok container
  | container, token :: rest =>
    match optimizeStep container token with
    | .error e => .error e
    | .ok container1 => optimizeLoop container1 rest

/-- Function `optimize`. -/
def optimize (token_vec : List Token) : Except Exn (List Token) :=
  optimizeLoop [] token_vec

/-- Function `getCheckedToken`: the compiled tokens, or `none` for the result `false`. -/
def getCheckedToken (store : FunctionStore) (formula : String) (table : AbstractTable)
    (data_type : DataType) : Except Exn (Option (List Token)) :=
  match parseToTokens formula with
  | none => .ok none
  | some token_vec =>
    match checkGrammar token_vec with
    | .error e => .error e
    | .ok none => .ok none
    | .ok (some token_vec1) =>
      match checkReference store token_vec1 table data_type true with
      | .error e => .error e
      | .ok none => .ok none
      | .ok (some token_vec2) =>
        match optimize (removeSeparator token_vec2) with
        | .error e => .error e
        | .ok token_vec3 => .ok (some token_vec3)

/-- Body of the loop over the tokens in `evaluateFormula` and `filter`. Taking more values
from the stack than it holds has no defined behaviour and is an error here. -/
def evaluateStep (table : AbstractTable) (row_index : Nat) (data_stack : List Variant)
    (token : Token) : Except Exn (List Variant) :=
  if hasBit token.token_type FUNCTION then
    match token.element.asFncInfo with
    | .error e => .error e
    | .ok info =>
      if data_stack.length < info.argc then .error (.exception "read below the stack")
      else
        match info.function (data_stack.drop (data_stack.length - info.argc)) with
        | .error e => .error e
        | .ok v => .ok (data_stack.take (data_stack.length - info.argc) ++ [v])
  else if hasBit token.token_type COLUMN then
    match token.element.asColInfo with
    | .error e => .error e
    | .ok col => .ok (data_stack ++ [table.getDataWC row_index col.1])
  else if hasBit token.token_type TT_DATA then
    match token.element.asData with
    | .error e => .error e
    | .ok v => .ok (data_stack ++ [v])
  else .ok data_stack

/-- Loop over the tokens in `evaluateFormula` and `filter`. -/
def evaluateLoop (table : AbstractTable) (row_index : Nat) :
    List Variant → List Token → Except Exn (List Variant)
  | data_stack, [] => .ok data_stack
  | data_stack, token :: rest =>
    match evaluateStep table row_index data_stack token with
    | .error e => .error e
    | .ok data_stack1 => evaluateLoop table row_index data_stack1 rest

/-- Function `evaluateFormula(token_vec, table, row_index)`; `back()` of an empty stack is an
error here. -/
def evaluateFormula (token_vec : List Token) (table : AbstractTable) (row_index : Nat) :
    Except Exn Variant :=
  match evaluateLoop table row_index [] token_vec with
  | .error e => .error e
  | .ok data_stack =>
    match data_stack.getLast? with
    | some v => .ok v
    | none => .error (.exception "back of an empty stack")

/-- Function `filter(token_vec, table, row_index)`. -/
def filter (token_vec : List Token) (table : AbstractTable) (row_index : Nat) :
    Except Exn Bool :=
  match evaluateFormula token_vec table row_index with
  | .error e => .error e
  | .ok v =>
    match v with
    | .boolean b => .ok b
    | _ => .error .bad_variant_access

end parse

end km

namespace km

namespace parse

/-! ## Vocabulary for formulas -/

/-- A character that the first loop of `parseToTokens` appends to the current token. -/
def isPlain (c : Char) : Bool := c ≠ '"' && c ≠ ' ' && c ≠ ',' && c ≠ '(' && c ≠ ')'

/-- The kinds of literal of the formula language. -/
inductive LiteralKind where
  | int32 | int64 | float32 | float64 | string | boolean
deriving DecidableEq, Repr

/-- Token type of a literal, which is also the data type of its value. -/
def LiteralKind.token_type : LiteralKind → Nat
  | .int32 => INT32
  | .int64 => INT64
  | .float32 => FLOAT32
  | .float64 => FLOAT64
  | .string => STRING
  | .boolean => BOOLEAN

mutual
/-- Expression tree of the grammar `E ::= Literal | ColumnRef | FunctionName '(' [ E (',' E)* ] ')'`.
A literal and a column reference carry the text of their token (a column reference with its
`$`), a call the function name and the argument expressions. -/
inductive Expr where
  | literal (kind : LiteralKind) (text : String)
  | column (text : String)
  | call (name : String) (args : Args)
/-- Argument list of a call. -/
inductive Args where
  | nil
  | cons (e : Expr) (rest : Args)
end

/-- A token as the lexer leaves it: text and type, the element untouched. -/
def Token.fresh (text : String) (token_type : Nat) : Token :=
  ⟨text, token_type, Element.fncInfo ⟨nullFunction, 0, 0⟩⟩

/-- A function token on which `checkGrammar` has recorded the end of the call. -/
def Token.function (name : String) (end_token : Nat) : Token :=
  ⟨name, FUNCTION, Element.fncInfo ⟨nullFunction, 0, end_token⟩⟩

/-- The token of an opening parenthesis. -/
def Token.p_open : Token := Token.fresh "(" P_OPEN

/-- The token of a closing parenthesis. -/
def Token.p_close : Token := Token.fresh ")" P_CLOSE

/-- The token of a comma. -/
def Token.comma : Token := Token.fresh "," COMMA

mutual
/-- Number of tokens of an expression. -/
def Expr.size : Expr → Nat
  | .literal _ _ => 1
  | .column _ => 1
  | .call _ args => 3 + (args.size - 1)
/-- Number of tokens of the arguments, each counted with a comma before it. -/
def Args.size : Args → Nat
  | .nil => 0
  | .cons e rest => 1 + e.size + rest.size
end

/-- Number of arguments. -/
def Args.length : Args → Nat
  | .nil => 0
  | .cons _ rest => 1 + rest.length

mutual
/-- Token sequence of an expression. With `annotated` set, every function token records the
position of the closing parenthesis of its call, the first token standing at `offset`. -/
def Expr.tokensAt (annotated : Bool) : Expr → Nat → List Token
  | .literal kind text, _ => [Token.fresh text kind.token_type]
  | .column text, _ => [Token.fresh text COLUMN]
  | .call name args, offset =>
    Token.function name (if annotated then offset + 2 + (args.size - 1) else 0) ::
      Token.p_open :: ((args.tokensAt annotated (offset + 1)).tail ++ [Token.p_close])
/-- Token sequence of the arguments, each with a comma before it; the first comma stands at
`offset`. -/
def Args.tokensAt (annotated : Bool) : Args → Nat → List Token
  | .nil, _ => []
  | .cons e rest, offset =>
    Token.comma ::
      (e.tokensAt annotated (offset + 1) ++ rest.tokensAt annotated (offset + 1 + e.size))
end

/-- Token sequence of an expression as the lexer produces it. -/
def Expr.tokens (e : Expr) : List Token := e.tokensAt false 0

/-- Key of a call in the function store: the name, `_`, and one type character for each
argument. -/
def functionKey (name : String) (types : List Char) : String :=
  String.mk (name.data ++ '_' :: types)

mutual
/-- Static type of an expression: a literal has the type of its kind; a column reference
`$name` the type of the column `name` of the table, which must exist; a call the return type of
the store entry under the key made of its name and the type characters of its arguments, which
must exist. -/
def Expr.typeOf (store : FunctionStore) (table : AbstractTable) : Expr → Option DataType
  | .literal kind _ => some kind.token_type
  | .column text => (table.findColumn (String.mk text.data.tail)).map (fun found => found.2)
  | .call name args =>
    match args.typeChars store table with
    | none => none
    | some types => (store.find (functionKey name types)).map (fun it => it.return_type)
/-- Type characters of the arguments, in order. -/
def Args.typeChars (store : FunctionStore) (table : AbstractTable) : Args → Option (List Char)
  | .nil => some []
  | .cons e rest =>
    match e.typeOf store table with
    | none => none
    | some type =>
      match rest.typeChars store table with
      | none => none
      | some types => some (datatypeToChar type :: types)
end

/-- Value of a literal: the value that `toDataVariant` converts its text to. -/
def literalValue (kind : LiteralKind) (text : String) : Except Exn Variant :=
  match toDataVariant (Token.fresh text kind.token_type) with
  | .error e => .error e
  | .ok token => token.element.asData

mutual
/-- Recursive evaluation of an expression at a row of the table: a literal is its value, a
column reference the cell of the row, a call the function of its store entry applied to the
values of its arguments from left to right. An expression that is not well typed has no
value. -/
def Expr.eval (store : FunctionStore) (table : AbstractTable) (row_index : Nat) :
    Expr → Except Exn Variant
  | .literal kind text => literalValue kind text
  | .column text =>
    match table.findColumn (String.mk text.data.tail) with
    | some found => .ok (table.getDataWC row_index found.1)
    | none => .error (.exception "no such column")
  | .call name args =>
    match args.typeChars store table with
    | none => .error (.exception "no matching function")
    | some types =>
      match store.find (functionKey name types) with
      | none => .error (.exception "no matching function")
      | some it =>
        match args.evalAll store table row_index with
        | .error e => .error e
        | .ok values => it.function values
/-- Values of the arguments, in order. -/
def Args.evalAll (store : FunctionStore) (table : AbstractTable) (row_index : Nat) :
    Args → Except Exn (List Variant)
  | .nil => .ok []
  | .cons e rest =>
    match e.eval store table row_index with
    | .error ex => .error ex
    | .ok v =>
      match rest.evalAll store table row_index with
      | .error ex => .error ex
      | .ok values => .ok (v :: values)
end

mutual
/-- The expression holds no column reference. -/
def Expr.closed : Expr → Bool
  | .literal _ _ => true
  | .column _ => false
  | .call _ args => args.closed
/-- No argument holds a column reference. -/
def Args.closed : Args → Bool
  | .nil => true
  | .cons e rest => e.closed && rest.closed
end

/-- Number of arguments that the name of a store entry announces: the characters behind its
last `_`. -/
def keyArity (function_name : String) : Nat :=
  (function_name.data.reverse.takeWhile (fun c => c ≠ '_')).length

/-- Every entry of the store takes as many arguments as its name announces (the rule for
function names of FunctionStore.hpp). -/
def FunctionStore.ArityConsistent (store : FunctionStore) : Prop :=
  ∀ function_name it, store.find function_name = some it → it.argc = keyArity function_name

end parse

end km

namespace km

namespace parse

/-- The expression is a call. -/
def Expr.isCall : Expr → Bool
  | .call _ _ => true
  | _ => false

/-- Types of the tokens that may follow an expression: a comma or a closing parenthesis, and
behind a call also the end of the input. -/
def Expr.followMask (e : Expr) : Nat :=
  if e.isCall then COMMA ||| P_CLOSE ||| INVALID else COMMA ||| P_CLOSE

/-- The result of the loop of `checkGrammar` makes the function return `false`, or the loop
does not return. -/
def Rejects (size : Nat) : Except Exn (Nat × GrammarState) → Prop
  | .error _ => True
  | .ok (i, st) => i ≠ size ∨ st.p_level ≠ 0

end parse

end km

namespace km

namespace parse

/-- A literal token that `toDataVariant` has converted. -/
def Token.literal (text : String) (token_type : Nat) (v : Variant) : Token :=
  ⟨text, token_type, Element.data v⟩

/-- A column token that `findColumn` has resolved. -/
def Token.column (text : String) (index : Nat) (type : DataType) : Token :=
  ⟨text, COLUMN, Element.colInfo index type⟩

/-- A function token that `resolveFunction` has resolved: its text is the key of the store
entry, its element holds the function and the argument count of the entry. -/
def Token.resolved (key : String) (it : FunctionInfo) (end_token : Nat) : Token :=
  ⟨key, FUNCTION, Element.fncInfo ⟨it.function, it.argc, end_token⟩⟩

mutual
/-- Outcome of the reference check of an expression, in the order in which `resolveFunction`
meets its parts: the first literal whose conversion throws ends the check with that exception,
the first unknown column or function with the result `false` (`none`); otherwise the result is
the static type. -/
def Expr.check (store : FunctionStore) (table : AbstractTable) :
    Expr → Except Exn (Option DataType)
  | .literal kind text =>
    match literalValue kind text with
    | .error ex => .error ex
    | .ok _ => .ok (some kind.token_type)
  | .column text =>
    .ok ((table.findColumn (String.mk text.data.tail)).map (fun found => found.2))
  | .call name args =>
    match args.checkAll store table with
    | .error ex => .error ex
    | .ok none => .ok none
    | .ok (some types) =>
      .ok ((store.find (functionKey name types)).map (fun it => it.return_type))
/-- Outcome of the reference check of the arguments: their type characters. -/
def Args.checkAll (store : FunctionStore) (table : AbstractTable) :
    Args → Except Exn (Option (List Char))
  | .nil => .ok (some [])
  | .cons e rest =>
    match e.check store table with
    | .error ex => .error ex
    | .ok none => .ok none
    | .ok (some type) =>
      match rest.checkAll store table with
      | .error ex => .error ex
      | .ok none => .ok none
      | .ok (some types) => .ok (some (datatypeToChar type :: types))
end

mutual
/-- Token sequence of a checked expression after `resolveFunction` with the circular shift:
literals converted, columns resolved, and every call `f ( args )` turned into `( args ) f`
with the resolved function token behind its closing parenthesis. -/
def Expr.resolvedAt (store : FunctionStore) (table : AbstractTable) : Expr → Nat → List Token
  | .literal kind text, _ =>
    match literalValue kind text with
    | .ok v => [Token.literal text kind.token_type v]
    | .error _ => [Token.fresh text kind.token_type]
  | .column text, _ =>
    match table.findColumn (String.mk text.data.tail) with
    | some found => [Token.column text found.1 found.2]
    | none => [Token.fresh text COLUMN]
  | .call name args, offset =>
    Token.p_open :: ((args.resolvedAt store table (offset + 1)).tail ++
      [Token.p_close,
        match args.checkAll store table with
        | .ok (some types) =>
          match store.find (functionKey name types) with
          | some it => Token.resolved (functionKey name types) it (offset + 2 + (args.size - 1))
          | none => Token.function name (offset + 2 + (args.size - 1))
        | _ => Token.function name (offset + 2 + (args.size - 1))])
/-- Token sequence of the checked arguments, each with its comma. -/
def Args.resolvedAt (store : FunctionStore) (table : AbstractTable) : Args → Nat → List Token
  | .nil, _ => []
  | .cons e rest, offset =>
    Token.comma :: (e.resolvedAt store table (offset + 1) ++
      rest.resolvedAt store table (offset + 1 + e.size))
end

mutual
/-- The postfix program of a checked expression: the programs of the arguments of a call
followed by its resolved function token. -/
def Expr.postfixAt (store : FunctionStore) (table : AbstractTable) : Expr → Nat → List Token
  | .literal kind text, _ =>
    match literalValue kind text with
    | .ok v => [Token.literal text kind.token_type v]
    | .error _ => [Token.fresh text kind.token_type]
  | .column text, _ =>
    match table.findColumn (String.mk text.data.tail) with
    | some found => [Token.column text found.1 found.2]
    | none => [Token.fresh text COLUMN]
  | .call name args, offset =>
    args.postfixAt store table (offset + 1) ++
      [match args.checkAll store table with
        | .ok (some types) =>
          match store.find (functionKey name types) with
          | some it => Token.resolved (functionKey name types) it (offset + 2 + (args.size - 1))
          | none => Token.function name (offset + 2 + (args.size - 1))
        | _ => Token.function name (offset + 2 + (args.size - 1))]
/-- The postfix programs of the arguments, in order. -/
def Args.postfixAt (store : FunctionStore) (table : AbstractTable) : Args → Nat → List Token
  | .nil, _ => []
  | .cons e rest, offset =>
    e.postfixAt store table (offset + 1) ++ rest.postfixAt store table (offset + 1 + e.size)
end

/-- The single token that `optimize` leaves of a closed expression with the value `v`: a
literal stays as converted, a call becomes a token with the text of the resolved function,
the type `INT32` and the value as its data. -/
def Expr.folded (store : FunctionStore) (table : AbstractTable) (e : Expr) (v : Variant) :
    Token :=
  match e with
  | .literal kind text => Token.literal text kind.token_type v
  | .column text => Token.fresh text COLUMN
  | .call name args =>
    match args.checkAll store table with
    | .ok (some types) => Token.literal (functionKey name types) INT32 v
    | _ => Token.literal name INT32 v

end parse

end km

namespace km

namespace parse

/-- One argument expression in the loop of `resolveFunction` for the call whose function
token stands at the end of `A`, with the type characters `cs` appended to its text so far:
the loop ends with the outcome of the check of the argument if that is an exception or
`false`, and otherwise goes on behind the argument, the argument resolved and its type
character appended. -/
def Expr.ResolveStep (store : FunctionStore) (table : AbstractTable) (e : Expr) : Prop :=
  ∀ (depth fuel : Nat) (tv A B R : List Token) (name : String) (cs : List Char)
    (endF f_end_pos i : Nat),
    e.size ≤ depth →
    tv = A ++ Token.function (functionKey name cs) endF :: (B ++ (e.tokensAt true i ++ R)) →
    i = A.length + 1 + B.length → i < f_end_pos →
    resolveArguments table (resolveFunction store table true depth) A.length f_end_pos
        (fuel + 1) i tv =
      match e.check store table with
      | .error ex => .error ex
      | .ok none => .ok none
      | .ok (some type) =>
        resolveArguments table (resolveFunction store table true depth) A.length f_end_pos
          fuel (i + e.size)
          (A ++ Token.function (functionKey name (cs ++ [datatypeToChar type])) endF ::
            (B ++ (e.resolvedAt store table i ++ R)))

/-- The further arguments of a call, each with its comma, in the loop of `resolveFunction`,
up to the closing parenthesis. -/
def Args.ResolveLoop (store : FunctionStore) (table : AbstractTable) (args : Args) : Prop :=
  ∀ (depth fuel : Nat) (tv A B R : List Token) (name : String) (cs : List Char)
    (endF i : Nat),
    args.size ≤ depth →
    tv = A ++ Token.function (functionKey name cs) endF ::
      (B ++ (args.tokensAt true i ++ Token.p_close :: R)) →
    i = A.length + 1 + B.length → args.size < fuel →
    resolveArguments table (resolveFunction store table true depth) A.length (i + args.size)
        fuel i tv =
      match args.checkAll store table with
      | .error ex => .error ex
      | .ok none => .ok none
      | .ok (some types) =>
        .ok (some (A ++ Token.function (functionKey name (cs ++ types)) endF ::
          (B ++ (args.resolvedAt store table i ++ Token.p_close :: R))))

/-- The arguments of a call in the loop of `resolveFunction`, from behind the opening
parenthesis: the first argument stands without a comma. -/
def Args.ResolveFirst (store : FunctionStore) (table : AbstractTable) (args : Args) : Prop :=
  ∀ (depth fuel : Nat) (tv A R : List Token) (name : String) (endF i : Nat),
    args.size ≤ depth →
    tv = A ++ Token.function (functionKey name []) endF ::
      (Token.p_open :: ((args.tokensAt true (i + 1)).tail ++ Token.p_close :: R)) →
    i = A.length → args.size < fuel →
    resolveArguments table (resolveFunction store table true depth) A.length
        (i + 2 + (args.size - 1)) fuel (i + 2) tv =
      match args.checkAll store table with
      | .error ex => .error ex
      | .ok none => .ok none
      | .ok (some types) =>
        .ok (some (A ++ Token.function (functionKey name types) endF ::
          (Token.p_open :: ((args.resolvedAt store table (i + 1)).tail ++ Token.p_close :: R))))

/-- Function `resolveFunction` on the tokens of a call that stand at `i` in a longer token
sequence, the ends of all calls recorded. -/
def Expr.ResolveRun (store : FunctionStore) (table : AbstractTable) (e : Expr) : Prop :=
  ∀ (depth : Nat) (tv pre post : List Token) (i : Nat),
    e.isCall = true → e.size ≤ depth →
    tv = pre ++ (e.tokensAt true i ++ post) → i = pre.length →
    resolveFunction store table true depth tv i (i + e.size - 1) =
      match e.check store table with
      | .error ex => .error ex
      | .ok none => .ok none
      | .ok (some type) => .ok (some (pre ++ (e.resolvedAt store table i ++ post), type))

end parse

end km

namespace km

namespace parse

/-- A token as `parseToTokens` delivers it: a literal, a column reference, a function name,
a parenthesis or a comma, the element untouched. -/
def Token.Lexed (t : Token) : Prop :=
  (∃ kind text, t = Token.fresh text (LiteralKind.token_type kind)) ∨
    (∃ text, t = Token.fresh text COLUMN) ∨ (∃ name, t = Token.function name 0) ∨
    t = Token.p_open ∨ t = Token.p_close ∨ t = Token.comma

/-- A token whose type marks it as data is neither a function nor a column. -/
def Token.Proper (t : Token) : Prop :=
  hasBit t.token_type TT_DATA = true →
    hasBit t.token_type FUNCTION = false ∧ hasBit t.token_type COLUMN = false

/-- Level of parentheses behind the tokens, counted from `level` as `checkGrammar` counts
`p_level`. -/
def parenLevel (level : Int) (token_vec : List Token) : Int :=
  token_vec.foldl
    (fun p t => if t.token_type = P_OPEN then p + 1 else if t.token_type = P_CLOSE then p - 1
      else p) level

/-- Number of values on the stack of `evaluateFormula` behind the tokens, from `depth` values
on; `none` when a function token finds fewer values than its argument count. A program is a
well formed postfix program when it leaves one value on the empty stack. -/
def stackDepth : Nat → List Token → Option Nat
  | depth, [] => some depth
  | depth, token :: rest =>
    if hasBit token.token_type FUNCTION then
      match token.element.asFncInfo with
      | .error _ => none
      | .ok info =>
        if depth < info.argc then none else stackDepth (depth - info.argc + 1) rest
    else if hasBit token.token_type COLUMN then stackDepth (depth + 1) rest
    else if hasBit token.token_type TT_DATA then stackDepth (depth + 1) rest
    else stackDepth depth rest

/-- No function token of the program finds fewer values on the stack than its argument count
when `evaluateFormula` runs the program from `data_stack`. -/
def StackSafe (table : AbstractTable) (row_index : Nat) : List Variant → List Token → Prop
  | _, [] => True
  | data_stack, token :: rest =>
    (hasBit token.token_type FUNCTION = true →
      ∃ info, token.element.asFncInfo = .ok info ∧ info.argc ≤ data_stack.length) ∧
    ∀ data_stack1, evaluateStep table row_index data_stack token = .ok data_stack1 →
      StackSafe table row_index data_stack1 rest

/-- The tokens that `optimize` leaves of closed arguments with the given values. -/
def Args.foldedAll (store : FunctionStore) (table : AbstractTable) :
    Args → List Variant → List Token
  | .cons e rest, v :: values => e.folded store table v :: rest.foldedAll store table values
  | _, _ => []

/-- The stack machine on the postfix program of a checked expression: it leaves the value of
the expression on top of the stack. -/
def Expr.EvalRun (store : FunctionStore) (table : AbstractTable) (e : Expr) : Prop :=
  ∀ (row_index i : Nat) (data_stack : List Variant) (rest : List Token) (type : DataType),
    FunctionStore.ArityConsistent store → e.check store table = .ok (some type) →
    evaluateLoop table row_index data_stack (e.postfixAt store table i ++ rest) =
      match e.eval store table row_index with
      | .error ex => .error ex
      | .ok v => evaluateLoop table row_index (data_stack ++ [v]) rest

/-- The stack machine on the postfix programs of checked arguments. -/
def Args.EvalRun (store : FunctionStore) (table : AbstractTable) (args : Args) : Prop :=
  ∀ (row_index i : Nat) (data_stack : List Variant) (rest : List Token) (types : List Char),
    FunctionStore.ArityConsistent store → args.checkAll store table = .ok (some types) →
    evaluateLoop table row_index data_stack (args.postfixAt store table i ++ rest) =
      match args.evalAll store table row_index with
      | .error ex => .error ex
      | .ok values => evaluateLoop table row_index (data_stack ++ values) rest

/-- The loop of `optimize` on the postfix program of a closed checked expression: it leaves
one literal token with the value of the expression. -/
def Expr.FoldRun (store : FunctionStore) (table : AbstractTable) (e : Expr) : Prop :=
  ∀ (row_index i : Nat) (container rest : List Token) (type : DataType),
    FunctionStore.ArityConsistent store → e.closed = true → e.check store table = .ok (some type) →
    optimizeLoop container (e.postfixAt store table i ++ rest) =
      match e.eval store table row_index with
      | .error ex => .error ex
      | .ok v => optimizeLoop (container ++ [e.folded store table v]) rest

/-- The loop of `optimize` on the postfix programs of closed checked arguments. -/
def Args.FoldRun (store : FunctionStore) (table : AbstractTable) (args : Args) : Prop :=
  ∀ (row_index i : Nat) (container rest : List Token) (types : List Char),
    FunctionStore.ArityConsistent store → args.closed = true → args.checkAll store table = .ok (some types) →
    optimizeLoop container (args.postfixAt store table i ++ rest) =
      match args.evalAll store table row_index with
      | .error ex => .error ex
      | .ok values => optimizeLoop (container ++ args.foldedAll store table values) rest

/-- The depth of the stack behind the postfix program of a checked expression: one value
more. -/
def Expr.DepthRun (store : FunctionStore) (table : AbstractTable) (e : Expr) : Prop :=
  ∀ (i depth : Nat) (rest : List Token) (type : DataType),
    FunctionStore.ArityConsistent store → e.check store table = .ok (some type) →
    stackDepth depth (e.postfixAt store table i ++ rest) = stackDepth (depth + 1) rest

/-- The depth of the stack behind the postfix programs of checked arguments: one value more for
each argument. -/
def Args.DepthRun (store : FunctionStore) (table : AbstractTable) (args : Args) : Prop :=
  ∀ (i depth : Nat) (rest : List Token) (types : List Char),
    FunctionStore.ArityConsistent store → args.checkAll store table = .ok (some types) →
    stackDepth depth (args.postfixAt store table i ++ rest) =
      stackDepth (depth + args.length) rest

/-- Type of the token that the loop of `checkGrammar` meets first in the remaining tokens: the
type of the closing token `Invalid` when none remains. -/
def nextType (remaining : List Token) : Nat :=
  ((remaining ++ [Token.new "Invalid"]).headD default).token_type

/-- The loop of `checkGrammar` behind the first opening parenthesis: the tokens `processed`
lie behind it, the tokens `remaining` before it. -/
def grammarLoopInside (size : Nat) (processed remaining : List Token) (p : Int) (v : Bool)
    (stk : List Nat) : Except Exn (Nat × GrammarState) :=
  checkGrammarLoop size remaining.length processed.length
    ⟨processed ++ (remaining ++ [Token.new "Invalid"]), p, v, true, stk⟩

/-- Where the loop of `checkGrammar` may meet an expression inside parentheses, on a level
within the range of `p_level`, and at most `n` tokens remain, it either ends in a way that makes `checkGrammar` fail, or the remaining
tokens begin with the tokens of an expression and the loop runs over them. -/
def SoundExpr (n : Nat) : Prop :=
  ∀ (size : Nat) (processed remaining : List Token) (p : Int) (stk : List Nat),
    remaining.length ≤ n → size = processed.length + remaining.length →
    (∀ t ∈ remaining, t.Lexed) → 1 ≤ p → p ≤ 32767 →
    hasBit (nextType remaining) (TT_DATAC ||| FUNCTION) = true →
    Rejects size (grammarLoopInside size processed remaining p true stk) ∨
      ∃ (e : Expr) (remaining1 processed1 : List Token),
        remaining = e.tokens ++ remaining1 ∧
        processed1.length = processed.length + e.size ∧
        grammarLoopInside size processed remaining p true stk =
          grammarLoopInside size processed1 remaining1 p
            (hasBit (nextType remaining1) e.followMask) stk

/-- Behind an argument of a call, with at most `n` tokens remaining, the loop of `checkGrammar`
either ends in a way that makes `checkGrammar` fail, or the remaining tokens begin with
further arguments, each with its comma, and the closing parenthesis of the call, and the loop
runs over them. -/
def SoundArgs (n : Nat) : Prop :=
  ∀ (size : Nat) (processed remaining : List Token) (p : Int) (top : Nat) (stk : List Nat)
    (mask : Nat),
    remaining.length ≤ n → size = processed.length + remaining.length →
    (∀ t ∈ remaining, t.Lexed) → 1 ≤ p → p ≤ 32767 → top < processed.length →
    (mask = COMMA ||| P_CLOSE ∨ mask = COMMA ||| P_CLOSE ||| INVALID) →
    Rejects size
        (grammarLoopInside size processed remaining p (hasBit (nextType remaining) mask)
          (top :: stk)) ∨
      ∃ (args : Args) (remaining1 processed1 : List Token),
        remaining = args.tokensAt false 0 ++ Token.p_close :: remaining1 ∧
        processed1.length = processed.length + args.size + 1 ∧
        grammarLoopInside size processed remaining p (hasBit (nextType remaining) mask)
            (top :: stk) =
          grammarLoopInside size processed1 remaining1 (p - 1)
            (hasBit (nextType remaining1) (COMMA ||| P_CLOSE ||| INVALID)) stk

/-- The parentheses of the tokens match: counted from any level, the level of parentheses
never falls below it and is back at it behind the tokens. -/
def Balanced (token_vec : List Token) : Prop :=
  ∀ p : Int, parenLevel p token_vec = p ∧ ∀ k, p ≤ parenLevel p (token_vec.take k)

end parse

end km

namespace km

namespace parse

/-- The loop of `checkGrammar` on the tokens of the expression where they stand at `i` in a
longer token sequence, the level of parentheses staying within the range of `p_level` on the
way: it runs over them, records the end of every call, and leaves the level of parentheses and
the stack as they were. -/
def Expr.GrammarRun (e : Expr) : Prop :=
  ∀ (tv tv1 pre post : List Token) (p : Int) (fst : Bool) (stk : List Nat) (size i o : Nat),
    tv = pre ++ (e.tokensAt false o ++ post) → tv1 = pre ++ (e.tokensAt true i ++ post) →
    i = pre.length → i + e.size ≤ size → 0 ≤ p → (fst = true → 1 ≤ p) →
    (∀ k, parenLevel p ((e.tokensAt false o).take k) ≤ 32767) →
    hasBit (post.headD default).token_type e.followMask = true →
    checkGrammarLoop size (size - i) i ⟨tv, p, true, fst, stk⟩ =
      checkGrammarLoop size (size - (i + e.size)) (i + e.size)
        ⟨tv1, p, true, fst || e.isCall, stk⟩

/-- The loop of `checkGrammar` on the tokens of further arguments of a call, each with its
comma, before the closing parenthesis. -/
def Args.GrammarRun (args : Args) : Prop :=
  ∀ (tv tv1 pre post : List Token) (p : Int) (stk : List Nat) (size i o : Nat),
    tv = pre ++ (args.tokensAt false o ++ post) → tv1 = pre ++ (args.tokensAt true i ++ post) →
    i = pre.length → i + args.size ≤ size → 1 ≤ p →
    (∀ k, parenLevel p ((args.tokensAt false o).take k) ≤ 32767) →
    (post.headD default).token_type = P_CLOSE →
    checkGrammarLoop size (size - i) i ⟨tv, p, true, true, stk⟩ =
      checkGrammarLoop size (size - (i + args.size)) (i + args.size)
        ⟨tv1, p, true, true, stk⟩

end parse

end km

namespace km

namespace parse

/-- The call `f()` inside `n` further calls `f(...)` of one argument: `n + 1` calls nested in
each other. -/
def nestedCall : Nat → Expr
  | 0 => .call "f" .nil
  | n + 1 => .call "f" (.cons (nestedCall n) .nil)

end parse

end km

namespace km

/-! ## Signals and slots of views -/

/-- Expression `a - b` on `std::size_t`: the difference wraps around. -/
def sizeSub (a b : Nat) : Nat := if b ≤ a then a - b else INVALID_INDEX - (b - a - 1)

/-- A signal of `AbstractTable` with its arguments, as a slot of a view emits it. -/
inductive Event where
  | dataUpdate (row_index column_index : Nat) (old_data : Variant)
  | rowInsertion (row_index : Nat)
  | rowDrop (row_index : Nat)
  | refresh
  | sourceReversed
  | sourceSorted

namespace BasicView

/-- A `BasicView` with the source `src` seen through an `AbstractTable` pointer, as the source
of a nested view. -/
def toAbstractTable (v : BasicView) (src : AbstractTable) : AbstractTable :=
  { rowCount := v.rowCount
    columnCount := v.columnCount
    isSortingPaused := false
    getDataWC := v.getDataWC src
    columnAt := v.columnAt src
    findColumn := fun column_name =>
      match v.findColumn src column_name with
      | .ok found => found
      | .error _ => Option.none }

/-- Signals that the slot `dataUpdated` emits, in order. -/
def dataUpdatedSignals (v : BasicView) (src : AbstractTable)
    (src_row_index src_column_index : Nat) (old_data : Variant) : Except Exn (List Event) :=
  let should_filter := v.m_filtered_token.refersTo src_column_index
  let change_in_key_column :=
    decide (src_column_index = v.m_selected_columns.getD v.getKeyColumn 0)
  match (if change_in_key_column then v.mapToLocalKey src src_row_index old_data
      else v.mapToLocal (some src) src_row_index) with
  | .error e => .error e
  | .ok local_row_index =>
    let row_exists := decide (local_row_index ≠ INVALID_INDEX)
    let filter_result :=
      if should_filter then v.m_filtered_token.run src.getDataWC src_row_index else false
    if (!should_filter || filter_result) && row_exists && !change_in_key_column then
      match v.m_selected_columns.find? (fun column => column = src_column_index) with
      | some it => .ok [Event.dataUpdate local_row_index it old_data]
      | Option.none => .ok []
    else if (!should_filter || !filter_result) && !row_exists then .ok []
    else if should_filter && filter_result && !row_exists then
      let new_data := src.getDataWC src_row_index (v.m_selected_columns.getD v.getKeyColumn 0)
      match v.insertablePosition src new_data with
      | .error e => .error e
      | .ok new_pos => .ok [Event.rowInsertion new_pos]
    else if should_filter && !filter_result && row_exists then
      .ok [Event.rowDrop local_row_index]
    else if (!should_filter || filter_result) && row_exists && change_in_key_column then
      let v1 : BasicView := { v with m_indices := v.m_indices.eraseIdx local_row_index }
      let new_data :=
        src.getDataWC src_row_index (v1.m_selected_columns.getD v1.getKeyColumn 0)
      match v1.insertablePosition src new_data with
      | .error e => .error e
      | .ok new_pos => .ok [Event.rowDrop local_row_index, Event.rowInsertion new_pos]
    else .ok []

/-- Signals that the slot `rowDropped` emits: `rowDropEvent(view_row_index)`, also when the
row was not found. -/
def rowDroppedSignals (v : BasicView) (src : AbstractTable) (row_index : Nat) :
    Except Exn (List Event) :=
  match v.mapToLocal (some src) row_index with
  | .error e => .error e
  | .ok view_row_index => .ok [Event.rowDrop view_row_index]

/-- Signals that `sortBy(SortingOrder)` emits. -/
def sortByOrderSignals (v : BasicView) (s_order : SortingOrder) : List Event :=
  if v.m_sorder ≠ s_order then [Event.sourceReversed] else []

/-- Method `refresh`: the statements up to the signal `refreshEvent`, which it emits last. -/
def refresh (v : BasicView) (src : AbstractTable) : Except Exn BasicView :=
  let v1 : BasicView :=
    { v with m_indices := initialIndices src v.m_exp v.m_filtered_token }
  match v1.columnAt src v1.getKeyColumn with
  | Option.none => .ok v1
  | some column_info => v1.sortBy src column_info.1 v1.getSortingOrder

/-- Slot `sourceReversed`: every index is replaced by `column_count - 1 - index`, computed on
`std::size_t`, where `column_count` is the column count of the source. -/
def sourceReversed (v : BasicView) (src : AbstractTable) : BasicView :=
  { v with
    m_indices := v.m_indices.map (fun index => sizeSub (sizeSub src.columnCount 1) index) }

/-- Comparison `std::find(m_selected_columns.begin(), m_selected_columns.end(), column_index)
!= m_indices.end()` of the slot `columnTransformed`: the left side is an iterator into the
storage of `m_selected_columns` (the position found, or its end), the right side the end of
the storage of `m_indices`; the two vectors have their own storage, so the iterators differ
wherever the first one stands. -/
def foundBeforeIndicesEnd (_m_selected_columns : List Nat) (_column_index : Nat) : Bool := true

/-- Slot `columnTransformed`. -/
def columnTransformed (v : BasicView) (src : AbstractTable) (column_index : Nat) :
    Except Exn BasicView :=
  if foundBeforeIndicesEnd v.m_selected_columns column_index then v.refresh src
  else if v.m_selected_columns.getD v.getKeyColumn 0 = column_index then
    match optionalValue (v.columnAt src v.getKeyColumn) with
    | .error e => .error e
    | .ok col => v.sortByColumn src col.1
  else .ok v

/-- Signals that the slot `columnTransformed` emits: `refresh` ends with `refreshEvent`,
`sortBy(column_name)` with `sourceSortedEvent` when the column exists. -/
def columnTransformedSignals (v : BasicView) (column_index : Nat) : List Event :=
  if foundBeforeIndicesEnd v.m_selected_columns column_index then [Event.refresh]
  else if v.m_selected_columns.getD v.getKeyColumn 0 = column_index then [Event.sourceSorted]
  else []

end BasicView

/-! ## Fixtures of the event tests -/

/-- The view `BasicView("v", &table, {"name", "bonus"})` on the student table with the column
"bonus": the source columns 0 and 2, keyed by "name", ascending. -/
def nameBonusView : BasicView :=
  { m_name := "v"
    m_decorated_name := "BasicView[v]"
    m_sorder := SortingOrder.ASCENDING
    m_key_column := 0
    m_indices := [0, 1, 2, 3, 4, 5, 6, 7, 8, 9]
    m_selected_columns := [0, 2]
    m_filtered_token := FilterTokens.none
    m_exp := "" }

/-- The compiled filter `isOdd($id)` on a source whose column 1 is "id": the tokens refer to
column 1 and accept the rows with an odd id. -/
def oddIdFilter : FilterTokens :=
  { empty := false
    refersTo := fun c => c == 1
    run := fun getDataWC row_index =>
      match getDataWC row_index 1 with
      | Variant.int32 x => x % 2 == 1
      | _ => false }

/-- A compiler that knows the formula `isOdd($id)`. -/
def oddIdCompiler : String → AbstractTable → Option FilterTokens :=
  fun formula _ => if formula = "isOdd($id)" then some oddIdFilter else Option.none

/-- The view `BasicView("by_id", &table, {}, "", "id")` on the student table: all columns, no
filter, keyed by "id", ascending. -/
def studentIdView : BasicView :=
  { m_name := "by_id"
    m_decorated_name := "BasicView[by_id]"
    m_sorder := SortingOrder.ASCENDING
    m_key_column := 1
    m_indices := [7, 5, 3, 4, 2, 0, 1, 8, 9, 6]
    m_selected_columns := [0, 1]
    m_filtered_token := FilterTokens.none
    m_exp := "" }

/-- The view `BasicView("v2", &view, {}, "isOdd($id)", "id", DESCENDING)` nested on the view
`studentView`: the rows of that view with an odd id, by id, descending. -/
def oddIdView : BasicView :=
  { m_name := "v2"
    m_decorated_name := "BasicView[v2]"
    m_sorder := SortingOrder.DESCENDING
    m_key_column := 1
    m_indices := [9, 1, 2, 3, 7]
    m_selected_columns := [0, 1]
    m_filtered_token := oddIdFilter
    m_exp := "isOdd($id)" }

/-- The view `BasicView("v2", &view, {})` nested on the view `studentView`: all its rows and
columns. -/
def nestedStudentView : BasicView :=
  { m_name := "v2"
    m_decorated_name := "BasicView[v2]"
    m_sorder := SortingOrder.ASCENDING
    m_key_column := 0
    m_indices := [0, 1, 2, 3, 4, 5, 6, 7, 8, 9]
    m_selected_columns := [0, 1]
    m_filtered_token := FilterTokens.none
    m_exp := "" }

/-- The student table after `dropRow(row_index)`. -/
def studentTableWithout (row_index : Nat) : Table :=
  match studentTable.dropRow row_index with
  | .ok (t, _) => t
  | .error _ => studentTable

/-- Method `Table::setEpsilon`. -/
def Table.setEpsilon (t : Table) (column_name : String) (epsilon : Variant) :
    Except Exn Table :=
  match t.findColumn column_name with
  | none => .ok t
  | some (column_index, _) =>
    match t.m_columns[column_index]? with
    | none => .error (.exception "null column")
    | some column_ptr =>
      match column_ptr.setEpsilon epsilon with
      | .error e => .error e
      | .ok c1 => .ok { t with m_columns := t.m_columns.set column_index c1 }

/-! ## Fixture of the compaction of a float column -/

/-- Rows of the table of readings: a key and a `float64` reading. -/
def readingRows : List (List Variant) :=
  [[.int32 1, .float64 1], [.int32 2, .float64 (5 / 4)], [.int32 3, .float64 2],
   [.int32 4, .float64 9]]

/-- The table `Table("readings", {{"k", int32}, {"x", float64}})` with four rows, after
`setMaxFreeSpaceTolerance(tolerance)` and `setEpsilon("x", 0.5)`. -/
def readingTable (tolerance : Nat) : Table :=
  match ((readingRows.foldl (fun t row => (t.insertRow row).1)
      (Table.init "readings" [⟨"k", "", DataType.INT32⟩, ⟨"x", "", DataType.FLOAT64⟩]
        SortingOrder.ASCENDING)).setMaxFreeSpaceTolerance tolerance).setEpsilon "x"
      (.float64 (1 / 2)) with
  | .ok t => t
  | .error _ => Table.init "readings" [] SortingOrder.ASCENDING

/-- The table of readings after `dropRow(row_index)`. -/
def readingTableWithout (tolerance row_index : Nat) : Table :=
  match (readingTable tolerance).dropRow row_index with
  | .ok (t, _) => t
  | .error _ => readingTable tolerance

end km

namespace km

/-! ## TableIO.cpp

A stream is modelled by the objects written to it: an object that
`write(MAKE_W(&x), sizeof x)` has written is one record, which `read(MAKE_R(&y), sizeof y)` for
a `y` of the same type reads back as the same value; the buffer of a string is written byte by
byte, each byte one record `byte`. A `String` stands for the `std::string` that holds its UTF-8
encoding. A read that meets a record of another type would reinterpret its bytes, and bytes
that are not the encoding of a string stand for no `String`; the model does not follow such a
read and answers `none` (the outer `Option` of the readers). The file system lets every file
be opened for writing, and keeps what was written. -/

/-- The bytes of a character in a `std::string`: its UTF-8 encoding. -/
def utf8Char (c : Char) : List Nat :=
  if c.toNat < 0x80 then [c.toNat]
  else if c.toNat < 0x800 then [0xC0 + c.toNat / 0x40, 0x80 + c.toNat % 0x40]
  else if c.toNat < 0x10000 then
    [0xE0 + c.toNat / 0x1000, 0x80 + c.toNat / 0x40 % 0x40, 0x80 + c.toNat % 0x40]
  else
    [0xF0 + c.toNat / 0x40000, 0x80 + c.toNat / 0x1000 % 0x40,
      0x80 + c.toNat / 0x40 % 0x40, 0x80 + c.toNat % 0x40]

/-- The bytes of the `std::string` that a `String` stands for: the UTF-8 encoding of its
characters. The members `size()` and `length()` of the `std::string` count these bytes. -/
def utf8Bytes (s : String) : List Nat := (s.data.map utf8Char).flatten

/-- Decoder of UTF-8: the characters decoded so far, and the value and the number of lacking
bytes of the character that has begun. -/
def utf8Decode : List Nat → List Char → Nat → Nat → Option (List Char)
  | [], chars, _, 0 => some chars
  | [], _, _, _ + 1 => none
  | b :: rest, chars, _, 0 =>
    if b < 0x80 then utf8Decode rest (chars ++ [Char.ofNat b]) 0 0
    else if b < 0xC0 then none
    else if b < 0xE0 then utf8Decode rest chars (b - 0xC0) 1
    else if b < 0xF0 then utf8Decode rest chars (b - 0xE0) 2
    else if b < 0xF8 then utf8Decode rest chars (b - 0xF0) 3
    else none
  | b :: rest, chars, value, lacking + 1 =>
    if 0x80 ≤ b ∧ b < 0xC0 then
      if lacking = 0 then
        utf8Decode rest (chars ++ [Char.ofNat (value * 0x40 + (b - 0x80))]) 0 0
      else utf8Decode rest chars (value * 0x40 + (b - 0x80)) lacking
    else none

/-- The `String` that stands for the `std::string` with the given bytes; `none` when the
bytes are not the encoding of a string. -/
def utf8String (bytes : List Nat) : Option String :=
  match utf8Decode bytes [] 0 0 with
  | none => none
  | some chars => if utf8Bytes (String.mk chars) = bytes then some (String.mk chars) else none

/-- One record of a binary stream. -/
inductive Chunk where
  | size (n : Nat)
  | order (s_order : SortingOrder)
  | type (data_type : DataType)
  | value (data : Variant)
  | byte (b : Nat)
deriving DecidableEq

/-- Value `sizeof(Type_)` (x86-64, libstdc++). -/
def KType.size : KType → Nat
  | .KInt32 => 4
  | .KInt64 => 8
  | .KFloat32 => 4
  | .KFloat64 => 8
  | .KString => 32
  | .KBoolean => 1
  | .KDate => 4
  | .KDateTime => 8

/-- Number of bytes of a record: `sizeof(SizeType)`, `sizeof(SortingOrder)`, `sizeof(DataType)`,
`sizeof(Type_)` of the alternative held, one for a byte of a string. -/
def Chunk.bytes : Chunk → Nat
  | .size _ => 8
  | .order _ => 4
  | .type _ => 2
  | .value (.int32 _) => KType.KInt32.size
  | .value (.int64 _) => KType.KInt64.size
  | .value (.float32 _) => KType.KFloat32.size
  | .value (.float64 _) => KType.KFloat64.size
  | .value (.string _) => KType.KString.size
  | .value (.boolean _) => KType.KBoolean.size
  | .value (.date _) => KType.KDate.size
  | .value (.dateTime _) => KType.KDateTime.size
  | .byte _ => 1

/-- Files by name; the first entry of a name is the file as last written. -/
abbrev FileSystem := List (String × List Chunk)

/-- An `std::ifstream` that is open: the records not yet read, and whether no error bit
(`failbit`, `eofbit`) is set. -/
structure IfStream where
  rest : List Chunk
  good : Bool
deriving DecidableEq

/-- Function `resolveFileName`. -/
def resolveFileName (file_name path fl_ext : String) : String :=
  let fname_size := (utf8Bytes file_name).length
  let fl_ext_size := (utf8Bytes fl_ext).length
  let file_name1 :=
    if fname_size ≤ fl_ext_size + 1 ∨
        ((utf8Bytes file_name).drop (fname_size - fl_ext_size)).take fl_ext_size ≠
          utf8Bytes fl_ext
    then file_name ++ ("." ++ fl_ext)
    else file_name
  if !path.isEmpty then (path ++ "/") ++ file_name1 else file_name1

/-- What one iteration of the row loop of `writeColumnToStream<Type_>` writes: the object
`data.as<Type_>()`, or for `KString` the bytes of the string and the terminating NUL
(`str.length() + 1` bytes from `str.c_str()`). -/
def writeCell (T : KType) (data : Variant) : List Chunk :=
  if T = KType.KString then
    match data with
    | .string str => (utf8Bytes str).map Chunk.byte ++ [Chunk.byte 0]
    | _ => []
  else [Chunk.value data]

/-- Row loop of `writeColumnToStream<Type_>`: `count` rows from `row_index` on are appended to
the file content `out`. -/
def writeColumnRows (T : KType) (table : Table) (column_index : Nat) :
    Nat → Nat → List Chunk → Except Exn (List Chunk)
  | 0, _, out => .ok out
  | count + 1, row_index, out =>
    match (table.getDataWC row_index column_index).as T with
    | .error e => .error e
    | .ok data => writeColumnRows T table column_index count (row_index + 1)
        (out ++ writeCell T data)

/-- Function template `writeColumnToStream<Type_>` and its specialisation for `KString`. An
exception leaves the function before the file is closed; the model then does not report the
file. -/
def writeColumnToStream (T : KType) (table : Table) (column_index : Nat) (path : String)
    (fs : FileSystem) : Except Exn (FileSystem × Bool) :=
  match optionalValue (table.columnAt column_index) with
  | .error e => .error e
  | .ok column =>
    match writeColumnRows T table column_index table.rowCount 0 [] with
    | .error e => .error e
    | .ok out => .ok ((resolveFileName column.1 path "clm", out) :: fs, true)

/-- The element type whose function `getColumnWriter` and `getStreamReader` select for a data
type; `none` is the `nullptr` at position 8 of their arrays. -/
def ktypeAt (index : Nat) : Option KType :=
  match index with
  | 0 => some .KInt32
  | 1 => some .KInt64
  | 2 => some .KFloat32
  | 3 => some .KFloat64
  | 4 => some .KString
  | 5 => some .KBoolean
  | 6 => some .KDate
  | 7 => some .KDateTime
  | _ => none

/-- Function `getColumnWriter`: the type `Type_` of the writer `writeColumnToStream<Type_>`. -/
def getColumnWriter (data_type : DataType) : Option KType :=
  ktypeAt (indexForDataType data_type 8)

/-- Function `writeTableInfo`: the content of the table file. The loop over the column indices
reads `getColumnMetaData(column_index)`, the meta data of `m_columns[column_index]`. -/
def writeTableInfo (table : Table) : List Chunk :=
  [Chunk.size (utf8Bytes table.m_name).length] ++ (utf8Bytes table.m_name).map Chunk.byte ++
    [Chunk.order table.getSortingOrder, Chunk.size table.columnCount,
      Chunk.size table.rowCount] ++
    (table.m_columns.map (fun column_ptr =>
      [Chunk.type column_ptr.getMetaData.data_type,
        Chunk.size (utf8Bytes column_ptr.getMetaData.column_name).length] ++
      (utf8Bytes column_ptr.getMetaData.column_name).map Chunk.byte ++
      [Chunk.size (utf8Bytes column_ptr.getMetaData.display_name).length] ++
      (utf8Bytes column_ptr.getMetaData.display_name).map Chunk.byte)).flatten

/-- Column loop of `writeTableTo`: `count` columns from `column_index` on. A null writer is
reported as an exception. -/
def writeColumns (table : Table) (path : String) :
    Nat → Nat → FileSystem → Except Exn (FileSystem × Bool)
  | 0, _, fs => .ok (fs, true)
  | count + 1, column_index, fs =>
    match optionalValue (table.columnAt column_index) with
    | .error e => .error e
    | .ok column =>
      match getColumnWriter column.2 with
      | none => .error (.exception "null writer")
      | some T =>
        match writeColumnToStream T table column_index path fs with
        | .error e => .error e
        | .ok (fs1, false) => .ok (fs1, false)
        | .ok (fs1, true) => writeColumns table path count (column_index + 1) fs1

/-- Function `writeTableTo`. -/
def writeTableTo (fs : FileSystem) (table : Table) (path : String) :
    Except Exn (FileSystem × Bool) :=
  writeColumns table path table.columnCount 0
    ((resolveFileName table.m_name path "kmt", writeTableInfo table) :: fs)

namespace IfStream

/-- Call `ifs.read(MAKE_R(&x), sizeof(SizeType))`: the value of `x` afterwards. -/
def readSize (ifs : IfStream) (x : Nat) : Option (Nat × IfStream) :=
  if !ifs.good then some (x, ifs)
  else
    match ifs.rest with
    | [] => some (x, { ifs with good := false })
    | Chunk.size n :: rest => some (n, { ifs with rest := rest })
    | _ :: _ => none

/-- Call `ifs.read(MAKE_R(&s_order), sizeof(s_order))`. -/
def readOrder (ifs : IfStream) (x : SortingOrder) : Option (SortingOrder × IfStream) :=
  if !ifs.good then some (x, ifs)
  else
    match ifs.rest with
    | [] => some (x, { ifs with good := false })
    | Chunk.order s :: rest => some (s, { ifs with rest := rest })
    | _ :: _ => none

/-- Call `ifs.read(MAKE_R(&column_type), sizeof(DataType))`. -/
def readType (ifs : IfStream) (x : DataType) : Option (DataType × IfStream) :=
  if !ifs.good then some (x, ifs)
  else
    match ifs.rest with
    | [] => some (x, { ifs with good := false })
    | Chunk.type d :: rest => some (d, { ifs with rest := rest })
    | _ :: _ => none

/-- Call `ifs.read(str.data(), length)` on a stream without error bit that holds at least
`length` bytes: the bytes read. -/
def readChars : Nat → List Chunk → List Nat → Option (List Nat × List Chunk)
  | 0, rest, acc => some (acc, rest)
  | length + 1, Chunk.byte b :: rest, acc => readChars length rest (acc ++ [b])
  | _ + 1, _, _ => none

end IfStream

/-- Function `readLString`. On a stream with an error bit `tellg` answers -1 twice, the
comparison is `0 <= 0`, and the string is resized to the length 0. -/
def readLString (ifs : IfStream) : Option (String × IfStream) :=
  match ifs.readSize 0 with
  | none => none
  | some (length, ifs1) =>
    if !ifs1.good then some ("", ifs1)
    else if length ≤ (ifs1.rest.map Chunk.bytes).sum then
      match IfStream.readChars length ifs1.rest [] with
      | none => none
      | some (bytes, rest) =>
        match utf8String bytes with
        | none => none
        | some str => some (str, { ifs1 with rest := rest })
    else some ("", { ifs1 with good := false })

/-- Call `ifs.getline(bytes, 256, '\0')` on a stream without error bit; `stored` are the
bytes stored so far. The end of the stream sets `eofbit`, the delimiter is extracted and not
stored, and a 256th byte sets `failbit` and is not extracted. -/
def getlineLoop : List Chunk → List Nat → Option (List Nat × IfStream)
  | [], stored => some (stored, ⟨[], false⟩)
  | Chunk.byte b :: rest, stored =>
    if b = 0 then some (stored, ⟨rest, true⟩)
    else if stored.length = 255 then some (stored, ⟨Chunk.byte b :: rest, false⟩)
    else getlineLoop rest (stored ++ [b])
  | _ :: _, _ => none

/-- Function template `readStreamData<T>` and its specialisation for `KString`. -/
def readStreamData (T : KType) (ifs : IfStream) : Option (Variant × IfStream) :=
  if T = KType.KString then
    if !ifs.good then some (Variant.string "", ifs)
    else
      match getlineLoop ifs.rest [] with
      | none => none
      | some (bytes, ifs1) =>
        match utf8String bytes with
        | none => none
        | some str => some (Variant.string str, ifs1)
  else if !ifs.good then some (T.zero, ifs)
  else
    match ifs.rest with
    | [] => some (T.zero, { ifs with good := false })
    | Chunk.value data :: rest =>
      if data.index = T.index then some (data, { ifs with rest := rest }) else none
    | _ :: _ => none

/-- Function `getStreamReader`: the type `T` of the reader `readStreamData<T>`. -/
def getStreamReader (data_type : DataType) : Option KType :=
  ktypeAt (indexForDataType data_type 8)

/-- Loop `for (r_index = 0; r_index < row_count; ++r_index) table->insertRow({dataReader(0,
ifs)})` of `insertData`. -/
def insertKeys (T : KType) : Nat → Table → IfStream → Option (Table × IfStream)
  | 0, table, ifs => some (table, ifs)
  | count + 1, table, ifs =>
    match readStreamData T ifs with
    | none => none
    | some (data, ifs1) => insertKeys T count (table.insertRow [data]).1 ifs1

/-- The values that the calls `dataReader(i, ifs)` of `addColumnF` return for the rows 0, 1,
... in turn. -/
def readCells (T : KType) : Nat → IfStream → Option (List Variant)
  | 0, _ => some []
  | count + 1, ifs =>
    match readStreamData T ifs with
    | none => none
    | some (data, ifs1) =>
      match readCells T count ifs1 with
      | none => none
      | some cells => some (data :: cells)

/-- Column loop of `insertData` from column `c_index` on: the table, or `false`. The result of
`addColumnF` is not looked at; `addColumnF` calls the reader once for every row, in the order
of the rows, when it has accepted the column, and not at all otherwise. A null reader is
reported as an exception. -/
def insertColumns (fs : FileSystem) (row_count : Nat) (path : String) :
    List ColumnMetaData → Nat → Table → Option (Except Exn (Option Table))
  | [], _, table => some (.ok (some table))
  | column :: rest, c_index, table =>
    match fs.lookup (resolveFileName column.column_name path "clm") with
    | none => some (.ok none)
    | some content =>
      if c_index = 0 then
        match getStreamReader column.data_type with
        | none => some (.error (.exception "null reader"))
        | some T =>
          match insertKeys T row_count table.pauseSorting ⟨content, true⟩ with
          | none => none
          | some (table1, _) => insertColumns fs row_count path rest (c_index + 1)
              table1.resumeSorting
      else if !table.validateForNewColumn column.column_name column.data_type then
        insertColumns fs row_count path rest (c_index + 1) table
      else
        match getStreamReader column.data_type with
        | none => some (.error (.exception "null reader"))
        | some T =>
          match readCells T table.rowCount ⟨content, true⟩ with
          | none => none
          | some cells =>
            match table.addColumnF column (fun i => cells.getD i T.zero) with
            | .error e => some (.error e)
            | .ok (table1, _) => insertColumns fs row_count path rest (c_index + 1) table1

/-- Function `insertData`. -/
def insertData (fs : FileSystem) (table : Table) (row_count : Nat)
    (column_vec : List ColumnMetaData) (path : String) :
    Option (Except Exn (Option Table)) :=
  insertColumns fs row_count path column_vec 0 table

/-- Loop of `readTableFrom` that reads the meta data of `count` columns; the inner `none` is a
failed read. -/
def readColumns : Nat → IfStream → List ColumnMetaData →
    Option (Option (List ColumnMetaData))
  | 0, _, column_vec => some (some column_vec)
  | count + 1, ifs, column_vec =>
    match ifs.readType 0 with
    | none => none
    | some (column_type, ifs1) =>
      if !ifs1.good then some none
      else
        match readLString ifs1 with
        | none => none
        | some (column_name, ifs2) =>
          if !ifs2.good then some none
          else
            match readLString ifs2 with
            | none => none
            | some (display_name, ifs3) =>
              if !ifs3.good then some none
              else readColumns count ifs3
                (column_vec ++ [⟨column_name, display_name, column_type⟩])

/-- The `try` block of `readTableFrom`; the handler `catch (...)` turns every exception into
the null pointer. -/
def readTableBody (fs : FileSystem) (table_name : String) (s_order : SortingOrder)
    (row_count column_count : Nat) (column_vec : List ColumnMetaData) (path : String) :
    Option (Option Table) :=
  if column_count = 0 then
    match Table.new table_name [] s_order with
    | .ok table => some (some table)
    | .error _ => some none
  else if row_count = 0 then
    match Table.new table_name column_vec s_order with
    | .ok table => some (some table)
    | .error _ => some none
  else
    match Table.new table_name (column_vec.take 1) s_order with
    | .error _ => some none
    | .ok table =>
      match insertData fs table row_count column_vec path with
      | none => none
      | some (.ok result) => some result
      | some (.error _) => some none

/-- Function `readTableFrom`: `some none` is the null pointer. -/
def readTableFrom (fs : FileSystem) (file_name path : String) : Option (Option Table) :=
  match fs.lookup (resolveFileName file_name path "kmt") with
  | none => some none
  | some content =>
    match readLString ⟨content, true⟩ with
    | none => none
    | some (table_name, ifs1) =>
      match ifs1.readOrder SortingOrder.ASCENDING with
      | none => none
      | some (s_order, ifs2) =>
        match ifs2.readSize 0 with
        | none => none
        | some (column_count, ifs3) =>
          match ifs3.readSize 0 with
          | none => none
          | some (row_count, ifs4) =>
            if !(ifs1.good && ifs2.good && ifs3.good && ifs4.good) then some none
            else
              match readColumns column_count ifs4 [] with
              | none => none
              | some none => some none
              | some (some column_vec) =>
                readTableBody fs table_name s_order row_count column_count column_vec path

/-- A value that `readStreamData` reads back as it was written: a string has at most 255
bytes, none of them NUL. -/
def Variant.Readable : Variant → Prop
  | .string str => (utf8Bytes str).length ≤ 255 ∧ 0 ∉ utf8Bytes str
  | _ => True

instance (data : Variant) : Decidable data.Readable := by
  unfold Variant.Readable
  split <;> infer_instance

/-- The file that `writeTableTo` writes for a column: its name, and the cells of the column in
the order of the rows of the table, each as the writer of the column type writes it. -/
def columnFile (table : Table) (path : String) (column_ptr : Column) : String × List Chunk :=
  (resolveFileName column_ptr.getName path "clm",
    ((table.m_indices.map column_ptr.getData).map (writeCell column_ptr.ktype)).flatten)

/-- A new table with the name and the sorting order of `t` and with the columns of `t`, each
rebuilt from its cells in the order of the rows. -/
def Table.reread (t : Table) : Table :=
  { Table.init t.m_name [] t.m_sorder with
    m_indices := List.range t.rowCount
    m_columns := t.m_columns.map (fun c => c.compacted t.m_indices) }

/-! ## Fixtures of the round trip -/

/-- A table whose sorting is paused, with the rows (2, "b") and (1, "a") in this order. -/
def pausedLetters : Table :=
  [[Variant.int32 2, Variant.string "b"], [Variant.int32 1, Variant.string "a"]].foldl
    (fun t row => (t.insertRow row).1)
    (Table.init "letters" [⟨"k", "", DataType.INT32⟩, ⟨"s", "", DataType.STRING⟩]
      SortingOrder.ASCENDING).pauseSorting

/-- The table that `readTableFrom` returns for what `writeTableTo` wrote of `table` to the
directory "dir" of an empty file system, when both succeed. -/
def roundTrip (table : Table) : Option Table :=
  match writeTableTo [] table "dir" with
  | .ok (fs, true) =>
    match readTableFrom fs table.m_name "dir" with
    | some (some table1) => some table1
    | _ => none
  | _ => none

end km

namespace km

/-! ## Order facts about the payload comparisons -/

theorem stringCompare_range (a b : List Char) :
    stringCompare a b = -1 ∨ stringCompare a b = 0 ∨ stringCompare a b = 1 := by
  induction a generalizing b with
  | nil => cases b <;> simp [stringCompare]
  | cons x xs ih =>
    cases b with
    | nil => simp [stringCompare]
    | cons y ys =>
      simp only [stringCompare]
      split_ifs
      · simp
      · simp
      · exact ih ys

theorem stringCompare_swap (a b : List Char) : stringCompare b a = -stringCompare a b := by
  induction a generalizing b with
  | nil => cases b <;> simp [stringCompare]
  | cons x xs ih =>
    cases b with
    | nil => simp [stringCompare]
    | cons y ys =>
      simp only [stringCompare]
      split_ifs <;> first | omega | rfl | exact ih ys

theorem stringCompare_self (a : List Char) : stringCompare a a = 0 := by
  have h := stringCompare_swap a a
  omega

theorem stringCompare_trans (a b c : List Char) (hab : stringCompare a b ≤ 0)
    (hbc : stringCompare b c ≤ 0) :
    stringCompare a c ≤ 0 ∧ (stringCompare a b < 0 ∨ stringCompare b c < 0 → stringCompare a c < 0) := by
  induction a generalizing b c with
  | nil =>
    cases b with
    | nil => cases c <;> simp_all [stringCompare]
    | cons y ys => cases c <;> simp_all [stringCompare]
  | cons x xs ih =>
    cases b with
    | nil => simp [stringCompare] at hab
    | cons y ys =>
      cases c with
      | nil =>
        simp only [stringCompare] at hbc
        omega
      | cons z zs =>
        simp only [stringCompare] at hab hbc ⊢
        by_cases h1 : x.toNat < y.toNat
        · by_cases h2 : y.toNat < z.toNat
          · have : x.toNat < z.toNat := by omega
            simp [this]
          · by_cases h3 : z.toNat < y.toNat
            · simp [h2, h3] at hbc
            · have : x.toNat < z.toNat := by omega
              simp [this]
        · by_cases h1' : y.toNat < x.toNat
          · simp [h1, h1'] at hab
          · simp only [h1, h1', if_false] at hab ⊢
            by_cases h2 : y.toNat < z.toNat
            · have : x.toNat < z.toNat := by omega
              simp [this]
            · by_cases h3 : z.toNat < y.toNat
              · simp [h2, h3] at hbc
              · simp only [h2, h3, if_false] at hbc ⊢
                have e1 : ¬ x.toNat < z.toNat := by omega
                have e2 : ¬ z.toNat < x.toNat := by omega
                simp only [e1, e2, if_false]
                exact ih ys zs hab hbc

end km

namespace km

theorem KDateTime.lt_iff (a b : KDateTime) :
    KDateTime.lt a b = true ↔
      (integralRepresentationOf a.date < integralRepresentationOf b.date ∨
        (integralRepresentationOf a.date = integralRepresentationOf b.date ∧
          toSeconds a.time < toSeconds b.time)) := by
  unfold KDateTime.lt KDate.lt KDate.gt
  by_cases h1 : integralRepresentationOf a.date < integralRepresentationOf b.date
  · simp [h1]
  · by_cases h2 : integralRepresentationOf a.date > integralRepresentationOf b.date
    · simp [h1, h2]
      omega
    · simp [h1, h2]
      omega

theorem KDateTime.gt_eq (a b : KDateTime) : KDateTime.gt a b = KDateTime.lt b a := rfl

namespace Variant

theorem greater_eq_less (a b : Variant) : greater a b = less b a := by
  cases a <;> cases b <;> simp only [greater, less, gt_iff_lt, KDateTime.gt_eq]
  · rw [stringCompare_swap]
    congr 1
    apply propext
    omega
  · rfl

theorem less_irrefl (a : Variant) : less a a = false := by
  cases a with
  | dateTime v =>
    cases h : less (dateTime v) (dateTime v)
    · rfl
    · simp only [less, KDateTime.lt_iff] at h
      omega
  | _ => simp [less, KDate.lt, stringCompare_self]

theorem less_trans (a b c : Variant) (hab : less a b = true) (hbc : less b c = true) :
    less a c = true := by
  cases a <;> cases b <;> simp only [less, Bool.false_eq_true] at hab <;>
    cases c <;> simp only [less, Bool.false_eq_true] at hbc
  all_goals simp only [less, KDate.lt, decide_eq_true_eq, KDateTime.lt_iff] at *
  · omega
  · omega
  · exact lt_trans hab hbc
  · exact lt_trans hab hbc
  · exact ((stringCompare_trans _ _ _ (le_of_lt hab) (le_of_lt hbc)).2 (Or.inl hab))
  · exact lt_trans hab hbc
  · omega
  · omega

theorem less_negtrans (a b c : Variant) (iab : a.index = b.index) (ibc : b.index = c.index)
    (hab : less a b = false) (hbc : less b c = false) : less a c = false := by
  cases a <;> cases b <;> simp only [index, reduceCtorEq] at iab <;> try omega
  all_goals cases c <;> simp only [index, reduceCtorEq] at ibc <;> try omega
  all_goals simp only [less, KDate.lt, decide_eq_false_iff_not, Bool.eq_false_iff, ne_eq,
    KDateTime.lt_iff, decide_eq_true_eq] at *
  · omega
  · omega
  · exact fun h => hab (lt_of_lt_of_le h (not_lt.mp hbc))
  · exact fun h => hab (lt_of_lt_of_le h (not_lt.mp hbc))
  · rename_i x y z
    intro h
    have h1 : stringCompare y.data x.data ≤ 0 := by
      have := stringCompare_swap x.data y.data; omega
    have h2 : stringCompare z.data y.data ≤ 0 := by
      have := stringCompare_swap y.data z.data; omega
    have h3 := (stringCompare_trans _ _ _ h2 h1).1
    have := stringCompare_swap x.data z.data
    omega
  · exact fun h => hab (lt_of_lt_of_le h (not_lt.mp hbc))
  · omega
  · omega

theorem lessEq_eq_not_less (a b : Variant) (iab : a.index = b.index) :
    lessEq a b = !less b a := by
  cases a <;> cases b <;> simp only [index, reduceCtorEq] at iab <;> try omega
  all_goals simp only [lessEq, less, KDate.le, KDate.lt, KDateTime.le, KDateTime.gt_eq]
  all_goals first
    | rfl
    | (rw [Bool.eq_iff_iff]; simp only [decide_eq_true_eq, Bool.not_eq_true', decide_eq_false_iff_not, not_lt])
  · rename_i x y
    have := stringCompare_swap x.data y.data
    omega

theorem greaterEq_eq_not_less (a b : Variant) (iab : a.index = b.index) :
    greaterEq a b = !less a b := by
  cases a <;> cases b <;> simp only [index, reduceCtorEq] at iab <;> try omega
  all_goals simp only [greaterEq, less, KDate.ge, KDate.lt, KDateTime.ge]
  all_goals first
    | rfl
    | (rw [Bool.eq_iff_iff]; simp only [decide_eq_true_eq, Bool.not_eq_true', decide_eq_false_iff_not, not_lt, ge_iff_le])

end Variant

end km

namespace km

/-! ## The library algorithms meet their contracts -/

theorem StrictWeak.asymm {cmp : Nat → Nat → Bool} (h : StrictWeak cmp) (a b : Nat)
    (hab : cmp a b = true) : cmp b a = false := by
  cases hba : cmp b a
  · rfl
  · have := h.trans a b a hab hba
    rw [h.irrefl] at this
    exact absurd this (by simp)

theorem stable_sort_sorted {cmp : Nat → Nat → Bool} (h : StrictWeak cmp) (xs : List Nat) :
    (stable_sort xs cmp).Pairwise (fun a b => cmp b a = false) := by
  haveI : IsTotal Nat (fun a b => cmp b a = false) :=
    ⟨fun a b => by
      cases hba : cmp b a
      · exact Or.inl rfl
      · exact Or.inr (h.asymm b a hba)⟩
  haveI : IsTrans Nat (fun a b => cmp b a = false) :=
    ⟨fun a b c hab hbc => h.negtrans c b a hbc hab⟩
  exact List.sorted_insertionSort (fun a b => cmp b a = false) xs

theorem stable_sort_perm (cmp : Nat → Nat → Bool) (xs : List Nat) :
    (stable_sort xs cmp).Perm xs :=
  List.perm_insertionSort (fun a b => cmp b a = false) xs

theorem stable_sort_stable (cmp : Nat → Nat → Bool) (xs : List Nat) (a b : Nat)
    (hab : cmp b a = false) (hsub : List.Sublist [a, b] xs) :
    List.Sublist [a, b] (stable_sort xs cmp) :=
  List.pair_sublist_insertionSort (r := fun a b => cmp b a = false) hab hsub

theorem stable_sort_of_sorted (cmp : Nat → Nat → Bool) (xs : List Nat)
    (hs : xs.Pairwise (fun a b => cmp b a = false)) : stable_sort xs cmp = xs :=
  List.Sorted.insertionSort_eq hs

theorem upper_bound_loop_spec (xs : List Nat) (comp : Nat → Bool)
    (hmono : ∀ i j, i ≤ j → j < xs.length → comp (xs.getD i 0) = true →
      comp (xs.getD j 0) = true) :
    ∀ fuel first len, len ≤ fuel → first + len ≤ xs.length →
      (∀ i, i < first → comp (xs.getD i 0) = false) →
      (∀ i, first + len ≤ i → i < xs.length → comp (xs.getD i 0) = true) →
      upper_bound_loop xs comp fuel first len ≤ xs.length ∧
      (∀ i, i < upper_bound_loop xs comp fuel first len → comp (xs.getD i 0) = false) ∧
      (∀ i, upper_bound_loop xs comp fuel first len ≤ i → i < xs.length →
        comp (xs.getD i 0) = true) := by
  intro fuel
  induction fuel with
  | zero =>
    intro first len hlen hbound hlow hhigh
    have : len = 0 := by omega
    subst this
    simp only [upper_bound_loop]
    exact ⟨by omega, hlow, fun i hi hn => hhigh i (by omega) hn⟩
  | succ fuel ih =>
    intro first len hlen hbound hlow hhigh
    simp only [upper_bound_loop]
    by_cases hpos : len > 0
    · simp only [hpos, if_true]
      by_cases hc : comp (xs.getD (first + len / 2) 0) = true
      · simp only [hc, if_true]
        have hhalf : len / 2 < len := Nat.div_lt_self hpos (by decide)
        apply ih first (len / 2) (by omega) (by omega) hlow
        intro i hi hn
        exact hmono (first + len / 2) i hi hn hc
      · simp only [hc]
        have hhalf : len / 2 < len := Nat.div_lt_self hpos (by decide)
        apply ih (first + len / 2 + 1) (len - len / 2 - 1) (by omega) (by omega)
        · intro i hi
          cases hci : comp (xs.getD i 0)
          · rfl
          · exact absurd (hmono i (first + len / 2) (by omega) (by omega) hci) hc
        · intro i hi hn
          exact hhigh i (by omega) hn
    · simp only [hpos, if_false]
      exact ⟨by omega, hlow, fun i hi hn => hhigh i (by omega) hn⟩

theorem pairwise_getD {r : Nat → Nat → Prop} {xs : List Nat} (hs : xs.Pairwise r)
    (i j : Nat) (hij : i < j) (hj : j < xs.length) : r (xs.getD i 0) (xs.getD j 0) := by
  have hi : i < xs.length := by omega
  rw [List.getD_eq_getElem xs 0 hi, List.getD_eq_getElem xs 0 hj]
  exact List.pairwise_iff_getElem.1 hs i j hi hj hij

/-- Contract of `std::upper_bound` on a range sorted by `cmp`: the result splits the range into
the elements that `value` does not precede and the elements that it precedes. -/
theorem upper_bound_spec {cmp : Nat → Nat → Bool} (h : StrictWeak cmp) (xs : List Nat)
    (value : Nat) (hs : xs.Pairwise (fun a b => cmp b a = false)) :
    upper_bound xs (fun mid => cmp value mid) ≤ xs.length ∧
    (∀ y ∈ xs.take (upper_bound xs (fun mid => cmp value mid)), cmp value y = false) ∧
    (∀ y ∈ xs.drop (upper_bound xs (fun mid => cmp value mid)), cmp value y = true) := by
  have hmono : ∀ i j, i ≤ j → j < xs.length → cmp value (xs.getD i 0) = true →
      cmp value (xs.getD j 0) = true := by
    intro i j hij hj hi
    rcases Nat.eq_or_lt_of_le hij with heq | hlt
    · rw [← heq]; exact hi
    · have hji := pairwise_getD hs i j hlt hj
      cases hc : cmp value (xs.getD j 0)
      · have := h.negtrans _ _ _ hc hji
        rw [hi] at this
        exact absurd this (by simp)
      · rfl
  have hspec := upper_bound_loop_spec xs (fun mid => cmp value mid) hmono xs.length 0 xs.length
    (le_refl _) (by omega) (fun i hi => absurd hi (by omega))
    (fun i hi hn => absurd hn (by omega))
  refine ⟨hspec.1, ?_, ?_⟩
  · intro y hy
    obtain ⟨i, hi, rfl⟩ := List.mem_iff_getElem.1 hy
    have hi1 : i < upper_bound xs (fun mid => cmp value mid) := by
      simp only [List.length_take] at hi
      omega
    have hi2 : i < xs.length := by
      have := hspec.1
      unfold upper_bound at hi1
      omega
    have := hspec.2.1 i hi1
    rw [List.getD_eq_getElem xs 0 hi2] at this
    rw [List.getElem_take]
    exact this
  · intro y hy
    obtain ⟨i, hi, rfl⟩ := List.mem_iff_getElem.1 hy
    simp only [List.length_drop] at hi
    have hi2 : upper_bound xs (fun mid => cmp value mid) + i < xs.length := by omega
    have := hspec.2.2 (upper_bound xs (fun mid => cmp value mid) + i) (by unfold upper_bound; omega) hi2
    rw [List.getD_eq_getElem xs 0 hi2] at this
    rw [List.getElem_drop]
    exact this

theorem upper_bound_insert_sorted {cmp : Nat → Nat → Bool} (h : StrictWeak cmp) (xs : List Nat)
    (value : Nat) (hs : xs.Pairwise (fun a b => cmp b a = false)) :
    (vectorInsert xs (upper_bound xs (fun mid => cmp value mid)) value).Pairwise
      (fun a b => cmp b a = false) := by
  obtain ⟨_, hlow, hhigh⟩ := upper_bound_spec h xs value hs
  unfold vectorInsert
  rw [List.pairwise_append]
  refine ⟨hs.sublist (List.take_sublist _ _), ?_, ?_⟩
  · rw [List.pairwise_cons]
    exact ⟨fun y hy => h.asymm _ _ (hhigh y hy), hs.sublist (List.drop_sublist _ _)⟩
  · intro a ha b hb
    rcases List.mem_cons.1 hb with rfl | hb
    · exact hlow a ha
    · have hsplit : xs = xs.take (upper_bound xs (fun mid => cmp value mid)) ++
          xs.drop (upper_bound xs (fun mid => cmp value mid)) := (List.take_append_drop _ _).symm
      rw [hsplit] at hs
      exact (List.pairwise_append.1 hs).2.2 a ha b hb

theorem upper_bound_eq_countP {cmp : Nat → Nat → Bool} (h : StrictWeak cmp) (xs : List Nat)
    (value : Nat) (hs : xs.Pairwise (fun a b => cmp b a = false)) :
    upper_bound xs (fun mid => cmp value mid) = xs.countP (fun y => !cmp value y) := by
  obtain ⟨hle, hlow, hhigh⟩ := upper_bound_spec h xs value hs
  conv_rhs => rw [← List.take_append_drop (upper_bound xs (fun mid => cmp value mid)) xs]
  rw [List.countP_append]
  have h1 : (xs.take (upper_bound xs (fun mid => cmp value mid))).countP (fun y => !cmp value y)
      = (xs.take (upper_bound xs (fun mid => cmp value mid))).length := by
    rw [List.countP_eq_length]
    intro y hy
    simp [hlow y hy]
  have h2 : (xs.drop (upper_bound xs (fun mid => cmp value mid))).countP (fun y => !cmp value y)
      = 0 := by
    rw [List.countP_eq_zero]
    intro y hy
    simp [hhigh y hy]
  rw [h1, h2, List.length_take]
  omega

end km

namespace km

/-! ## Typed columns and the comparison of the key column -/

theorem KType.zero_index (T : KType) : T.zero.index = T.index := by
  cases T <;> rfl

theorem dataType_eq_iff (v : Variant) (T : KType) :
    (1 <<< v.index) = dataTypeFor T ↔ v.index = T.index := by
  cases v <;> cases T <;>
    simp only [Variant.index, KType.index, dataTypeFor, DataType.INT32, DataType.INT64,
      DataType.FLOAT32, DataType.FLOAT64, DataType.STRING, DataType.BOOLEAN, DataType.DATE,
      DataType.DATE_TIME] <;> decide

theorem Column.getData_index (c : Column) (h : c.Typed) (i : Nat) :
    (c.getData i).index = c.ktype.index := by
  unfold Column.getData
  by_cases hi : i < c.m_data_vec.length
  · rw [List.getD_eq_getElem _ _ hi]
    exact h _ (List.getElem_mem hi)
  · rw [List.getD_eq_default _ _ (by omega)]
    exact KType.zero_index _

theorem Column.isLess_strictWeak (c : Column) (h : c.Typed) : StrictWeak c.isLess where
  irrefl a := Variant.less_irrefl _
  trans a b d hab hbd := Variant.less_trans _ _ _ hab hbd
  negtrans a b d hab hbd :=
    Variant.less_negtrans _ _ _ ((c.getData_index h a).trans (c.getData_index h b).symm)
      ((c.getData_index h b).trans (c.getData_index h d).symm) hab hbd

theorem Column.isGreater_strictWeak (c : Column) (h : c.Typed) : StrictWeak c.isGreater where
  irrefl a := by
    unfold Column.isGreater
    rw [Variant.greater_eq_less]
    exact Variant.less_irrefl _
  trans a b d hab hbd := by
    unfold Column.isGreater at *
    rw [Variant.greater_eq_less] at *
    exact Variant.less_trans _ _ _ hbd hab
  negtrans a b d hab hbd := by
    unfold Column.isGreater at *
    rw [Variant.greater_eq_less] at *
    exact Variant.less_negtrans _ _ _ ((c.getData_index h d).trans (c.getData_index h b).symm)
      ((c.getData_index h b).trans (c.getData_index h a).symm) hbd hab

theorem Table.baseCompare_strictWeak (t : Table) (h : ∀ c ∈ t.m_columns, c.Typed) :
    StrictWeak t.baseCompare := by
  cases hc : t.m_columns with
  | nil =>
    have e : t.baseCompare = fun _ _ => false := by
      funext a b
      simp [Table.baseCompare, hc]
    rw [e]
    exact ⟨fun _ => rfl, fun _ _ _ hab _ => hab, fun _ _ _ _ _ => rfl⟩
  | cons base rest =>
    have hb : base.Typed := h base (by simp [hc])
    cases ho : t.m_sorder with
    | ASCENDING =>
      have e : t.baseCompare = base.isLess := by
        funext a b
        simp [Table.baseCompare, hc, Table.m_comparator, ho]
      rw [e]
      exact base.isLess_strictWeak hb
    | DESCENDING =>
      have e : t.baseCompare = base.isGreater := by
        funext a b
        simp [Table.baseCompare, hc, Table.m_comparator, ho]
      rw [e]
      exact base.isGreater_strictWeak hb

theorem Table.keyOrdered_getDataWC (t : Table) (h : ∀ c ∈ t.m_columns, c.Typed) (i j : Nat) :
    t.keyOrdered (t.getDataWC i 0) (t.getDataWC j 0) =
      !t.baseCompare (t.m_indices.getD j 0) (t.m_indices.getD i 0) := by
  cases hc : t.m_columns with
  | nil =>
    cases ho : t.m_sorder <;>
      simp [Table.keyOrdered, Table.getDataWC, Table.baseCompare, hc, ho, Variant.lessEq,
        Variant.greaterEq]
  | cons base rest =>
    have hb : base.Typed := h base (by simp [hc])
    have hidx : ∀ a b, (base.getData a).index = (base.getData b).index :=
      fun a b => (base.getData_index hb a).trans (base.getData_index hb b).symm
    cases ho : t.m_sorder with
    | ASCENDING =>
      simp only [Table.keyOrdered, Table.getDataWC, Table.baseCompare, hc, ho, List.get?_cons_zero,
        List.head?_cons, Table.m_comparator, if_true, Column.isLess]
      exact Variant.lessEq_eq_not_less _ _ (hidx _ _)
    | DESCENDING =>
      simp only [Table.keyOrdered, Table.getDataWC, Table.baseCompare, hc, ho, List.get?_cons_zero,
        List.head?_cons, Table.m_comparator, Column.isGreater, reduceCtorEq, if_false]
      rw [Variant.greater_eq_less]
      exact Variant.greaterEq_eq_not_less _ _ (hidx _ _)

theorem Table.sorted_iff_idxSorted (t : Table) (h : ∀ c ∈ t.m_columns, c.Typed) :
    t.Sorted ↔ t.IdxSorted := by
  have hsw := t.baseCompare_strictWeak h
  haveI : IsTrans Nat (fun a b => t.baseCompare b a = false) :=
    ⟨fun a b c hab hbc => hsw.negtrans c b a hbc hab⟩
  unfold Table.Sorted Table.IdxSorted
  rw [← List.chain'_iff_pairwise, List.chain'_iff_get]
  unfold Table.rowCount
  constructor
  · intro hs i hi
    have := hs i hi
    rw [t.keyOrdered_getDataWC h, List.getD_eq_getElem _ _ (by omega),
      List.getD_eq_getElem _ _ (by omega)] at this
    simpa using this
  · intro hs i hi
    have := hs i hi
    rw [t.keyOrdered_getDataWC h, List.getD_eq_getElem _ _ (by omega),
      List.getD_eq_getElem _ _ (by omega)]
    simpa using this

end km

namespace km

/-! ## insertRow: the cell writes -/

theorem rowMatches_length : ∀ (cols : List Column) (vals : List Variant),
    rowMatches cols vals = true → vals.length = cols.length
  | [], [], _ => rfl
  | [], _ :: _, h => by simp [rowMatches] at h
  | _ :: _, [], h => by simp [rowMatches] at h
  | c :: cs, v :: vs, h => by
    simp only [rowMatches, Bool.and_eq_true] at h
    simp [rowMatches_length cs vs h.2]

theorem Column.setData_ok (c : Column) (v : Variant) (idx : Nat) (h : v.index = c.ktype.index) :
    c.setData v idx = .ok { c with m_data_vec := c.m_data_vec.set idx v } := by
  simp [Column.setData, Variant.as, h]

theorem Column.setData_error (c : Column) (v : Variant) (idx : Nat)
    (h : v.index ≠ c.ktype.index) : c.setData v idx = .error .bad_variant_access := by
  simp [Column.setData, Variant.as, h]

theorem Column.pushData_ok (c : Column) (v : Variant) (h : v.index = c.ktype.index) :
    c.pushData v = .ok { c with m_data_vec := c.m_data_vec ++ [v] } := by
  simp [Column.pushData, Variant.as, h]

theorem Column.pushData_error (c : Column) (v : Variant) (h : v.index ≠ c.ktype.index) :
    c.pushData v = .error .bad_variant_access := by
  simp [Column.pushData, Variant.as, h]

theorem Column.WrittenAt.refl_list (slot : Nat) :
    ∀ cols : List Column, List.Forall₂ (Column.WrittenAt slot) cols cols
  | [] => List.Forall₂.nil
  | _ :: cs => List.Forall₂.cons (Or.inl rfl) (Column.WrittenAt.refl_list slot cs)

theorem Table.setRowLoop_matches : ∀ (cols : List Column) (vals : List Variant) (idx : Nat),
    rowMatches cols vals = true →
    Table.setRowLoop cols vals idx =
      (List.zipWith (fun (c : Column) v => { c with m_data_vec := c.m_data_vec.set idx v })
        cols vals, none)
  | [], [], _, _ => rfl
  | [], _ :: _, _, h => by simp [rowMatches] at h
  | _ :: _, [], _, h => by simp [rowMatches] at h
  | c :: cs, v :: vs, idx, h => by
    simp only [rowMatches, Bool.and_eq_true, beq_iff_eq] at h
    simp only [Table.setRowLoop, Column.setData_ok c v idx h.1,
      Table.setRowLoop_matches cs vs idx h.2, List.zipWith_cons_cons]

theorem Table.pushRowLoop_matches : ∀ (cols : List Column) (vals : List Variant),
    rowMatches cols vals = true →
    Table.pushRowLoop cols vals =
      (List.zipWith (fun (c : Column) v => { c with m_data_vec := c.m_data_vec ++ [v] })
        cols vals, none)
  | [], [], _ => rfl
  | [], _ :: _, h => by simp [rowMatches] at h
  | _ :: _, [], h => by simp [rowMatches] at h
  | c :: cs, v :: vs, h => by
    simp only [rowMatches, Bool.and_eq_true, beq_iff_eq] at h
    simp only [Table.pushRowLoop, Column.pushData_ok c v h.1,
      Table.pushRowLoop_matches cs vs h.2, List.zipWith_cons_cons]

theorem Table.setRowLoop_writtenAt : ∀ (cols : List Column) (vals : List Variant) (idx : Nat),
    List.Forall₂ (Column.WrittenAt idx) cols (Table.setRowLoop cols vals idx).1
  | [], _, _ => by simp [Table.setRowLoop]
  | c :: cs, [], idx => by
    simp only [Table.setRowLoop]
    exact Column.WrittenAt.refl_list idx _
  | c :: cs, v :: vs, idx => by
    by_cases h : v.index = c.ktype.index
    · simp only [Table.setRowLoop, Column.setData_ok c v idx h]
      exact List.Forall₂.cons (Or.inr ⟨v, h, rfl⟩) (Table.setRowLoop_writtenAt cs vs idx)
    · simp only [Table.setRowLoop, Column.setData_error c v idx h]
      exact Column.WrittenAt.refl_list idx _

theorem Table.setRowLoop_fails : ∀ (cols : List Column) (vals : List Variant) (idx : Nat),
    vals.length = cols.length → rowMatches cols vals = false →
    ∃ e, (Table.setRowLoop cols vals idx).2 = some e
  | [], [], _, _, h => by simp [rowMatches] at h
  | [], _ :: _, _, hl, _ => by simp at hl
  | _ :: _, [], _, hl, _ => by simp at hl
  | c :: cs, v :: vs, idx, hl, h => by
    by_cases hv : v.index = c.ktype.index
    · simp only [rowMatches, hv, beq_self_eq_true, Bool.true_and] at h
      simp only [Table.setRowLoop, Column.setData_ok c v idx hv]
      exact Table.setRowLoop_fails cs vs idx (by simpa using hl) h
    · simp only [Table.setRowLoop, Column.setData_error c v idx hv]
      exact ⟨_, rfl⟩

theorem Table.pushRowLoop_fails : ∀ (cols : List Column) (vals : List Variant),
    vals.length = cols.length → rowMatches cols vals = false →
    ∃ e, (Table.pushRowLoop cols vals).2 = some e
  | [], [], _, h => by simp [rowMatches] at h
  | [], _ :: _, hl, _ => by simp at hl
  | _ :: _, [], hl, _ => by simp at hl
  | c :: cs, v :: vs, hl, h => by
    by_cases hv : v.index = c.ktype.index
    · simp only [rowMatches, hv, beq_self_eq_true, Bool.true_and] at h
      obtain ⟨e, he⟩ := Table.pushRowLoop_fails cs vs (by simpa using hl) h
      simp only [Table.pushRowLoop, Column.pushData_ok c v hv, he]
      exact ⟨_, rfl⟩
    · simp only [Table.pushRowLoop, Column.pushData_error c v hv]
      exact ⟨_, rfl⟩

theorem Column.popData_pushData (c : Column) (v : Variant) :
    ({ c with m_data_vec := c.m_data_vec ++ [v] } : Column).popData = c := by
  simp [Column.popData]

theorem Table.pushRowLoop_restore : ∀ (cols : List Column) (vals : List Variant) (e : Exn),
    (Table.pushRowLoop cols vals).2 = some e → (Table.pushRowLoop cols vals).1 = cols
  | [], _, _, _ => by simp [Table.pushRowLoop]
  | c :: cs, [], _, _ => by simp [Table.pushRowLoop]
  | c :: cs, v :: vs, e, h => by
    by_cases hv : v.index = c.ktype.index
    · simp only [Table.pushRowLoop, Column.pushData_ok c v hv] at h ⊢
      cases hin : (Table.pushRowLoop cs vs).2 with
      | none => simp [hin] at h
      | some e1 =>
        simp only [hin]
        rw [Column.popData_pushData, Table.pushRowLoop_restore cs vs e1 hin]
    · simp only [Table.pushRowLoop, Column.pushData_error c v hv]

/-- A row that fits the columns is written to the slot `nextSlot` and then entered into
`m_indices`. -/
theorem Table.insertRow_of_matches (t : Table) (vals : List Variant) (hc : t.m_columns ≠ [])
    (hm : rowMatches t.m_columns vals = true) :
    t.insertRow vals = (t.writeRow vals).insertIndex t.nextSlot := by
  have hl := rowMatches_length _ _ hm
  have hne : t.m_columns.isEmpty = false := by
    cases hcs : t.m_columns with
    | nil => exact absurd hcs hc
    | cons _ _ => rfl
  unfold Table.insertRow Table.writeRow Table.nextSlot
  simp only [hne, hl, bne_self_eq_false, Bool.or_self, Bool.false_eq_true, if_false]
  by_cases hf : t.m_free_space.isEmpty = true
  · simp only [hf, Bool.not_true, Bool.false_eq_true, if_false,
      Table.pushRowLoop_matches _ _ hm]
  · simp only [hf, Bool.not_false, if_true, Bool.not_eq_true] at *
    simp only [hf, Bool.not_false, if_true, Table.setRowLoop_matches _ _ _ hm]

/-- A row that does not fit the columns is rejected; the only trace it may leave is in cells
of the last free slot. -/
theorem Table.insertRow_of_not_matches (t : Table) (vals : List Variant)
    (hm : rowMatches t.m_columns vals = false) :
    ∃ cols, t.insertRow vals = ({ t with m_columns := cols }, INVALID_INDEX) ∧
      (cols = t.m_columns ∨ (t.m_free_space.isEmpty = false ∧
        List.Forall₂ (Column.WrittenAt t.nextSlot) t.m_columns cols)) := by
  unfold Table.insertRow
  by_cases h1 : (t.m_columns.isEmpty || vals.length != t.m_columns.length) = true
  · simp only [h1, if_true]
    exact ⟨t.m_columns, rfl, Or.inl rfl⟩
  · simp only [h1, Bool.false_eq_true, if_false]
    simp only [Bool.or_eq_true, bne_iff_ne, ne_eq, not_or, not_not] at h1
    by_cases hf : t.m_free_space.isEmpty = true
    · simp only [hf, Bool.not_true, Bool.false_eq_true, if_false]
      obtain ⟨e, he⟩ := Table.pushRowLoop_fails _ _ h1.2 hm
      have hr := Table.pushRowLoop_restore _ _ e he
      have hp : Table.pushRowLoop t.m_columns vals = (t.m_columns, some e) :=
        Prod.ext hr he
      rw [hp]
      exact ⟨t.m_columns, rfl, Or.inl rfl⟩
    · have hf2 : t.m_free_space.isEmpty = false := by simpa using hf
      simp only [hf2, Bool.not_false, if_true]
      obtain ⟨e, he⟩ := Table.setRowLoop_fails _ _ (t.m_free_space.getLastD 0) h1.2 hm
      have hp : Table.setRowLoop t.m_columns vals (t.m_free_space.getLastD 0) =
          ((Table.setRowLoop t.m_columns vals (t.m_free_space.getLastD 0)).1, some e) :=
        Prod.ext rfl he
      rw [hp]
      refine ⟨_, rfl, Or.inr ⟨by simp, ?_⟩⟩
      have hs : t.nextSlot = t.m_free_space.getLastD 0 := by
        simp [Table.nextSlot, hf2]
      rw [hs]
      exact Table.setRowLoop_writtenAt _ _ _

end km

namespace km

/-! ## insertRow: the state after the cell writes -/

theorem zipWith_getElem? {α β γ : Type} (f : α → β → γ) (xs : List α) (ys : List β)
    (hl : ys.length = xs.length) (k : Nat) (d : β) :
    (List.zipWith f xs ys)[k]? = (xs[k]?).map (fun x => f x (ys.getD k d)) := by
  rw [List.getElem?_zipWith]
  by_cases hk : k < xs.length
  · have hk2 : k < ys.length := by omega
    simp [List.getElem?_eq_getElem hk, List.getElem?_eq_getElem hk2]
  · simp [List.getElem?_eq_none (Nat.le_of_not_lt hk)]

theorem Table.cellAt_eq (t : Table) (k s : Nat) :
    t.cellAt k s = match t.m_columns[k]? with
      | some c => c.getData s
      | none => Variant.int32 0 := by
  simp [Table.cellAt]

theorem Table.getDataWC_eq_cellAt (t : Table) (r k : Nat) :
    t.getDataWC r k = t.cellAt k (t.m_indices.getD r 0) := rfl

theorem Table.nextSlot_mem (t : Table) (hf : t.m_free_space.isEmpty = false) :
    t.m_free_space = t.m_free_space.dropLast ++ [t.nextSlot] := by
  have hne : t.m_free_space ≠ [] := by
    intro h
    simp [h] at hf
  unfold Table.nextSlot
  simp only [hf, Bool.not_false, if_true, List.getLastD_eq_getLast?,
    List.getLast?_eq_getLast _ hne, Option.getD_some]
  exact (List.dropLast_concat_getLast hne).symm

theorem Table.writeRow_indices (t : Table) (vals : List Variant) :
    (t.writeRow vals).m_indices = t.m_indices := by
  unfold Table.writeRow
  split <;> rfl

theorem Table.writeRow_sorder (t : Table) (vals : List Variant) :
    (t.writeRow vals).m_sorder = t.m_sorder := by
  unfold Table.writeRow
  split <;> rfl

theorem Table.writeRow_no_sorting (t : Table) (vals : List Variant) :
    (t.writeRow vals).m_no_sorting = t.m_no_sorting := by
  unfold Table.writeRow
  split <;> rfl

theorem Table.writeRow_columns_length (t : Table) (vals : List Variant)
    (hm : rowMatches t.m_columns vals = true) :
    (t.writeRow vals).m_columns.length = t.m_columns.length := by
  have hl := rowMatches_length _ _ hm
  unfold Table.writeRow
  split <;> simp [hl]

/-- The slot lists before the row is written, in terms of the ones after it. -/
theorem Table.writeRow_slots (t : Table) (vals : List Variant) (hwf : t.WF) :
    (t.m_indices ++ t.m_free_space).Perm
        ((t.writeRow vals).m_indices ++ (t.writeRow vals).m_free_space) ∧
        t.nextSlot = t.capacity ∧ (t.writeRow vals).capacity = t.capacity ∨
    (t.m_indices ++ t.m_free_space).Perm
        (t.nextSlot :: ((t.writeRow vals).m_indices ++ (t.writeRow vals).m_free_space)) ∧
        (t.writeRow vals).capacity + 1 = t.capacity := by
  by_cases hf : t.m_free_space.isEmpty = true
  · left
    have he : t.m_free_space = [] := by simpa using hf
    unfold Table.writeRow Table.nextSlot Table.capacity
    simp [he]
  · right
    have hf2 : t.m_free_space.isEmpty = false := by simpa using hf
    have hsplit := t.nextSlot_mem hf2
    have hfree : (t.writeRow vals).m_free_space = t.m_free_space.dropLast := by
      unfold Table.writeRow
      simp [hf2]
    rw [t.writeRow_indices, Table.capacity, t.writeRow_indices, hfree]
    constructor
    · conv_lhs => rw [hsplit]
      rw [← List.append_assoc]
      exact List.perm_append_singleton _ _
    · unfold Table.capacity
      conv_rhs => rw [hsplit]
      simp
      omega

theorem Table.writeRow_slot_fresh (t : Table) (vals : List Variant) (hwf : t.WF) :
    (t.nextSlot :: ((t.writeRow vals).m_indices ++ (t.writeRow vals).m_free_space)).Nodup ∧
    (∀ s ∈ t.nextSlot :: ((t.writeRow vals).m_indices ++ (t.writeRow vals).m_free_space),
      s < (t.writeRow vals).capacity + 1) := by
  rcases t.writeRow_slots vals hwf with ⟨hp, hs, hc⟩ | ⟨hp, hc⟩
  · constructor
    · rw [List.nodup_cons]
      refine ⟨fun hmem => ?_, hp.nodup_iff.1 hwf.nodup⟩
      have := hwf.bound _ (hp.mem_iff.2 hmem)
      omega
    · intro s hs1
      rcases List.mem_cons.1 hs1 with rfl | hs1
      · omega
      · have := hwf.bound _ (hp.mem_iff.2 hs1)
        omega
  · constructor
    · exact hp.nodup_iff.1 hwf.nodup
    · intro s hs1
      have := hwf.bound _ (hp.mem_iff.2 hs1)
      omega

theorem Table.nextSlot_lt (t : Table) (hwf : t.WF) (hf : t.m_free_space.isEmpty = false) :
    t.nextSlot < t.capacity := by
  apply hwf.bound
  rw [List.mem_append]
  right
  rw [t.nextSlot_mem hf]
  simp

theorem Table.nextSlot_eq (t : Table) (hf : t.m_free_space.isEmpty = true) :
    t.nextSlot = t.capacity := by
  have he : t.m_free_space = [] := by simpa using hf
  simp [Table.nextSlot, Table.capacity, he]

theorem Table.writeRow_column (t : Table) (vals : List Variant) (hwf : t.WF)
    (hm : rowMatches t.m_columns vals = true) (k : Nat) :
    (t.writeRow vals).m_columns[k]? = (t.m_columns[k]?).map (fun c =>
      if t.m_free_space.isEmpty then
        { c with m_data_vec := c.m_data_vec ++ [vals.getD k (Variant.int32 0)] }
      else
        { c with m_data_vec := c.m_data_vec.set t.nextSlot (vals.getD k (Variant.int32 0)) }) := by
  have hl := rowMatches_length _ _ hm
  by_cases hf : t.m_free_space.isEmpty = true
  · unfold Table.writeRow
    simp only [hf, Bool.not_true, Bool.false_eq_true, if_false, if_true]
    rw [zipWith_getElem? _ _ _ hl k (Variant.int32 0)]
  · have hf2 : t.m_free_space.isEmpty = false := by simpa using hf
    unfold Table.writeRow Table.nextSlot
    simp only [hf2, Bool.not_false, if_true, Bool.false_eq_true, if_false]
    rw [zipWith_getElem? _ _ _ hl k (Variant.int32 0)]

theorem rowMatches_getD : ∀ (cols : List Column) (vals : List Variant),
    rowMatches cols vals = true → ∀ (k : Nat) (c : Column), cols[k]? = some c →
      (vals.getD k (Variant.int32 0)).index = c.ktype.index
  | [], [], _, k, c, hc => by simp at hc
  | [], _ :: _, h, _, _, _ => by simp [rowMatches] at h
  | _ :: _, [], h, _, _, _ => by simp [rowMatches] at h
  | c0 :: cs, v :: vs, h, k, c, hc => by
    simp only [rowMatches, Bool.and_eq_true, beq_iff_eq] at h
    cases k with
    | zero =>
      simp only [List.getElem?_cons_zero, Option.some.injEq] at hc
      subst hc
      simpa using h.1
    | succ k =>
      simp only [List.getElem?_cons_succ] at hc
      have := rowMatches_getD cs vs h.2 k c hc
      simpa using this

theorem Table.writeRow_cap_typed (t : Table) (vals : List Variant) (hwf : t.WF)
    (hm : rowMatches t.m_columns vals = true) :
    (∀ c ∈ (t.writeRow vals).m_columns, c.m_data_vec.length = (t.writeRow vals).capacity + 1) ∧
    (∀ c ∈ (t.writeRow vals).m_columns, c.Typed) := by
  have key : ∀ c ∈ (t.writeRow vals).m_columns,
      c.m_data_vec.length = (t.writeRow vals).capacity + 1 ∧ c.Typed := by
    intro c1 hc1
    obtain ⟨k, hk, rfl⟩ := List.mem_iff_getElem.1 hc1
    have hget := t.writeRow_column vals hwf hm k
    rw [List.getElem?_eq_getElem hk] at hget
    cases hck : t.m_columns[k]? with
    | none => simp [hck] at hget
    | some c =>
      rw [hck] at hget
      simp only [Option.map_some', Option.some.injEq] at hget
      have hcmem : c ∈ t.m_columns := List.getElem?_mem hck
      have hcap := hwf.cap c hcmem
      have hty := hwf.typed c hcmem
      have hv := rowMatches_getD _ _ hm k c hck
      by_cases hf : t.m_free_space.isEmpty = true
      · simp only [hf, if_true] at hget
        rw [hget]
        rcases t.writeRow_slots vals hwf with ⟨_, _, hc⟩ | ⟨_, hc⟩
        · refine ⟨by simp [hcap, hc], ?_⟩
          intro v hvmem
          simp only [List.mem_append, List.mem_singleton] at hvmem
          rcases hvmem with hvmem | rfl
          · exact hty v hvmem
          · exact hv
        · have he : t.m_free_space = [] := by simpa using hf
          have h1 : (t.writeRow vals).capacity = t.capacity := by
            unfold Table.writeRow Table.capacity
            simp [he]
          omega
      · have hf2 : t.m_free_space.isEmpty = false := by simpa using hf
        simp only [hf2, Bool.false_eq_true, if_false] at hget
        rw [hget]
        rcases t.writeRow_slots vals hwf with ⟨_, hs, _⟩ | ⟨_, hc⟩
        · have := t.nextSlot_lt hwf hf2
          omega
        · refine ⟨by simp [hcap, hc], ?_⟩
          intro v hvmem
          rcases List.mem_or_eq_of_mem_set hvmem with hvmem | rfl
          · exact hty v hvmem
          · exact hv
  exact ⟨fun c hc => (key c hc).1, fun c hc => (key c hc).2⟩

theorem Table.writeRow_cellAt_ne (t : Table) (vals : List Variant) (hwf : t.WF)
    (hm : rowMatches t.m_columns vals = true) (k s : Nat) (hs : s ≠ t.nextSlot) :
    (t.writeRow vals).cellAt k s = t.cellAt k s := by
  rw [Table.cellAt_eq, Table.cellAt_eq, t.writeRow_column vals hwf hm k]
  cases hck : t.m_columns[k]? with
  | none => simp
  | some c =>
    have hcap := hwf.cap c (List.getElem?_mem hck)
    simp only [Option.map_some']
    by_cases hf : t.m_free_space.isEmpty = true
    · simp only [hf, if_true, Column.getData]
      have hslot := t.nextSlot_eq hf
      by_cases hlt : s < c.m_data_vec.length
      · rw [List.getD_eq_getElem _ _ (by simp; omega), List.getD_eq_getElem _ _ hlt,
          List.getElem_append_left hlt]
      · rw [List.getD_eq_default _ _ (by simp; omega), List.getD_eq_default _ _ (by omega)]
    · have hf2 : t.m_free_space.isEmpty = false := by simpa using hf
      simp only [hf2, Bool.false_eq_true, if_false, Column.getData]
      simp only [List.getD_eq_getElem?_getD]
      rw [List.getElem?_set_ne (Ne.symm hs)]

theorem Table.writeRow_cellAt_slot (t : Table) (vals : List Variant) (hwf : t.WF)
    (hm : rowMatches t.m_columns vals = true) (k : Nat) (hk : k < t.m_columns.length) :
    (t.writeRow vals).cellAt k t.nextSlot = vals.getD k (Variant.int32 0) := by
  rw [Table.cellAt_eq, t.writeRow_column vals hwf hm k, List.getElem?_eq_getElem hk]
  have hcap := hwf.cap _ (List.getElem_mem hk)
  simp only [Option.map_some']
  by_cases hf : t.m_free_space.isEmpty = true
  · simp only [hf, if_true, Column.getData]
    have hslot := t.nextSlot_eq hf
    rw [List.getD_eq_getElem _ _ (by simp; omega)]
    rw [List.getElem_append_right (by omega)]
    simp
  · have hf2 : t.m_free_space.isEmpty = false := by simpa using hf
    have hlt := t.nextSlot_lt hwf hf2
    simp only [hf2, Bool.false_eq_true, if_false, Column.getData]
    rw [List.getD_eq_getElem _ _ (by simp; omega)]
    simp

end km

namespace km

/-! ## insertRow: entering the slot into the logical order -/

theorem vectorInsert_perm (xs : List Nat) (pos value : Nat) :
    (vectorInsert xs pos value).Perm (value :: xs) := by
  unfold vectorInsert
  have h := @List.perm_middle Nat value (xs.take pos) (xs.drop pos)
  rwa [List.take_append_drop] at h

theorem vectorInsert_length (xs : List Nat) (pos value : Nat) :
    (vectorInsert xs pos value).length = xs.length + 1 :=
  (vectorInsert_perm xs pos value).length_eq

theorem vectorInsert_getD_lt (xs : List Nat) (pos value i : Nat) (hp : pos ≤ xs.length)
    (hi : i < pos) : (vectorInsert xs pos value).getD i 0 = xs.getD i 0 := by
  unfold vectorInsert
  simp only [List.getD_eq_getElem?_getD]
  rw [List.getElem?_append_left (by simp; omega), List.getElem?_take_of_lt hi]

theorem vectorInsert_getD_eq (xs : List Nat) (pos value : Nat) (hp : pos ≤ xs.length) :
    (vectorInsert xs pos value).getD pos 0 = value := by
  unfold vectorInsert
  simp only [List.getD_eq_getElem?_getD]
  rw [List.getElem?_append_right (by simp)]
  simp [Nat.min_eq_left hp]

theorem vectorInsert_getD_gt (xs : List Nat) (pos value i : Nat) (hp : pos ≤ xs.length)
    (hi : pos < i) : (vectorInsert xs pos value).getD i 0 = xs.getD (i - 1) 0 := by
  unfold vectorInsert
  simp only [List.getD_eq_getElem?_getD]
  rw [List.getElem?_append_right (by simp; omega)]
  simp only [List.length_take, Nat.min_eq_left hp]
  obtain ⟨j, rfl⟩ : ∃ j, i = pos + 1 + j := ⟨i - pos - 1, by omega⟩
  have e1 : pos + 1 + j - pos = j + 1 := by omega
  have e2 : pos + 1 + j - 1 = pos + j := by omega
  rw [e1, e2, List.getElem?_cons_succ, List.getElem?_drop]

theorem Table.baseCompare_congr (t t1 : Table) (hc : t1.m_columns = t.m_columns)
    (ho : t1.m_sorder = t.m_sorder) : t1.baseCompare = t.baseCompare := by
  funext a b
  simp [Table.baseCompare, Table.m_comparator, hc, ho]

theorem Table.baseCompare_eq_cellAt (t : Table) (a b : Nat) :
    t.baseCompare a b =
      if t.m_columns.length = 0 then false
      else if t.m_sorder = SortingOrder.ASCENDING then
        Variant.less (t.cellAt 0 a) (t.cellAt 0 b)
      else Variant.greater (t.cellAt 0 a) (t.cellAt 0 b) := by
  cases hc : t.m_columns with
  | nil => simp [Table.baseCompare, hc]
  | cons c cs =>
    by_cases ho : t.m_sorder = SortingOrder.ASCENDING <;>
      simp [Table.baseCompare, Table.m_comparator, Table.cellAt, hc, ho, Column.isLess,
        Column.isGreater]

theorem Table.insertIndex_columns (t : Table) (slot : Nat) :
    (t.insertIndex slot).1.m_columns = t.m_columns ∧
    (t.insertIndex slot).1.m_free_space = t.m_free_space ∧
    (t.insertIndex slot).1.m_sorder = t.m_sorder ∧
    (t.insertIndex slot).1.m_no_sorting = t.m_no_sorting ∧
    (t.insertIndex slot).1.m_mfst = t.m_mfst := by
  unfold Table.insertIndex
  split <;> simp

theorem Table.insertIndex_perm (t : Table) (slot : Nat) :
    (t.insertIndex slot).1.m_indices.Perm (slot :: t.m_indices) := by
  unfold Table.insertIndex
  split
  · exact vectorInsert_perm _ _ _
  · exact List.perm_append_singleton _ _

theorem Table.cellAt_congr (t t1 : Table) (hc : t1.m_columns = t.m_columns) (k s : Nat) :
    t1.cellAt k s = t.cellAt k s := by
  simp [Table.cellAt, hc]

/-- Inserting a row that fits the columns keeps the representation invariant. -/
theorem Table.insertRow_wf (t : Table) (vals : List Variant) (hwf : t.WF)
    (hc : t.m_columns ≠ []) (hm : rowMatches t.m_columns vals = true) :
    (t.insertRow vals).1.WF := by
  rw [t.insertRow_of_matches vals hc hm]
  obtain ⟨hcol, hfree, _, _, _⟩ := (t.writeRow vals).insertIndex_columns t.nextSlot
  have hperm := (t.writeRow vals).insertIndex_perm t.nextSlot
  obtain ⟨hnd, hbd⟩ := t.writeRow_slot_fresh vals hwf
  obtain ⟨hcap, hty⟩ := t.writeRow_cap_typed vals hwf hm
  have hperm2 : (((t.writeRow vals).insertIndex t.nextSlot).1.m_indices ++
      ((t.writeRow vals).insertIndex t.nextSlot).1.m_free_space).Perm
      (t.nextSlot :: ((t.writeRow vals).m_indices ++ (t.writeRow vals).m_free_space)) := by
    rw [hfree]
    exact (hperm.append_right _)
  have hcapeq : ((t.writeRow vals).insertIndex t.nextSlot).1.capacity =
      (t.writeRow vals).capacity + 1 := by
    unfold Table.capacity
    rw [hfree, hperm.length_eq]
    simp
    omega
  refine ⟨hperm2.nodup_iff.2 hnd, ?_, ?_, ?_⟩
  · intro s hs
    rw [hcapeq]
    exact hbd s (hperm2.mem_iff.1 hs)
  · intro c hcm
    rw [hcol] at hcm
    rw [hcapeq]
    exact hcap c hcm
  · intro c hcm
    rw [hcol] at hcm
    exact hty c hcm

/-- With sorting not paused, the slot list after the insertion is the old one with the new
slot placed by `std::upper_bound`. -/
theorem Table.insertRow_indices (t : Table) (vals : List Variant)
    (hc : t.m_columns ≠ []) (hm : rowMatches t.m_columns vals = true)
    (hp : t.m_no_sorting = false) :
    (t.insertRow vals).1.m_indices =
      vectorInsert t.m_indices (t.insertRow vals).2 t.nextSlot ∧
    (t.insertRow vals).2 =
      upper_bound t.m_indices (fun mid => (t.writeRow vals).baseCompare t.nextSlot mid) := by
  rw [t.insertRow_of_matches vals hc hm]
  unfold Table.insertIndex Table.isSortingPaused
  simp [t.writeRow_no_sorting, hp, t.writeRow_indices]

/-- The comparison of the key column on live slots is not changed by the cell writes. -/
theorem Table.writeRow_baseCompare (t : Table) (vals : List Variant) (hwf : t.WF)
    (hm : rowMatches t.m_columns vals = true) (a b : Nat) (ha : a ≠ t.nextSlot)
    (hb : b ≠ t.nextSlot) : (t.writeRow vals).baseCompare a b = t.baseCompare a b := by
  rw [Table.baseCompare_eq_cellAt, Table.baseCompare_eq_cellAt, t.writeRow_sorder,
    t.writeRow_columns_length vals hm, t.writeRow_cellAt_ne vals hwf hm 0 a ha,
    t.writeRow_cellAt_ne vals hwf hm 0 b hb]

theorem Table.nextSlot_not_mem (t : Table) (vals : List Variant) (hwf : t.WF) :
    t.nextSlot ∉ t.m_indices := by
  have h := (t.writeRow_slot_fresh vals hwf).1
  rw [List.nodup_cons, t.writeRow_indices] at h
  intro hmem
  exact h.1 (List.mem_append_left _ hmem)

theorem Table.writeRow_idxSorted (t : Table) (vals : List Variant) (hwf : t.WF)
    (hm : rowMatches t.m_columns vals = true) (hs : t.IdxSorted) :
    t.m_indices.Pairwise (fun a b => (t.writeRow vals).baseCompare b a = false) := by
  have hfresh := t.nextSlot_not_mem vals hwf
  refine List.Pairwise.imp_of_mem ?_ hs
  intro a b ha hb hab
  rw [t.writeRow_baseCompare vals hwf hm b a (fun h => hfresh (h ▸ hb))
    (fun h => hfresh (h ▸ ha))]
  exact hab

/-- Sorted insertion keeps the slot list sorted. -/
theorem Table.insertRow_idxSorted (t : Table) (vals : List Variant) (hwf : t.WF)
    (hc : t.m_columns ≠ []) (hm : rowMatches t.m_columns vals = true)
    (hp : t.m_no_sorting = false) (hs : t.IdxSorted) : (t.insertRow vals).1.IdxSorted := by
  obtain ⟨hidx, hpos⟩ := t.insertRow_indices vals hc hm hp
  have hcols : (t.insertRow vals).1.m_columns = (t.writeRow vals).m_columns := by
    rw [t.insertRow_of_matches vals hc hm]
    exact ((t.writeRow vals).insertIndex_columns t.nextSlot).1
  have hord : (t.insertRow vals).1.m_sorder = (t.writeRow vals).m_sorder := by
    rw [t.insertRow_of_matches vals hc hm]
    exact ((t.writeRow vals).insertIndex_columns t.nextSlot).2.2.1
  unfold Table.IdxSorted
  rw [Table.baseCompare_congr _ _ hcols hord, hidx, hpos]
  exact upper_bound_insert_sorted
    ((t.writeRow vals).baseCompare_strictWeak (t.writeRow_cap_typed vals hwf hm).2)
    t.m_indices t.nextSlot (t.writeRow_idxSorted vals hwf hm hs)

/-- A row that is accepted fits the columns, and the table has columns. -/
theorem Table.insertRow_accepts (t : Table) (vals : List Variant)
    (h : (t.insertRow vals).2 ≠ INVALID_INDEX) :
    t.m_columns ≠ [] ∧ rowMatches t.m_columns vals = true := by
  constructor
  · intro hc
    apply h
    simp [Table.insertRow, hc]
  · cases hm : rowMatches t.m_columns vals
    · obtain ⟨cols, he, _⟩ := t.insertRow_of_not_matches vals hm
      rw [he] at h
      exact absurd rfl h
    · rfl

end km

namespace km

/-! ## freeSpace and dropRow -/

theorem Table.freeSpaceFill_ok (c : Column) (hc : c.Typed) :
    ∀ (idxs : List Nat) (tmp : Column), tmp.ktype = c.ktype →
      Table.freeSpaceFill c tmp idxs =
        .ok { tmp with m_data_vec := tmp.m_data_vec ++ idxs.map c.getData }
  | [], tmp, _ => by simp [Table.freeSpaceFill]
  | i :: rest, tmp, hk => by
    have hi : (c.getData i).index = tmp.ktype.index := by
      rw [hk]
      exact c.getData_index hc i
    simp only [Table.freeSpaceFill, Column.pushData_ok tmp _ hi]
    rw [Table.freeSpaceFill_ok c hc rest
      { tmp with m_data_vec := tmp.m_data_vec ++ [c.getData i] } hk]
    simp

theorem Table.freeSpaceColumns_ok (idxs : List Nat) :
    ∀ cols : List Column, (∀ c ∈ cols, c.Typed) →
      Table.freeSpaceColumns idxs cols = .ok (cols.map (fun c => c.compacted idxs))
  | [], _ => rfl
  | c :: rest, h => by
    have hc : c.Typed := h c (by simp)
    have hr := Table.freeSpaceColumns_ok idxs rest (fun c1 h1 => h c1 (by simp [h1]))
    simp only [Table.freeSpaceColumns, hr]
    rw [Table.freeSpaceFill_ok c hc idxs ((c.getSameTypeColumn c.getName).reserve idxs.length) rfl]
    simp [Column.compacted, Column.reserve, Column.getSameTypeColumn, Column.mk0]

/-- On typed columns no push in `freeSpace` throws, and the result is the compacted table. -/
theorem Table.freeSpace_ok (t : Table) (h : ∀ c ∈ t.m_columns, c.Typed) :
    t.freeSpace = .ok t.compacted := by
  unfold Table.freeSpace
  rw [Table.freeSpaceColumns_ok _ _ h]
  rfl

theorem Column.compacted_cell (c : Column) (idxs : List Nat) (j : Nat)
    (hj : j < idxs.length) : (c.compacted idxs).getData j = c.getData (idxs.getD j 0) := by
  simp only [Column.compacted, Column.getData, Column.getSameTypeColumn, Column.mk0]
  rw [List.getD_eq_getElem _ _ (by simpa using hj), List.getD_eq_getElem idxs 0 hj]
  simp [Column.getData]

theorem Column.compacted_typed (c : Column) (hc : c.Typed) (idxs : List Nat) :
    (c.compacted idxs).Typed := by
  intro v hv
  simp only [Column.compacted, List.mem_map] at hv
  obtain ⟨i, _, rfl⟩ := hv
  exact c.getData_index hc i

theorem Table.compacted_cellAt (t : Table) (k j : Nat) (hj : j < t.rowCount) :
    t.compacted.cellAt k j = t.cellAt k (t.m_indices.getD j 0) := by
  rw [Table.cellAt_eq, Table.cellAt_eq]
  simp only [Table.compacted, List.getElem?_map]
  cases t.m_columns[k]? with
  | none => rfl
  | some c =>
    simp only [Option.map_some']
    exact c.compacted_cell _ _ hj

/-- Compaction does not change what a logical cell reads. -/
theorem Table.compacted_getDataWC (t : Table) (r k : Nat) (hr : r < t.rowCount) :
    t.compacted.getDataWC r k = t.getDataWC r k := by
  rw [Table.getDataWC_eq_cellAt, Table.getDataWC_eq_cellAt]
  have e : t.compacted.m_indices.getD r 0 = r := by
    simp only [Table.compacted]
    rw [List.getD_eq_getElem _ _ (by simpa using hr)]
    simp
  rw [e]
  exact t.compacted_cellAt k r hr

theorem Table.compacted_getData (t : Table) (r k : Nat) :
    t.compacted.getData r k = t.getData r k := by
  unfold Table.getData
  have e1 : t.compacted.rowCount = t.rowCount := by simp [Table.compacted, Table.rowCount]
  have e2 : t.compacted.columnCount = t.columnCount := by
    simp [Table.compacted, Table.columnCount]
  rw [e1, e2]
  by_cases h : r ≥ t.rowCount ∨ k ≥ t.columnCount
  · simp [h]
  · simp only [h, if_false]
    rw [t.compacted_getDataWC r k (by omega)]

theorem Table.compacted_wf (t : Table) (h : ∀ c ∈ t.m_columns, c.Typed) : t.compacted.WF := by
  refine ⟨?_, ?_, ?_, ?_⟩
  · simp [Table.compacted, List.nodup_range]
  · intro s hs
    simpa [Table.compacted, Table.capacity] using hs
  · intro c hc
    simp only [Table.compacted, List.mem_map] at hc
    obtain ⟨c0, _, rfl⟩ := hc
    simp [Table.compacted, Table.capacity, Column.compacted, Table.rowCount]
  · intro c hc
    simp only [Table.compacted, List.mem_map] at hc
    obtain ⟨c0, hc0, rfl⟩ := hc
    exact c0.compacted_typed (h c0 hc0) _

theorem Table.compacted_sorted (t : Table) (hs : t.Sorted) : t.compacted.Sorted := by
  intro i hi
  have e1 : t.compacted.rowCount = t.rowCount := by simp [Table.compacted, Table.rowCount]
  rw [e1] at hi
  rw [t.compacted_getDataWC i 0 (by omega), t.compacted_getDataWC (i + 1) 0 (by omega)]
  exact hs i hi

theorem Table.released_perm (t : Table) (i : Nat) (hi : i < t.rowCount) :
    ((t.released i).m_indices ++ (t.released i).m_free_space).Perm
      (t.m_indices ++ t.m_free_space) := by
  unfold Table.rowCount at hi
  simp only [Table.released]
  rw [List.getD_eq_getElem _ _ hi]
  have h1 : (t.m_indices.eraseIdx i ++ (t.m_free_space ++ [t.m_indices[i]])).Perm
      (t.m_indices[i] :: (t.m_indices.eraseIdx i ++ t.m_free_space)) := by
    rw [← List.append_assoc]
    exact List.perm_append_singleton _ _
  refine h1.trans ?_
  rw [← List.cons_append]
  refine List.Perm.append_right _ ?_
  rw [List.eraseIdx_eq_take_drop_succ]
  have h2 := @List.perm_middle Nat t.m_indices[i] (t.m_indices.take i)
    (t.m_indices.drop (i + 1))
  refine h2.symm.trans ?_
  rw [← List.drop_eq_getElem_cons hi, List.take_append_drop]

theorem Table.released_wf (t : Table) (hwf : t.WF) (i : Nat) (hi : i < t.rowCount) :
    (t.released i).WF := by
  have hp := t.released_perm i hi
  have hcap : (t.released i).capacity = t.capacity := by
    unfold Table.capacity
    have := hp.length_eq
    simp only [List.length_append] at this
    exact this
  refine ⟨hp.nodup_iff.2 hwf.nodup, ?_, ?_, ?_⟩
  · intro s hs
    rw [hcap]
    exact hwf.bound s (hp.mem_iff.1 hs)
  · intro c hc
    rw [hcap]
    exact hwf.cap c hc
  · exact hwf.typed

theorem Table.released_getDataWC (t : Table) (i j k : Nat) :
    (t.released i).getDataWC j k = t.getDataWC (if j < i then j else j + 1) k := by
  rw [Table.getDataWC_eq_cellAt, Table.getDataWC_eq_cellAt]
  have e : (t.released i).m_indices.getD j 0 = t.m_indices.getD (if j < i then j else j + 1) 0 := by
    simp only [Table.released, List.getD_eq_getElem?_getD, List.getElem?_eraseIdx]
    split <;> rfl
  rw [e]
  exact Table.cellAt_congr _ _ rfl _ _

theorem Table.released_rowCount (t : Table) (i : Nat) (hi : i < t.rowCount) :
    (t.released i).rowCount + 1 = t.rowCount := by
  unfold Table.rowCount at *
  simp only [Table.released, List.length_eraseIdx, hi, if_true]
  omega

theorem Table.released_idxSorted (t : Table) (i : Nat) (hs : t.IdxSorted) :
    (t.released i).IdxSorted := by
  unfold Table.IdxSorted at *
  rw [Table.baseCompare_congr t (t.released i) rfl rfl]
  exact hs.sublist (List.eraseIdx_sublist _ _)

/-- Closed form of `dropRow` on a table with typed columns. -/
theorem Table.dropRow_eq (t : Table) (h : ∀ c ∈ t.m_columns, c.Typed) (i : Nat) :
    t.dropRow i =
      .ok (if i ≥ t.rowCount then (t, false)
        else if t.m_mfst ≤ t.m_free_space.length + 1 then ((t.released i).compacted, true)
        else (t.released i, true)) := by
  unfold Table.dropRow
  by_cases hi : i ≥ t.rowCount
  · simp [hi]
  · simp only [hi, if_false]
    have e : (t.released i).freeSpace = .ok (t.released i).compacted :=
      Table.freeSpace_ok _ h
    by_cases hm : t.m_mfst ≤ t.m_free_space.length + 1
    · simp only [List.length_append, List.length_singleton, hm, if_true]
      change (match (t.released i).freeSpace with
        | .ok t2 => Except.ok (t2, true)
        | .error e => Except.error e) = _
      rw [e]
    · simp only [List.length_append, List.length_singleton, hm, if_false]
      rfl

end km

namespace km

/-! ## setData, sort and resumeSorting -/

theorem Table.sorted_congr (t t1 : Table) (hi : t1.m_indices = t.m_indices)
    (ho : t1.m_sorder = t.m_sorder) (hc : t1.m_columns[0]? = t.m_columns[0]?) :
    t1.Sorted ↔ t.Sorted := by
  have hcell : ∀ s, t1.cellAt 0 s = t.cellAt 0 s := by
    intro s
    rw [Table.cellAt_eq, Table.cellAt_eq, hc]
  unfold Table.Sorted Table.rowCount Table.keyOrdered
  simp only [Table.getDataWC_eq_cellAt, hi, ho, hcell]

theorem Table.sort_idxSorted (t : Table) (h : ∀ c ∈ t.m_columns, c.Typed) :
    t.sort.IdxSorted := by
  unfold Table.IdxSorted
  rw [Table.baseCompare_congr t t.sort rfl rfl]
  exact stable_sort_sorted (t.baseCompare_strictWeak h) _

theorem Table.sort_sorted (t : Table) (h : ∀ c ∈ t.m_columns, c.Typed) : t.sort.Sorted :=
  (t.sort.sorted_iff_idxSorted h).2 (t.sort_idxSorted h)

theorem Table.sort_of_sorted (t : Table) (h : ∀ c ∈ t.m_columns, c.Typed) (hs : t.Sorted) :
    t.sort = t := by
  have := stable_sort_of_sorted t.baseCompare t.m_indices ((t.sorted_iff_idxSorted h).1 hs)
  unfold Table.sort
  rw [this]

theorem Table.resumeSorting_sorted (t : Table) (h : ∀ c ∈ t.m_columns, c.Typed)
    (hs : t.m_no_sorting = true ∨ t.Sorted) : t.resumeSorting.Sorted := by
  unfold Table.resumeSorting Table.isSortingPaused
  by_cases hp : t.m_no_sorting = true
  · simp only [hp, if_true]
    have h1 := Table.sort_sorted { t with m_process_event := true } h
    exact (Table.sorted_congr _ _ rfl rfl rfl).2 h1
  · simp only [hp, Bool.false_eq_true, if_false]
    exact hs.resolve_left hp

theorem Table.setData_reject (t : Table) (r c : Nat) (v : Variant)
    (h : c = 0 ∨ r ≥ t.rowCount ∨ c ≥ t.columnCount ∨
      ∃ col, t.m_columns[c]? = some col ∧ dataTypeOf v ≠ col.getDataType) :
    t.setData r c v = .ok (t, false) := by
  unfold Table.setData
  by_cases h1 : c = 0 ∨ r ≥ t.rowCount ∨ c ≥ t.columnCount
  · simp [h1]
  · simp only [h1, if_false]
    have h2 : ∃ col, t.m_columns[c]? = some col ∧ dataTypeOf v ≠ col.getDataType := by
      rcases h with h | h | h | h
      · exact absurd (Or.inl h) h1
      · exact absurd (Or.inr (Or.inl h)) h1
      · exact absurd (Or.inr (Or.inr h)) h1
      · exact h
    obtain ⟨col, hcol, hv⟩ := h2
    simp only [List.get?_eq_getElem?, hcol]
    have : (1 <<< v.index) ≠ col.getDataType := hv
    simp [this]

theorem Table.setData_accept (t : Table) (r c : Nat) (v : Variant) (col : Column)
    (hc0 : c ≠ 0) (hr : r < t.rowCount) (hcol : t.m_columns[c]? = some col)
    (hv : dataTypeOf v = col.getDataType) :
    t.setData r c v = .ok ({ t with m_columns := (t.m_columns.set c
      ({ col with m_data_vec := col.m_data_vec.set (t.m_indices.getD r 0) v } : Column)) },
      true) := by
  have hc : c < t.columnCount := by
    obtain ⟨h, _⟩ := List.getElem?_eq_some.1 hcol
    exact h
  have h1 : ¬ (c = 0 ∨ r ≥ t.rowCount ∨ c ≥ t.columnCount) := by omega
  have hv2 : (1 <<< v.index) = col.getDataType := hv
  have hidx : v.index = col.ktype.index := (dataType_eq_iff v col.ktype).1 hv2
  unfold Table.setData Table.setDataWC
  simp only [h1, if_false, List.get?_eq_getElem?, hcol, hv2, ne_eq, not_true_eq_false,
    Column.setData_ok col v _ hidx]

theorem Table.setData_cellAt (t : Table) (c slot : Nat) (v : Variant) (col : Column)
    (hcol : t.m_columns[c]? = some col) (hslot : slot < col.m_data_vec.length) (k s : Nat) :
    ({ t with m_columns := (t.m_columns.set c
        ({ col with m_data_vec := col.m_data_vec.set slot v } : Column)) } : Table).cellAt k s =
      if k = c ∧ s = slot then v else t.cellAt k s := by
  rw [Table.cellAt_eq, Table.cellAt_eq]
  simp only [List.getElem?_set]
  have hc : c < t.m_columns.length := (List.getElem?_eq_some.1 hcol).1
  by_cases hk : c = k
  · subst hk
    simp only [hc, if_true, true_and, hcol, Column.getData, List.getD_eq_getElem?_getD,
      List.getElem?_set]
    by_cases hs : slot = s
    · subst hs
      simp [hslot]
    · have hs2 : ¬ s = slot := fun h => hs h.symm
      simp [hs, hs2]
  · have hk2 : ¬ k = c := fun h => hk h.symm
    simp [hk, hk2]

end km

namespace km

/-! ## Adding and transforming columns -/

theorem isValidDataType_iff (dt : DataType) :
    isValidDataType dt = true ↔ ∃ T : KType, dt = dataTypeFor T := by
  constructor
  · intro h
    unfold isValidDataType indexForDataType at h
    simp only [indexForDataTypeLoop, INVALID_INDEX] at h
    by_cases h0 : dt = 1
    · exact ⟨.KInt32, h0⟩
    by_cases h1 : dt = 2
    · exact ⟨.KInt64, h1⟩
    by_cases h2 : dt = 4
    · exact ⟨.KFloat32, h2⟩
    by_cases h3 : dt = 8
    · exact ⟨.KFloat64, h3⟩
    by_cases h4 : dt = 16
    · exact ⟨.KString, h4⟩
    by_cases h5 : dt = 32
    · exact ⟨.KBoolean, h5⟩
    by_cases h6 : dt = 64
    · exact ⟨.KDate, h6⟩
    by_cases h7 : dt = 128
    · exact ⟨.KDateTime, h7⟩
    exfalso
    have e0 : ¬ (1 = dt) := fun e => h0 e.symm
    have e1 : ¬ (2 = dt) := fun e => h1 e.symm
    have e2 : ¬ (4 = dt) := fun e => h2 e.symm
    have e3 : ¬ (8 = dt) := fun e => h3 e.symm
    have e4 : ¬ (16 = dt) := fun e => h4 e.symm
    have e5 : ¬ (32 = dt) := fun e => h5 e.symm
    have e6 : ¬ (64 = dt) := fun e => h6 e.symm
    have e7 : ¬ (128 = dt) := fun e => h7 e.symm
    simp [e0, e1, e2, e3, e4, e5, e6, e7] at h
  · rintro ⟨T, rfl⟩
    cases T <;> decide

theorem createColumn_dataTypeFor (T : KType) (n d : String) :
    createColumn n d (dataTypeFor T) = some (Column.mk0 T n d) := by
  cases T <;> simp [createColumn, dataTypeFor, DataType.INT32, DataType.INT64, DataType.FLOAT32,
    DataType.FLOAT64, DataType.STRING, DataType.BOOLEAN, DataType.DATE, DataType.DATE_TIME]

theorem createColumn_typed (n d : String) (dt : DataType) (c : Column)
    (h : createColumn n d dt = some c) : c.Typed ∧ c.m_data_vec = [] ∧ dataTypeFor c.ktype = dt := by
  unfold createColumn at h
  split_ifs at h with h0 h1 h2 h3 h4 h5 h6 h7 <;>
    simp only [Option.some.injEq, reduceCtorEq] at h <;> subst h <;>
    refine ⟨fun v hv => by simp [Column.mk0] at hv, rfl, ?_⟩ <;>
    simp only [Column.mk0, dataTypeFor] <;> (symm; assumption)

theorem Column.resize_typed (c : Column) (h : c.Typed) (n : Nat) :
    (c.resize n).Typed ∧ (c.resize n).m_data_vec.length = n ∧ (c.resize n).ktype = c.ktype := by
  refine ⟨?_, ?_, rfl⟩
  · intro v hv
    simp only [Column.resize, List.mem_append, List.mem_replicate] at hv
    rcases hv with hv | ⟨_, rfl⟩
    · exact h v (List.mem_of_mem_take hv)
    · exact KType.zero_index _
  · simp only [Column.resize, List.length_append, List.length_take, List.length_replicate]
    omega

theorem Column.set_typed (c : Column) (h : c.Typed) (v : Variant) (hv : v.index = c.ktype.index)
    (i : Nat) : ({ c with m_data_vec := c.m_data_vec.set i v } : Column).Typed := by
  intro x hx
  rcases List.mem_or_eq_of_mem_set hx with hx | rfl
  · exact h x hx
  · exact hv

theorem Table.fillLoop_ok (fill : Variant) : ∀ (idxs : List Nat) (c : Column),
    fill.index = c.ktype.index → c.Typed →
    ∃ c1, Table.fillLoop fill c idxs = .ok c1 ∧ c1.ktype = c.ktype ∧
      c1.m_data_vec.length = c.m_data_vec.length ∧ c1.Typed
  | [], c, _, ht => ⟨c, rfl, rfl, rfl, ht⟩
  | i :: rest, c, hv, ht => by
    simp only [Table.fillLoop, Column.setData_ok c fill i hv]
    obtain ⟨c1, h1, h2, h3, h4⟩ := Table.fillLoop_ok fill rest
      ({ c with m_data_vec := c.m_data_vec.set i fill } : Column) hv (c.set_typed ht fill hv i)
    exact ⟨c1, h1, h2, by simpa using h3, h4⟩

theorem Table.functorLoop_cases (functor : Nat → Variant) : ∀ (idxs : List Nat) (c : Column)
    (i : Nat), c.Typed →
    (∃ c1, Table.functorLoop functor c i idxs = .ok c1 ∧ c1.ktype = c.ktype ∧
      c1.m_data_vec.length = c.m_data_vec.length ∧ c1.Typed) ∨
    Table.functorLoop functor c i idxs = .error .bad_variant_access
  | [], c, _, ht => Or.inl ⟨c, rfl, rfl, rfl, ht⟩
  | slot :: rest, c, i, ht => by
    by_cases hv : (functor i).index = c.ktype.index
    · simp only [Table.functorLoop, Column.setData_ok c _ slot hv]
      rcases Table.functorLoop_cases functor rest
        ({ c with m_data_vec := c.m_data_vec.set slot (functor i) } : Column) (i + 1)
        (c.set_typed ht _ hv slot) with ⟨c1, h1, h2, h3, h4⟩ | h
      · exact Or.inl ⟨c1, h1, h2, by simpa using h3, h4⟩
      · exact Or.inr h
    · simp only [Table.functorLoop, Column.setData_error c _ slot hv]
      exact Or.inr trivial

/-- Appending a typed column keeps a sorted table sorted: either the key column is untouched,
or the new column is the first one and the table is sorted afresh. -/
theorem Table.appendColumn_sorted (t : Table) (h : ∀ c ∈ t.m_columns, c.Typed) (c1 : Column)
    (h1 : c1.Typed) (hs : t.Sorted) :
    (Table.sortIfFirstColumn { t with m_columns := t.m_columns ++ [c1] }).Sorted := by
  unfold Table.sortIfFirstColumn
  by_cases hl : t.m_columns.length = 0
  · simp only [List.length_append, List.length_singleton, hl, Nat.zero_add, if_true]
    apply Table.sort_sorted
    intro c hc
    simp only [List.mem_append, List.mem_singleton] at hc
    rcases hc with hc | rfl
    · exact h c hc
    · exact h1
  · have : ¬ (t.m_columns.length + 1 = 1) := by omega
    simp only [List.length_append, List.length_singleton, this, if_false]
    refine (Table.sorted_congr t { t with m_columns := t.m_columns ++ [c1] } rfl rfl ?_).2 hs
    simp only
    rw [List.getElem?_append_left (by omega)]

theorem Table.appendColumn_typed (t : Table) (h : ∀ c ∈ t.m_columns, c.Typed) (c1 : Column)
    (h1 : c1.Typed) :
    ∀ c ∈ (Table.sortIfFirstColumn { t with m_columns := t.m_columns ++ [c1] }).m_columns,
      c.Typed := by
  have e : (Table.sortIfFirstColumn { t with m_columns := t.m_columns ++ [c1] }).m_columns =
      t.m_columns ++ [c1] := by
    unfold Table.sortIfFirstColumn
    split <;> rfl
  rw [e]
  intro c hc
  simp only [List.mem_append, List.mem_singleton] at hc
  rcases hc with hc | rfl
  · exact h c hc
  · exact h1

end km

namespace km

theorem Table.validateForNewColumn_type (t : Table) (n : String) (dt : DataType)
    (h : t.validateForNewColumn n dt = true) : ∃ T : KType, dt = dataTypeFor T := by
  apply (isValidDataType_iff dt).1
  unfold Table.validateForNewColumn at h
  split_ifs at h with h1 h2 h3
  simpa using h3

/-- Method `addColumn` never throws on a typed table, and keeps it sorted and typed. -/
theorem Table.addColumn_sorted (t : Table) (h : ∀ c ∈ t.m_columns, c.Typed) (hs : t.Sorted)
    (column : ColumnMetaData) (fill : Variant) :
    ∃ t1 b, t.addColumn column fill = .ok (t1, b) ∧ t1.Sorted ∧ ∀ c ∈ t1.m_columns, c.Typed := by
  unfold Table.addColumn
  by_cases hv : t.validateForNewColumn column.column_name column.data_type = true
  · simp only [hv, Bool.not_true, Bool.false_eq_true, if_false]
    by_cases hf : (1 <<< fill.index) ≠ column.data_type
    · simp only [hf, ne_eq, not_false_eq_true, if_true]
      exact ⟨t, false, rfl, hs, h⟩
    · simp only [hf, if_false]
      obtain ⟨T, hT⟩ := t.validateForNewColumn_type _ _ hv
      rw [hT, createColumn_dataTypeFor]
      simp only
      have hfi : fill.index = T.index := by
        apply (dataType_eq_iff fill T).1
        rw [← hT]
        exact not_not.1 hf
      have hty0 : (Column.mk0 T column.column_name column.display_name).Typed :=
        fun v hv => by simp [Column.mk0] at hv
      obtain ⟨hr1, _, hr3⟩ := Column.resize_typed _ hty0 (t.rowCount + t.m_free_space.length)
      obtain ⟨c1, hc1, _, _, hc4⟩ := Table.fillLoop_ok fill t.m_indices _ (hfi.trans (by rw [hr3]; rfl)) hr1
      rw [hc1]
      exact ⟨_, true, rfl, t.appendColumn_sorted h c1 hc4 hs, t.appendColumn_typed h c1 hc4⟩
  · simp only [hv, Bool.not_false, if_true]
    exact ⟨t, false, rfl, hs, h⟩

/-- Method `addColumnF` never throws on a typed table, and keeps it sorted and typed. -/
theorem Table.addColumnF_sorted (t : Table) (h : ∀ c ∈ t.m_columns, c.Typed) (hs : t.Sorted)
    (column : ColumnMetaData) (functor : Nat → Variant) :
    ∃ t1 b, t.addColumnF column functor = .ok (t1, b) ∧ t1.Sorted ∧
      ∀ c ∈ t1.m_columns, c.Typed := by
  unfold Table.addColumnF
  by_cases hv : t.validateForNewColumn column.column_name column.data_type = true
  · simp only [hv, Bool.not_true, Bool.false_eq_true, if_false]
    obtain ⟨T, hT⟩ := t.validateForNewColumn_type _ _ hv
    rw [hT, createColumn_dataTypeFor]
    simp only
    have hty0 : (Column.mk0 T column.column_name column.display_name).Typed :=
      fun v hv => by simp [Column.mk0] at hv
    obtain ⟨hr1, _, _⟩ := Column.resize_typed _ hty0 (t.rowCount + t.m_free_space.length)
    rcases Table.functorLoop_cases functor t.m_indices _ 0 hr1 with ⟨c1, hc1, _, _, hc4⟩ | he
    · rw [hc1]
      exact ⟨_, true, rfl, t.appendColumn_sorted h c1 hc4 hs, t.appendColumn_typed h c1 hc4⟩
    · rw [he]
      exact ⟨t, false, rfl, hs, h⟩
  · simp only [hv, Bool.not_false, if_true]
    exact ⟨t, false, rfl, hs, h⟩

theorem Column.setData_ok_inv (c c1 : Column) (v : Variant) (i : Nat)
    (h : c.setData v i = .ok c1) :
    v.index = c.ktype.index ∧ c1 = { c with m_data_vec := c.m_data_vec.set i v } := by
  by_cases hv : v.index = c.ktype.index
  · rw [Column.setData_ok c v i hv] at h
    exact ⟨hv, (Except.ok.inj h).symm⟩
  · rw [Column.setData_error c v i hv] at h
    exact absurd h (by simp)

theorem Table.OnlyColumn.refl (target : Nat) (t : Table) : Table.OnlyColumn target t t :=
  ⟨⟨t.m_columns, rfl⟩, rfl, fun _ _ => rfl, fun h => h⟩

theorem Table.OnlyColumn.trans {target : Nat} {t t1 t2 : Table}
    (h1 : Table.OnlyColumn target t t1) (h2 : Table.OnlyColumn target t1 t2) :
    Table.OnlyColumn target t t2 := by
  obtain ⟨⟨c1, e1⟩, l1, k1, ty1⟩ := h1
  obtain ⟨⟨c2, e2⟩, l2, k2, ty2⟩ := h2
  refine ⟨⟨c2, ?_⟩, l2.trans l1, fun k hk => (k2 k hk).trans (k1 k hk), fun h => ty2 (ty1 h)⟩
  rw [e2, e1]

theorem Table.setDataWC_onlyColumn (t t1 : Table) (r target : Nat) (v : Variant)
    (h : t.setDataWC r target v = .ok t1) : Table.OnlyColumn target t t1 := by
  unfold Table.setDataWC at h
  cases hc : t.m_columns.get? target with
  | none =>
    simp only [hc] at h
    rw [← Except.ok.inj h]
    exact Table.OnlyColumn.refl _ _
  | some c =>
    simp only [hc] at h
    cases hs : c.setData v (t.m_indices.getD r 0) with
    | error e =>
      rw [hs] at h
      cases h
    | ok c1 =>
      rw [hs] at h
      simp only at h
      obtain ⟨hv, rfl⟩ := Column.setData_ok_inv _ _ _ _ hs
      rw [← Except.ok.inj h]
      refine ⟨⟨_, rfl⟩, by simp, ?_, ?_⟩
      · intro k hk
        simp only
        rw [List.getElem?_set_ne (Ne.symm hk)]
      · intro hty x hx
        simp only at hx
        rcases List.mem_or_eq_of_mem_set hx with hx | rfl
        · exact hty x hx
        · exact c.set_typed (hty c (List.get?_mem hc)) v hv _

theorem Table.evaluateRows_onlyColumn (f : Formula) (target : Nat) :
    ∀ (count row : Nat) (t t1 : Table),
      Table.evaluateRows f target count row t = .ok t1 → Table.OnlyColumn target t t1
  | 0, _, t, t1, h => by
    simp only [Table.evaluateRows] at h
    rw [← Except.ok.inj h]
    exact Table.OnlyColumn.refl _ _
  | count + 1, row, t, t1, h => by
    simp only [Table.evaluateRows] at h
    cases he : f.eval t.getDataWC row with
    | error e =>
      rw [he] at h
      cases h
    | ok v =>
      rw [he] at h
      simp only at h
      cases hs : t.setDataWC row target v with
      | error e =>
        rw [hs] at h
        cases h
      | ok t2 =>
        rw [hs] at h
        simp only at h
        exact (Table.setDataWC_onlyColumn _ _ _ _ _ hs).trans
          (Table.evaluateRows_onlyColumn f target count (row + 1) t2 t1 h)

theorem Table.OnlyColumn.sorted {target : Nat} {t t1 : Table}
    (h : Table.OnlyColumn target t t1) (ht : target ≠ 0) : t1.Sorted ↔ t.Sorted := by
  obtain ⟨⟨cols, e⟩, _, hk, _⟩ := h
  refine Table.sorted_congr t t1 ?_ ?_ (hk 0 (Ne.symm ht))
  · rw [e]
  · rw [e]

theorem Table.evaluateFormula_onlyColumn (f : Formula) (t t1 : Table)
    (target start_r end_r : Nat) (h : Table.evaluateFormula f t target start_r end_r = .ok t1) :
    Table.OnlyColumn target t t1 := by
  unfold Table.evaluateFormula at h
  exact Table.evaluateRows_onlyColumn f target _ _ t t1 h

/-- Method `transformColumn`: whenever it returns, the table is sorted and typed. -/
theorem Table.transformColumn_sorted (gct : String → Table → DataType → Option Formula)
    (t : Table) (h : ∀ c ∈ t.m_columns, c.Typed) (hs : t.Sorted) (name formula : String)
    (t1 : Table) (b : Bool) (hr : t.transformColumn gct name formula = .ok (t1, b)) :
    t1.Sorted ∧ ∀ c ∈ t1.m_columns, c.Typed := by
  unfold Table.transformColumn at hr
  cases hf : t.findColumn name with
  | none =>
    simp only [hf] at hr
    obtain ⟨rfl, _⟩ := Prod.mk.inj (Except.ok.inj hr)
    exact ⟨hs, h⟩
  | some p =>
    obtain ⟨ci, ct⟩ := p
    simp only [hf] at hr
    cases hg : gct formula t ct with
    | none =>
      simp only [hg] at hr
      obtain ⟨rfl, _⟩ := Prod.mk.inj (Except.ok.inj hr)
      exact ⟨hs, h⟩
    | some tokens =>
      simp only [hg] at hr
      generalize he : Table.evaluateFormula tokens t ci 0 _ = res at hr
      cases res with
      | error e => cases hr
      | ok t2 =>
        have hoc := Table.evaluateFormula_onlyColumn _ _ _ _ _ _ he
        have hty2 := hoc.2.2.2 h
        simp only at hr
        by_cases h0 : ci = 0
        · simp only [h0, if_true] at hr
          obtain ⟨rfl, _⟩ := Prod.mk.inj (Except.ok.inj hr)
          exact ⟨t2.sort_sorted hty2, hty2⟩
        · simp only [h0, if_false] at hr
          obtain ⟨rfl, _⟩ := Prod.mk.inj (Except.ok.inj hr)
          exact ⟨(hoc.sorted h0).2 hs, hty2⟩

/-- Method `addColumnE`: whenever it returns, the table is sorted and typed. -/
theorem Table.addColumnE_sorted (gct : String → Table → DataType → Option Formula)
    (t : Table) (h : ∀ c ∈ t.m_columns, c.Typed) (hs : t.Sorted) (column : ColumnMetaData)
    (formula : String) (t1 : Table) (b : Bool)
    (hr : t.addColumnE gct column formula = .ok (t1, b)) :
    t1.Sorted ∧ ∀ c ∈ t1.m_columns, c.Typed := by
  unfold Table.addColumnE at hr
  by_cases hv : t.validateForNewColumn column.column_name column.data_type = true
  · simp only [hv, Bool.not_true, Bool.false_eq_true, if_false] at hr
    obtain ⟨T, hT⟩ := t.validateForNewColumn_type _ _ hv
    rw [hT, createColumn_dataTypeFor] at hr
    simp only at hr
    have hty0 : (Column.mk0 T column.column_name column.display_name).Typed :=
      fun v hv => by simp [Column.mk0] at hv
    by_cases hrc : Table.rowCount { t with m_columns := t.m_columns ++
        [Column.mk0 T column.column_name column.display_name] } ≠ 0
    · simp only [hrc, ne_eq, not_false_eq_true, if_true] at hr
      generalize hcr : (Column.mk0 T column.column_name column.display_name).resize
        (Table.rowCount { t with m_columns := t.m_columns ++
          [Column.mk0 T column.column_name column.display_name] } + t.m_free_space.length) = cr
        at hr
      have hcrt : cr.Typed := by
        rw [← hcr]
        exact (Column.resize_typed _ hty0 _).1
      cases hg : gct formula { t with m_columns := t.m_columns ++ [cr] } (dataTypeFor T) with
      | none =>
        simp only [hg, List.dropLast_concat] at hr
        obtain ⟨rfl, _⟩ := Prod.mk.inj (Except.ok.inj hr)
        exact ⟨hs, h⟩
      | some tokens =>
        simp only [hg] at hr
        generalize he : Table.evaluateFormula tokens _ _ _ _ = res at hr
        cases res with
        | error e => cases hr
        | ok t3 =>
          simp only at hr
          obtain ⟨rfl, _⟩ := Prod.mk.inj (Except.ok.inj hr)
          have hoc := Table.evaluateFormula_onlyColumn _ _ _ _ _ _ he
          have hty2 : ∀ c ∈ ({ t with m_columns := t.m_columns ++ [cr] } : Table).m_columns,
              c.Typed := by
            intro c hc
            simp only [List.mem_append, List.mem_singleton] at hc
            rcases hc with hc | rfl
            · exact h c hc
            · exact hcrt
          have hty3 := hoc.2.2.2 hty2
          have hlen : t3.m_columns.length = t.m_columns.length + 1 := by
            rw [hoc.2.1]
            simp
          refine ⟨?_, ?_⟩
          · unfold Table.sortIfFirstColumn
            by_cases hl : t.m_columns.length = 0
            · have : t3.m_columns.length = 1 := by omega
              simp only [this, if_true]
              exact t3.sort_sorted hty3
            · have : ¬ t3.m_columns.length = 1 := by omega
              simp only [this, if_false]
              have htgt : (t.m_columns ++ [cr]).length - 1 ≠ 0 := by
                rw [List.length_append, List.length_singleton]
                omega
              rw [hoc.sorted htgt]
              refine (Table.sorted_congr t { t with m_columns := t.m_columns ++ [cr] }
                rfl rfl ?_).2 hs
              simp only
              rw [List.getElem?_append_left (by omega)]
          · have e : (Table.sortIfFirstColumn t3).m_columns = t3.m_columns := by
              unfold Table.sortIfFirstColumn
              split <;> rfl
            rw [e]
            exact hty3
    · simp only [hrc, if_false] at hr
      obtain ⟨rfl, _⟩ := Prod.mk.inj (Except.ok.inj hr)
      exact ⟨t.appendColumn_sorted h _ hty0 hs, t.appendColumn_typed h _ hty0⟩
  · simp only [hv, Bool.not_false, if_true] at hr
    obtain ⟨rfl, _⟩ := Prod.mk.inj (Except.ok.inj hr)
    exact ⟨hs, h⟩

end km

namespace km

/-! ## Facts used by the claims -/

theorem Table.keyOrdered_cellAt (t : Table) (h : ∀ c ∈ t.m_columns, c.Typed) (a b : Nat) :
    t.keyOrdered (t.cellAt 0 a) (t.cellAt 0 b) = !t.baseCompare b a := by
  cases hc : t.m_columns with
  | nil =>
    cases ho : t.m_sorder <;>
      simp [Table.keyOrdered, Table.cellAt, Table.baseCompare, hc, ho, Variant.lessEq,
        Variant.greaterEq]
  | cons base rest =>
    have hb : base.Typed := h base (by simp [hc])
    have hidx : ∀ a b, (base.getData a).index = (base.getData b).index :=
      fun a b => (base.getData_index hb a).trans (base.getData_index hb b).symm
    cases ho : t.m_sorder with
    | ASCENDING =>
      simp only [Table.keyOrdered, Table.cellAt, Table.baseCompare, hc, ho, List.get?_cons_zero,
        List.head?_cons, Table.m_comparator, if_true, Column.isLess]
      exact Variant.lessEq_eq_not_less _ _ (hidx _ _)
    | DESCENDING =>
      simp only [Table.keyOrdered, Table.cellAt, Table.baseCompare, hc, ho, List.get?_cons_zero,
        List.head?_cons, Table.m_comparator, Column.isGreater, reduceCtorEq, if_false]
      rw [Variant.greater_eq_less]
      exact Variant.greaterEq_eq_not_less _ _ (hidx _ _)

/-- Pigeonhole: pairwise different slots below the capacity, as many as the capacity, are
exactly the slots below the capacity. -/
theorem Table.WF.slotsPartition {t : Table} (hwf : t.WF) : t.SlotsPartition := by
  intro s
  have hsub : (t.m_indices ++ t.m_free_space) ⊆ List.range t.capacity := by
    intro x hx
    exact List.mem_range.2 (hwf.bound x hx)
  have hsp : (t.m_indices ++ t.m_free_space).Subperm (List.range t.capacity) :=
    List.subperm_of_subset hwf.nodup hsub
  have hperm : (t.m_indices ++ t.m_free_space).Perm (List.range t.capacity) :=
    hsp.perm_of_length_le (by simp [Table.capacity])
  rw [← List.count_append, hperm.count_eq]
  by_cases hs : s < t.capacity
  · simp only [hs, if_true]
    exact List.count_eq_one_of_mem (List.nodup_range _) (List.mem_range.2 hs)
  · simp only [hs, if_false]
    exact List.count_eq_zero_of_not_mem (fun hm => hs (List.mem_range.1 hm))

theorem forall₂_getElem? {α β : Type} {R : α → β → Prop} :
    ∀ {l : List α} {l1 : List β}, List.Forall₂ R l l1 → ∀ k : Nat,
      (l[k]? = none ∧ l1[k]? = none) ∨ ∃ a b, l[k]? = some a ∧ l1[k]? = some b ∧ R a b
  | _, _, List.Forall₂.nil, _ => Or.inl ⟨rfl, rfl⟩
  | _, _, List.Forall₂.cons hab _, 0 => Or.inr ⟨_, _, by simp, by simp, hab⟩
  | _, _, List.Forall₂.cons _ hrest, k + 1 => by
    simpa using forall₂_getElem? hrest k

theorem Column.WrittenAt.getData {slot : Nat} {c c1 : Column} (h : Column.WrittenAt slot c c1)
    (s : Nat) (hs : s ≠ slot) : c1.getData s = c.getData s := by
  rcases h with rfl | ⟨v, _, rfl⟩
  · rfl
  · simp only [Column.getData, List.getD_eq_getElem?_getD]
    rw [List.getElem?_set_ne (Ne.symm hs)]

theorem Column.WrittenAt.length {slot : Nat} {c c1 : Column} (h : Column.WrittenAt slot c c1) :
    c1.m_data_vec.length = c.m_data_vec.length := by
  rcases h with rfl | ⟨v, _, rfl⟩
  · rfl
  · simp

theorem Column.WrittenAt.typed {slot : Nat} {c c1 : Column} (h : Column.WrittenAt slot c c1)
    (ht : c.Typed) : c1.Typed := by
  rcases h with rfl | ⟨v, hv, rfl⟩
  · exact ht
  · exact c.set_typed ht v hv slot

/-- What a rejected `insertRow` leaves behind: the members other than the columns are
untouched, the columns keep their sizes and types, and every cell outside the last free slot
keeps its value. -/
theorem Table.insertRow_rejected (t : Table) (vals : List Variant) (hwf : t.WF)
    (hm : rowMatches t.m_columns vals = false) :
    ∃ cols, t.insertRow vals = ({ t with m_columns := cols }, INVALID_INDEX) ∧
      cols.map (fun c => c.m_data_vec.length) = t.m_columns.map (fun c => c.m_data_vec.length) ∧
      (∀ c ∈ cols, c.Typed) ∧
      (∀ k s, s ∈ t.m_indices →
        ({ t with m_columns := cols } : Table).cellAt k s = t.cellAt k s) := by
  obtain ⟨cols, he, hcases⟩ := t.insertRow_of_not_matches vals hm
  refine ⟨cols, he, ?_⟩
  rcases hcases with rfl | ⟨hf, hw⟩
  · exact ⟨rfl, hwf.typed, fun _ _ _ => rfl⟩
  · have hslot : t.nextSlot ∉ t.m_indices := t.nextSlot_not_mem vals hwf
    refine ⟨?_, ?_, ?_⟩
    · apply List.ext_getElem?
      intro k
      simp only [List.getElem?_map]
      rcases forall₂_getElem? hw k with ⟨h1, h2⟩ | ⟨a, b, h1, h2, hab⟩
      · rw [h1, h2]
      · rw [h1, h2]
        simp [hab.length]
    · intro c hc
      obtain ⟨k, hk⟩ := List.mem_iff_getElem?.1 hc
      rcases forall₂_getElem? hw k with ⟨_, h2⟩ | ⟨a, b, h1, h2, hab⟩
      · rw [hk] at h2
        cases h2
      · rw [hk] at h2
        cases h2
        exact hab.typed (hwf.typed a (List.getElem?_mem h1))
    · intro k s hs
      rw [Table.cellAt_eq, Table.cellAt_eq]
      simp only
      rcases forall₂_getElem? hw k with ⟨h1, h2⟩ | ⟨a, b, h1, h2, hab⟩
      · rw [h1, h2]
      · rw [h1, h2]
        exact hab.getData s (fun e => hslot (e ▸ hs))

/-- Method `insertRow` keeps the representation invariant, whether it accepts the row or not. -/
theorem Table.insertRow_wf_any (t : Table) (vals : List Variant) (hwf : t.WF) :
    (t.insertRow vals).1.WF := by
  cases hm : rowMatches t.m_columns vals with
  | true =>
    by_cases hc : t.m_columns = []
    · have : t.insertRow vals = (t, INVALID_INDEX) := by
        simp [Table.insertRow, hc]
      rw [this]
      exact hwf
    · exact t.insertRow_wf vals hwf hc hm
  | false =>
    obtain ⟨cols, he, hlen, hty, _⟩ := t.insertRow_rejected vals hwf hm
    rw [he]
    refine ⟨hwf.nodup, hwf.bound, ?_, hty⟩
    intro c hc
    obtain ⟨k, hk⟩ := List.mem_iff_getElem?.1 hc
    have := congrArg (fun l => l[k]?) hlen
    simp only [List.getElem?_map, hk, Option.map_some'] at this
    cases hk0 : t.m_columns[k]? with
    | none => simp [hk0] at this
    | some c0 =>
      simp only [hk0, Option.map_some', Option.some.injEq] at this
      have := hwf.cap c0 (List.getElem?_mem hk0)
      simp only [Table.capacity] at *
      omega

theorem Table.getData_eq (t : Table) (r k : Nat) :
    t.getData r k = if r < t.rowCount ∧ k < t.columnCount then
      some (t.cellAt k (t.m_indices.getD r 0)) else none := by
  unfold Table.getData
  by_cases h : r ≥ t.rowCount ∨ k ≥ t.columnCount
  · have : ¬ (r < t.rowCount ∧ k < t.columnCount) := by omega
    simp [h, this]
  · have : r < t.rowCount ∧ k < t.columnCount := by omega
    simp [h, this, Table.getDataWC_eq_cellAt]

theorem Table.dropRow_sorted (t : Table) (hwf : t.WF) (hs : t.Sorted) (i : Nat) :
    ∃ t1 b, t.dropRow i = .ok (t1, b) ∧ t1.Sorted ∧ t1.WF := by
  rw [t.dropRow_eq hwf.typed i]
  by_cases hi : i ≥ t.rowCount
  · exact ⟨t, false, by simp [hi], hs, hwf⟩
  · have hi2 : i < t.rowCount := by omega
    have hrwf := t.released_wf hwf i hi2
    have hrs : (t.released i).Sorted :=
      ((t.released i).sorted_iff_idxSorted hrwf.typed).2
        (t.released_idxSorted i ((t.sorted_iff_idxSorted hwf.typed).1 hs))
    by_cases hm : t.m_mfst ≤ t.m_free_space.length + 1
    · exact ⟨_, true, by simp [hi, hm], (t.released i).compacted_sorted hrs,
        (t.released i).compacted_wf hrwf.typed⟩
    · exact ⟨_, true, by simp [hi, hm], hrs, hrwf⟩

theorem Table.setData_cases (t : Table) (r c : Nat) (v : Variant) :
    t.setData r c v = .ok (t, false) ∨
    ∃ col, c ≠ 0 ∧ r < t.rowCount ∧ t.m_columns[c]? = some col ∧
      dataTypeOf v = col.getDataType ∧
      t.setData r c v = .ok ({ t with m_columns := (t.m_columns.set c
        ({ col with m_data_vec := col.m_data_vec.set (t.m_indices.getD r 0) v } : Column)) },
        true) := by
  by_cases h1 : c = 0 ∨ r ≥ t.rowCount ∨ c ≥ t.columnCount
  · left
    apply t.setData_reject
    rcases h1 with h | h | h
    · exact Or.inl h
    · exact Or.inr (Or.inl h)
    · exact Or.inr (Or.inr (Or.inl h))
  · have hc : c < t.m_columns.length := by
      unfold Table.columnCount at h1
      omega
    by_cases hv : dataTypeOf v = (t.m_columns[c]).getDataType
    · right
      refine ⟨t.m_columns[c], by omega, by omega, List.getElem?_eq_getElem hc, hv, ?_⟩
      exact t.setData_accept r c v _ (by omega) (by omega) (List.getElem?_eq_getElem hc) hv
    · left
      apply t.setData_reject
      exact Or.inr (Or.inr (Or.inr ⟨_, List.getElem?_eq_getElem hc, hv⟩))

theorem Table.Sorted.congr {t t1 : Table} (hs : t.Sorted) (hi : t1.m_indices = t.m_indices)
    (ho : t1.m_sorder = t.m_sorder) (hc : t1.m_columns[0]? = t.m_columns[0]?) : t1.Sorted :=
  (Table.sorted_congr t t1 hi ho hc).2 hs

theorem Table.setData_sorted (t : Table) (hwf : t.WF) (hs : t.Sorted) (r c : Nat)
    (v : Variant) : ∃ t1 b, t.setData r c v = .ok (t1, b) ∧ t1.Sorted := by
  rcases t.setData_cases r c v with h | ⟨col, hc0, _, hcol, _, h⟩
  · exact ⟨t, false, h, hs⟩
  · refine ⟨_, true, h, ?_⟩
    exact hs.congr rfl rfl (List.getElem?_set_ne hc0)

end km

namespace km

theorem Table.keyOrdered_congr (t t1 : Table) (ho : t1.m_sorder = t.m_sorder) (a b : Variant) :
    t1.keyOrdered a b = t.keyOrdered a b := by
  simp [Table.keyOrdered, ho]

/-- Shape of the slot list after an accepted insertion: the new slot stands at the returned
index, between the old slots in their old order. -/
theorem Table.insertRow_shape (t : Table) (vals : List Variant) (hwf : t.WF)
    (hc : t.m_columns ≠ []) (hm : rowMatches t.m_columns vals = true)
    (hs : t.m_no_sorting = true ∨ t.IdxSorted) :
    (t.insertRow vals).2 ≤ t.rowCount ∧
    (t.insertRow vals).1.m_indices =
      vectorInsert t.m_indices (t.insertRow vals).2 t.nextSlot ∧
    (t.insertRow vals).1.m_columns = (t.writeRow vals).m_columns ∧
    (t.insertRow vals).1.m_free_space = (t.writeRow vals).m_free_space ∧
    (t.insertRow vals).1.m_sorder = t.m_sorder ∧
    (t.insertRow vals).1.m_no_sorting = t.m_no_sorting := by
  have hcols := (t.writeRow vals).insertIndex_columns t.nextSlot
  by_cases hp : t.m_no_sorting = true
  · rw [t.insertRow_of_matches vals hc hm]
    refine ⟨?_, ?_, hcols.1, hcols.2.1, hcols.2.2.1.trans (t.writeRow_sorder vals),
      hcols.2.2.2.1.trans (t.writeRow_no_sorting vals)⟩
    · simp [Table.insertIndex, Table.isSortingPaused, t.writeRow_no_sorting, hp,
        t.writeRow_indices, Table.rowCount]
    · simp [Table.insertIndex, Table.isSortingPaused, t.writeRow_no_sorting, hp,
        t.writeRow_indices, vectorInsert]
  · have hp2 : t.m_no_sorting = false := by simpa using hp
    obtain ⟨hidx, hpos⟩ := t.insertRow_indices vals hc hm hp2
    refine ⟨?_, hidx, ?_, ?_, ?_, ?_⟩
    · rw [hpos]
      exact (upper_bound_spec
        ((t.writeRow vals).baseCompare_strictWeak (t.writeRow_cap_typed vals hwf hm).2)
        t.m_indices t.nextSlot (t.writeRow_idxSorted vals hwf hm (hs.resolve_left hp))).1
    · rw [t.insertRow_of_matches vals hc hm]
      exact hcols.1
    · rw [t.insertRow_of_matches vals hc hm]
      exact hcols.2.1
    · rw [t.insertRow_of_matches vals hc hm]
      exact hcols.2.2.1.trans (t.writeRow_sorder vals)
    · rw [t.insertRow_of_matches vals hc hm]
      exact hcols.2.2.2.1.trans (t.writeRow_no_sorting vals)

/-- Logical view after an accepted insertion: the new row reads the inserted values, the rows
before it are unchanged and the rows after it have moved up by one. -/
theorem Table.insertRow_getData (t : Table) (vals : List Variant) (hwf : t.WF)
    (hc : t.m_columns ≠ []) (hm : rowMatches t.m_columns vals = true)
    (hs : t.m_no_sorting = true ∨ t.IdxSorted) :
    (t.insertRow vals).1.rowCount = t.rowCount + 1 ∧
    (t.insertRow vals).1.columnCount = t.columnCount ∧
    (∀ k, k < t.columnCount → (t.insertRow vals).1.getData (t.insertRow vals).2 k = vals[k]?) ∧
    (∀ r k, r < (t.insertRow vals).2 → (t.insertRow vals).1.getData r k = t.getData r k) ∧
    (∀ r k, (t.insertRow vals).2 ≤ r →
      (t.insertRow vals).1.getData (r + 1) k = t.getData r k) := by
  obtain ⟨hp, hidx, hcol, _, _, _⟩ := t.insertRow_shape vals hwf hc hm hs
  have hl := rowMatches_length _ _ hm
  have hrc : (t.insertRow vals).1.rowCount = t.rowCount + 1 := by
    unfold Table.rowCount
    rw [hidx, vectorInsert_length]
  have hcc : (t.insertRow vals).1.columnCount = t.columnCount := by
    unfold Table.columnCount
    rw [hcol, t.writeRow_columns_length vals hm]
  have hcell : ∀ k s, (t.insertRow vals).1.cellAt k s = (t.writeRow vals).cellAt k s :=
    fun k s => Table.cellAt_congr _ _ hcol k s
  have hfresh := t.nextSlot_not_mem vals hwf
  unfold Table.rowCount at hp
  refine ⟨hrc, hcc, ?_, ?_, ?_⟩
  · intro k hk
    rw [Table.getData_eq, hrc, hcc, hidx, vectorInsert_getD_eq _ _ _ hp, hcell,
      t.writeRow_cellAt_slot vals hwf hm k hk]
    have hk2 : k < vals.length := by
      unfold Table.columnCount at hk
      omega
    have : (t.insertRow vals).2 < t.rowCount + 1 ∧ k < t.columnCount := by
      unfold Table.rowCount
      omega
    simp only [this, and_self, if_true]
    rw [List.getD_eq_getElem _ _ hk2, List.getElem?_eq_getElem hk2]
  · intro r k hr
    rw [Table.getData_eq, Table.getData_eq, hrc, hcc, hidx,
      vectorInsert_getD_lt _ _ _ _ hp hr, hcell]
    by_cases hb : r < t.rowCount ∧ k < t.columnCount
    · have hb2 : r < t.rowCount + 1 ∧ k < t.columnCount := by omega
      simp only [hb, hb2, and_self, if_true]
      have hmem : t.m_indices.getD r 0 ∈ t.m_indices := by
        rw [List.getD_eq_getElem _ _ hb.1]
        exact List.getElem_mem _
      rw [t.writeRow_cellAt_ne vals hwf hm k _ (fun e => hfresh (e ▸ hmem))]
    · unfold Table.rowCount at hb
      have hb2 : ¬ (r < t.rowCount + 1 ∧ k < t.columnCount) := by
        unfold Table.rowCount
        omega
      have hb3 : ¬ (r < t.rowCount ∧ k < t.columnCount) := hb
      simp only [hb2, hb3, if_false]
  · intro r k hr
    rw [Table.getData_eq, Table.getData_eq, hrc, hcc, hidx,
      vectorInsert_getD_gt _ _ _ _ hp (by omega), hcell]
    simp only [Nat.add_sub_cancel, Nat.add_lt_add_iff_right]
    by_cases hb : r < t.rowCount ∧ k < t.columnCount
    · simp only [hb, and_self, if_true]
      have hmem : t.m_indices.getD r 0 ∈ t.m_indices := by
        rw [List.getD_eq_getElem _ _ hb.1]
        exact List.getElem_mem _
      rw [t.writeRow_cellAt_ne vals hwf hm k _ (fun e => hfresh (e ▸ hmem))]
    · simp only [hb, if_false]

/-- Position of a sorted insertion: the key of the new row is in order after every row before
the returned index, and it is not in order after any row from the returned index on. -/
theorem Table.insertRow_position (t : Table) (vals : List Variant) (hwf : t.WF)
    (hc : t.m_columns ≠ []) (hm : rowMatches t.m_columns vals = true)
    (hp : t.m_no_sorting = false) (hs : t.IdxSorted) (r : Nat) (hr : r < t.rowCount) :
    t.keyOrdered (t.getDataWC r 0) (vals.getD 0 (Variant.int32 0)) =
      decide (r < (t.insertRow vals).2) := by
  obtain ⟨_, hpos⟩ := t.insertRow_indices vals hc hm hp
  have hty := (t.writeRow_cap_typed vals hwf hm).2
  obtain ⟨hle, hlow, hhigh⟩ := upper_bound_spec
    ((t.writeRow vals).baseCompare_strictWeak hty) t.m_indices t.nextSlot
    (t.writeRow_idxSorted vals hwf hm hs)
  rw [← hpos] at hle hlow hhigh
  have hfresh := t.nextSlot_not_mem vals hwf
  unfold Table.rowCount at hr
  have hmem : t.m_indices.getD r 0 ∈ t.m_indices := by
    rw [List.getD_eq_getElem _ _ hr]
    exact List.getElem_mem _
  have hlen : 0 < t.m_columns.length := List.length_pos.2 hc
  have hkey : t.keyOrdered (t.getDataWC r 0) (vals.getD 0 (Variant.int32 0)) =
      !(t.writeRow vals).baseCompare t.nextSlot (t.m_indices.getD r 0) := by
    rw [← (t.writeRow vals).keyOrdered_cellAt hty, t.writeRow_cellAt_slot vals hwf hm 0 hlen,
      t.writeRow_cellAt_ne vals hwf hm 0 _ (fun e => hfresh (e ▸ hmem)),
      Table.keyOrdered_congr t _ (t.writeRow_sorder vals), Table.getDataWC_eq_cellAt]
  rw [hkey]
  by_cases hrp : r < (t.insertRow vals).2
  · have : t.m_indices.getD r 0 ∈ t.m_indices.take (t.insertRow vals).2 := by
      rw [List.getD_eq_getElem _ _ hr, List.mem_take_iff_getElem]
      exact ⟨r, by omega, rfl⟩
    rw [hlow _ this]
    simp [hrp]
  · have : t.m_indices.getD r 0 ∈ t.m_indices.drop (t.insertRow vals).2 := by
      rw [List.getD_eq_getElem _ _ hr, List.mem_drop_iff_getElem]
      exact ⟨r - (t.insertRow vals).2, by omega, by congr 1; omega⟩
    rw [hhigh _ this]
    simp [hrp]

theorem countP_range_lt (n p : Nat) (h : p ≤ n) :
    (List.range n).countP (fun r => decide (r < p)) = p := by
  induction n with
  | zero =>
    have : p = 0 := by omega
    subst this
    rfl
  | succ n ih =>
    rw [List.range_succ, List.countP_append]
    by_cases hp : p ≤ n
    · have : ¬ n < p := by omega
      simp [ih hp, this]
    · have hpn : p = n + 1 := by omega
      have h1 : (List.range n).countP (fun r => decide (r < p)) = n := by
        rw [List.countP_eq_length.2]
        · simp
        · intro r hr
          have := List.mem_range.1 hr
          simp
          omega
      rw [h1]
      simp [hpn]

end km

namespace km

theorem Table.dropRow_wf (t : Table) (hwf : t.WF) (i : Nat) :
    ∃ t1 b, t.dropRow i = .ok (t1, b) ∧ t1.WF := by
  rw [t.dropRow_eq hwf.typed i]
  by_cases hi : i ≥ t.rowCount
  · exact ⟨t, false, by simp [hi], hwf⟩
  · have hrwf := t.released_wf hwf i (by omega)
    by_cases hm : t.m_mfst ≤ t.m_free_space.length + 1
    · exact ⟨_, true, by simp [hi, hm], (t.released i).compacted_wf hrwf.typed⟩
    · exact ⟨_, true, by simp [hi, hm], hrwf⟩

theorem Table.released_getData (t : Table) (i j k : Nat) (hi : i < t.rowCount) :
    (t.released i).getData j k = t.getData (if j < i then j else j + 1) k := by
  have hrc := t.released_rowCount i hi
  unfold Table.getData
  have hcc : (t.released i).columnCount = t.columnCount := rfl
  rw [hcc, t.released_getDataWC]
  by_cases hj : j < i
  · simp only [hj, if_true]
    by_cases h2 : j ≥ t.rowCount ∨ k ≥ t.columnCount
    · have h3 : j ≥ (t.released i).rowCount ∨ k ≥ t.columnCount := by omega
      simp only [h2, h3, if_true]
    · have h3 : ¬ (j ≥ (t.released i).rowCount ∨ k ≥ t.columnCount) := by omega
      simp only [h2, h3, if_false]
  · simp only [hj, if_false]
    by_cases h2 : j + 1 ≥ t.rowCount ∨ k ≥ t.columnCount
    · have h3 : j ≥ (t.released i).rowCount ∨ k ≥ t.columnCount := by omega
      simp only [h2, h3, if_true]
    · have h3 : ¬ (j ≥ (t.released i).rowCount ∨ k ≥ t.columnCount) := by omega
      simp only [h2, h3, if_false]

/-- Logical view after `dropRow` of a live row, with or without compaction. -/
theorem Table.dropRow_view (t : Table) (hwf : t.WF) (i : Nat) (hi : i < t.rowCount) :
    ∃ t1, t.dropRow i = .ok (t1, true) ∧ t1.rowCount + 1 = t.rowCount ∧
      ∀ j k, t1.getData j k = t.getData (if j < i then j else j + 1) k := by
  rw [t.dropRow_eq hwf.typed i]
  have hi2 : ¬ i ≥ t.rowCount := by omega
  by_cases hm : t.m_mfst ≤ t.m_free_space.length + 1
  · refine ⟨(t.released i).compacted, by simp [hi2, hm], ?_, ?_⟩
    · have : (t.released i).compacted.rowCount = (t.released i).rowCount := by
        simp [Table.compacted, Table.rowCount]
      rw [this]
      exact t.released_rowCount i hi
    · intro j k
      rw [(t.released i).compacted_getData, t.released_getData i j k hi]
  · exact ⟨t.released i, by simp [hi2, hm], t.released_rowCount i hi,
      fun j k => t.released_getData i j k hi⟩

theorem rowMatches_dataType : ∀ (cols : List Column) (vals : List Variant),
    rowMatches cols vals = true → ∀ i, i < vals.length → i < cols.length →
      dataTypeOf (vals.getD i (Variant.int32 0)) = (cols.map Column.getDataType).getD i 0 := by
  intro cols vals hm i hv hc
  have h := rowMatches_getD cols vals hm i cols[i] (List.getElem?_eq_getElem hc)
  rw [List.getD_eq_getElem (List.map Column.getDataType cols) 0 (by simpa using hc),
    List.getElem_map]
  exact (dataType_eq_iff _ _).2 h

theorem Table.sort_perm (t : Table) : t.sort.m_indices.Perm t.m_indices :=
  stable_sort_perm _ _

theorem Table.resumeSorting_eq (t : Table) (hp : t.m_no_sorting = true) :
    t.resumeSorting = { t with m_indices := stable_sort t.m_indices t.baseCompare
                               m_process_event := true
                               m_no_sorting := false } := by
  have e := Table.baseCompare_congr t { t with m_process_event := true } rfl rfl
  unfold Table.resumeSorting Table.isSortingPaused
  rw [if_pos hp]
  unfold Table.sort
  rw [e]

end km

namespace km

theorem Table.setData_eq (t : Table) (r c : Nat) (v : Variant) :
    t.setData r c v =
      .ok (if t.setDataAccepts r c v then (t.setCell r c v, true) else (t, false)) := by
  rcases t.setData_cases r c v with h | ⟨col, hc0, hr, hcol, hv, h⟩
  · by_cases ha : t.setDataAccepts r c v = true
    · exfalso
      unfold Table.setDataAccepts at ha
      simp only [Bool.and_eq_true, decide_eq_true_eq] at ha
      obtain ⟨⟨hc0, hr⟩, hm⟩ := ha
      cases hcol : t.m_columns[c]? with
      | none => rw [hcol] at hm; simp at hm
      | some col =>
        rw [hcol] at hm
        simp only [decide_eq_true_eq] at hm
        rw [t.setData_accept r c v col hc0 hr hcol hm] at h
        simp at h
    · simp only [ha, h]
      rfl
  · have ha : t.setDataAccepts r c v = true := by
      unfold Table.setDataAccepts
      simp [hc0, hr, hcol, hv]
    rw [h, ha]
    simp [Table.setCell, hcol]

theorem Table.setCell_columns (t : Table) (r c : Nat) (v : Variant) (k : Nat) :
    (t.setCell r c v).m_columns[k]? = (t.m_columns[k]?).map (fun col =>
      if k = c then
        ({ col with m_data_vec := col.m_data_vec.set (t.m_indices.getD r 0) v } : Column)
      else col) := by
  unfold Table.setCell
  cases hcol : t.m_columns[c]? with
  | none =>
    simp only
    by_cases hk : k = c
    · subst hk
      simp [hcol]
    · cases t.m_columns[k]? <;> simp [hk]
  | some col =>
    simp only [List.getElem?_set]
    have hc : c < t.m_columns.length := (List.getElem?_eq_some.1 hcol).1
    by_cases hk : c = k
    · subst hk
      simp [hc, hcol]
    · have hk2 : ¬ k = c := fun h => hk h.symm
      cases t.m_columns[k]? <;> simp [hk, hk2]

theorem Table.setCell_frame (t : Table) (r c : Nat) (v : Variant) :
    (t.setCell r c v).m_indices = t.m_indices ∧
    (t.setCell r c v).m_free_space = t.m_free_space ∧
    (t.setCell r c v).m_columns.length = t.m_columns.length ∧
    ∃ cols, t.setCell r c v = { t with m_columns := cols } := by
  unfold Table.setCell
  cases t.m_columns[c]? with
  | none => exact ⟨rfl, rfl, rfl, t.m_columns, rfl⟩
  | some col => exact ⟨rfl, rfl, by simp, _, rfl⟩

theorem Table.setCell_accepts (t : Table) (r c : Nat) (v : Variant) (r1 c1 : Nat)
    (v1 : Variant) :
    (t.setCell r c v).setDataAccepts r1 c1 v1 = t.setDataAccepts r1 c1 v1 := by
  unfold Table.setDataAccepts
  rw [t.setCell_columns r c v c1]
  have h1 : (t.setCell r c v).rowCount = t.rowCount := by
    unfold Table.rowCount
    rw [(t.setCell_frame r c v).1]
  rw [h1]
  cases t.m_columns[c1]? with
  | none => rfl
  | some col =>
    by_cases hk : c1 = c
    · simp [hk, Column.getDataType]
    · simp [hk]

theorem Table.setCell_columns_comm (t : Table) (hnd : t.m_indices.Nodup) (r1 c1 r2 c2 : Nat)
    (v1 v2 : Variant) (hr1 : r1 < t.rowCount) (hr2 : r2 < t.rowCount)
    (hne : (r1, c1) ≠ (r2, c2)) :
    ((t.setCell r1 c1 v1).setCell r2 c2 v2).m_columns =
      ((t.setCell r2 c2 v2).setCell r1 c1 v1).m_columns := by
  apply List.ext_getElem?
  intro k
  rw [Table.setCell_columns, Table.setCell_columns, Table.setCell_columns,
    Table.setCell_columns, (t.setCell_frame r1 c1 v1).1, (t.setCell_frame r2 c2 v2).1]
  cases t.m_columns[k]? with
  | none => rfl
  | some col =>
    simp only [Option.map_some']
    by_cases hk1 : k = c1 <;> by_cases hk2 : k = c2
    · subst hk1
      subst hk2
      have hr : r1 ≠ r2 := by
        intro h
        apply hne
        rw [h]
      have hs : t.m_indices.getD r1 0 ≠ t.m_indices.getD r2 0 := by
        have h1 : r1 < t.m_indices.length := hr1
        have h2 : r2 < t.m_indices.length := hr2
        rw [List.getD_eq_getElem _ _ h1, List.getD_eq_getElem _ _ h2]
        intro h
        exact hr ((List.Nodup.getElem_inj_iff hnd).1 h)
      simp only [if_true]
      rw [List.set_comm _ _ _ hs]
    · subst hk1
      simp [hk2]
    · subst hk2
      simp [hk1]
    · simp [hk1, hk2]

theorem Table.setCell_comm (t : Table) (hnd : t.m_indices.Nodup) (r1 c1 r2 c2 : Nat)
    (v1 v2 : Variant) (hr1 : r1 < t.rowCount) (hr2 : r2 < t.rowCount)
    (hne : (r1, c1) ≠ (r2, c2)) :
    (t.setCell r1 c1 v1).setCell r2 c2 v2 = (t.setCell r2 c2 v2).setCell r1 c1 v1 := by
  have hcols := t.setCell_columns_comm hnd r1 c1 r2 c2 v1 v2 hr1 hr2 hne
  obtain ⟨_, _, _, cols1, e1⟩ := t.setCell_frame r1 c1 v1
  obtain ⟨_, _, _, cols2, e2⟩ := t.setCell_frame r2 c2 v2
  obtain ⟨_, _, _, cols12, e12⟩ := (t.setCell r1 c1 v1).setCell_frame r2 c2 v2
  obtain ⟨_, _, _, cols21, e21⟩ := (t.setCell r2 c2 v2).setCell_frame r1 c1 v1
  rw [e12, e21] at hcols ⊢
  rw [e1, e2]
  simp only at hcols
  simp only [hcols]

end km

namespace km

theorem Table.findDuplicate_isSome (name : String) : ∀ (rest : List ColumnMetaData) (i : Nat),
    (Table.findDuplicate name rest i).isSome = true ↔ ∃ a ∈ rest, a.column_name = name
  | [], _ => by simp [Table.findDuplicate]
  | a :: rest, i => by
    unfold Table.findDuplicate
    by_cases h : name = a.column_name
    · simp [h]
    · have h2 : ¬ a.column_name = name := fun e => h e.symm
      simp only [h, if_false, List.mem_cons, exists_eq_or_imp, h2, false_or]
      exact Table.findDuplicate_isSome name rest (i + 1)

theorem Table.validateColumnList_range : ∀ (cols : List ColumnMetaData),
    Table.validateColumnList cols = 0 ∨ Table.validateColumnList cols = 1 ∨
    Table.validateColumnList cols = 2 ∨ Table.validateColumnList cols = 3
  | [] => Or.inl rfl
  | c :: rest => by
    unfold Table.validateColumnList
    split_ifs
    · exact Or.inr (Or.inr (Or.inl rfl))
    · exact Or.inr (Or.inl rfl)
    · exact Or.inr (Or.inr (Or.inr rfl))
    · exact Table.validateColumnList_range rest

theorem Table.validateColumnList_eq_zero : ∀ (cols : List ColumnMetaData),
    Table.validateColumnList cols = 0 ↔
      (∀ c ∈ cols, isValidColumnName c.column_name = true) ∧
      (cols.map (fun c => c.column_name)).Nodup ∧
      (∀ c ∈ cols, isValidDataType c.data_type = true)
  | [] => by simp [Table.validateColumnList]
  | c :: rest => by
    have ih := Table.validateColumnList_eq_zero rest
    have hd := Table.findDuplicate_isSome c.column_name rest 0
    unfold Table.validateColumnList
    by_cases h1 : isValidColumnName c.column_name = true
    · by_cases h2 : (Table.findDuplicate c.column_name rest 0).isSome = true
      · have h2e := hd.1 h2
        simp only [h1, h2, Bool.not_true, Bool.false_eq_true, if_false, if_true,
          List.map_cons, List.nodup_cons, List.mem_map]
        constructor
        · intro h
          exact absurd h (by decide)
        · rintro ⟨_, ⟨hn, _⟩, _⟩
          exact absurd h2e hn
      · have h2n : ¬ ∃ a ∈ rest, a.column_name = c.column_name := fun h => h2 (hd.2 h)
        by_cases h3 : isValidDataType c.data_type = true
        · simp only [h1, h2, h3, Bool.not_true, Bool.false_eq_true, if_false, ih,
            List.mem_cons, forall_eq_or_imp, true_and, List.map_cons, List.nodup_cons,
            List.mem_map, h2n, not_false_eq_true]
        · simp only [h1, h2, h3, Bool.not_true, Bool.false_eq_true, if_false,
            Bool.not_eq_true, List.mem_cons, forall_eq_or_imp]
          have h3f : isValidDataType c.data_type = false := by simpa using h3
          simp [h3f]
    · have h1f : isValidColumnName c.column_name = false := by simpa using h1
      simp [h1f]

theorem Table.createColumns_meta : ∀ (cols : List ColumnMetaData),
    (∀ c ∈ cols, isValidDataType c.data_type = true) →
    (Table.createColumns cols).map (fun c => (c.getName, c.getDataType)) =
      cols.map (fun c => (c.column_name, c.data_type))
  | [], _ => rfl
  | c :: rest, h => by
    obtain ⟨T, hT⟩ := (isValidDataType_iff c.data_type).1 (h c (List.mem_cons_self _ _))
    unfold Table.createColumns
    rw [hT, createColumn_dataTypeFor]
    simp only [List.map_cons]
    rw [Table.createColumns_meta rest (fun x hx => h x (List.mem_cons_of_mem _ hx))]
    simp only [Column.getName, Column.getDataType, Column.mk0, hT]

end km

namespace km

theorem char_eq_space (c : Char) (h : c.toNat = 0x20) : c = ' ' := by
  rw [← Char.ofNat_toNat c, h]

theorem isValidTableName_char (c : Char) :
    (!(!isprint c || (isspace c && c != ' ') || c = '/' || c = '\\')) = true ↔
      0x20 ≤ c.toNat ∧ c.toNat ≤ 0x7e ∧ c ≠ '/' ∧ c ≠ '\\' := by
  unfold isprint isspace
  by_cases h1 : 0x20 ≤ c.toNat
  · by_cases h2 : c.toNat ≤ 0x7e
    · have h3 : ((decide (c.toNat = 0x20) ||
          (decide (0x09 ≤ c.toNat) && decide (c.toNat ≤ 0x0d))) && c != ' ') = false := by
        by_cases h4 : c.toNat = 0x20
        · have := char_eq_space c h4
          subst this
          decide
        · have h5 : ¬ c.toNat ≤ 0x0d := by omega
          simp [h4, h5]
      simp only [h1, h2, h3, decide_True, Bool.and_self, Bool.not_true, Bool.false_or,
        Bool.not_eq_true', Bool.or_eq_false_iff, decide_eq_false_iff_not, true_and, ne_eq]
    · simp [h1, h2]
  · simp [h1]

theorem isValidTableName_iff (name : String) :
    isValidTableName name = true ↔
      ∃ c rest, name.data = c :: rest ∧ (isalpha c = true ∨ c = '_') ∧
        ∀ x ∈ name.data, 0x20 ≤ x.toNat ∧ x.toNat ≤ 0x7e ∧ x ≠ '/' ∧ x ≠ '\\' := by
  unfold isValidTableName
  cases hd : name.data with
  | nil => simp
  | cons c rest =>
    by_cases hc : isalpha c = true ∨ c = '_'
    · have hc2 : (isalpha c || decide (c = '_')) = true := by
        rcases hc with h | h <;> simp [h]
      simp only [hc2, Bool.not_true, Bool.false_eq_true, if_false, List.all_eq_true]
      constructor
      · intro h
        exact ⟨c, rest, rfl, hc, fun x hx => (isValidTableName_char x).1 (h x hx)⟩
      · rintro ⟨c1, rest1, _, _, h⟩
        exact fun x hx => (isValidTableName_char x).2 (h x hx)
    · have hc2 : (isalpha c || decide (c = '_')) = false := by
        cases h1 : isalpha c
        · have h2 : ¬ c = '_' := fun h => hc (Or.inr h)
          simp [h2]
        · exact absurd (Or.inl h1) hc
      simp only [hc2, Bool.not_false, if_true, Bool.false_eq_true, false_iff]
      rintro ⟨c1, rest1, he, h, _⟩
      have hcc : c = c1 := (List.cons.inj he).1
      rw [← hcc] at h
      exact hc h

theorem isalnum_printable (x : Char) (h : isalnum x = true ∨ x = '_' ∨ x = ' ') :
    0x20 ≤ x.toNat ∧ x.toNat ≤ 0x7e ∧ x ≠ '/' ∧ x ≠ '\\' := by
  rcases h with h | rfl | rfl
  · unfold isalnum isalpha at h
    simp only [Bool.or_eq_true, Bool.and_eq_true, decide_eq_true_eq] at h
    have e : ∀ a b : Char, a ≤ b ↔ a.toNat ≤ b.toNat := fun a b => Iff.rfl
    simp only [e] at h
    have e1 : ('a' : Char).toNat = 97 := rfl
    have e2 : ('z' : Char).toNat = 122 := rfl
    have e3 : ('A' : Char).toNat = 65 := rfl
    have e4 : ('Z' : Char).toNat = 90 := rfl
    have e5 : ('0' : Char).toNat = 48 := rfl
    have e6 : ('9' : Char).toNat = 57 := rfl
    rw [e1, e2, e3, e4, e5, e6] at h
    refine ⟨by omega, by omega, ?_, ?_⟩
    · rintro rfl
      have : ('/' : Char).toNat = 47 := rfl
      omega
    · rintro rfl
      have : ('\\' : Char).toNat = 92 := rfl
      omega
  · decide
  · decide

theorem matchesTableNamePattern_valid (name : String)
    (h : matchesTableNamePattern name = true) : isValidTableName name = true := by
  rw [isValidTableName_iff]
  unfold matchesTableNamePattern at h
  cases hd : name.data with
  | nil => simp [hd] at h
  | cons c rest =>
    rw [hd] at h
    simp only [Bool.and_eq_true, Bool.or_eq_true, decide_eq_true_eq, List.all_eq_true] at h
    refine ⟨c, rest, rfl, h.1, ?_⟩
    intro x hx
    rcases List.mem_cons.1 hx with rfl | hx
    · rcases h.1 with h1 | h1
      · apply isalnum_printable
        left
        unfold isalnum
        simp [h1]
      · exact isalnum_printable x (Or.inr (Or.inl h1))
    · apply isalnum_printable
      rcases h.2 x hx with (h2 | h2) | h2
      · exact Or.inl h2
      · exact Or.inr (Or.inl h2)
      · exact Or.inr (Or.inr h2)

end km

namespace km

theorem Table.findColumnLoop_none (name : String) : ∀ (cols : List Column) (i : Nat),
    Table.findColumnLoop name cols i = none ↔ ∀ c ∈ cols, c.getName ≠ name
  | [], _ => by simp [Table.findColumnLoop]
  | c :: cs, i => by
    unfold Table.findColumnLoop
    by_cases h : c.getName = name
    · simp [h]
    · simp only [h, if_false, List.mem_cons, forall_eq_or_imp, ne_eq, not_false_eq_true,
        true_and]
      exact Table.findColumnLoop_none name cs (i + 1)

theorem Table.findColumnLoop_some (name : String) : ∀ (cols : List Column) (i k : Nat)
    (dt : DataType), Table.findColumnLoop name cols i = some (k, dt) →
    i ≤ k ∧ ∃ c, cols[k - i]? = some c ∧ c.getName = name ∧ dt = c.getDataType ∧
      ∀ j, j < k - i → ∀ c1, cols[j]? = some c1 → c1.getName ≠ name
  | [], _, _, _, h => by simp [Table.findColumnLoop] at h
  | c :: cs, i, k, dt, h => by
    unfold Table.findColumnLoop at h
    by_cases hn : c.getName = name
    · simp only [hn, if_true, Option.some.injEq, Prod.mk.injEq] at h
      obtain ⟨rfl, rfl⟩ := h
      refine ⟨Nat.le_refl _, c, by simp, hn, rfl, ?_⟩
      intro j hj
      omega
    · simp only [hn, if_false] at h
      obtain ⟨h1, c1, h2, h3, h4, h5⟩ := Table.findColumnLoop_some name cs (i + 1) k dt h
      refine ⟨by omega, c1, ?_, h3, h4, ?_⟩
      · have e : k - i = (k - (i + 1)) + 1 := by omega
        rw [e, List.getElem?_cons_succ]
        exact h2
      · intro j hj c2 hc2
        cases j with
        | zero =>
          simp only [List.getElem?_cons_zero, Option.some.injEq] at hc2
          rw [← hc2]
          exact hn
        | succ j =>
          rw [List.getElem?_cons_succ] at hc2
          exact h5 j (by omega) c2 hc2

theorem Table.findColumn_none (t : Table) (name : String) :
    t.findColumn name = none ↔ ∀ c ∈ t.m_columns, c.getName ≠ name :=
  Table.findColumnLoop_none name t.m_columns 0

theorem Table.findColumn_some (t : Table) (name : String) (k : Nat) (dt : DataType)
    (h : t.findColumn name = some (k, dt)) :
    ∃ c, t.m_columns[k]? = some c ∧ c.getName = name ∧ dt = c.getDataType := by
  obtain ⟨_, c, h1, h2, h3, _⟩ := Table.findColumnLoop_some name t.m_columns 0 k dt h
  exact ⟨c, h1, h2, h3⟩

theorem Table.validateForNewColumn_iff (t : Table) (name : String) (dt : DataType) :
    t.validateForNewColumn name dt = true ↔
      isValidColumnName name = true ∧ (∀ c ∈ t.m_columns, c.getName ≠ name) ∧
      ∃ T : KType, dt = dataTypeFor T := by
  unfold Table.validateForNewColumn
  rw [← isValidDataType_iff, ← t.findColumn_none]
  cases isValidColumnName name <;> cases t.findColumn name <;> cases isValidDataType dt <;> simp

theorem foldl_set_getD (v z : Variant) : ∀ (idxs : List Nat) (d : List Variant) (s : Nat),
    (idxs.foldl (fun d i => d.set i v) d).length = d.length ∧
    (idxs.foldl (fun d i => d.set i v) d).getD s z =
      if s ∈ idxs ∧ s < d.length then v else d.getD s z
  | [], d, s => by simp
  | i :: rest, d, s => by
    obtain ⟨h1, h2⟩ := foldl_set_getD v z rest (d.set i v) s
    simp only [List.foldl_cons]
    refine ⟨by rw [h1, List.length_set], ?_⟩
    rw [h2, List.length_set]
    by_cases hs : s < d.length
    · by_cases hr : s ∈ rest
      · simp [hr, hs]
      · by_cases hi : s = i
        · subst hi
          simp [hr, hs, List.getD_eq_getElem?_getD, List.getElem?_set]
        · have hi2 : ¬ i = s := fun h => hi h.symm
          simp [hr, hs, hi, hi2, List.getD_eq_getElem?_getD, List.getElem?_set]
    · have e : (d.set i v).getD s z = d.getD s z := by
        rw [List.getD_eq_getElem?_getD, List.getD_eq_getElem?_getD,
          List.getElem?_eq_none (by rw [List.length_set]; omega),
          List.getElem?_eq_none (by omega)]
      rw [e]
      simp [hs]

theorem Table.fillLoop_eq (fill : Variant) : ∀ (idxs : List Nat) (c : Column),
    fill.index = c.ktype.index →
    Table.fillLoop fill c idxs =
      .ok { c with m_data_vec := idxs.foldl (fun d i => d.set i fill) c.m_data_vec }
  | [], c, _ => rfl
  | i :: rest, c, hv => by
    simp only [Table.fillLoop, Column.setData_ok c fill i hv, List.foldl_cons]
    exact Table.fillLoop_eq fill rest
      ({ c with m_data_vec := c.m_data_vec.set i fill } : Column) hv

theorem Table.sortIfFirstColumn_frame (t : Table) :
    (Table.sortIfFirstColumn t).m_columns = t.m_columns ∧
    (Table.sortIfFirstColumn t).m_indices.Perm t.m_indices ∧
    (t.m_columns.length ≠ 1 → Table.sortIfFirstColumn t = t) := by
  unfold Table.sortIfFirstColumn
  by_cases h : t.m_columns.length = 1
  · rw [if_pos h]
    exact ⟨rfl, t.sort_perm, fun h2 => absurd h h2⟩
  · rw [if_neg h]
    exact ⟨rfl, List.Perm.refl _, fun _ => rfl⟩

end km

namespace km

theorem Table.appendColumn_view (t : Table) (c1 : Column) :
    (Table.sortIfFirstColumn { t with m_columns := t.m_columns ++ [c1] }).m_columns =
      t.m_columns ++ [c1] ∧
    (Table.sortIfFirstColumn { t with m_columns := t.m_columns ++ [c1] }).m_indices.Perm
      t.m_indices ∧
    (Table.sortIfFirstColumn { t with m_columns := t.m_columns ++ [c1] }).rowCount =
      t.rowCount ∧
    (t.m_columns ≠ [] →
      Table.sortIfFirstColumn { t with m_columns := t.m_columns ++ [c1] } =
        { t with m_columns := t.m_columns ++ [c1] }) ∧
    (∀ r, r < t.rowCount →
      (Table.sortIfFirstColumn { t with m_columns := t.m_columns ++ [c1] }).getData r
          t.columnCount =
        some (c1.getData
          ((Table.sortIfFirstColumn { t with m_columns := t.m_columns ++ [c1] }).m_indices.getD
            r 0))) ∧
    (∀ r k, k < t.columnCount →
      (Table.sortIfFirstColumn { t with m_columns := t.m_columns ++ [c1] }).getData r k =
        t.getData r k) := by
  obtain ⟨hf1, hf2, hf3⟩ := Table.sortIfFirstColumn_frame
    { t with m_columns := t.m_columns ++ [c1] }
  generalize Table.sortIfFirstColumn { t with m_columns := t.m_columns ++ [c1] } = t1
    at hf1 hf2 hf3 ⊢
  have hf1b : t1.m_columns = t.m_columns ++ [c1] := hf1
  have hf2b : t1.m_indices.Perm t.m_indices := hf2
  have hrc : t1.rowCount = t.rowCount := hf2b.length_eq
  have hne : t.m_columns ≠ [] → t1 = { t with m_columns := t.m_columns ++ [c1] } := by
    intro h
    apply hf3
    show (t.m_columns ++ [c1]).length ≠ 1
    rw [List.length_append, List.length_singleton]
    have : t.m_columns.length ≠ 0 := fun h0 => h (List.length_eq_zero.1 h0)
    omega
  refine ⟨hf1b, hf2b, hrc, hne, ?_, ?_⟩
  · intro r hr
    rw [Table.getData_eq]
    have hc1 : t.columnCount < t1.columnCount := by
      unfold Table.columnCount
      rw [hf1b]
      simp
    rw [if_pos ⟨hrc ▸ hr, hc1⟩, Table.cellAt_eq, hf1b]
    have hget : (t.m_columns ++ [c1])[t.columnCount]? = some c1 :=
      List.getElem?_concat_length _ _
    rw [hget]
  · intro r k hk
    have hk2 : k < t.m_columns.length := hk
    have hne2 : t.m_columns ≠ [] := by
      intro h
      rw [h] at hk2
      exact Nat.not_lt_zero _ hk2
    rw [hne hne2, Table.getData_eq, Table.getData_eq]
    have hcc : k < t.m_columns.length + 1 := Nat.lt_succ_of_lt hk
    simp only [Table.rowCount, Table.columnCount, List.length_append, List.length_singleton,
      hcc, and_true, Table.cellAt_eq]
    rw [List.getElem?_append_left hk2]
    simp [hk2]

theorem Table.addColumn_accept (t : Table) (column : ColumnMetaData) (fill_with : Variant)
    (hval : t.validateForNewColumn column.column_name column.data_type = true)
    (h4 : dataTypeOf fill_with = column.data_type) :
    ∃ c1, t.addColumn column fill_with =
        .ok (Table.sortIfFirstColumn { t with m_columns := t.m_columns ++ [c1] }, true) ∧
      c1.getName = column.column_name ∧ c1.getDataType = column.data_type ∧
      ∀ s, s ∈ t.m_indices → s < t.capacity → c1.getData s = fill_with := by
  obtain ⟨T, hT⟩ := t.validateForNewColumn_type _ _ hval
  have h4b : (1 <<< fill_with.index) = column.data_type := h4
  have hidx : fill_with.index = T.index := by
    apply (dataType_eq_iff fill_with T).1
    rw [← hT]
    exact h4b
  have hfill := Table.fillLoop_eq fill_with t.m_indices
    ((Column.mk0 T column.column_name column.display_name).resize
      (t.rowCount + t.m_free_space.length)) hidx
  have hname : ((Column.mk0 T column.column_name column.display_name).resize
      (t.rowCount + t.m_free_space.length)).column_name = column.column_name := rfl
  have htype : ((Column.mk0 T column.column_name column.display_name).resize
      (t.rowCount + t.m_free_space.length)).ktype = T := rfl
  have hlen := ((Column.mk0 T column.column_name column.display_name).resize_typed
    (fun v hv => by simp [Column.mk0] at hv) (t.rowCount + t.m_free_space.length)).2.1
  have hadd : t.addColumn column fill_with =
      match Table.fillLoop fill_with ((Column.mk0 T column.column_name column.display_name).resize
          (t.rowCount + t.m_free_space.length)) t.m_indices with
      | .error e => .error e
      | .ok c1 => .ok (Table.sortIfFirstColumn { t with m_columns := t.m_columns ++ [c1] },
          true) := by
    unfold Table.addColumn
    simp only [hval, Bool.not_true, Bool.false_eq_true, if_false, h4b, ne_eq,
      not_true_eq_false]
    rw [hT, createColumn_dataTypeFor]
    all_goals rfl
  generalize (Column.mk0 T column.column_name column.display_name).resize
      (t.rowCount + t.m_free_space.length) = c0 at hfill hname htype hlen hadd
  refine ⟨({ c0 with
    m_data_vec := (t.m_indices.foldl (fun d i => d.set i fill_with) c0.m_data_vec) } : Column),
    ?_, hname, ?_, ?_⟩
  · rw [hadd, hfill]
  · rw [hT]
    show dataTypeFor c0.ktype = dataTypeFor T
    rw [htype]
  · intro s hs hb
    simp only [Column.getData]
    rw [(foldl_set_getD fill_with _ t.m_indices _ _).2, hlen, if_pos ⟨hs, hb⟩]

end km

namespace km

theorem writeCells_length (f : Nat → Variant) : ∀ (idxs : List Nat) (d : List Variant) (i : Nat),
    (writeCells f d i idxs).length = d.length
  | [], _, _ => rfl
  | slot :: rest, d, i => by
    rw [writeCells, writeCells_length f rest, List.length_set]

theorem writeCells_getD_not_mem (f : Nat → Variant) (z : Variant) (s : Nat) :
    ∀ (idxs : List Nat) (d : List Variant) (i : Nat), s ∉ idxs →
      (writeCells f d i idxs).getD s z = d.getD s z
  | [], _, _, _ => rfl
  | slot :: rest, d, i, h => by
    rw [writeCells, writeCells_getD_not_mem f z s rest _ _
      (fun hm => h (List.mem_cons_of_mem _ hm))]
    have hne : slot ≠ s := fun e => h (e ▸ List.mem_cons_self _ _)
    simp [List.getD_eq_getElem?_getD, List.getElem?_set, hne]

theorem writeCells_getD_mem (f : Nat → Variant) (z : Variant) :
    ∀ (idxs : List Nat) (d : List Variant) (i j : Nat), idxs.Nodup →
      (hj : j < idxs.length) → idxs[j] < d.length →
      (writeCells f d i idxs).getD idxs[j] z = f (i + j)
  | [], _, _, _, _, hj, _ => absurd hj (Nat.not_lt_zero _)
  | slot :: rest, d, i, j, hnd, hj, hb => by
    rw [writeCells]
    obtain ⟨hn1, hn2⟩ := List.nodup_cons.1 hnd
    cases j with
    | zero =>
      simp only [List.getElem_cons_zero] at hb ⊢
      rw [writeCells_getD_not_mem f z slot rest _ _ hn1]
      simp [List.getD_eq_getElem?_getD, List.getElem?_set, hb]
    | succ j =>
      simp only [List.getElem_cons_succ] at hb ⊢
      have hj2 : j < rest.length := by simpa using hj
      rw [writeCells_getD_mem f z rest _ (i + 1) j hn2 hj2 (by rw [List.length_set]; exact hb)]
      congr 1
      omega

theorem Table.functorLoop_eq (functor : Nat → Variant) : ∀ (idxs : List Nat) (c : Column)
    (i : Nat), (∀ j, j < idxs.length → (functor (i + j)).index = c.ktype.index) →
    Table.functorLoop functor c i idxs =
      .ok { c with m_data_vec := writeCells functor c.m_data_vec i idxs }
  | [], c, _, _ => rfl
  | slot :: rest, c, i, h => by
    have h0 : (functor i).index = c.ktype.index := h 0 (by simp)
    simp only [Table.functorLoop, Column.setData_ok c _ slot h0, writeCells]
    exact Table.functorLoop_eq functor rest
      ({ c with m_data_vec := c.m_data_vec.set slot (functor i) } : Column) (i + 1)
      (fun j hj => by
        have := h (j + 1) (by simpa using hj)
        rw [show i + 1 + j = i + (j + 1) by omega]
        exact this)

theorem list_set_self {α : Type} (l : List α) (i : Nat) (a : α) (h : l[i]? = some a) :
    l.set i a = l := by
  apply List.ext_getElem?
  intro k
  rw [List.getElem?_set]
  by_cases hk : i = k
  · subst hk
    have hi : i < l.length := (List.getElem?_eq_some.1 h).1
    simp [hi, h]
  · simp [hk]

theorem Table.getDataWC_set_ne (t : Table) (target : Nat) (col : Column) (slot : Nat)
    (v : Variant) (hcol : t.m_columns[target]? = some col) (r c : Nat)
    (hne : t.m_indices.getD r 0 ≠ slot) :
    ({ t with m_columns := (t.m_columns.set target
        ({ col with m_data_vec := col.m_data_vec.set slot v } : Column)) } : Table).getDataWC r c =
      t.getDataWC r c := by
  rw [Table.getDataWC_eq_cellAt, Table.getDataWC_eq_cellAt, Table.cellAt_eq, Table.cellAt_eq]
  simp only [List.getElem?_set]
  have hc : target < t.m_columns.length := (List.getElem?_eq_some.1 hcol).1
  by_cases hk : target = c
  · subst hk
    have hne2 : ¬ slot = t.m_indices[r]?.getD 0 := by
      rw [← List.getD_eq_getElem?_getD]
      exact fun e => hne e.symm
    simp [hc, hcol, Column.getData, List.getD_eq_getElem?_getD, List.getElem?_set, hne2]
  · simp [hk]

theorem Table.evaluateRows_eq (tokens : Formula) (hloc : tokens.RowLocal) (fn : Nat → Variant)
    (target : Nat) : ∀ (count row : Nat) (t : Table) (col : Column), t.m_indices.Nodup →
    row + count ≤ t.rowCount → t.m_columns[target]? = some col →
    (∀ r, row ≤ r → r < row + count →
      tokens.eval t.getDataWC r = .ok (fn r) ∧ (fn r).index = col.ktype.index) →
    Table.evaluateRows tokens target count row t =
      .ok { t with m_columns := (t.m_columns.set target
        ({ col with m_data_vec :=
            writeCells fn col.m_data_vec row ((t.m_indices.drop row).take count) } : Column)) }
  | 0, row, t, col, _, _, hcol, _ => by
    simp only [Table.evaluateRows, List.take_zero, writeCells]
    rw [list_set_self _ _ _ hcol]
  | count + 1, row, t, col, hnd, hle, hcol, hev => by
    obtain ⟨he, hidx⟩ := hev row (Nat.le_refl _) (by omega)
    have hrow : row < t.m_indices.length := by
      have : row + (count + 1) ≤ t.m_indices.length := hle
      omega
    have hc : target < t.m_columns.length := (List.getElem?_eq_some.1 hcol).1
    have hset : t.setDataWC row target (fn row) = .ok { t with m_columns := (t.m_columns.set target
        ({ col with m_data_vec := col.m_data_vec.set (t.m_indices.getD row 0) (fn row) }
          : Column)) } := by
      unfold Table.setDataWC
      simp only [List.get?_eq_getElem?, hcol, Column.setData_ok col _ _ hidx]
    simp only [Table.evaluateRows, he, hset]
    have hcol1 : (t.m_columns.set target
        ({ col with m_data_vec := col.m_data_vec.set (t.m_indices.getD row 0) (fn row) }
          : Column))[target]? = some ({ col with
            m_data_vec := col.m_data_vec.set (t.m_indices.getD row 0) (fn row) } : Column) := by
      rw [List.getElem?_set]
      simp [hc]
    have hev1 : ∀ r, row + 1 ≤ r → r < row + 1 + count →
        tokens.eval ({ t with m_columns := (t.m_columns.set target
          ({ col with m_data_vec := col.m_data_vec.set (t.m_indices.getD row 0) (fn row) }
            : Column)) } : Table).getDataWC r = .ok (fn r) ∧
        (fn r).index = col.ktype.index := by
      intro r hr1 hr2
      obtain ⟨he2, hidx2⟩ := hev r (by omega) (by omega)
      refine ⟨?_, hidx2⟩
      rw [← he2]
      apply hloc
      intro c
      apply t.getDataWC_set_ne target col _ _ hcol
      have hr : r < t.m_indices.length := by
        have : row + (count + 1) ≤ t.m_indices.length := hle
        omega
      rw [List.getD_eq_getElem _ _ hr, List.getD_eq_getElem _ _ hrow]
      intro e
      have := (List.Nodup.getElem_inj_iff hnd).1 e
      omega
    have hle1 : row + 1 + count ≤ ({ t with m_columns := (t.m_columns.set target
          ({ col with m_data_vec := col.m_data_vec.set (t.m_indices.getD row 0) (fn row) }
            : Column)) } : Table).rowCount := by
      show row + 1 + count ≤ t.m_indices.length
      have : row + (count + 1) ≤ t.m_indices.length := hle
      omega
    have ih := Table.evaluateRows_eq tokens hloc fn target count (row + 1)
      ({ t with m_columns := (t.m_columns.set target
          ({ col with m_data_vec := col.m_data_vec.set (t.m_indices.getD row 0) (fn row) }
            : Column)) } : Table)
      ({ col with m_data_vec := col.m_data_vec.set (t.m_indices.getD row 0) (fn row) } : Column)
      hnd hle1 hcol1 hev1
    rw [ih]
    have hd : (t.m_indices.drop row).take (count + 1) =
        t.m_indices.getD row 0 :: (t.m_indices.drop (row + 1)).take count := by
      rw [List.drop_eq_getElem_cons hrow, List.take_succ_cons, List.getD_eq_getElem _ _ hrow]
    simp only [hd, writeCells, List.set_set]

theorem sizeInc_sizeDec (n : Nat) (h : n < 2 ^ 64) : sizeInc (sizeDec n) = n := by
  unfold sizeInc sizeDec INVALID_INDEX
  by_cases h0 : n = 0
  · simp [h0]
  · have h1 : ¬ n - 1 = 2 ^ 64 - 1 := by omega
    simp only [h0, if_false, h1]
    omega

theorem sizeInc_pred (n : Nat) (h0 : n ≠ 0) (h : n < 2 ^ 64) : sizeInc (n - 1) = n := by
  unfold sizeInc INVALID_INDEX
  have h1 : ¬ n - 1 = 2 ^ 64 - 1 := by omega
  simp only [h1, if_false]
  omega

end km

namespace km

theorem Table.written_cellAt (t : Table) (hwf : t.WF) (fn : Nat → Variant) (ci : Nat)
    (col : Column) (hcol : t.m_columns[ci]? = some col) (r k : Nat) (hr : r < t.rowCount) :
    ({ t with m_columns := (t.m_columns.set ci
        ({ col with m_data_vec := writeCells fn col.m_data_vec 0 t.m_indices } : Column)) }
      : Table).cellAt k (t.m_indices.getD r 0) =
      if k = ci then fn r else t.getDataWC r k := by
  rw [Table.getDataWC_eq_cellAt, Table.cellAt_eq, Table.cellAt_eq]
  simp only [List.getElem?_set]
  have hc : ci < t.m_columns.length := (List.getElem?_eq_some.1 hcol).1
  have hr2 : r < t.m_indices.length := hr
  by_cases hk : ci = k
  · subst hk
    simp only [hc, if_true, Column.getData]
    rw [List.getD_eq_getElem _ _ hr2]
    have hnd : t.m_indices.Nodup := (List.nodup_append.1 hwf.nodup).1
    have hb : t.m_indices[r] < col.m_data_vec.length := by
      rw [hwf.cap col (List.getElem?_mem hcol)]
      exact hwf.bound _ (List.mem_append_left _ (List.getElem_mem _))
    rw [writeCells_getD_mem fn _ t.m_indices col.m_data_vec 0 r hnd hr2 hb, Nat.zero_add]
  · have hk2 : ¬ k = ci := fun e => hk e.symm
    simp only [hk, if_false, hk2]

theorem Table.transformColumn_accept (gct : String → Table → DataType → Option Formula)
    (t : Table) (hsz : t.rowCount < 2 ^ 64) (hnd : t.m_indices.Nodup)
    (column_name formula : String) (ci : Nat) (dt : DataType) (tokens : Formula)
    (fn : Nat → Variant) (hf : t.findColumn column_name = some (ci, dt))
    (hg : gct formula t dt = some tokens) (hloc : tokens.RowLocal)
    (hev : ∀ r, r < t.rowCount →
      tokens.eval t.getDataWC r = .ok (fn r) ∧ dataTypeOf (fn r) = dt) :
    ∃ col, t.m_columns[ci]? = some col ∧ col.getName = column_name ∧
      t.transformColumn gct column_name formula =
        .ok (if ci = 0 then
            ({ t with m_columns := (t.m_columns.set ci
                ({ col with m_data_vec := writeCells fn col.m_data_vec 0 t.m_indices }
                  : Column)) } : Table).sort
          else
            { t with m_columns := (t.m_columns.set ci
                ({ col with m_data_vec := writeCells fn col.m_data_vec 0 t.m_indices }
                  : Column)) }, true) := by
  obtain ⟨col, hcol, hname, hdt⟩ := t.findColumn_some column_name ci dt hf
  refine ⟨col, hcol, hname, ?_⟩
  have hev2 : ∀ r, 0 ≤ r → r < 0 + t.rowCount →
      tokens.eval t.getDataWC r = .ok (fn r) ∧ (fn r).index = col.ktype.index := by
    intro r _ hr
    obtain ⟨h1, h2⟩ := hev r (by omega)
    refine ⟨h1, (dataType_eq_iff (fn r) col.ktype).1 ?_⟩
    have h3 : (1 <<< (fn r).index) = dt := h2
    rw [h3, hdt]
    rfl
  have hrows := Table.evaluateRows_eq tokens hloc fn ci t.rowCount 0 t col hnd (by omega) hcol
    hev2
  have htake : (t.m_indices.drop 0).take t.rowCount = t.m_indices := by
    rw [List.drop_zero]
    exact List.take_length _
  rw [htake] at hrows
  unfold Table.transformColumn
  simp only [hf, hg]
  unfold Table.evaluateFormula
  rw [sizeInc_sizeDec _ hsz, Nat.sub_zero, hrows]
  by_cases h0 : ci = 0
  · simp [h0]
  · simp [h0]

end km

namespace km

theorem list_concat_set {α : Type} (l : List α) (x y : α) :
    (l ++ [x]).set l.length y = l ++ [y] := by
  induction l with
  | nil => rfl
  | cons a l ih => simp [List.set, ih]

theorem Table.addColumnF_accept (t : Table) (column : ColumnMetaData) (fn : Nat → Variant)
    (column_ptr : Column)
    (hval : t.validateForNewColumn column.column_name column.data_type = true)
    (hcreate : createColumn column.column_name column.display_name column.data_type =
      some column_ptr)
    (htag : ∀ r, r < t.rowCount → dataTypeOf (fn r) = column.data_type) :
    t.addColumnF column fn =
      .ok (Table.sortIfFirstColumn { t with m_columns := t.m_columns ++
        [({ column_ptr.resize (t.rowCount + t.m_free_space.length) with
            m_data_vec := writeCells fn
              (column_ptr.resize (t.rowCount + t.m_free_space.length)).m_data_vec 0
              t.m_indices } : Column)] }, true) := by
  obtain ⟨_, _, hdt⟩ := createColumn_typed _ _ _ _ hcreate
  have hloop := Table.functorLoop_eq fn t.m_indices
    (column_ptr.resize (t.rowCount + t.m_free_space.length)) 0 (by
      intro j hj
      rw [Nat.zero_add]
      apply (dataType_eq_iff (fn j) column_ptr.ktype).1
      have h3 : (1 <<< (fn j).index) = column.data_type := htag j hj
      rw [h3, hdt])
  unfold Table.addColumnF
  simp only [hval, Bool.not_true, Bool.false_eq_true, if_false, hcreate, hloop]

theorem Table.addColumnE_accept (gct : String → Table → DataType → Option Formula) (t : Table)
    (hnd : t.m_indices.Nodup) (hrow : t.rowCount ≠ 0) (hsz : t.rowCount < 2 ^ 64)
    (column : ColumnMetaData) (formula : String) (column_ptr : Column) (tokens : Formula)
    (fn : Nat → Variant)
    (hval : t.validateForNewColumn column.column_name column.data_type = true)
    (hcreate : createColumn column.column_name column.display_name column.data_type =
      some column_ptr)
    (hg : gct formula { t with m_columns := t.m_columns ++
      [column_ptr.resize (t.rowCount + t.m_free_space.length)] } column.data_type = some tokens)
    (hloc : tokens.RowLocal)
    (hev : ∀ r, r < t.rowCount →
      tokens.eval ({ t with m_columns := t.m_columns ++
        [column_ptr.resize (t.rowCount + t.m_free_space.length)] } : Table).getDataWC r =
          .ok (fn r) ∧
      dataTypeOf (fn r) = column.data_type) :
    t.addColumnE gct column formula =
      .ok (Table.sortIfFirstColumn { t with m_columns := t.m_columns ++
        [({ column_ptr.resize (t.rowCount + t.m_free_space.length) with
            m_data_vec := writeCells fn
              (column_ptr.resize (t.rowCount + t.m_free_space.length)).m_data_vec 0
              t.m_indices } : Column)] }, true) := by
  obtain ⟨_, _, hdt⟩ := createColumn_typed _ _ _ _ hcreate
  have hcol : ({ t with m_columns := t.m_columns ++
      [column_ptr.resize (t.rowCount + t.m_free_space.length)] } : Table).m_columns[
        t.m_columns.length]? = some (column_ptr.resize (t.rowCount + t.m_free_space.length)) :=
    List.getElem?_concat_length _ _
  have hev2 : ∀ r, 0 ≤ r → r < 0 + t.rowCount →
      tokens.eval ({ t with m_columns := t.m_columns ++
        [column_ptr.resize (t.rowCount + t.m_free_space.length)] } : Table).getDataWC r =
          .ok (fn r) ∧
      (fn r).index = (column_ptr.resize (t.rowCount + t.m_free_space.length)).ktype.index := by
    intro r _ hr
    obtain ⟨h1, h2⟩ := hev r (by omega)
    refine ⟨h1, (dataType_eq_iff (fn r) column_ptr.ktype).1 ?_⟩
    have h3 : (1 <<< (fn r).index) = column.data_type := h2
    rw [h3, hdt]
  have hrows := Table.evaluateRows_eq tokens hloc fn t.m_columns.length t.rowCount 0
    ({ t with m_columns := t.m_columns ++
      [column_ptr.resize (t.rowCount + t.m_free_space.length)] } : Table)
    (column_ptr.resize (t.rowCount + t.m_free_space.length)) hnd
    (by show 0 + t.rowCount ≤ t.m_indices.length; simp [Table.rowCount]) hcol hev2
  have htake : (t.m_indices.drop 0).take t.rowCount = t.m_indices := by
    rw [List.drop_zero]
    exact List.take_length _
  simp only [htake, list_concat_set] at hrows
  unfold Table.addColumnE
  simp only [hval, Bool.not_true, Bool.false_eq_true, if_false, hcreate]
  have hrc : ({ t with m_columns := t.m_columns ++ [column_ptr] } : Table).rowCount =
    t.rowCount := rfl
  simp only [hrc, ne_eq, hrow, not_false_eq_true, if_true, hg]
  unfold Table.evaluateFormula
  rw [sizeInc_pred _ hrow hsz, Nat.sub_zero]
  have hlen : (t.m_columns ++
      [column_ptr.resize (t.rowCount + t.m_free_space.length)]).length - 1 =
      t.m_columns.length := by simp
  simp only [hlen, hrows]

end km

namespace km

theorem stringCompare_eq_zero : ∀ (a b : List Char), stringCompare a b = 0 → a = b
  | [], [], _ => rfl
  | [], _ :: _, h => by simp [stringCompare] at h
  | _ :: _, [], h => by simp [stringCompare] at h
  | x :: xs, y :: ys, h => by
    simp only [stringCompare] at h
    split_ifs at h with h1 h2
    · exact absurd h (by decide)
    · have hxy : x = y := by
        rw [← Char.ofNat_toNat x, ← Char.ofNat_toNat y]
        congr 1
        omega
      rw [hxy, stringCompare_eq_zero xs ys h]

theorem KDate.eq_of_rep (a b : KDate) (ha : a.month.val < 100 ∧ a.day.val < 100)
    (hb : b.month.val < 100 ∧ b.day.val < 100)
    (h : integralRepresentationOf a = integralRepresentationOf b) : a = b := by
  unfold integralRepresentationOf at h
  have hy := a.year.isLt
  have hy2 := b.year.isLt
  have h1 : a.year.val = b.year.val := by omega
  have h2 : a.month.val = b.month.val := by omega
  have h3 : a.day.val = b.day.val := by omega
  cases a
  cases b
  simp only [KDate.mk.injEq]
  exact ⟨Fin.ext h1, Fin.ext h2, Fin.ext h3⟩

theorem KDate.eq_self (a : KDate) : KDate.eq a a = true := by
  simp [KDate.eq]

theorem KDate.eq_iff (a b : KDate) : KDate.eq a b = true ↔ a = b := by
  constructor
  · intro h
    simp only [KDate.eq, Bool.and_eq_true, beq_iff_eq] at h
    cases a
    cases b
    simp only [KDate.mk.injEq]
    exact ⟨h.2, h.1.2, h.1.1⟩
  · rintro rfl
    exact KDate.eq_self a

theorem KDateTime.dateTime_eq_iff (a b : KDateTime) : KDateTime.eq a b = true ↔ a = b := by
  constructor
  · intro h
    simp only [KDateTime.eq, Bool.and_eq_true, beq_iff_eq, KDate.eq_iff] at h
    obtain ⟨⟨⟨h1, h2⟩, h3⟩, h4⟩ := h
    cases a with
    | mk ad at_ =>
      cases b with
      | mk bd bt =>
        cases at_
        cases bt
        simp only at h1 h2 h3 h4
        subst h1 h2 h3 h4
        rfl
  · rintro rfl
    simp [KDateTime.eq, KDate.eq_self]

theorem KDateTime.dateTime_eq_of_rep (a b : KDateTime)
    (ha : a.date.month.val < 100 ∧ a.date.day.val < 100 ∧ a.time.minute.val < 60 ∧
      a.time.second.val < 60)
    (hb : b.date.month.val < 100 ∧ b.date.day.val < 100 ∧ b.time.minute.val < 60 ∧
      b.time.second.val < 60)
    (h1 : integralRepresentationOf a.date = integralRepresentationOf b.date)
    (h2 : toSeconds a.time = toSeconds b.time) : a = b := by
  have hd := KDate.eq_of_rep a.date b.date ⟨ha.1, ha.2.1⟩ ⟨hb.1, hb.2.1⟩ h1
  unfold toSeconds at h2
  have e1 : a.time.hour.val = b.time.hour.val := by omega
  have e2 : a.time.minute.val = b.time.minute.val := by omega
  have e3 : a.time.second.val = b.time.second.val := by omega
  cases a with
  | mk ad at_ =>
    cases b with
    | mk bd bt =>
      cases at_
      cases bt
      simp only at hd e1 e2 e3
      subst hd
      simp only [KDateTime.mk.injEq, KTime.mk.injEq, true_and]
      exact ⟨Fin.ext e1, Fin.ext e2, Fin.ext e3⟩

namespace Variant

theorem equal_not_less (a v : Variant) (h : equal a v = true) :
    less a v = false ∧ less v a = false := by
  cases a <;> cases v <;> simp only [equal, Bool.false_eq_true] at h
  all_goals simp only [decide_eq_true_eq, KDate.eq_iff, KDateTime.dateTime_eq_iff] at h
  all_goals subst h
  all_goals exact ⟨less_irrefl _, less_irrefl _⟩

theorem equal_of_not_less (a v : Variant) (hi : a.index = v.index) (ha : a.Canonical)
    (hv : v.Canonical) (h1 : less a v = false) (h2 : less v a = false) : equal a v = true := by
  cases a <;> cases v <;> simp only [index, reduceCtorEq] at hi <;> try omega
  all_goals simp only [less, KDate.lt, decide_eq_false_iff_not, Bool.eq_false_iff, ne_eq,
    KDateTime.lt_iff, decide_eq_true_eq, equal, KDate.eq_iff, KDateTime.dateTime_eq_iff] at *
  · omega
  · omega
  · exact le_antisymm (not_lt.mp h2) (not_lt.mp h1)
  · exact le_antisymm (not_lt.mp h2) (not_lt.mp h1)
  · rename_i x y
    have hs := stringCompare_swap x.data y.data
    have h0 : stringCompare x.data y.data = 0 := by omega
    have := stringCompare_eq_zero _ _ h0
    cases x
    cases y
    simp only at this
    rw [this]
  · rename_i x y
    cases x <;> cases y <;> simp_all
  · exact KDate.eq_of_rep _ _ ha hv (by omega)
  · exact KDateTime.dateTime_eq_of_rep _ _ ha hv (by omega) (by omega)

theorem equalEps_exact (eps : ℚ) (a v : Variant) (h : a.index ≠ 2 ∧ a.index ≠ 3) :
    equalEps eps a v = equal a v := by
  cases a <;> cases v <;> first | rfl | (simp [index] at h)

theorem equalEps_f32 (eps x z : ℚ) :
    equalEps eps (float32 x) (float32 z) = decide (|x - z| < eps) := rfl

theorem equalEps_f64 (eps x z : ℚ) :
    equalEps eps (float64 x) (float64 z) = decide (|x - z| < eps) := rfl

theorem less_f32 (x z : ℚ) : less (float32 x) (float32 z) = decide (x < z) := rfl

theorem less_f64 (x z : ℚ) : less (float64 x) (float64 z) = decide (x < z) := rfl

theorem abs_low (eps x y z : ℚ) (h1 : decide (y < x) = false) (h2 : decide (y < z) = true)
    (h3 : decide (|x - z| < eps) = true) : decide (|y - z| < eps) = true := by
  rw [decide_eq_true_eq] at h2 h3 ⊢
  rw [decide_eq_false_iff_not, not_lt] at h1
  rw [abs_lt] at h3 ⊢
  constructor <;> linarith

theorem abs_high (eps x y z : ℚ) (h1 : decide (y < x) = false) (h2 : decide (x < z) = false)
    (h3 : decide (|y - z| < eps) = true) : decide (|x - z| < eps) = true := by
  rw [decide_eq_true_eq] at h3 ⊢
  rw [decide_eq_false_iff_not, not_lt] at h1 h2
  rw [abs_lt] at h3 ⊢
  constructor <;> linarith

theorem abs_low_desc (eps x y z : ℚ) (h1 : decide (x < y) = false)
    (h2 : decide (z < y) = true) (h3 : decide (|x - z| < eps) = true) :
    decide (|y - z| < eps) = true := by
  rw [decide_eq_true_eq] at h2 h3 ⊢
  rw [decide_eq_false_iff_not, not_lt] at h1
  rw [abs_lt] at h3 ⊢
  constructor <;> linarith

theorem abs_high_desc (eps x y z : ℚ) (h1 : decide (x < y) = false)
    (h2 : decide (z < x) = false) (h3 : decide (|y - z| < eps) = true) :
    decide (|x - z| < eps) = true := by
  rw [decide_eq_true_eq] at h3 ⊢
  rw [decide_eq_false_iff_not, not_lt] at h1 h2
  rw [abs_lt] at h3 ⊢
  constructor <;> linarith

/-- Below the searched value, in an ascending run: a cell between an equal cell and the value
is equal to the value as well. -/
theorem equalEps_low (eps : ℚ) (a b v : Variant) (hab : a.index = b.index)
    (hbv : b.index = v.index) (h1 : less b a = false) (h2 : less b v = true)
    (h3 : equalEps eps a v = true) : equalEps eps b v = true := by
  by_cases hf : a.index ≠ 2 ∧ a.index ≠ 3
  · exfalso
    rw [equalEps_exact eps a v hf] at h3
    have h4 := (equal_not_less _ _ h3).1
    have h5 := less_negtrans _ _ _ hab.symm (hab.trans hbv) h1 h4
    rw [h2] at h5
    exact absurd h5 (by decide)
  · cases a <;> simp only [index] at hf <;> try omega
    all_goals cases b <;> simp only [index, reduceCtorEq] at hab <;> try omega
    all_goals cases v <;> simp only [index, reduceCtorEq] at hbv <;> try omega
    · exact abs_low eps _ _ _ h1 h2 h3
    · exact abs_low eps _ _ _ h1 h2 h3

/-- At or above the searched value, in an ascending run: a cell between the value and an
equal cell is equal to the value as well. -/
theorem equalEps_high (eps : ℚ) (a b v : Variant) (hab : a.index = b.index)
    (hbv : b.index = v.index) (ha : a.Canonical) (hv : v.Canonical)
    (h1 : less b a = false) (h2 : less a v = false)
    (h3 : equalEps eps b v = true) : equalEps eps a v = true := by
  by_cases hf : a.index ≠ 2 ∧ a.index ≠ 3
  · rw [equalEps_exact eps b v (hab ▸ hf)] at h3
    rw [equalEps_exact eps a v hf]
    have h4 := (equal_not_less _ _ h3).2
    exact equal_of_not_less _ _ (hab.trans hbv) ha hv h2
      (less_negtrans _ _ _ hbv.symm hab.symm h4 h1)
  · cases a <;> simp only [index] at hf <;> try omega
    all_goals cases b <;> simp only [index, reduceCtorEq] at hab <;> try omega
    all_goals cases v <;> simp only [index, reduceCtorEq] at hbv <;> try omega
    · exact abs_high eps _ _ _ h1 h2 h3
    · exact abs_high eps _ _ _ h1 h2 h3

/-- Above the searched value, in a descending run. -/
theorem equalEps_low_desc (eps : ℚ) (a b v : Variant) (hab : a.index = b.index)
    (hbv : b.index = v.index) (h1 : less a b = false) (h2 : less v b = true)
    (h3 : equalEps eps a v = true) : equalEps eps b v = true := by
  by_cases hf : a.index ≠ 2 ∧ a.index ≠ 3
  · exfalso
    rw [equalEps_exact eps a v hf] at h3
    have h4 := (equal_not_less _ _ h3).2
    have h5 := less_negtrans _ _ _ (hab.trans hbv).symm hab h4 h1
    rw [h2] at h5
    exact absurd h5 (by decide)
  · cases a <;> simp only [index] at hf <;> try omega
    all_goals cases b <;> simp only [index, reduceCtorEq] at hab <;> try omega
    all_goals cases v <;> simp only [index, reduceCtorEq] at hbv <;> try omega
    · exact abs_low_desc eps _ _ _ h1 h2 h3
    · exact abs_low_desc eps _ _ _ h1 h2 h3

/-- At or below the searched value, in a descending run. -/
theorem equalEps_high_desc (eps : ℚ) (a b v : Variant) (hab : a.index = b.index)
    (hbv : b.index = v.index) (ha : a.Canonical) (hv : v.Canonical)
    (h1 : less a b = false) (h2 : less v a = false)
    (h3 : equalEps eps b v = true) : equalEps eps a v = true := by
  by_cases hf : a.index ≠ 2 ∧ a.index ≠ 3
  · rw [equalEps_exact eps b v (hab ▸ hf)] at h3
    rw [equalEps_exact eps a v hf]
    have h4 := (equal_not_less _ _ h3).1
    exact equal_of_not_less _ _ (hab.trans hbv) ha hv
      (less_negtrans _ _ _ hab hbv h1 h4) h2
  · cases a <;> simp only [index] at hf <;> try omega
    all_goals cases b <;> simp only [index, reduceCtorEq] at hab <;> try omega
    all_goals cases v <;> simp only [index, reduceCtorEq] at hbv <;> try omega
    · exact abs_high_desc eps _ _ _ h1 h2 h3
    · exact abs_high_desc eps _ _ _ h1 h2 h3

theorem equal_of_equalEps_date (eps : ℚ) (a : Variant) (d : KDate)
    (h : equalEps eps a (date d) = true) : a = date d := by
  cases a with
  | date x =>
    have h2 : KDate.eq x d = true := h
    rw [(KDate.eq_iff x d).1 h2]
  | _ => exact Bool.noConfusion h

theorem equal_of_equalEps_dateTime (eps : ℚ) (a : Variant) (d : KDateTime)
    (h : equalEps eps a (dateTime d) = true) : a = dateTime d := by
  cases a with
  | dateTime x =>
    have h2 : KDateTime.eq x d = true := h
    rw [(KDateTime.dateTime_eq_iff x d).1 h2]
  | _ => exact Bool.noConfusion h

/-- A value equal, under a column's equality, to a canonical cell is canonical itself: dates
and date-times are equal only field by field. -/
theorem canonical_of_equalEps (eps : ℚ) (a v : Variant) (ha : a.Canonical)
    (h : equalEps eps a v = true) : v.Canonical := by
  cases v with
  | date d =>
    rw [← equal_of_equalEps_date eps a d h]
    exact ha
  | dateTime d =>
    rw [← equal_of_equalEps_dateTime eps a d h]
    exact ha
  | _ => exact True.intro

end Variant

end km

namespace km

theorem lower_bound_loop_spec (xs : List Nat) (c : Nat → Bool)
    (hmono : ∀ i j, i ≤ j → j < xs.length → c (xs.getD j 0) = true →
      c (xs.getD i 0) = true) :
    ∀ fuel first len, len ≤ fuel → first + len ≤ xs.length →
      (∀ i, i < first → c (xs.getD i 0) = true) →
      (∀ i, first + len ≤ i → i < xs.length → c (xs.getD i 0) = false) →
      ∃ p, lower_bound_loop xs (fun s => .ok (c s)) fuel first len = .ok p ∧
        p ≤ xs.length ∧ (∀ i, i < p → c (xs.getD i 0) = true) ∧
        (∀ i, p ≤ i → i < xs.length → c (xs.getD i 0) = false) := by
  intro fuel
  induction fuel with
  | zero =>
    intro first len hlen hbound hlow hhigh
    have : len = 0 := by omega
    subst this
    exact ⟨first, rfl, by omega, hlow, fun i hi hn => hhigh i (by omega) hn⟩
  | succ fuel ih =>
    intro first len hlen hbound hlow hhigh
    simp only [lower_bound_loop]
    by_cases hpos : len > 0
    · simp only [hpos, if_true]
      have hhalf : len / 2 < len := Nat.div_lt_self hpos (by decide)
      cases hc : c (xs.getD (first + len / 2) 0)
      · simp only
        apply ih first (len / 2) (by omega) (by omega) hlow
        intro i hi hn
        cases hci : c (xs.getD i 0)
        · rfl
        · have := hmono (first + len / 2) i hi hn hci
          rw [hc] at this
          exact absurd this (by decide)
      · simp only
        apply ih (first + len / 2 + 1) (len - len / 2 - 1) (by omega) (by omega)
        · intro i hi
          exact hmono i (first + len / 2) (by omega) (by omega) hc
        · intro i hi hn
          exact hhigh i (by omega) hn
    · simp only [hpos, if_false]
      exact ⟨first, rfl, by omega, hlow, fun i hi hn => hhigh i (by omega) hn⟩

theorem sizeDec_pos (n : Nat) (h0 : n ≠ 0) (h : n < 2 ^ 64) :
    sizeDec n = n - 1 ∧ sizeDec n ≠ INVALID_INDEX := by
  unfold sizeDec INVALID_INDEX
  rw [if_neg h0]
  exact ⟨rfl, by omega⟩

theorem Table.searchBackward_spec (t : Table) (base : Column) (data : Variant)
    (e : Nat → Bool) (heq : ∀ s, base.isEqualV s data = .ok (e s)) :
    ∀ fuel a1, a1 < fuel → a1 < 2 ^ 64 →
      ∃ a, a ≤ a1 ∧ Table.searchBackward t base data fuel (sizeDec a1) = .ok (sizeDec a) ∧
        (∀ i, a ≤ i → i < a1 → e (t.m_indices.getD i 0) = true) ∧
        (a = 0 ∨ e (t.m_indices.getD (a - 1) 0) = false) := by
  intro fuel
  induction fuel with
  | zero => intro a1 h; exact absurd h (Nat.not_lt_zero _)
  | succ fuel ih =>
    intro a1 hf hsz
    unfold Table.searchBackward
    by_cases h0 : a1 = 0
    · subst h0
      have : sizeDec 0 = INVALID_INDEX := rfl
      simp only [this, ne_eq, not_true_eq_false, if_false]
      exact ⟨0, Nat.le_refl _, rfl, fun i _ hi => absurd hi (Nat.not_lt_zero _), Or.inl rfl⟩
    · obtain ⟨hd, hne⟩ := sizeDec_pos a1 h0 hsz
      simp only [ne_eq, hne, not_false_eq_true, if_true, heq]
      rw [hd]
      cases hc : e (t.m_indices.getD (a1 - 1) 0)
      · simp only
        exact ⟨a1, Nat.le_refl _, by rw [hd], fun i h1 h2 => absurd h2 (by omega),
          Or.inr hc⟩
      · simp only
        obtain ⟨a, ha1, ha2, ha3, ha4⟩ := ih (a1 - 1) (by omega) (by omega)
        refine ⟨a, by omega, ha2, ?_, ha4⟩
        intro i hi1 hi2
        by_cases hi : i = a1 - 1
        · rw [hi]; exact hc
        · exact ha3 i hi1 (by omega)

theorem Table.searchForward_spec (t : Table) (base : Column) (data : Variant)
    (e : Nat → Bool) (heq : ∀ s, base.isEqualV s data = .ok (e s)) (hsz : t.rowCount < 2 ^ 64) :
    ∀ fuel b1, t.rowCount - b1 < fuel → b1 ≤ t.rowCount →
      ∃ b, b1 ≤ b ∧ b ≤ t.rowCount ∧ Table.searchForward t base data fuel b1 = .ok b ∧
        (∀ i, b1 ≤ i → i < b → e (t.m_indices.getD i 0) = true) ∧
        (b = t.rowCount ∨ e (t.m_indices.getD b 0) = false) := by
  intro fuel
  induction fuel with
  | zero => intro b1 h; exact absurd h (Nat.not_lt_zero _)
  | succ fuel ih =>
    intro b1 hf hb
    unfold Table.searchForward
    by_cases hlt : b1 < t.rowCount
    · simp only [hlt, if_true, heq]
      cases hc : e (t.m_indices.getD b1 0)
      · simp only
        exact ⟨b1, Nat.le_refl _, hb, rfl, fun i h1 h2 => absurd h2 (by omega), Or.inr hc⟩
      · simp only
        have hinc : sizeInc b1 = b1 + 1 := by
          unfold sizeInc INVALID_INDEX
          have : ¬ b1 = 2 ^ 64 - 1 := by omega
          simp only [this, if_false]
        rw [hinc]
        obtain ⟨b, hb1, hb2, hb3, hb4, hb5⟩ := ih (b1 + 1) (by omega) (by omega)
        refine ⟨b, by omega, hb2, hb3, ?_, hb5⟩
        intro i hi1 hi2
        by_cases hi : i = b1
        · rw [hi]; exact hc
        · exact hb4 i (by omega) hi2
    · simp only [hlt, if_false]
      exact ⟨b1, Nat.le_refl _, hb, rfl, fun i h1 h2 => absurd h2 (by omega),
        Or.inl (by omega)⟩

theorem Table.searchCollect_spec : ∀ (fuel a b : Nat) (acc : List Nat), a ≤ b → b - a < fuel →
    b < 2 ^ 64 → Table.searchCollect fuel (sizeDec a) b acc = acc ++ List.range' a (b - a)
  | 0, _, _, _, _, h, _ => absurd h (Nat.not_lt_zero _)
  | fuel + 1, a, b, acc, hab, hf, hsz => by
    unfold Table.searchCollect
    rw [sizeInc_sizeDec a (by omega)]
    by_cases he : a = b
    · subst he
      simp
    · simp only [ne_eq, he, not_false_eq_true, if_true]
      have hd : a = sizeDec (a + 1) := by
        unfold sizeDec
        simp
      rw [hd, Table.searchCollect_spec fuel (a + 1) b _ (by omega) (by omega) hsz, ← hd]
      have hr : b - a = (b - (a + 1)) + 1 := by omega
      rw [hr, List.range'_succ, List.append_assoc]
      rfl

theorem filter_range_eq (n a b : Nat) (p : Nat → Bool) (hab : a ≤ b) (hbn : b ≤ n)
    (h : ∀ i, i < n → (p i = true ↔ a ≤ i ∧ i < b)) :
    (List.range n).filter p = List.range' a (b - a) := by
  have e1 : List.range n = List.range' 0 a ++ (List.range' a (b - a) ++ List.range' b (n - b)) := by
    rw [List.range_eq_range']
    have h1 := List.range'_append_1 a (b - a) (n - b)
    have h2 := List.range'_append_1 0 a (n - a)
    rw [show a + (b - a) = b by omega, show n - b + (b - a) = n - a by omega] at h1
    rw [show 0 + a = a by omega, show n - a + a = n by omega] at h2
    rw [h1, h2]
  rw [e1, List.filter_append, List.filter_append]
  have f1 : (List.range' 0 a).filter p = [] := by
    rw [List.filter_eq_nil_iff]
    intro i hi
    rw [List.mem_range'_1] at hi
    intro hp
    have := (h i (by omega)).1 hp
    omega
  have f2 : (List.range' a (b - a)).filter p = List.range' a (b - a) := by
    rw [List.filter_eq_self]
    intro i hi
    rw [List.mem_range'_1] at hi
    exact (h i (by omega)).2 ⟨by omega, by omega⟩
  have f3 : (List.range' b (n - b)).filter p = [] := by
    rw [List.filter_eq_nil_iff]
    intro i hi
    rw [List.mem_range'_1] at hi
    intro hp
    have := (h i (by omega)).1 hp
    omega
  rw [f1, f2, f3]
  simp

/-- The two scans and the collection of `searchInKeyColumn`, started at a position `index`
below which the equal cells form a run that ends at `index` and from which they form a run
that starts at `index`, return the positions of all equal cells. -/
theorem Table.searchRun_spec (t : Table) (base : Column) (data : Variant) (e : Nat → Bool)
    (heq : ∀ s, base.isEqualV s data = .ok (e s)) (hsz : t.rowCount < 2 ^ 64) (index : Nat)
    (hidx : index ≤ t.rowCount)
    (hlow : ∀ i j, i ≤ j → j < index → e (t.m_indices.getD i 0) = true →
      e (t.m_indices.getD j 0) = true)
    (hhigh : ∀ i j, index ≤ i → i ≤ j → j < t.rowCount → e (t.m_indices.getD j 0) = true →
      e (t.m_indices.getD i 0) = true) :
    Table.searchRun t base data index =
      .ok ((List.range t.rowCount).filter (fun r => e (t.m_indices.getD r 0))) := by
  obtain ⟨a, ha1, ha2, ha3, ha4⟩ :=
    t.searchBackward_spec base data e heq (t.rowCount + 1) index (by omega) (by omega)
  obtain ⟨b, hb1, hb2, hb3, hb4, hb5⟩ :=
    t.searchForward_spec base data e heq hsz (t.rowCount + 1) index (by omega) hidx
  unfold Table.searchRun
  rw [ha2, hb3]
  simp only
  rw [Table.searchCollect_spec (t.rowCount + 1) a b [] (by omega) (by omega) (by omega),
    List.nil_append]
  congr 1
  symm
  apply filter_range_eq t.rowCount a b _ (by omega) hb2
  intro i hi
  constructor
  · intro hp
    constructor
    · by_cases hia : a ≤ i
      · exact hia
      · exfalso
        have ha0 : a ≠ 0 := by omega
        rcases ha4 with h | h
        · exact ha0 h
        · have := hlow i (a - 1) (by omega) (by omega) hp
          rw [h] at this
          exact absurd this (by decide)
    · by_cases hib : i < b
      · exact hib
      · exfalso
        rcases hb5 with h | h
        · omega
        · have := hhigh b i hb1 (by omega) hi hp
          rw [h] at this
          exact absurd this (by decide)
  · rintro ⟨h1, h2⟩
    by_cases hi2 : i < index
    · exact ha3 i h1 hi2
    · exact hb4 i (by omega) h2

theorem Table.searchLinear_spec (column_ptr : Column) (data : Variant) (e : Nat → Bool)
    (heq : ∀ s, column_ptr.isEqualV s data = .ok (e s)) :
    ∀ (slots : List Nat) (index : Nat) (acc : List Nat),
      Table.searchLinear column_ptr data slots index acc =
        .ok (acc ++ (List.range' index slots.length).filter
          (fun r => e (slots.getD (r - index) 0)))
  | [], _, acc => by simp [Table.searchLinear]
  | slot :: rest, index, acc => by
    unfold Table.searchLinear
    rw [heq]
    have hf : (List.range' (index + 1) rest.length).filter
        (fun r => e ((slot :: rest).getD (r - index) 0)) =
        (List.range' (index + 1) rest.length).filter
        (fun r => e (rest.getD (r - (index + 1)) 0)) := by
      apply List.filter_congr
      intro r hr
      rw [List.mem_range'_1] at hr
      have : r - index = (r - (index + 1)) + 1 := by omega
      rw [this]
      rfl
    cases hc : e slot
    · simp only
      rw [Table.searchLinear_spec column_ptr data e heq rest (index + 1) acc]
      simp only [List.length_cons, List.range'_succ, List.filter_cons, Nat.sub_self,
        List.getD_cons_zero, hc, hf]
      rfl
    · simp only
      rw [Table.searchLinear_spec column_ptr data e heq rest (index + 1) (acc ++ [index])]
      simp only [List.length_cons, List.range'_succ, List.filter_cons, Nat.sub_self,
        List.getD_cons_zero, hc, hf, if_true, List.append_assoc, List.singleton_append]

end km

namespace km

theorem indexForDataType_dataTypeFor (T : KType) (otherwise : Nat) :
    indexForDataType (dataTypeFor T) otherwise = T.index := by
  cases T <;> rfl

theorem Column.isEqualV_ok (c : Column) (data : Variant) (h : data.index = c.ktype.index)
    (s : Nat) : c.isEqualV s data = .ok (Variant.equalEps c.m_epsilon (c.getData s) data) := by
  simp [Column.isEqualV, Variant.as, h]

theorem Column.isLessV_ok (c : Column) (data : Variant) (h : data.index = c.ktype.index)
    (s : Nat) : c.isLessV s data = .ok (Variant.less (c.getData s) data) := by
  simp [Column.isLessV, Variant.as, h]

theorem Column.isGreaterV_ok (c : Column) (data : Variant) (h : data.index = c.ktype.index)
    (s : Nat) : c.isGreaterV s data = .ok (Variant.greater (c.getData s) data) := by
  simp [Column.isGreaterV, Variant.as, h]

theorem Table.linearScan_eq (t : Table) (ci : Nat) (col : Column) (data : Variant)
    (hcol : t.m_columns[ci]? = some col) :
    t.linearScan ci data = (List.range t.rowCount).filter (fun r =>
      Variant.equalEps col.m_epsilon (col.getData (t.m_indices.getD r 0)) data) := by
  unfold Table.linearScan
  apply List.filter_congr
  intro r _
  rw [hcol, Table.getDataWC_eq_cellAt, Table.cellAt_eq, hcol]

/-- Order facts of a sorted key column, by position: `cmp` is the comparison of the table's
order applied to the keys. -/
theorem Table.key_positions_sorted (t : Table) (base : Column)
    (hb : t.m_columns.head? = some base) (hs : t.IdxSorted) (i j : Nat) (hij : i ≤ j)
    (hj : j < t.rowCount) :
    (t.m_sorder = SortingOrder.ASCENDING →
      Variant.less (base.getData (t.m_indices.getD j 0)) (base.getData (t.m_indices.getD i 0))
        = false) ∧
    (t.m_sorder ≠ SortingOrder.ASCENDING →
      Variant.less (base.getData (t.m_indices.getD i 0)) (base.getData (t.m_indices.getD j 0))
        = false) := by
  rcases Nat.eq_or_lt_of_le hij with h | h
  · subst h
    exact ⟨fun _ => Variant.less_irrefl _, fun _ => Variant.less_irrefl _⟩
  · have hp := pairwise_getD hs i j h hj
    unfold Table.baseCompare Table.m_comparator at hp
    rw [hb] at hp
    constructor
    · intro ho
      simpa [ho, Column.isLess] using hp
    · intro ho
      simp only [ho, if_false, Column.isGreater, Variant.greater_eq_less] at hp
      exact hp

theorem Table.searchInKeyColumn_spec (t : Table) (hwf : t.WF) (hs : t.IdxSorted)
    (hsz : t.rowCount < 2 ^ 64) (base : Column) (hb : t.m_columns.head? = some base)
    (data : Variant) (htag : data.index = base.ktype.index)
    (hcan : ∀ r, r < t.rowCount → (base.getData (t.m_indices.getD r 0)).Canonical) :
    t.searchInKeyColumn data = .ok (t.linearScan 0 data) := by
  have hcol : t.m_columns[0]? = some base := by
    rw [← List.head?_eq_getElem?]
    exact hb
  have hty : base.Typed := hwf.typed base (List.getElem?_mem hcol)
  have hki : ∀ s, (base.getData s).index = data.index := fun s =>
    (base.getData_index hty s).trans htag.symm
  rw [t.linearScan_eq 0 base data hcol]
  unfold Table.searchInKeyColumn
  by_cases hn : t.rowCount = 0
  · simp [hn]
  simp only [hn, if_false, hb]
  have hidx : indexForDataType base.getDataType INVALID_INDEX = base.ktype.index :=
    indexForDataType_dataTypeFor _ _
  simp only [hidx, ne_eq, htag, not_true_eq_false, if_false]
  have heq := base.isEqualV_ok data htag
  have hcmp : (fun index => if t.m_sorder = SortingOrder.ASCENDING then base.isLessV index data
      else base.isGreaterV index data) =
      (fun s => Except.ok (if t.m_sorder = SortingOrder.ASCENDING then
        Variant.less (base.getData s) data else Variant.less data (base.getData s))) := by
    funext s
    by_cases ho : t.m_sorder = SortingOrder.ASCENDING
    · simp only [ho, if_true, base.isLessV_ok data htag]
    · simp only [ho, if_false, base.isGreaterV_ok data htag, Variant.greater_eq_less]
  rw [hcmp]
  have hmono : ∀ i j, i ≤ j → j < t.m_indices.length →
      (if t.m_sorder = SortingOrder.ASCENDING then
        Variant.less (base.getData (t.m_indices.getD j 0)) data
        else Variant.less data (base.getData (t.m_indices.getD j 0))) = true →
      (if t.m_sorder = SortingOrder.ASCENDING then
        Variant.less (base.getData (t.m_indices.getD i 0)) data
        else Variant.less data (base.getData (t.m_indices.getD i 0))) = true := by
    intro i j hij hj hc
    obtain ⟨k1, k2⟩ := t.key_positions_sorted base hb hs i j hij hj
    by_cases ho : t.m_sorder = SortingOrder.ASCENDING
    · simp only [ho, if_true] at hc ⊢
      cases hx : Variant.less (base.getData (t.m_indices.getD i 0)) data
      · have := Variant.less_negtrans _ _ _ ((hki _).trans (hki _).symm) (hki _) (k1 ho) hx
        rw [hc] at this
        exact absurd this (by decide)
      · rfl
    · simp only [ho, if_false] at hc ⊢
      cases hx : Variant.less data (base.getData (t.m_indices.getD i 0))
      · have := Variant.less_negtrans _ _ _ (hki _).symm ((hki _).trans (hki _).symm) hx (k2 ho)
        rw [hc] at this
        exact absurd this (by decide)
      · rfl
  obtain ⟨p, hp1, hp2, hp3, hp4⟩ := lower_bound_loop_spec t.m_indices
    (fun s => if t.m_sorder = SortingOrder.ASCENDING then
      Variant.less (base.getData s) data else Variant.less data (base.getData s))
    hmono t.m_indices.length 0 t.m_indices.length (Nat.le_refl _) (by omega) (fun i hi => absurd hi (Nat.not_lt_zero _))
    (fun i hi hn2 => absurd hn2 (by omega))
  unfold lower_bound
  rw [hp1]
  simp only
  have hlow : ∀ i j, i ≤ j → j < p →
      Variant.equalEps base.m_epsilon (base.getData (t.m_indices.getD i 0)) data = true →
      Variant.equalEps base.m_epsilon (base.getData (t.m_indices.getD j 0)) data = true := by
    intro i j hij hj he
    obtain ⟨k1, k2⟩ := t.key_positions_sorted base hb hs i j hij (by
      show j < t.m_indices.length
      omega)
    have hc := hp3 j hj
    by_cases ho : t.m_sorder = SortingOrder.ASCENDING
    · simp only [ho, if_true] at hc
      exact Variant.equalEps_low _ _ _ _ ((hki _).trans (hki _).symm) (hki _) (k1 ho) hc he
    · simp only [ho, if_false] at hc
      exact Variant.equalEps_low_desc _ _ _ _ ((hki _).trans (hki _).symm) (hki _) (k2 ho) hc he
  have hhigh : ∀ i j, p ≤ i → i ≤ j → j < t.rowCount →
      Variant.equalEps base.m_epsilon (base.getData (t.m_indices.getD j 0)) data = true →
      Variant.equalEps base.m_epsilon (base.getData (t.m_indices.getD i 0)) data = true := by
    intro i j hpi hij hj he
    obtain ⟨k1, k2⟩ := t.key_positions_sorted base hb hs i j hij hj
    have hi : i < t.rowCount := by omega
    have hc := hp4 i hpi hi
    have hd : data.Canonical := Variant.canonical_of_equalEps _ _ _ (hcan j hj) he
    by_cases ho : t.m_sorder = SortingOrder.ASCENDING
    · simp only [ho, if_true] at hc
      exact Variant.equalEps_high _ _ _ _ ((hki _).trans (hki _).symm) (hki _) (hcan i hi) hd
        (k1 ho) hc he
    · simp only [ho, if_false] at hc
      exact Variant.equalEps_high_desc _ _ _ _ ((hki _).trans (hki _).symm) (hki _) (hcan i hi)
        hd (k2 ho) hc he
  by_cases hpn : p = t.rowCount
  · simp only [hpn, if_true, heq]
    obtain ⟨hdec, _⟩ := sizeDec_pos t.rowCount hn hsz
    rw [hdec]
    cases hlast : Variant.equalEps base.m_epsilon
        (base.getData (t.m_indices.getD (t.rowCount - 1) 0)) data
    · simp only
      congr 1
      symm
      rw [List.filter_eq_nil_iff]
      intro i hi
      rw [List.mem_range] at hi
      intro he
      have := hlow i (t.rowCount - 1) (by omega) (by omega) he
      rw [hlast] at this
      exact absurd this (by decide)
    · simp only
      apply t.searchRun_spec base data _ heq hsz (t.rowCount - 1) (by omega)
      · intro i j hij hj he
        exact hlow i j hij (by omega) he
      · intro i j hi hij hj he
        have : i = j := by omega
        rw [this]
        exact he
  · simp only [hpn, if_false]
    exact t.searchRun_spec base data _ heq hsz p (by
      show p ≤ t.m_indices.length
      exact hp2) hlow hhigh

end km

namespace km

theorem adjacent_iff_pairwise {cmp : Nat → Nat → Bool} (h : StrictWeak cmp) (xs : List Nat) :
    (∀ i, i < xs.length - 1 → cmp (xs.getD (i + 1) 0) (xs.getD i 0) = false) ↔
      xs.Pairwise (fun a b => cmp b a = false) := by
  haveI : IsTrans Nat (fun a b => cmp b a = false) :=
    ⟨fun a b c hab hbc => h.negtrans c b a hbc hab⟩
  rw [← List.chain'_iff_pairwise, List.chain'_iff_get]
  constructor
  · intro hs i hi
    have := hs i hi
    rw [List.getD_eq_getElem _ _ (by omega), List.getD_eq_getElem _ _ (by omega)] at this
    simpa using this
  · intro hs i hi
    have := hs i hi
    rw [List.getD_eq_getElem _ _ (by omega), List.getD_eq_getElem _ _ (by omega)]
    simpa using this

theorem comparatorFor_strictWeak (src : AbstractTable) (hc : src.Coherent)
    (s_order : SortingOrder) (dt : DataType) (c : Nat) :
    StrictWeak (fun a b => comparatorFor s_order dt (src.getDataWC a c) (src.getDataWC b c)) := by
  cases s_order with
  | ASCENDING =>
    exact ⟨fun a => Variant.less_irrefl _, fun a b d => Variant.less_trans _ _ _,
      fun a b d => Variant.less_negtrans _ _ _ (hc.typed c a b) (hc.typed c b d)⟩
  | DESCENDING =>
    refine ⟨fun a => ?_, fun a b d h1 h2 => ?_, fun a b d h1 h2 => ?_⟩
    · simp only [comparatorFor, reduceCtorEq, if_false, Variant.greater_eq_less]
      exact Variant.less_irrefl _
    · simp only [comparatorFor, reduceCtorEq, if_false, Variant.greater_eq_less] at h1 h2 ⊢
      exact Variant.less_trans _ _ _ h2 h1
    · simp only [comparatorFor, reduceCtorEq, if_false, Variant.greater_eq_less] at h1 h2 ⊢
      exact Variant.less_negtrans _ _ _ (hc.typed c d b) (hc.typed c b a) h2 h1

theorem BasicView.compare_strictWeak (v : BasicView) (src : AbstractTable) (hc : src.Coherent) :
    StrictWeak (v.compare src) :=
  comparatorFor_strictWeak src hc v.m_sorder 0 _

theorem BasicView.keyOrdered_eq (v : BasicView) (src : AbstractTable) (hc : src.Coherent)
    (a b : Nat) :
    v.keyOrdered (v.keyOf src a) (v.keyOf src b) = !v.compare src b a := by
  unfold BasicView.keyOrdered BasicView.compare comparatorFor BasicView.keyOf
  cases v.m_sorder with
  | ASCENDING =>
    simp only [if_true]
    exact Variant.lessEq_eq_not_less _ _ (hc.typed _ _ _)
  | DESCENDING =>
    simp only [reduceCtorEq, if_false, Variant.greater_eq_less]
    exact Variant.greaterEq_eq_not_less _ _ (hc.typed _ _ _)

theorem BasicView.sorted_iff (v : BasicView) (src : AbstractTable) (hc : src.Coherent) :
    v.Sorted src ↔ v.m_indices.Pairwise (fun a b => v.compare src b a = false) := by
  rw [← adjacent_iff_pairwise (v.compare_strictWeak src hc)]
  unfold BasicView.Sorted BasicView.rowCount
  constructor
  · intro h i hi
    have := h i hi
    rw [v.keyOrdered_eq src hc] at this
    simpa using this
  · intro h i hi
    rw [v.keyOrdered_eq src hc, h i hi]
    rfl

/-- Method `sortBy(SortingOrder)` keeps a sorted view sorted: a changed order reverses the
rows. -/
theorem BasicView.sortByOrder_sorted (v : BasicView) (src : AbstractTable) (hc : src.Coherent)
    (s_order : SortingOrder) (hs : v.Sorted src) : (v.sortByOrder s_order).Sorted src := by
  unfold BasicView.sortByOrder
  by_cases ho : v.m_sorder = s_order
  · simp only [ho, ne_eq, not_true_eq_false, if_false]
    exact hs
  · simp only [ne_eq, ho, not_false_eq_true, if_true]
    rw [BasicView.sorted_iff _ _ hc] at hs ⊢
    simp only [List.pairwise_reverse]
    refine hs.imp ?_
    intro a b hab
    unfold BasicView.compare comparatorFor BasicView.keyOf at hab ⊢
    cases hv : v.m_sorder <;> cases hn : s_order <;> simp only [hv, hn] at ho hab ⊢
    · exact absurd trivial ho
    · simpa [Variant.greater_eq_less] using hab
    · simpa [Variant.greater_eq_less] using hab
    · exact absurd trivial ho

/-- Method `sortBy(column_name)` on a found column: the stable sort of the indices by that
column, which becomes the key column. -/
theorem BasicView.sortByColumn_found (v : BasicView) (src : AbstractTable) (hc : src.Coherent)
    (column_name : String) (idx : Nat) (ty : DataType)
    (hf : v.findColumn src column_name = .ok (some (idx, ty))) :
    ∃ v1, v.sortByColumn src column_name = .ok v1 ∧
      v1.m_key_column = idx ∧ v1.m_sorder = v.m_sorder ∧
      v1.m_selected_columns = v.m_selected_columns ∧
      v1.m_indices = stable_sort v.m_indices (v1.compare src) ∧
      v1.m_indices.Perm v.m_indices ∧ v1.Sorted src := by
  refine ⟨{ v with
      m_indices := (stable_sort v.m_indices (fun index1 index2 =>
        comparatorFor v.getSortingOrder ty
          (src.getDataWC index1 (v.m_selected_columns.getD idx 0))
          (src.getDataWC index2 (v.m_selected_columns.getD idx 0))))
      m_key_column := idx }, ?_, rfl, rfl, rfl, rfl, stable_sort_perm _ _, ?_⟩
  · simp only [BasicView.sortByColumn, hf]
  · rw [BasicView.sorted_iff _ _ hc]
    exact stable_sort_sorted (BasicView.compare_strictWeak _ src hc) _

end km

namespace km

theorem BasicView.compare_congr (v v1 : BasicView) (src : AbstractTable)
    (h1 : v1.m_sorder = v.m_sorder) (h2 : v1.m_key_column = v.m_key_column)
    (h3 : v1.m_selected_columns = v.m_selected_columns) : v1.compare src = v.compare src := by
  funext a b
  unfold BasicView.compare BasicView.keyOf
  rw [h1, h2, h3]

theorem BasicView.viewSorted_congr (v v1 : BasicView) (src : AbstractTable) (hc : src.Coherent)
    (h0 : v1.m_indices = v.m_indices)
    (h1 : v1.m_sorder = v.m_sorder) (h2 : v1.m_key_column = v.m_key_column)
    (h3 : v1.m_selected_columns = v.m_selected_columns) (hs : v.Sorted src) : v1.Sorted src := by
  rw [BasicView.sorted_iff _ _ hc] at hs ⊢
  rw [h0, v.compare_congr v1 src h1 h2 h3]
  exact hs

/-- The renumbering of `rowInserted` carries the order of the view over to the source with
the row inserted. -/
theorem BasicView.shifted_pairwise (v : BasicView) (src0 src1 : AbstractTable)
    (row_index : Nat) (hins : src0.InsertedAt src1 row_index)
    (hrows : ∀ r ∈ v.m_indices, r < src0.rowCount)
    (hs : v.m_indices.Pairwise (fun a b => v.compare src0 b a = false)) :
    (v.m_indices.map (fun index => if index ≥ row_index then index + 1 else index)).Pairwise
      (fun a b => v.compare src1 b a = false) := by
  rw [List.pairwise_map]
  refine List.Pairwise.imp_of_mem ?_ hs
  intro a b ha hb hab
  unfold BasicView.compare BasicView.keyOf at hab ⊢
  rw [hins _ _ (hrows a ha), hins _ _ (hrows b hb)]
  exact hab

theorem BasicView.insertablePosition_eq (v : BasicView) (src : AbstractTable)
    (col : String × DataType) (hkey : v.columnAt src v.m_key_column = some col)
    (data : Variant) :
    v.insertablePosition src data =
      .ok (if v.m_indices.isEmpty then 0
        else upper_bound v.m_indices (fun middle =>
          comparatorFor v.m_sorder 0 data
            (src.getDataWC middle (v.m_selected_columns.getD v.m_key_column 0)))) := by
  unfold BasicView.insertablePosition
  by_cases he : v.m_indices.isEmpty = true
  · simp only [he, if_true]
  · have hk : v.columnAt src v.getKeyColumn = some col := hkey
    simp only [he, Bool.false_eq_true, if_false, hk, optionalValue]
    rfl

/-- Slot `rowInserted` returns and leaves the view in order with respect to the source with
the new row. -/
theorem BasicView.rowInserted_sorted (v : BasicView) (src0 src1 : AbstractTable)
    (hc0 : src0.Coherent) (hc1 : src1.Coherent) (row_index : Nat)
    (hins : src0.InsertedAt src1 row_index) (hrows : ∀ r ∈ v.m_indices, r < src0.rowCount)
    (hkey : ∃ col, v.columnAt src1 v.m_key_column = some col) (hs : v.Sorted src0) :
    ∃ v1, v.rowInserted src1 row_index = .ok v1 ∧ v1.Sorted src1 ∧
      v1.m_sorder = v.m_sorder ∧ v1.m_key_column = v.m_key_column ∧
      v1.m_selected_columns = v.m_selected_columns ∧
      (v1.m_indices = v.m_indices.map (fun index =>
          if index ≥ row_index then index + 1 else index) ∨
        v1.m_indices.Perm (row_index :: v.m_indices.map (fun index =>
          if index ≥ row_index then index + 1 else index))) := by
  rw [BasicView.sorted_iff _ _ hc0] at hs
  have hsh := v.shifted_pairwise src0 src1 row_index hins hrows hs
  obtain ⟨col, hcol⟩ := hkey
  have hpos := BasicView.insertablePosition_eq
    { v with m_indices := v.m_indices.map (fun index =>
        if index ≥ row_index then index + 1 else index) } src1 col hcol
    (src1.getDataWC row_index (v.m_selected_columns.getD v.m_key_column 0))
  unfold BasicView.rowInserted
  by_cases hflt : (!v.m_filtered_token.empty &&
      !v.m_filtered_token.run src1.getDataWC row_index) = true
  · refine ⟨{ v with m_indices := v.m_indices.map (fun index =>
        if index ≥ row_index then index + 1 else index) }, ?_, ?_, rfl, rfl, rfl, Or.inl rfl⟩
    · simp only [hflt, if_true]
    · rw [BasicView.sorted_iff _ _ hc1]
      exact hsh
  · refine ⟨{ v with m_indices := (vectorInsert (v.m_indices.map (fun index =>
        if index ≥ row_index then index + 1 else index))
        (if (v.m_indices.map (fun index =>
            if index ≥ row_index then index + 1 else index)).isEmpty then 0
          else upper_bound (v.m_indices.map (fun index =>
            if index ≥ row_index then index + 1 else index)) (fun middle =>
              comparatorFor v.m_sorder 0
                (src1.getDataWC row_index (v.m_selected_columns.getD v.m_key_column 0))
                (src1.getDataWC middle (v.m_selected_columns.getD v.m_key_column 0))))
        row_index) }, ?_, ?_, rfl, rfl, rfl, Or.inr (vectorInsert_perm _ _ _)⟩
    · simp only [hflt, Bool.false_eq_true, if_false]
      have hk : BasicView.getKeyColumn { v with m_indices := v.m_indices.map (fun index =>
          if index ≥ row_index then index + 1 else index) } = v.m_key_column := rfl
      simp only [hk, hpos]
    · rw [BasicView.sorted_iff _ _ hc1]
      show (vectorInsert _ _ row_index).Pairwise (fun a b => v.compare src1 b a = false)
      by_cases he : (v.m_indices.map (fun index =>
          if index ≥ row_index then index + 1 else index)).isEmpty = true
      · have hnil : v.m_indices.map (fun index =>
            if index ≥ row_index then index + 1 else index) = [] := by
          simpa using he
        rw [hnil]
        simp [vectorInsert]
      · simp only [he, Bool.false_eq_true, if_false]
        exact upper_bound_insert_sorted (BasicView.compare_strictWeak v src1 hc1) _ row_index
          hsh

end km

namespace km

theorem BasicView.findColumnLoop_found (v : BasicView) (src : AbstractTable) (name : String) :
    ∀ (count i j : Nat) (dt : DataType), i ≤ j → j < i + count →
      src.columnAt (v.m_selected_columns.getD j 0) = some (name, dt) →
      (∃ e, BasicView.findColumnLoop v src name count i = .error e) ∨
      ∃ idx ty, BasicView.findColumnLoop v src name count i = .ok (some (idx, ty))
  | 0, i, j, _, h1, h2, _ => by omega
  | count + 1, i, j, dt, h1, h2, hj => by
    unfold BasicView.findColumnLoop
    cases hcol : src.columnAt (v.m_selected_columns.getD i 0) with
    | none => exact Or.inl ⟨_, rfl⟩
    | some col =>
      simp only [optionalValue]
      by_cases hn : col.1 = name
      · simp only [hn, if_true]
        exact Or.inr ⟨_, _, rfl⟩
      · simp only [hn, if_false]
        have hij : i ≠ j := by
          intro e
          rw [e, hj] at hcol
          apply hn
          rw [← Option.some.inj hcol]
        exact BasicView.findColumnLoop_found v src name count (i + 1) j dt (by omega) (by omega)
          hj

theorem pair_sublist_of_positions (l : List Nat) (i j : Nat) (hij : i < j)
    (hj : j < l.length) : List.Sublist [l.getD i 0, l.getD j 0] l := by
  have hi : i < l.length := by omega
  rw [List.getD_eq_getElem _ _ hi, List.getD_eq_getElem _ _ hj]
  have h1 : List.Sublist [l[i]] (l.take (i + 1)) := by
    rw [List.singleton_sublist]
    rw [List.mem_take_iff_getElem]
    exact ⟨i, by simp; omega, rfl⟩
  have h2 : List.Sublist [l[j]] (l.drop (i + 1)) := by
    rw [List.singleton_sublist]
    rw [List.mem_drop_iff_getElem]
    exact ⟨j - (i + 1), by omega, by
      congr 1
      omega⟩
  have := List.Sublist.append h1 h2
  rwa [List.take_append_drop] at this

theorem nodup_pair_sublist (l : List Nat) (hnd : l.Nodup) (a b : Nat)
    (h1 : List.Sublist [a, b] l) (h2 : List.Sublist [b, a] l) : False := by
  have hp : l.Pairwise (fun x y => l.indexOf x < l.indexOf y) := by
    rw [List.pairwise_iff_getElem]
    intro i j hi hj hij
    rw [List.indexOf_getElem hnd, List.indexOf_getElem hnd]
    exact hij
  have p1 := hp.sublist h1
  have p2 := hp.sublist h2
  simp only [List.pairwise_cons, List.mem_singleton, forall_eq, List.not_mem_nil,
    false_implies, implies_true, List.Pairwise.nil, and_self, and_true] at p1 p2
  omega

theorem pair_sublist_of_ascending (l : List Nat) (hs : l.Pairwise (fun a b => a < b))
    (a b : Nat) (ha : a ∈ l) (hb : b ∈ l) (hab : a < b) : List.Sublist [a, b] l := by
  obtain ⟨i, hi, rfl⟩ := List.mem_iff_getElem.1 ha
  obtain ⟨j, hj, rfl⟩ := List.mem_iff_getElem.1 hb
  have hij : i < j := by
    by_contra hn
    rcases Nat.eq_or_lt_of_le (Nat.le_of_not_lt hn) with e | e
    · subst e
      omega
    · have := List.pairwise_iff_getElem.1 hs j i hj hi e
      omega
  have := pair_sublist_of_positions l i j hij hj
  rwa [List.getD_eq_getElem _ _ hi, List.getD_eq_getElem _ _ hj] at this

/-- The stable sort of an ascending list of rows leaves rows with equal keys in ascending
order. -/
theorem stable_sort_ties {cmp : Nat → Nat → Bool} (xs : List Nat)
    (hs : xs.Pairwise (fun a b => a < b)) (i j : Nat) (hij : i < j)
    (hj : j < (stable_sort xs cmp).length)
    (h1 : cmp ((stable_sort xs cmp).getD i 0) ((stable_sort xs cmp).getD j 0) = false) :
    (stable_sort xs cmp).getD i 0 < (stable_sort xs cmp).getD j 0 := by
  have hperm := stable_sort_perm cmp xs
  have hnd : xs.Nodup := hs.imp (fun h => Nat.ne_of_lt h)
  have hnd2 : (stable_sort xs cmp).Nodup := hperm.nodup_iff.2 hnd
  have hi : i < (stable_sort xs cmp).length := by omega
  by_contra hn
  have hne : (stable_sort xs cmp).getD i 0 ≠ (stable_sort xs cmp).getD j 0 := by
    rw [List.getD_eq_getElem _ _ hi, List.getD_eq_getElem _ _ hj]
    intro e
    have := (List.Nodup.getElem_inj_iff hnd2).1 e
    omega
  have hlt : (stable_sort xs cmp).getD j 0 < (stable_sort xs cmp).getD i 0 := by omega
  have hmi : (stable_sort xs cmp).getD i 0 ∈ xs := by
    apply hperm.subset
    rw [List.getD_eq_getElem _ _ hi]
    exact List.getElem_mem _
  have hmj : (stable_sort xs cmp).getD j 0 ∈ xs := by
    apply hperm.subset
    rw [List.getD_eq_getElem _ _ hj]
    exact List.getElem_mem _
  have hsub := pair_sublist_of_ascending xs hs _ _ hmj hmi hlt
  have hst := stable_sort_stable cmp xs _ _ h1 hsub
  exact nodup_pair_sublist _ hnd2 _ _ (pair_sublist_of_positions _ i j hij hj) hst

theorem BasicView.initialIndices_ascending (src : AbstractTable) (formula : String)
    (tokens : FilterTokens) :
    (BasicView.initialIndices src formula tokens).Pairwise (fun a b => a < b) := by
  unfold BasicView.initialIndices
  split
  · exact List.pairwise_lt_range _
  · exact List.Pairwise.sublist (List.filter_sublist _) (List.pairwise_lt_range _)

/-- Method `sortBy(column_name, order)` on a view whose rows stand in source order, for a
column that one of the selected columns carries: the result is in order, with equal keys in
ascending source-row order. -/
theorem BasicView.sortBy_ascending (v0 v : BasicView) (src : AbstractTable) (hc : src.Coherent)
    (name : String) (s_order : SortingOrder)
    (hasc : v0.m_indices.Pairwise (fun a b => a < b))
    (hcol : ∃ j dt, j < v0.m_selected_columns.length ∧
      src.columnAt (v0.m_selected_columns.getD j 0) = some (name, dt))
    (h : v0.sortBy src name s_order = .ok v) :
    v.Sorted src ∧ v.TiesAscending src ∧ v.m_sorder = s_order ∧
    v.m_indices.Perm v0.m_indices := by
  obtain ⟨j, dt, hj, hcj⟩ := hcol
  unfold BasicView.sortBy at h
  rcases BasicView.findColumnLoop_found { v0 with m_sorder := s_order } src name
      v0.m_selected_columns.length 0 j dt (Nat.zero_le _) (by omega) hcj with ⟨e, he⟩ | ⟨idx, ty, hf⟩
  · have hf : BasicView.findColumn { v0 with m_sorder := s_order } src name = .error e := he
    simp only [BasicView.sortByColumn, hf] at h
    cases h
  · have hf2 : BasicView.findColumn { v0 with m_sorder := s_order } src name =
        .ok (some (idx, ty)) := hf
    obtain ⟨v1, g1, g2, g3, g4, g5, g6, g7⟩ :=
      BasicView.sortByColumn_found { v0 with m_sorder := s_order } src hc name idx ty hf2
    rw [g1] at h
    have hv : v1 = v := Except.ok.inj h
    subst hv
    refine ⟨g7, ?_, g3, g6⟩
    intro a b hab hb k1 k2
    have hb2 : b < v1.m_indices.length := hb
    have hcmp : v1.compare src (v1.m_indices.getD a 0) (v1.m_indices.getD b 0) = false := by
      unfold BasicView.compare comparatorFor
      split
      · exact k1
      · rw [Variant.greater_eq_less]
        exact k2
    generalize v1.compare src = cmp at g5 hcmp
    rw [g5] at hb2 hcmp ⊢
    exact stable_sort_ties v0.m_indices hasc a b hab hb2 hcmp

/-- The constructor leaves the view in order by its key column, rows with equal keys in
ascending source-row order. -/
theorem BasicView.new_sorted (gct : String → AbstractTable → Option FilterTokens)
    (view_name : String) (src : AbstractTable) (hc : src.Coherent) (column_names : List String)
    (formula sort_by : String) (s_order : SortingOrder) (v : BasicView)
    (h : BasicView.new gct view_name src column_names formula sort_by s_order = .ok v) :
    v.Sorted src ∧ v.TiesAscending src ∧ v.m_sorder = s_order := by
  unfold BasicView.new at h
  cases hpre : BasicView.checkPreConditions gct view_name src formula with
  | error e =>
    rw [hpre] at h
    cases h
  | ok tokens =>
    rw [hpre] at h
    simp only at h
    by_cases hsel : (getIndicesOf src column_names).isEmpty = true
    · simp only [hsel, if_true] at h
      cases h
    · simp only [hsel, Bool.false_eq_true, if_false] at h
      cases hkey : BasicView.keyFor src (getIndicesOf src column_names) sort_by with
      | error e =>
        rw [hkey] at h
        cases h
      | ok p =>
        obtain ⟨sort_name, key_column⟩ := p
        rw [hkey] at h
        simp only at h
        have hne : getIndicesOf src column_names ≠ [] := by
          intro e
          rw [e] at hsel
          exact hsel rfl
        have hcol : ∃ j dt, j < (getIndicesOf src column_names).length ∧
            src.columnAt ((getIndicesOf src column_names).getD j 0) = some (sort_name, dt) := by
          unfold BasicView.keyFor at hkey
          by_cases hsb : sort_by.isEmpty = true
          · simp only [hsb, Bool.not_true, Bool.false_eq_true, if_false] at hkey
            cases hca : src.columnAt ((getIndicesOf src column_names).headD 0) with
            | none =>
              rw [hca] at hkey
              simp only [optionalValue] at hkey
              cases hkey
            | some col =>
              rw [hca] at hkey
              simp only [optionalValue, Except.ok.injEq, Prod.mk.injEq] at hkey
              refine ⟨0, col.2, List.length_pos.2 hne, ?_⟩
              have h0 : (getIndicesOf src column_names).getD 0 0 =
                  (getIndicesOf src column_names).headD 0 := by
                cases getIndicesOf src column_names <;> rfl
              rw [h0, hca, ← hkey.1]
          · simp only [hsb, Bool.not_false, if_true] at hkey
            cases hfc : src.findColumn sort_by with
            | none =>
              rw [hfc] at hkey
              cases hkey
            | some index_sb =>
              rw [hfc] at hkey
              simp only at hkey
              by_cases hin : (getIndicesOf src column_names).contains index_sb.1 = true
              · simp only [hin, if_true, Except.ok.injEq, Prod.mk.injEq] at hkey
                obtain ⟨dt1, hdt1⟩ := hc.named sort_by index_sb.1 index_sb.2 hfc
                have hmem : index_sb.1 ∈ getIndicesOf src column_names := by
                  simpa using hin
                have hlt := List.indexOf_lt_length.2 hmem
                refine ⟨(getIndicesOf src column_names).indexOf index_sb.1, dt1, hlt, ?_⟩
                rw [List.getD_eq_getElem _ _ hlt, List.getElem_indexOf, hdt1, hkey.1]
              · simp only [hin, Bool.false_eq_true, if_false] at hkey
                cases hkey
        obtain ⟨g1, g2, g3, _⟩ := BasicView.sortBy_ascending _ v src hc sort_name s_order
          (BasicView.initialIndices_ascending src formula tokens) hcol h
        exact ⟨g1, g2, g3⟩

end km

namespace km

theorem Table.toAbstractTable_coherent (t : Table) (hty : ∀ c ∈ t.m_columns, c.Typed) :
    t.toAbstractTable.Coherent := by
  constructor
  · intro c r1 r2
    show (t.getDataWC r1 c).index = (t.getDataWC r2 c).index
    rw [Table.getDataWC_eq_cellAt, Table.getDataWC_eq_cellAt, Table.cellAt_eq, Table.cellAt_eq]
    cases hcol : t.m_columns[c]? with
    | none => rfl
    | some col =>
      have hct := hty col (List.getElem?_mem hcol)
      exact (col.getData_index hct _).trans (col.getData_index hct _).symm
  · intro name k dt hf
    obtain ⟨c, hc1, hc2, _⟩ := t.findColumn_some name k dt hf
    have hk : k < t.m_columns.length := (List.getElem?_eq_some.1 hc1).1
    refine ⟨c.getDataType, ?_⟩
    show t.columnAt k = some (name, c.getDataType)
    unfold Table.columnAt Table.columnCount
    have hk2 : ¬ k ≥ t.m_columns.length := by omega
    simp only [hk2, if_false, List.get?_eq_getElem?, hc1, Option.map_some', hc2]

theorem Table.getDataWC_of_getData (t t1 : Table) (r r1 c : Nat) (hr : r < t.rowCount)
    (hcc : t1.columnCount = t.columnCount) (h : t1.getData r1 c = t.getData r c) :
    t1.getDataWC r1 c = t.getDataWC r c := by
  by_cases hc : c < t.columnCount
  · unfold Table.getData at h
    have h1 : ¬ (r ≥ t.rowCount ∨ c ≥ t.columnCount) := by omega
    rw [if_neg h1] at h
    split at h
    · cases h
    · exact Option.some.inj h
  · rw [Table.getDataWC_eq_cellAt, Table.getDataWC_eq_cellAt, Table.cellAt_eq, Table.cellAt_eq]
    have e1 : t.m_columns[c]? = none := List.getElem?_eq_none (by
      unfold Table.columnCount at hc
      omega)
    have e2 : t1.m_columns[c]? = none := List.getElem?_eq_none (by
      unfold Table.columnCount at hc hcc
      omega)
    rw [e1, e2]

/-- An accepted `insertRow` is an insertion at the returned index for a view of the table. -/
theorem Table.insertRow_insertedAt (t : Table) (vals : List Variant) (hwf : t.WF)
    (hs : t.m_no_sorting = true ∨ t.IdxSorted) (h : (t.insertRow vals).2 ≠ INVALID_INDEX) :
    t.toAbstractTable.InsertedAt (t.insertRow vals).1.toAbstractTable (t.insertRow vals).2 := by
  obtain ⟨hc, hm⟩ := t.insertRow_accepts vals h
  obtain ⟨_, hcc, _, h4, h5⟩ := t.insertRow_getData vals hwf hc hm hs
  intro r c hr
  show (t.insertRow vals).1.getDataWC _ c = t.getDataWC r c
  by_cases hge : r ≥ (t.insertRow vals).2
  · rw [if_pos hge]
    exact Table.getDataWC_of_getData t _ r _ c hr hcc (h5 r c hge)
  · rw [if_neg hge]
    exact Table.getDataWC_of_getData t _ r _ c hr hcc (h4 r c (by omega))

end km

namespace km

/-! ## Facts about the fixtures -/

set_option maxRecDepth 100000 in
theorem studentTable_wf : studentTable.WF :=
  ⟨by decide, by decide, by decide, by decide⟩

set_option maxRecDepth 100000 in
theorem studentTable_sorted : studentTable.Sorted := by decide

/-! ## Claims about the table engine -/

/-- C1. Sortedness invariant of Table: on a well-formed table whose key column is sorted
through the logical order, every mutator leaves it sorted: an accepted `insertRow` while
sorting is not paused, `dropRow`, `setData`, `addColumn`, `addColumnF`, any returning
`addColumnE` or `transformColumn` (whatever the formula compiler does), `sort` and
`resumeSorting`. Sorted means: each adjacent pair of logical rows has key cells `<=` when the
order is ascending and `>=` when it is descending. -/
theorem C1_sortedness_invariant (t : Table) (hwf : t.WF) (hs : t.Sorted) :
    (∀ vals, t.m_no_sorting = false → (t.insertRow vals).2 ≠ INVALID_INDEX →
      (t.insertRow vals).1.Sorted) ∧
    (∀ i, ∃ t1 b, t.dropRow i = .ok (t1, b) ∧ t1.Sorted) ∧
    (∀ r c v, ∃ t1 b, t.setData r c v = .ok (t1, b) ∧ t1.Sorted) ∧
    (∀ column fill, ∃ t1 b, t.addColumn column fill = .ok (t1, b) ∧ t1.Sorted) ∧
    (∀ column functor, ∃ t1 b, t.addColumnF column functor = .ok (t1, b) ∧ t1.Sorted) ∧
    (∀ getCheckedToken column formula t1 b,
      t.addColumnE getCheckedToken column formula = .ok (t1, b) → t1.Sorted) ∧
    (∀ getCheckedToken name formula t1 b,
      t.transformColumn getCheckedToken name formula = .ok (t1, b) → t1.Sorted) ∧
    t.sort.Sorted ∧ t.resumeSorting.Sorted := by
  refine ⟨?_, ?_, ?_, ?_, ?_, ?_, ?_, ?_, ?_⟩
  · intro vals hp hacc
    obtain ⟨hc, hm⟩ := t.insertRow_accepts vals hacc
    exact ((t.insertRow vals).1.sorted_iff_idxSorted (t.insertRow_wf vals hwf hc hm).typed).2
      (t.insertRow_idxSorted vals hwf hc hm hp ((t.sorted_iff_idxSorted hwf.typed).1 hs))
  · intro i
    obtain ⟨t1, b, h1, h2, _⟩ := t.dropRow_sorted hwf hs i
    exact ⟨t1, b, h1, h2⟩
  · intro r c v
    exact t.setData_sorted hwf hs r c v
  · intro column fill
    obtain ⟨t1, b, h1, h2, _⟩ := t.addColumn_sorted hwf.typed hs column fill
    exact ⟨t1, b, h1, h2⟩
  · intro column functor
    obtain ⟨t1, b, h1, h2, _⟩ := t.addColumnF_sorted hwf.typed hs column functor
    exact ⟨t1, b, h1, h2⟩
  · intro gct column formula t1 b h
    exact (t.addColumnE_sorted gct hwf.typed hs column formula t1 b h).1
  · intro gct name formula t1 b h
    exact (t.transformColumn_sorted gct hwf.typed hs name formula t1 b h).1
  · exact t.sort_sorted hwf.typed
  · exact t.resumeSorting_sorted hwf.typed (Or.inr hs)

set_option maxRecDepth 100000 in
/-- Witness of C1: the student table is well formed and sorted, it accepts the row
("Hema", 11) and is sorted afterwards. -/
theorem C1_sortedness_invariant_witness :
    studentTable.WF ∧ studentTable.Sorted ∧ studentTable.m_no_sorting = false ∧
    (studentTable.insertRow [Variant.string "Hema", Variant.int32 11]).2 ≠ INVALID_INDEX ∧
    (studentTable.insertRow [Variant.string "Hema", Variant.int32 11]).1.Sorted :=
  ⟨studentTable_wf, studentTable_sorted, by decide, by decide,
    (C1_sortedness_invariant studentTable studentTable_wf studentTable_sorted).1
      [Variant.string "Hema", Variant.int32 11] (by decide) (by decide)⟩

set_option maxRecDepth 100000 in
/-- C2. Stable insertion in Table: with sorting not paused, an accepted `insertRow` on a
well-formed sorted table returns an index `p` at which the new row then reads; the rows
formerly before `p` stay where they were and are exactly the rows whose key is in order
before the new key (equal keys included), the rows formerly at `p` or after move up by one and
none of them has a key in order before the new key. So the new row stands immediately after
every row with an equal key. The ten student insertions yield Aarati, Bhupendra, Chhatrapal,
Hema (id 3), Hema (id 4), Hemant, Janaki, Keshav, Ketan, Teman. -/
theorem C2_stable_insertion :
    (∀ (t : Table) (vals : List Variant), t.WF → t.Sorted → t.m_no_sorting = false →
      (t.insertRow vals).2 ≠ INVALID_INDEX →
      (t.insertRow vals).2 ≤ t.rowCount ∧
      (t.insertRow vals).1.rowCount = t.rowCount + 1 ∧
      (∀ k, k < t.columnCount →
        (t.insertRow vals).1.getData (t.insertRow vals).2 k = vals[k]?) ∧
      (∀ r k, r < (t.insertRow vals).2 → (t.insertRow vals).1.getData r k = t.getData r k) ∧
      (∀ r k, (t.insertRow vals).2 ≤ r →
        (t.insertRow vals).1.getData (r + 1) k = t.getData r k) ∧
      (∀ r, r < t.rowCount →
        (t.keyOrdered (t.getDataWC r 0) (vals.getD 0 (Variant.int32 0)) = true ↔
          r < (t.insertRow vals).2))) ∧
    studentTable.rows =
      [[some (.string "Aarati"), some (.int32 6)], [some (.string "Bhupendra"), some (.int32 7)],
       [some (.string "Chhatrapal"), some (.int32 5)], [some (.string "Hema"), some (.int32 3)],
       [some (.string "Hema"), some (.int32 4)], [some (.string "Hemant"), some (.int32 2)],
       [some (.string "Janaki"), some (.int32 10)], [some (.string "Keshav"), some (.int32 1)],
       [some (.string "Ketan"), some (.int32 8)], [some (.string "Teman"), some (.int32 9)]] := by
  refine ⟨?_, by decide⟩
  intro t vals hwf hs hp hacc
  obtain ⟨hc, hm⟩ := t.insertRow_accepts vals hacc
  have hidx := (t.sorted_iff_idxSorted hwf.typed).1 hs
  obtain ⟨h1, h2, h3, h4, h5⟩ := t.insertRow_getData vals hwf hc hm (Or.inr hidx)
  refine ⟨(t.insertRow_shape vals hwf hc hm (Or.inr hidx)).1, h1, h3, h4, h5, ?_⟩
  intro r hr
  rw [t.insertRow_position vals hwf hc hm hp hidx r hr]
  simp

set_option maxRecDepth 100000 in
/-- Witness of C2: inserting ("Hema", 11) into the student table returns index 5, right after
the two rows named Hema. -/
theorem C2_stable_insertion_witness :
    studentTable.WF ∧ studentTable.Sorted ∧
    (studentTable.insertRow [Variant.string "Hema", Variant.int32 11]).2 = 5 ∧
    (studentTable.insertRow [Variant.string "Hema", Variant.int32 11]).2 ≤
      studentTable.rowCount :=
  ⟨studentTable_wf, studentTable_sorted, by decide,
    (C2_stable_insertion.1 studentTable [Variant.string "Hema", Variant.int32 11]
      studentTable_wf studentTable_sorted (by decide) (by decide)).1⟩

set_option maxRecDepth 100000 in
/-- C3, as stated, fails: the ascending student table holds three names strictly less than
"Hema" (Aarati, Bhupendra, Chhatrapal), yet inserting ("Hema", 11) returns index 5. -/
theorem C3_counterexample :
    studentTable.m_sorder = SortingOrder.ASCENDING ∧ studentTable.m_no_sorting = false ∧
    (List.range studentTable.rowCount).countP
      (fun r => Variant.less (studentTable.getDataWC r 0) (Variant.string "Hema")) = 3 ∧
    (studentTable.insertRow [Variant.string "Hema", Variant.int32 11]).2 = 5 := by
  decide

/-- C3, amended. For an ascending well-formed sorted table with sorting not paused, the
index that an accepted `insertRow` returns equals the number of existing rows whose key is
less than or equal to the new row's key. -/
theorem C3_insert_index_counts_not_greater (t : Table) (vals : List Variant) (hwf : t.WF)
    (hs : t.Sorted) (ho : t.m_sorder = SortingOrder.ASCENDING) (hp : t.m_no_sorting = false)
    (hacc : (t.insertRow vals).2 ≠ INVALID_INDEX) :
    (t.insertRow vals).2 = (List.range t.rowCount).countP
      (fun r => Variant.lessEq (t.getDataWC r 0) (vals.getD 0 (Variant.int32 0))) := by
  obtain ⟨hc, hm⟩ := t.insertRow_accepts vals hacc
  have hidx := (t.sorted_iff_idxSorted hwf.typed).1 hs
  have hle := (t.insertRow_shape vals hwf hc hm (Or.inr hidx)).1
  rw [← countP_range_lt t.rowCount (t.insertRow vals).2 hle]
  apply List.countP_congr
  intro r hr
  have hr2 := List.mem_range.1 hr
  have hpos := t.insertRow_position vals hwf hc hm hp hidx r hr2
  simp only [Table.keyOrdered, ho] at hpos
  rw [hpos]

set_option maxRecDepth 100000 in
/-- Witness of C3 amended: on the student table five names are less than or equal to "Hema",
and the insertion of ("Hema", 11) returns 5. -/
theorem C3_insert_index_counts_not_greater_witness :
    studentTable.WF ∧ studentTable.Sorted ∧
    (studentTable.insertRow [Variant.string "Hema", Variant.int32 11]).2 =
      (List.range studentTable.rowCount).countP
        (fun r => Variant.lessEq (studentTable.getDataWC r 0)
          ([Variant.string "Hema", Variant.int32 11].getD 0 (Variant.int32 0))) :=
  ⟨studentTable_wf, studentTable_sorted,
    C3_insert_index_counts_not_greater studentTable [Variant.string "Hema", Variant.int32 11]
      studentTable_wf studentTable_sorted (by decide) (by decide) (by decide)⟩

end km

namespace km

set_option maxRecDepth 100000 in
theorem emptiedTable_wf : emptiedTable.WF :=
  ⟨by decide, by decide, by decide, by decide⟩

set_option maxRecDepth 100000 in
theorem studentTableWithoutHema_wf : (studentTableWithout 3).WF :=
  ⟨by decide, by decide, by decide, by decide⟩

set_option maxRecDepth 100000 in
theorem pausedStudentTable_wf : studentTable.pauseSorting.WF :=
  ⟨by decide, by decide, by decide, by decide⟩

/-- C4. Physical-slot partition invariant of Table: on a well-formed table, after every
`insertRow` (accepted or rejected), every `dropRow` and every compaction, the table is again
well formed (every column holds exactly `capacity` cells) and every slot identifier below the
capacity occurs exactly once in `m_indices` and `m_free_space` together, no other identifier
occurring at all. -/
theorem C4_slot_partition (t : Table) (hwf : t.WF) :
    (∀ vals, (t.insertRow vals).1.WF ∧ (t.insertRow vals).1.SlotsPartition) ∧
    (∀ i, ∃ t1 b, t.dropRow i = .ok (t1, b) ∧ t1.WF ∧ t1.SlotsPartition) ∧
    (∃ t1, t.freeSpace = .ok t1 ∧ t1.WF ∧ t1.SlotsPartition) := by
  refine ⟨?_, ?_, ?_⟩
  · intro vals
    have h := t.insertRow_wf_any vals hwf
    exact ⟨h, h.slotsPartition⟩
  · intro i
    obtain ⟨t1, b, h1, h2⟩ := t.dropRow_wf hwf i
    exact ⟨t1, b, h1, h2, h2.slotsPartition⟩
  · have h := t.compacted_wf hwf.typed
    exact ⟨t.compacted, t.freeSpace_ok hwf.typed, h, h.slotsPartition⟩

set_option maxRecDepth 100000 in
/-- Witness of C4: the student table is well formed, and so it is after the insertion of
("Hema", 11), with its slots partitioned. -/
theorem C4_slot_partition_witness :
    studentTable.WF ∧
    (studentTable.insertRow [Variant.string "Hema", Variant.int32 11]).1.SlotsPartition :=
  ⟨studentTable_wf,
    ((C4_slot_partition studentTable studentTable_wf).1
      [Variant.string "Hema", Variant.int32 11]).2⟩

set_option maxRecDepth 100000 in
/-- C5, the code at the failing input. The table `emptiedTable` is well formed, has no live
row and the free slot 0, so its capacity is 1. Method `addColumnE` returns true on it without
calling the compiler and appends a column of zero cells: the columns then hold 1 and 0 cells
while the capacity is 1. Method `addColumn` on the same table appends a column of one cell. -/
theorem C5_addColumnE_skips_resize
    (getCheckedToken : String → Table → DataType → Option Formula) :
    emptiedTable.WF ∧ emptiedTable.rowCount = 0 ∧ emptiedTable.m_free_space = [0] ∧
    (emptiedTable.addColumnE getCheckedToken ⟨"v", "", DataType.INT32⟩ "add($k,1)").map
        (fun p => (p.2, p.1.m_columns.map (fun c => c.m_data_vec.length), p.1.capacity)) =
      .ok (true, [1, 0], 1) ∧
    (emptiedTable.addColumn ⟨"v", "", DataType.INT32⟩ (Variant.int32 0)).map
        (fun p => (p.2, p.1.m_columns.map (fun c => c.m_data_vec.length), p.1.capacity)) =
      .ok (true, [1, 1], 1) := by
  refine ⟨emptiedTable_wf, by decide, by decide, ?_, ?_⟩
  · rfl
  · rfl

/-- C6. A rejected `insertRow` is atomic: on a well-formed table, if the number of values
differs from the column count, or the tag of some value differs from the type of its column,
`insertRow` returns `INVALID_INDEX`, and afterwards the row count, the slot list, the free
list and the size of every column are what they were and every logical cell reads the same
value as before. -/
theorem C6_insertRow_failure_atomic (t : Table) (vals : List Variant) (hwf : t.WF)
    (hbad : vals.length ≠ t.m_columns.length ∨
      ∃ i, i < vals.length ∧ i < t.m_columns.length ∧
        dataTypeOf (vals.getD i (Variant.int32 0)) ≠
          (t.m_columns.map Column.getDataType).getD i 0) :
    (t.insertRow vals).2 = INVALID_INDEX ∧
    (t.insertRow vals).1.rowCount = t.rowCount ∧
    (t.insertRow vals).1.m_indices = t.m_indices ∧
    (t.insertRow vals).1.m_free_space = t.m_free_space ∧
    (t.insertRow vals).1.m_columns.map (fun c => c.m_data_vec.length) =
      t.m_columns.map (fun c => c.m_data_vec.length) ∧
    ∀ r k, (t.insertRow vals).1.getData r k = t.getData r k := by
  have hm : rowMatches t.m_columns vals = false := by
    cases h : rowMatches t.m_columns vals with
    | false => rfl
    | true =>
      rcases hbad with hl | ⟨i, hv, hc, hd⟩
      · exact absurd (rowMatches_length _ _ h) hl
      · exact absurd (rowMatches_dataType _ _ h i hv hc) hd
  obtain ⟨cols, he, hlen, _, hcell⟩ := t.insertRow_rejected vals hwf hm
  rw [he]
  refine ⟨rfl, rfl, rfl, rfl, hlen, ?_⟩
  intro r k
  have hcc : ({ t with m_columns := cols } : Table).columnCount = t.columnCount := by
    unfold Table.columnCount
    have := congrArg List.length hlen
    simpa using this
  rw [Table.getData_eq, Table.getData_eq, hcc]
  by_cases hb : r < t.rowCount ∧ k < t.columnCount
  · have hb2 : r < ({ t with m_columns := cols } : Table).rowCount ∧ k < t.columnCount := hb
    simp only [hb, hb2, and_self, if_true]
    have hmem : t.m_indices.getD r 0 ∈ t.m_indices := by
      rw [List.getD_eq_getElem _ _ hb.1]
      exact List.getElem_mem _
    rw [hcell k _ hmem]
  · have hb2 : ¬ (r < ({ t with m_columns := cols } : Table).rowCount ∧ k < t.columnCount) := hb
    simp only [hb, hb2, if_false]

set_option maxRecDepth 100000 in
/-- Witness of C6: the student table rejects ("Yamini", "seventy"), whose second value is
not an int32. -/
theorem C6_insertRow_failure_atomic_witness :
    studentTable.WF ∧
    (studentTable.insertRow [Variant.string "Yamini", Variant.string "seventy"]).2 =
      INVALID_INDEX :=
  ⟨studentTable_wf,
    (C6_insertRow_failure_atomic studentTable
      [Variant.string "Yamini", Variant.string "seventy"] studentTable_wf
      (Or.inr ⟨1, by decide, by decide, by decide⟩)).1⟩

/-- C7. Batch insertion: while sorting is paused, an `insertRow` of a row that fits the
columns appends the new row at the end of the logical order and returns the previous row
count, the other rows staying as they were. Method `resumeSorting` on a paused table then
leaves a permutation of the slot list that is sorted by the key column under the table's order
and in which any two slots that were in order, the first before the second, still stand the
first before the second (so rows with equal keys keep their relative order); sorting is no
longer paused and the columns and the free list are untouched. -/
theorem C7_batch_insertion :
    (∀ (t : Table) (vals : List Variant), t.WF → t.m_no_sorting = true → t.m_columns ≠ [] →
      rowMatches t.m_columns vals = true →
      (t.insertRow vals).2 = t.rowCount ∧
      (t.insertRow vals).1.m_indices = t.m_indices ++ [t.nextSlot] ∧
      (t.insertRow vals).1.m_no_sorting = true ∧
      (t.insertRow vals).1.WF ∧
      (∀ k, k < t.columnCount → (t.insertRow vals).1.getData t.rowCount k = vals[k]?) ∧
      (∀ r k, r < t.rowCount → (t.insertRow vals).1.getData r k = t.getData r k)) ∧
    (∀ (t : Table), t.WF → t.m_no_sorting = true →
      t.resumeSorting.m_indices.Perm t.m_indices ∧
      t.resumeSorting.Sorted ∧
      t.resumeSorting.m_no_sorting = false ∧
      t.resumeSorting.m_columns = t.m_columns ∧
      t.resumeSorting.m_free_space = t.m_free_space ∧
      (∀ a b, List.Sublist [a, b] t.m_indices →
        t.keyOrdered (t.cellAt 0 a) (t.cellAt 0 b) = true →
        List.Sublist [a, b] t.resumeSorting.m_indices)) := by
  refine ⟨?_, ?_⟩
  · intro t vals hwf hp hc hm
    have hret : (t.insertRow vals).2 = t.rowCount := by
      rw [t.insertRow_of_matches vals hc hm]
      simp [Table.insertIndex, Table.isSortingPaused, t.writeRow_no_sorting, hp,
        t.writeRow_indices, Table.rowCount]
    obtain ⟨_, hidx, _, _, _, hns⟩ := t.insertRow_shape vals hwf hc hm (Or.inl hp)
    obtain ⟨_, _, h3, h4, _⟩ := t.insertRow_getData vals hwf hc hm (Or.inl hp)
    rw [hret] at hidx h3 h4
    refine ⟨hret, ?_, hns.trans hp, t.insertRow_wf vals hwf hc hm, h3, h4⟩
    rw [hidx]
    simp [vectorInsert, Table.rowCount]
  · intro t hwf hp
    rw [t.resumeSorting_eq hp]
    refine ⟨stable_sort_perm _ _, ?_, rfl, rfl, rfl, ?_⟩
    · have h := t.resumeSorting_sorted hwf.typed (Or.inl hp)
      rw [t.resumeSorting_eq hp] at h
      exact h
    · intro a b hsub hord
      apply stable_sort_stable _ _ a b _ hsub
      rw [t.keyOrdered_cellAt hwf.typed] at hord
      simpa using hord

set_option maxRecDepth 100000 in
/-- Witness of C7: with sorting paused the student table appends ("Babu", 12) as row 10, and
`resumeSorting` sorts the table. -/
theorem C7_batch_insertion_witness :
    studentTable.pauseSorting.WF ∧ studentTable.pauseSorting.m_no_sorting = true ∧
    (studentTable.pauseSorting.insertRow [Variant.string "Babu", Variant.int32 12]).2 = 10 ∧
    studentTable.pauseSorting.resumeSorting.Sorted :=
  ⟨pausedStudentTable_wf, by decide,
    (C7_batch_insertion.1 studentTable.pauseSorting
      [Variant.string "Babu", Variant.int32 12] pausedStudentTable_wf (by decide) (by decide)
      (by decide)).1,
    (C7_batch_insertion.2 studentTable.pauseSorting pausedStudentTable_wf (by decide)).2.1⟩

/-- C8. Method `dropRow(i)` on a well-formed table: if `i >= rowCount` it returns false and
the table is unchanged; otherwise it returns true, the row count decreases by exactly one,
every row formerly at a logical index `j < i` is still at `j` and every row formerly at
`j + 1 > i` is now at `j`, with all its cells unchanged, whether or not the drop triggers a
compaction. -/
theorem C8_dropRow (t : Table) (hwf : t.WF) (i : Nat) :
    (i ≥ t.rowCount → t.dropRow i = .ok (t, false)) ∧
    (i < t.rowCount → ∃ t1, t.dropRow i = .ok (t1, true) ∧
      t1.rowCount + 1 = t.rowCount ∧
      (∀ j k, j < i → t1.getData j k = t.getData j k) ∧
      (∀ j k, i ≤ j → t1.getData j k = t.getData (j + 1) k)) := by
  refine ⟨?_, ?_⟩
  · intro hi
    rw [t.dropRow_eq hwf.typed i]
    simp [hi]
  · intro hi
    obtain ⟨t1, h1, h2, h3⟩ := t.dropRow_view hwf i hi
    refine ⟨t1, h1, h2, ?_, ?_⟩
    · intro j k hj
      rw [h3, if_pos hj]
    · intro j k hj
      rw [h3, if_neg (by omega)]

set_option maxRecDepth 100000 in
/-- Witness of C8: dropping row 3 of the student table (the first Hema) succeeds and leaves
nine rows. -/
theorem C8_dropRow_witness :
    studentTable.WF ∧ 3 < studentTable.rowCount ∧
    ∃ t1, studentTable.dropRow 3 = .ok (t1, true) ∧ t1.rowCount + 1 = studentTable.rowCount :=
  ⟨studentTable_wf, by decide,
    match (C8_dropRow studentTable studentTable_wf 3).2 (by decide) with
    | ⟨t1, h1, h2, _⟩ => ⟨t1, h1, h2⟩⟩

/-- C9. Compaction preserves the logical view: on a well-formed table `freeSpace` returns,
and for every logical row `r` and column `k` the cell read afterwards equals the cell read
before; afterwards `m_indices` is `[0, 1, ..., N-1]`, the free list is empty and every column
holds exactly `N` cells, `N` being the row count. -/
theorem C9_compaction (t : Table) (hwf : t.WF) :
    ∃ t1, t.freeSpace = .ok t1 ∧
      (∀ r k, t1.getData r k = t.getData r k) ∧
      t1.m_indices = List.range t.rowCount ∧
      t1.m_free_space = [] ∧
      ∀ c ∈ t1.m_columns, c.m_data_vec.length = t.rowCount := by
  refine ⟨t.compacted, t.freeSpace_ok hwf.typed, t.compacted_getData, rfl, rfl, ?_⟩
  intro c hc
  simp only [Table.compacted, List.mem_map] at hc
  obtain ⟨c0, _, rfl⟩ := hc
  simp [Column.compacted, Table.rowCount]

set_option maxRecDepth 100000 in
/-- Witness of C9: the student table after `dropRow(3)` holds nine live rows in the slots
4, 7, 5, 3, 1, 9, 0, 6, 8 and the free slot 2. Compaction returns, renumbers the slots to
0 .. 8, empties the free list, rebuilds every column with nine cells and leaves every cell of
the logical view as it was: row 0 reads "Aarati" and 6, which stood in slot 4 before. -/
theorem C9_compaction_witness :
    (studentTableWithout 3).WF ∧
    (studentTableWithout 3).m_indices = [4, 7, 5, 3, 1, 9, 0, 6, 8] ∧
    (studentTableWithout 3).m_free_space = [2] ∧
    ∃ t1, (studentTableWithout 3).freeSpace = .ok t1 ∧
      (∀ r k, t1.getData r k = (studentTableWithout 3).getData r k) ∧
      t1.m_indices = [0, 1, 2, 3, 4, 5, 6, 7, 8] ∧ t1.m_free_space = [] ∧
      (∀ c ∈ t1.m_columns, c.m_data_vec.length = 9) ∧
      t1.getData 0 0 = some (Variant.string "Aarati") ∧
      t1.getData 0 1 = some (Variant.int32 6) :=
  ⟨studentTableWithoutHema_wf, by decide, by decide,
    match C9_compaction (studentTableWithout 3) studentTableWithoutHema_wf with
    | ⟨t1, h1, h2, h3, h4, h5⟩ =>
      ⟨t1, h1, h2, h3.trans (by decide), h4, h5, (h2 0 0).trans (by decide),
        (h2 0 1).trans (by decide)⟩⟩

/-- C10. Method `setData(r, c, v)` on a well-formed table: it returns false and changes
nothing when `c == 0`, `r >= rowCount`, `c >= columnCount` or the tag of `v` differs from the
type of column `c`; otherwise it returns true, `getData(r, c)` afterwards is `v`, every other
cell reads the same value as before, and `m_indices` and `m_free_space` are unchanged. -/
theorem C10_setData (t : Table) (hwf : t.WF) (r c : Nat) (v : Variant) :
    ((c = 0 ∨ r ≥ t.rowCount ∨ c ≥ t.columnCount ∨
        ∃ col, t.m_columns[c]? = some col ∧ dataTypeOf v ≠ col.getDataType) →
      t.setData r c v = .ok (t, false)) ∧
    (∀ col, c ≠ 0 → r < t.rowCount → t.m_columns[c]? = some col →
      dataTypeOf v = col.getDataType →
      ∃ t1, t.setData r c v = .ok (t1, true) ∧
        t1.getData r c = some v ∧
        (∀ r1 c1, (r1, c1) ≠ (r, c) → t1.getData r1 c1 = t.getData r1 c1) ∧
        t1.m_indices = t.m_indices ∧ t1.m_free_space = t.m_free_space) := by
  refine ⟨t.setData_reject r c v, ?_⟩
  intro col hc0 hr hcol hv
  refine ⟨_, t.setData_accept r c v col hc0 hr hcol hv, ?_, ?_, rfl, rfl⟩
  all_goals
    have hc : c < t.m_columns.length := (List.getElem?_eq_some.1 hcol).1
    have hr2 : r < t.m_indices.length := hr
    have hmem : t.m_indices.getD r 0 ∈ t.m_indices := by
      rw [List.getD_eq_getElem _ _ hr2]
      exact List.getElem_mem _
    have hslot : t.m_indices.getD r 0 < col.m_data_vec.length := by
      rw [hwf.cap col (List.getElem?_mem hcol)]
      exact hwf.bound _ (List.mem_append_left _ hmem)
  · rw [Table.getData_eq, t.setData_cellAt c _ v col hcol hslot]
    have : r < t.rowCount ∧ c < t.m_columns.length := ⟨hr, hc⟩
    simp [Table.rowCount, Table.columnCount, hr2, hc]
  · intro r1 c1 hne
    rw [Table.getData_eq, Table.getData_eq, t.setData_cellAt c _ v col hcol hslot]
    have hcc : ({ t with m_columns := (t.m_columns.set c
        ({ col with m_data_vec := col.m_data_vec.set (t.m_indices.getD r 0) v } : Column)) }
        : Table).columnCount = t.columnCount := by
      simp [Table.columnCount]
    rw [hcc]
    by_cases hb : r1 < t.rowCount ∧ c1 < t.columnCount
    · have hb2 : r1 < ({ t with m_columns := (t.m_columns.set c
          ({ col with m_data_vec := col.m_data_vec.set (t.m_indices.getD r 0) v } : Column)) }
          : Table).rowCount ∧ c1 < t.columnCount := hb
      simp only [hb, hb2, and_self, if_true]
      have hneq : ¬ (c1 = c ∧ t.m_indices.getD r1 0 = t.m_indices.getD r 0) := by
        rintro ⟨rfl, hidx⟩
        apply hne
        have hnd : t.m_indices.Nodup := (List.nodup_append.1 hwf.nodup).1
        have hr1 : r1 < t.m_indices.length := hb.1
        rw [List.getD_eq_getElem _ _ hr1, List.getD_eq_getElem _ _ hr2] at hidx
        have := (List.Nodup.getElem_inj_iff hnd).1 hidx
        rw [this]
      simp only [hneq, if_false]
    · have hb2 : ¬ (r1 < ({ t with m_columns := (t.m_columns.set c
          ({ col with m_data_vec := col.m_data_vec.set (t.m_indices.getD r 0) v } : Column)) }
          : Table).rowCount ∧ c1 < t.columnCount) := hb
      simp only [hb, hb2, if_false]

set_option maxRecDepth 100000 in
/-- Witness of C10: the id of logical row 3 of the student table is set to 42. -/
theorem C10_setData_witness :
    studentTable.WF ∧
    ∃ t1, studentTable.setData 3 1 (Variant.int32 42) = .ok (t1, true) ∧
      t1.getData 3 1 = some (Variant.int32 42) :=
  ⟨studentTable_wf,
    match (C10_setData studentTable studentTable_wf 3 1 (Variant.int32 42)).2
      (studentTable.m_columns.getD 1 (Column.mk0 KType.KInt32 "" "")) (by decide) (by decide)
      (by decide) (by decide) with
    | ⟨t1, h1, h2, _⟩ => ⟨t1, h1, h2⟩⟩

end km

namespace km

/-- C11. Two `setData` calls on different (row, column) positions commute: on a well-formed
table, for `(r1, c1) != (r2, c2)`, both orders of the two calls return, they end in the same
table, and each call has the same result in both orders. -/
theorem C11_setData_commute (t : Table) (hwf : t.WF) (r1 c1 r2 c2 : Nat) (v1 v2 : Variant)
    (hne : (r1, c1) ≠ (r2, c2)) :
    ∃ tf b1 b2,
      t.setDataTwice r1 c1 v1 r2 c2 v2 = .ok (tf, b1, b2) ∧
      t.setDataTwice r2 c2 v2 r1 c1 v1 = .ok (tf, b2, b1) := by
  have hnd : t.m_indices.Nodup := (List.nodup_append.1 hwf.nodup).1
  unfold Table.setDataTwice
  rw [t.setData_eq r1 c1 v1, t.setData_eq r2 c2 v2]
  cases h1 : t.setDataAccepts r1 c1 v1 <;> cases h2 : t.setDataAccepts r2 c2 v2
  · simp only [Bool.false_eq_true, if_false]
    rw [t.setData_eq r1 c1 v1, t.setData_eq r2 c2 v2, h1, h2]
    exact ⟨t, false, false, rfl, rfl⟩
  · simp only [Bool.false_eq_true, if_false, if_true]
    rw [t.setData_eq r2 c2 v2, Table.setData_eq, t.setCell_accepts, h1, h2]
    exact ⟨_, false, true, rfl, rfl⟩
  · simp only [Bool.false_eq_true, if_false, if_true]
    rw [t.setData_eq r1 c1 v1, Table.setData_eq, t.setCell_accepts, h1, h2]
    exact ⟨_, true, false, rfl, rfl⟩
  · simp only [if_true]
    rw [Table.setData_eq, Table.setData_eq, t.setCell_accepts, t.setCell_accepts, h1, h2]
    have hr1 : r1 < t.rowCount := by
      unfold Table.setDataAccepts at h1
      simp only [Bool.and_eq_true, decide_eq_true_eq] at h1
      exact h1.1.2
    have hr2 : r2 < t.rowCount := by
      unfold Table.setDataAccepts at h2
      simp only [Bool.and_eq_true, decide_eq_true_eq] at h2
      exact h2.1.2
    refine ⟨_, true, true, rfl, ?_⟩
    simp only [if_true]
    rw [t.setCell_comm hnd r1 c1 r2 c2 v1 v2 hr1 hr2 hne]

set_option maxRecDepth 100000 in
/-- Witness of C11: on the student table the ids of the two rows named Hema are overwritten
in either order. -/
theorem C11_setData_commute_witness :
    studentTable.WF ∧ ((3, 1) : Nat × Nat) ≠ (4, 1) ∧
    ∃ tf b1 b2,
      studentTable.setDataTwice 3 1 (Variant.int32 30) 4 1 (Variant.int32 40) =
        .ok (tf, b1, b2) ∧
      studentTable.setDataTwice 4 1 (Variant.int32 40) 3 1 (Variant.int32 30) =
        .ok (tf, b2, b1) :=
  ⟨studentTable_wf, by decide,
    C11_setData_commute studentTable studentTable_wf 3 1 4 1 (Variant.int32 30)
      (Variant.int32 40) (by decide)⟩

end km

namespace km

/-- C13. Table construction fails with an invalid-argument error whenever some column name is
not a valid identifier, two columns share a name, or some column's data type is not one of the
eight type tags. When the table name is valid and none of these holds it succeeds, with the
columns (names and types) in the given order, zero rows and key column 0. -/
theorem C13_constructor (table_name : String) (column_list : List ColumnMetaData)
    (sorting_order : SortingOrder) :
    (((∃ c ∈ column_list, isValidColumnName c.column_name = false) ∨
        ¬ (column_list.map (fun c => c.column_name)).Nodup ∨
        (∃ c ∈ column_list, ∀ T : KType, c.data_type ≠ dataTypeFor T)) →
      ∃ what, Table.new table_name column_list sorting_order =
        .error (Exn.invalid_argument what)) ∧
    (isValidTableName table_name = true →
      (∀ c ∈ column_list, isValidColumnName c.column_name = true) →
      (column_list.map (fun c => c.column_name)).Nodup →
      (∀ c ∈ column_list, ∃ T : KType, c.data_type = dataTypeFor T) →
      ∃ t, Table.new table_name column_list sorting_order = .ok t ∧
        t.m_columns.map (fun c => (c.getName, c.getDataType)) =
          column_list.map (fun c => (c.column_name, c.data_type)) ∧
        t.columnCount = column_list.length ∧ t.rowCount = 0 ∧ t.getKeyColumn = 0 ∧
        t.getSortingOrder = sorting_order) := by
  have hz := Table.validateColumnList_eq_zero column_list
  refine ⟨?_, ?_⟩
  · intro hbad
    have hne : Table.validateColumnList column_list ≠ 0 := by
      intro h0
      obtain ⟨h1, h2, h3⟩ := hz.1 h0
      rcases hbad with ⟨c, hc, hv⟩ | hd | ⟨c, hc, hv⟩
      · rw [h1 c hc] at hv
        exact absurd hv (by decide)
      · exact hd h2
      · obtain ⟨T, hT⟩ := (isValidDataType_iff c.data_type).1 (h3 c hc)
        exact hv T hT
    unfold Table.new
    by_cases hn : isValidTableName table_name = true
    · rcases Table.validateColumnList_range column_list with h | h | h | h
      · exact absurd h hne
      · exact ⟨"Table ~ duplicate column name" ++ ", see logs for more information!",
          by simp [hn, h, KM_IA_EXCEPTION]⟩
      · exact ⟨"Table ~ invalid column name" ++ ", see logs for more information!",
          by simp [hn, h, KM_IA_EXCEPTION]⟩
      · exact ⟨"Table ~ Invalid data type" ++ ", see logs for more information!",
          by simp [hn, h, KM_IA_EXCEPTION]⟩
    · exact ⟨"Table ~ invalid name" ++ ", see logs for more information!",
        by simp [hn, KM_IA_EXCEPTION]⟩
  · intro hn h1 h2 h3
    have h3v : ∀ c ∈ column_list, isValidDataType c.data_type = true :=
      fun c hc => (isValidDataType_iff c.data_type).2 (h3 c hc)
    have h0 : Table.validateColumnList column_list = 0 := hz.2 ⟨h1, h2, h3v⟩
    have hm := Table.createColumns_meta column_list h3v
    refine ⟨Table.init table_name column_list sorting_order, ?_, hm, ?_, rfl, rfl, rfl⟩
    · unfold Table.new
      simp [hn, h0]
    · have := congrArg List.length hm
      simpa [Table.columnCount, Table.init] using this

/-- Witness of C13: the schema of the student table is accepted under the name
"student records"; the same schema with the column "name" given twice is refused. -/
theorem C13_constructor_witness :
    (∃ what, Table.new "student records"
        (studentSchema ++ [⟨"name", "", DataType.INT32⟩]) SortingOrder.ASCENDING =
      .error (Exn.invalid_argument what)) ∧
    ∃ t, Table.new "student records" studentSchema SortingOrder.ASCENDING = .ok t ∧
      t.m_columns.map (fun c => (c.getName, c.getDataType)) =
        studentSchema.map (fun c => (c.column_name, c.data_type)) ∧
      t.columnCount = studentSchema.length ∧ t.rowCount = 0 ∧ t.getKeyColumn = 0 ∧
      t.getSortingOrder = SortingOrder.ASCENDING :=
  ⟨(C13_constructor "student records" (studentSchema ++ [⟨"name", "", DataType.INT32⟩])
      SortingOrder.ASCENDING).1 (Or.inr (Or.inl (by decide))),
   (C13_constructor "student records" studentSchema SortingOrder.ASCENDING).2 (by decide)
      (by decide) (by decide)
      (by
        intro c hc
        simp only [studentSchema, List.mem_cons, List.mem_singleton, List.not_mem_nil,
          or_false] at hc
        rcases hc with rfl | rfl
        · exact ⟨KType.KString, rfl⟩
        · exact ⟨KType.KInt32, rfl⟩)⟩

end km

namespace km

/-- C14, as stated, fails: the name "a@b" does not match `[A-Za-z_][A-Za-z0-9_ ]*`, yet
`isValidTableName` accepts it and the Table constructor builds a table of that name. -/
theorem C14_counterexample :
    matchesTableNamePattern "a@b" = false ∧ isValidTableName "a@b" = true ∧
    ∃ t, Table.new "a@b" [] SortingOrder.ASCENDING = .ok t := by
  refine ⟨by decide, by decide, Table.init "a@b" [] SortingOrder.ASCENDING, ?_⟩
  rfl

/-- C14, amended. A name is accepted by `isValidTableName` exactly when it is not empty,
begins with a letter or an underscore and consists only of printable characters (codes 0x20
to 0x7e, the space included) other than the slash and the backslash. Every name matching
`[A-Za-z_][A-Za-z0-9_ ]*` is accepted, and the Table constructor accepts a name with an empty
column list exactly when `isValidTableName` does, and with no column list otherwise. -/
theorem C14_table_name_accepted (name : String) :
    (isValidTableName name = true ↔
      ∃ c rest, name.data = c :: rest ∧ (isalpha c = true ∨ c = '_') ∧
        ∀ x ∈ name.data, 0x20 ≤ x.toNat ∧ x.toNat ≤ 0x7e ∧ x ≠ '/' ∧ x ≠ '\\') ∧
    (matchesTableNamePattern name = true → isValidTableName name = true) ∧
    (∀ column_list sorting_order,
      (∃ t, Table.new name column_list sorting_order = .ok t) → isValidTableName name = true) ∧
    (∀ sorting_order,
      isValidTableName name = true → ∃ t, Table.new name [] sorting_order = .ok t) := by
  refine ⟨isValidTableName_iff name, matchesTableNamePattern_valid name, ?_, ?_⟩
  · rintro column_list sorting_order ⟨t, ht⟩
    unfold Table.new at ht
    by_cases hn : isValidTableName name = true
    · exact hn
    · simp [hn] at ht
  · intro sorting_order hn
    refine ⟨Table.init name [] sorting_order, ?_⟩
    unfold Table.new
    simp [hn, Table.validateColumnList]

/-- Witness of C14: the name "student records" matches the pattern and is accepted. -/
theorem C14_table_name_accepted_witness :
    matchesTableNamePattern "student records" = true ∧
    isValidTableName "student records" = true :=
  ⟨by decide, (C14_table_name_accepted "student records").2.1 (by decide)⟩

end km

namespace km

/-- C15. Method `addColumn(meta, fill)` on a well-formed table: it returns false and leaves
the table as it was (column count and every cell) when the column name is invalid, the name
already exists, the data type is not one of the eight tags, or the tag of `fill` differs from
the declared type; otherwise it returns true, the new column, of the declared name and type,
is appended as the last column, the row count is unchanged, every live row reads `fill` in
the new column and every cell of the old columns reads as before. -/
theorem C15_addColumn (t : Table) (hwf : t.WF) (column : ColumnMetaData) (fill_with : Variant) :
    ((isValidColumnName column.column_name = false ∨
        (∃ c ∈ t.m_columns, c.getName = column.column_name) ∨
        (∀ T : KType, column.data_type ≠ dataTypeFor T) ∨
        dataTypeOf fill_with ≠ column.data_type) →
      t.addColumn column fill_with = .ok (t, false)) ∧
    (isValidColumnName column.column_name = true →
      (∀ c ∈ t.m_columns, c.getName ≠ column.column_name) →
      (∃ T : KType, column.data_type = dataTypeFor T) →
      dataTypeOf fill_with = column.data_type →
      ∃ t1 c1, t.addColumn column fill_with = .ok (t1, true) ∧
        t1.m_columns = t.m_columns ++ [c1] ∧
        c1.getName = column.column_name ∧ c1.getDataType = column.data_type ∧
        t1.rowCount = t.rowCount ∧
        (∀ r, r < t.rowCount → t1.getData r t.columnCount = some fill_with) ∧
        (∀ r k, k < t.columnCount → t1.getData r k = t.getData r k)) := by
  have hv := t.validateForNewColumn_iff column.column_name column.data_type
  refine ⟨?_, ?_⟩
  · intro hbad
    unfold Table.addColumn
    by_cases hval : t.validateForNewColumn column.column_name column.data_type = true
    · obtain ⟨h1, h2, h3⟩ := hv.1 hval
      rcases hbad with h | ⟨c, hc, h⟩ | h | h
      · rw [h1] at h
        exact absurd h (by decide)
      · exact absurd h (h2 c hc)
      · obtain ⟨T, hT⟩ := h3
        exact absurd hT (h T)
      · have h4 : (1 <<< fill_with.index) ≠ column.data_type := h
        simp [hval, h4]
    · simp [hval]
  · intro h1 h2 h3 h4
    have hval := hv.2 ⟨h1, h2, h3⟩
    obtain ⟨c1, he, hn, hd, hcell⟩ := t.addColumn_accept column fill_with hval h4
    obtain ⟨g1, g2, g3, _, g5, g6⟩ := t.appendColumn_view c1
    refine ⟨_, c1, he, g1, hn, hd, g3, ?_, g6⟩
    intro r hr
    rw [g5 r hr]
    have hmem : (Table.sortIfFirstColumn { t with m_columns := t.m_columns ++ [c1] }).m_indices.getD
        r 0 ∈ t.m_indices := by
      apply g2.subset
      have hr1 : r < (Table.sortIfFirstColumn
          { t with m_columns := t.m_columns ++ [c1] }).m_indices.length := by
        rw [g2.length_eq]
        exact hr
      rw [List.getD_eq_getElem _ _ hr1]
      exact List.getElem_mem _
    rw [hcell _ hmem (hwf.bound _ (List.mem_append_left _ hmem))]

set_option maxRecDepth 100000 in
/-- Witness of C15: a column "age" of type int32 filled with 18 is added to the student
table; a second column named "id" is refused. -/
theorem C15_addColumn_witness :
    studentTable.WF ∧
    studentTable.addColumn ⟨"id", "", DataType.INT32⟩ (Variant.int32 0) =
      .ok (studentTable, false) ∧
    ∃ t1 c1, studentTable.addColumn ⟨"age", "", DataType.INT32⟩ (Variant.int32 18) =
        .ok (t1, true) ∧
      t1.m_columns = studentTable.m_columns ++ [c1] ∧
      c1.getName = "age" ∧ c1.getDataType = DataType.INT32 ∧
      t1.rowCount = studentTable.rowCount ∧
      (∀ r, r < studentTable.rowCount →
        t1.getData r studentTable.columnCount = some (Variant.int32 18)) ∧
      (∀ r k, k < studentTable.columnCount → t1.getData r k = studentTable.getData r k) :=
  ⟨studentTable_wf,
    (C15_addColumn studentTable studentTable_wf ⟨"id", "", DataType.INT32⟩
      (Variant.int32 0)).1 (Or.inr (Or.inl (by decide))),
    (C15_addColumn studentTable studentTable_wf ⟨"age", "", DataType.INT32⟩
      (Variant.int32 18)).2 (by decide) (by decide) ⟨KType.KInt32, rfl⟩ (by decide)⟩

end km

namespace km

theorem addHundredToId_rowLocal : addHundredToId.RowLocal := by
  intro g1 g2 r h
  simp only [addHundredToId, h 1]

set_option maxRecDepth 100000 in
theorem addHundredToId_student (r : Nat) (hr : r < studentTable.rowCount) :
    addHundredToId.eval studentTable.getDataWC r = .ok (idPlusHundred r) ∧
    dataTypeOf (idPlusHundred r) = DataType.INT32 := by
  have h10 : r < 10 := hr
  interval_cases r <;> exact ⟨rfl, rfl⟩

end km

namespace km

/-- C17. Methods `addColumnE` and `addColumnF` agree. On a well-formed table with at least
one row (and so at least one column), let the new column pass `validateForNewColumn`, let the
compiler accept the formula for the declared type, and let the compiled program read only the
row it is run on and yield on every row `r` the value `fn r`, of the declared type. Then
`addColumnE(meta, formula)` and `addColumnF(meta, fn)` both return true and end in the same
table, whose new last column reads `fn r` on every logical row `r`. -/
theorem C17_addColumnE_addColumnF (gct : String → Table → DataType → Option Formula)
    (t : Table) (hwf : t.WF) (hrow : t.rowCount ≠ 0) (hcols : t.columnCount ≠ 0)
    (hsz : t.rowCount < 2 ^ 64) (column : ColumnMetaData) (formula : String)
    (column_ptr : Column) (tokens : Formula) (fn : Nat → Variant)
    (hval : t.validateForNewColumn column.column_name column.data_type = true)
    (hcreate : createColumn column.column_name column.display_name column.data_type =
      some column_ptr)
    (hg : gct formula { t with m_columns := t.m_columns ++
      [column_ptr.resize (t.rowCount + t.m_free_space.length)] } column.data_type = some tokens)
    (hloc : tokens.RowLocal)
    (hev : ∀ r, r < t.rowCount →
      tokens.eval ({ t with m_columns := t.m_columns ++
        [column_ptr.resize (t.rowCount + t.m_free_space.length)] } : Table).getDataWC r =
          .ok (fn r) ∧
      dataTypeOf (fn r) = column.data_type) :
    ∃ t1, t.addColumnE gct column formula = .ok (t1, true) ∧
      t.addColumnF column fn = .ok (t1, true) ∧
      t1.columnCount = t.columnCount + 1 ∧ t1.rowCount = t.rowCount ∧
      (∀ r, r < t.rowCount → t1.getData r t.columnCount = some (fn r)) ∧
      (∀ r k, k < t.columnCount → t1.getData r k = t.getData r k) := by
  have hnd : t.m_indices.Nodup := (List.nodup_append.1 hwf.nodup).1
  have hE := t.addColumnE_accept gct hnd hrow hsz column formula column_ptr tokens fn hval
    hcreate hg hloc hev
  have hF := t.addColumnF_accept column fn column_ptr hval hcreate (fun r hr => (hev r hr).2)
  obtain ⟨hty, hempty, _⟩ := createColumn_typed _ _ _ _ hcreate
  have hlen := (column_ptr.resize_typed hty (t.rowCount + t.m_free_space.length)).2.1
  obtain ⟨g1, g2, g3, g4, g5, g6⟩ := t.appendColumn_view
    ({ column_ptr.resize (t.rowCount + t.m_free_space.length) with
        m_data_vec := writeCells fn
          (column_ptr.resize (t.rowCount + t.m_free_space.length)).m_data_vec 0
          t.m_indices } : Column)
  have hne : t.m_columns ≠ [] := by
    intro h
    apply hcols
    unfold Table.columnCount
    rw [h]
    rfl
  refine ⟨_, hE, hF, ?_, g3, ?_, g6⟩
  · unfold Table.columnCount
    rw [g1]
    simp
  · intro r hr
    rw [g5 r hr, g4 hne]
    simp only [Column.getData, Option.some.injEq]
    have hr2 : r < t.m_indices.length := hr
    rw [List.getD_eq_getElem _ _ hr2]
    have hb : t.m_indices[r] <
        (column_ptr.resize (t.rowCount + t.m_free_space.length)).m_data_vec.length := by
      rw [hlen]
      exact hwf.bound _ (List.mem_append_left _ (List.getElem_mem _))
    rw [writeCells_getD_mem fn _ t.m_indices _ 0 r hnd hr2 hb, Nat.zero_add]

set_option maxRecDepth 100000 in
theorem addHundredToId_bonus (r : Nat) (hr : r < studentTable.rowCount) :
    addHundredToId.eval studentTableWithBonus.getDataWC r = .ok (idPlusHundred r) ∧
    dataTypeOf (idPlusHundred r) = DataType.INT32 := by
  have h10 : r < 10 := hr
  interval_cases r <;> exact ⟨rfl, rfl⟩

set_option maxRecDepth 100000 in
/-- Witness of C17: a column "bonus" computed by `add($id, 100)` is added to the student
table by formula and by callable, with the same result. -/
theorem C17_addColumnE_addColumnF_witness :
    studentTable.WF ∧ studentTable.rowCount ≠ 0 ∧
    ∃ t1, studentTable.addColumnE (fun _ _ _ => some addHundredToId)
        ⟨"bonus", "", DataType.INT32⟩ "add($id,100)" = .ok (t1, true) ∧
      studentTable.addColumnF ⟨"bonus", "", DataType.INT32⟩ idPlusHundred = .ok (t1, true) ∧
      t1.getData 3 2 = some (Variant.int32 103) :=
  ⟨studentTable_wf, by decide,
    match C17_addColumnE_addColumnF (fun _ _ _ => some addHundredToId) studentTable
      studentTable_wf (by decide) (by decide) (by decide) ⟨"bonus", "", DataType.INT32⟩
      "add($id,100)" (Column.mk0 KType.KInt32 "bonus" "") addHundredToId idPlusHundred
      (by decide) rfl rfl addHundredToId_rowLocal addHundredToId_bonus with
    | ⟨t1, h1, h2, _, _, h5, _⟩ => ⟨t1, h1, h2, (h5 3 (by decide)).trans rfl⟩⟩

end km

namespace km

set_option maxRecDepth 100000 in
/-- C12, as stated, fails on two inputs. While sorting is paused the rows 2, 1 stand in
insertion order; row 1 holds the key 1, yet the binary search of the key column returns no
row. On a sorted table keyed by dates, day 100 of month 1 stands at row 1 behind day 0 of
month 2, which has the same integral representation but is not equal to it; the search for it
returns no row either. -/
theorem C12_counterexample :
    (pausedPair.m_no_sorting = true ∧
      pausedPair.search "k" (Variant.int32 1) = .ok [] ∧
      pausedPair.linearScan 0 (Variant.int32 1) = [1]) ∧
    (oddDates.m_no_sorting = false ∧ oddDates.Sorted ∧
      oddDates.search "d" (Variant.date ⟨2020, 1, 100⟩) = .ok [] ∧
      oddDates.linearScan 0 (Variant.date ⟨2020, 1, 100⟩) = [1]) :=
  ⟨⟨by decide, rfl, by decide⟩, ⟨by decide, by decide, rfl, by decide⟩⟩

/-- C12, amended. On a well-formed table whose rows are in key order (as they are whenever
sorting is not paused) and whose key cells are canonical (any cell that is not a date; dates
with month and day below 100, minute and second below 60), `search(column_name, v)`, for every
value `v`, returns the empty list when the table is empty, the column is unknown
or the tag of `v` differs from the column's type, and otherwise returns the result of the
linear scan: the logical indices, ascending and without duplicates, whose cell in the column
equals `v` under the column's equality, for the key column (binary search and the two scans of
the equality run) as for any other column. -/
theorem C12_search_linear_scan (t : Table) (hwf : t.WF) (hs : t.Sorted)
    (hsz : t.rowCount < 2 ^ 64) (hcan : ∀ r, r < t.rowCount → (t.getDataWC r 0).Canonical)
    (column_name : String) (data : Variant) :
    ((t.rowCount = 0 ∨ t.findColumn column_name = none ∨
        ∃ ci dt, t.findColumn column_name = some (ci, dt) ∧ dataTypeOf data ≠ dt) →
      t.search column_name data = .ok []) ∧
    (∀ ci dt, t.findColumn column_name = some (ci, dt) → dataTypeOf data = dt →
      t.search column_name data = .ok (t.linearScan ci data)) ∧
    (∀ ci, (t.linearScan ci data).Pairwise (fun a b => a < b)) := by
  refine ⟨?_, ?_, ?_⟩
  · intro h
    unfold Table.search
    by_cases hn : t.rowCount = 0
    · simp [hn]
    · simp only [hn, if_false]
      rcases h with h | h | ⟨ci, dt, hf, hne⟩
      · exact absurd h hn
      · simp [h]
      · obtain ⟨col, hcol, _, hdt⟩ := t.findColumn_some column_name ci dt hf
        have hidx : indexForDataType dt INVALID_INDEX = col.ktype.index := by
          rw [hdt]
          exact indexForDataType_dataTypeFor _ _
        have hx : data.index ≠ col.ktype.index := by
          intro e
          apply hne
          rw [hdt]
          exact (dataType_eq_iff data col.ktype).2 e
        simp [hf, hidx, hx]
  · intro ci dt hf htag
    obtain ⟨col, hcol, _, hdt⟩ := t.findColumn_some column_name ci dt hf
    have hidx : indexForDataType dt INVALID_INDEX = col.ktype.index := by
      rw [hdt]
      exact indexForDataType_dataTypeFor _ _
    have hx : data.index = col.ktype.index := by
      apply (dataType_eq_iff data col.ktype).1
      have : (1 <<< data.index) = dt := htag
      rw [this, hdt]
      rfl
    unfold Table.search
    by_cases hn : t.rowCount = 0
    · simp [hn, Table.linearScan]
    · simp only [hn, if_false, hf, hidx, ne_eq, hx, not_true_eq_false]
      by_cases h0 : ci = 0
      · subst h0
        simp only [if_true]
        have hb : t.m_columns.head? = some col := by
          rw [List.head?_eq_getElem?]
          exact hcol
        apply t.searchInKeyColumn_spec hwf ((t.sorted_iff_idxSorted hwf.typed).1 hs) hsz col hb
          data hx
        intro r hr
        have := hcan r hr
        rw [Table.getDataWC_eq_cellAt, Table.cellAt_eq, hcol] at this
        exact this
      · simp only [h0, if_false, hcol]
        rw [Table.searchLinear_spec col data _ (col.isEqualV_ok data hx) t.m_indices 0 [],
          t.linearScan_eq ci col data hcol, List.nil_append, List.range_eq_range']
        rfl
  · intro ci
    unfold Table.linearScan
    exact List.Pairwise.sublist (List.filter_sublist _) (List.pairwise_lt_range _)

set_option maxRecDepth 100000 in
/-- Witness of C12: the search for "Hema" in the key column of the student table returns the
rows 3 and 4. -/
theorem C12_search_linear_scan_witness :
    studentTable.WF ∧ studentTable.Sorted ∧
    studentTable.search "name" (Variant.string "Hema") = .ok [3, 4] :=
  ⟨studentTable_wf, studentTable_sorted,
    ((C12_search_linear_scan studentTable studentTable_wf studentTable_sorted (by decide)
      (by
        intro r hr
        have h10 : r < 10 := hr
        interval_cases r <;> exact True.intro)
      "name" (Variant.string "Hema")).2.1 0 DataType.STRING (by decide)
      (by decide)).trans (congrArg Except.ok (by decide))⟩

end km

namespace km

set_option maxRecDepth 100000 in
/-- C18, the code at the failing input. The table `tripleKey` holds the keys 1, 1, 1, 2 and
the view `tripleKeyView` is the view the constructor builds on it (all rows, no filter). When
the table drops row 0, the view's `mapToLocal` does not find row 0 among the rows with the
equal key 1, so nothing is erased: the table is left with 3 rows and the view with the four
entries 0, 0, 1, 2, a duplicate among them. -/
theorem C18_view_keeps_dropped_row :
    BasicView.new noCompiler "v" tripleKey.toAbstractTable [] "" "" SortingOrder.ASCENDING =
      .ok tripleKeyView ∧
    tripleKey.m_no_sorting = false ∧ tripleKey.rowCount = 4 ∧
    (tripleKey.dropRowObserved tripleKeyView 0).map
        (fun p => (p.1.rowCount, p.2.1.m_indices, p.2.2)) = .ok (3, [0, 0, 1, 2], true) ∧
    (tripleKey.dropRow 0).map (fun p => (p.1.rowCount, p.2)) = .ok (3, true) :=
  ⟨rfl, by decide, by decide, rfl, rfl⟩

set_option maxRecDepth 100000 in
/-- C20, the code at the failing input. The view `studentView` is the view the constructor
builds on the student table (all rows, keyed by name, ascending); it is sorted, and source
row 3, the first row named Hema, stands at position 3. Source row 4 has the same key. The
binary search of `mapToLocal(3)` probes position 4 first, finds an equal key there and goes
right: it returns `INVALID_INDEX`. -/
theorem C20_mapToLocal_misses_equal_key :
    BasicView.new noCompiler "view" studentTable.toAbstractTable [] "" ""
      SortingOrder.ASCENDING = .ok studentView ∧
    studentView.Sorted studentTable.toAbstractTable ∧
    studentView.m_indices.getD 3 0 = 3 ∧
    studentView.keyOf studentTable.toAbstractTable 3 = Variant.string "Hema" ∧
    studentView.keyOf studentTable.toAbstractTable 4 = Variant.string "Hema" ∧
    studentView.mapToLocal (some studentTable.toAbstractTable) 3 = .ok INVALID_INDEX ∧
    studentView.mapToLocal (some studentTable.toAbstractTable) 4 = .ok 4 :=
  ⟨rfl, by decide, by decide, by decide, by decide, rfl, rfl⟩

end km

namespace km

theorem BasicView.findColumn_congr (v v1 : BasicView) (src : AbstractTable) (name : String)
    (h : v1.m_selected_columns = v.m_selected_columns) :
    v1.findColumn src name = v.findColumn src name := by
  have hl : ∀ count i, v1.findColumnLoop src name count i = v.findColumnLoop src name count i := by
    intro count
    induction count with
    | zero => intro i; rfl
    | succ n ih =>
      intro i
      simp only [BasicView.findColumnLoop, h, ih]
  unfold BasicView.findColumn BasicView.columnCount
  rw [h, hl]

theorem studentSource_coherent : studentTable.toAbstractTable.Coherent :=
  Table.toAbstractTable_coherent studentTable studentTable_wf.typed

end km

namespace km

theorem comparatorFor_negtrans (s_order : SortingOrder) (dt : DataType) (a b c : Variant)
    (iab : a.index = b.index) (ibc : b.index = c.index)
    (hab : comparatorFor s_order dt a b = false) (hbc : comparatorFor s_order dt b c = false) :
    comparatorFor s_order dt a c = false := by
  cases s_order with
  | ASCENDING => exact Variant.less_negtrans a b c iab ibc hab hbc
  | DESCENDING =>
    simp only [comparatorFor, reduceCtorEq, if_false, Variant.greater_eq_less] at hab hbc ⊢
    exact Variant.less_negtrans c b a ibc.symm iab.symm hbc hab

theorem BasicView.keyOrdered_eq_comparator (v : BasicView) (a b : Variant)
    (iab : a.index = b.index) : v.keyOrdered a b = !comparatorFor v.m_sorder 0 b a := by
  unfold BasicView.keyOrdered comparatorFor
  cases v.m_sorder with
  | ASCENDING =>
    simp only [if_true]
    exact Variant.lessEq_eq_not_less _ _ iab
  | DESCENDING =>
    simp only [reduceCtorEq, if_false, Variant.greater_eq_less]
    exact Variant.greaterEq_eq_not_less _ _ iab

theorem upper_bound_nil (comp : Nat → Bool) : upper_bound [] comp = 0 := rfl

/-- Function `std::upper_bound` of a value against the key cells of a sorted view. -/
theorem BasicView.upper_bound_key (v : BasicView) (src : AbstractTable) (hc : src.Coherent)
    (data : Variant) (hd : ∀ r, data.index = (v.keyOf src r).index) (hs : v.Sorted src) :
    upper_bound v.m_indices (fun middle => comparatorFor v.m_sorder 0 data (v.keyOf src middle))
        ≤ v.m_indices.length ∧
    (∀ i, i < upper_bound v.m_indices
          (fun middle => comparatorFor v.m_sorder 0 data (v.keyOf src middle)) →
        comparatorFor v.m_sorder 0 data (v.keyOf src (v.m_indices.getD i 0)) = false) ∧
    (∀ i, upper_bound v.m_indices
          (fun middle => comparatorFor v.m_sorder 0 data (v.keyOf src middle)) ≤ i →
        i < v.m_indices.length →
        comparatorFor v.m_sorder 0 data (v.keyOf src (v.m_indices.getD i 0)) = true) := by
  rw [BasicView.sorted_iff _ _ hc] at hs
  have hmono : ∀ i j, i ≤ j → j < v.m_indices.length →
      comparatorFor v.m_sorder 0 data (v.keyOf src (v.m_indices.getD i 0)) = true →
      comparatorFor v.m_sorder 0 data (v.keyOf src (v.m_indices.getD j 0)) = true := by
    intro i j hij hj hi
    rcases Nat.eq_or_lt_of_le hij with heq | hlt
    · rw [← heq]
      exact hi
    · have hji : v.compare src (v.m_indices.getD j 0) (v.m_indices.getD i 0) = false :=
        pairwise_getD hs i j hlt hj
      cases hcj : comparatorFor v.m_sorder 0 data (v.keyOf src (v.m_indices.getD j 0))
      · have hlow : comparatorFor v.m_sorder 0 data (v.keyOf src (v.m_indices.getD i 0)) =
            false :=
          comparatorFor_negtrans v.m_sorder 0 data _ _ (hd _) (hc.typed _ _ _) hcj hji
        rw [hlow] at hi
        cases hi
      · rfl
  exact upper_bound_loop_spec v.m_indices
    (fun middle => comparatorFor v.m_sorder 0 data (v.keyOf src middle)) hmono
    v.m_indices.length 0 v.m_indices.length (Nat.le_refl _) (by omega)
    (fun i hi => absurd hi (Nat.not_lt_zero i)) (fun i h1 h2 => absurd h2 (by omega))

theorem BasicView.insertablePosition_key (v : BasicView) (src : AbstractTable)
    (col : String × DataType) (hkey : v.columnAt src v.m_key_column = some col)
    (data : Variant) :
    v.insertablePosition src data =
      .ok (upper_bound v.m_indices
        (fun middle => comparatorFor v.m_sorder 0 data (v.keyOf src middle))) := by
  rw [v.insertablePosition_eq src col hkey data]
  cases he : v.m_indices with
  | nil => rfl
  | cons a l => rfl

end km

namespace km

theorem BasicView.viewColumnLoop_none (v : BasicView) (src : AbstractTable) (name : String) :
    ∀ (count i : Nat),
      (∀ j, i ≤ j → j < i + count →
        ∃ col, src.columnAt (v.m_selected_columns.getD j 0) = some col ∧ col.1 ≠ name) →
      BasicView.findColumnLoop v src name count i = .ok none
  | 0, _, _ => rfl
  | count + 1, i, h => by
    unfold BasicView.findColumnLoop
    obtain ⟨col, hcol, hne⟩ := h i (Nat.le_refl _) (by omega)
    simp only [hcol, optionalValue, hne, if_false]
    exact BasicView.viewColumnLoop_none v src name count (i + 1)
      (fun j h1 h2 => h j (by omega) (by omega))

theorem BasicView.viewColumnLoop_first (v : BasicView) (src : AbstractTable) (name : String)
    (k : Nat) (ty : DataType)
    (hk : src.columnAt (v.m_selected_columns.getD k 0) = some (name, ty)) :
    ∀ (count i : Nat), i ≤ k → k < i + count →
      (∀ j, i ≤ j → j < k →
        ∃ col, src.columnAt (v.m_selected_columns.getD j 0) = some col ∧ col.1 ≠ name) →
      BasicView.findColumnLoop v src name count i = .ok (some (k, ty))
  | 0, i, h1, h2, _ => by omega
  | count + 1, i, h1, h2, h => by
    unfold BasicView.findColumnLoop
    by_cases hik : i = k
    · subst hik
      simp only [hk, optionalValue, if_true]
    · obtain ⟨col, hcol, hne⟩ := h i (Nat.le_refl _) (by omega)
      simp only [hcol, optionalValue, hne, if_false]
      exact BasicView.viewColumnLoop_first v src name k ty hk count (i + 1) (by omega)
        (by omega) (fun j h1 h2 => h j (by omega) h2)

theorem BasicView.columnAt_lt (v : BasicView) (src : AbstractTable) (i : Nat)
    (col : String × DataType) (h : v.columnAt src i = some col) :
    i < v.columnCount ∧ src.columnAt (v.m_selected_columns.getD i 0) = some col := by
  unfold BasicView.columnAt at h
  by_cases hi : i ≥ v.columnCount
  · rw [if_pos hi] at h
    cases h
  · rw [if_neg hi] at h
    exact ⟨by omega, h⟩

theorem BasicView.columnAt_of_lt (v : BasicView) (src : AbstractTable) (i : Nat)
    (h : i < v.columnCount) :
    v.columnAt src i = src.columnAt (v.m_selected_columns.getD i 0) := by
  unfold BasicView.columnAt
  rw [if_neg (by omega)]

/-- Method `findColumn` of a view whose selected columns all exist in the source: nothing when
no column of the view has the name, otherwise the first column of that name. -/
theorem BasicView.findColumn_spec (v : BasicView) (src : AbstractTable)
    (hsel : ∀ i, i < v.columnCount → ∃ col, v.columnAt src i = some col) (name : String) :
    ((∀ i col, v.columnAt src i = some col → col.1 ≠ name) →
      v.findColumn src name = .ok none) ∧
    (∀ i ty, v.columnAt src i = some (name, ty) →
      (∀ j col, j < i → v.columnAt src j = some col → col.1 ≠ name) →
      v.findColumn src name = .ok (some (i, ty))) := by
  constructor
  · intro h
    apply BasicView.viewColumnLoop_none
    intro j _ hj
    obtain ⟨col, hcol⟩ := hsel j (by omega)
    refine ⟨col, ?_, h j col hcol⟩
    rw [← v.columnAt_of_lt src j (by omega)]
    exact hcol
  · intro i ty hi hfirst
    obtain ⟨hlt, hsrc⟩ := v.columnAt_lt src i _ hi
    apply BasicView.viewColumnLoop_first v src name i ty hsrc v.columnCount 0 (Nat.zero_le _)
      (by omega)
    intro j _ hj
    obtain ⟨col, hcol⟩ := hsel j (by omega)
    refine ⟨col, ?_, hfirst j col hj hcol⟩
    rw [← v.columnAt_of_lt src j (by omega)]
    exact hcol

end km

namespace km

theorem parse.parseStep_plain (tv : List parse.Token) (cur : List Char) (c : Char)
    (h : parse.isPlain c = true) :
    parse.parseStep ⟨tv, cur, false⟩ c = ⟨tv, cur ++ [c], false⟩ := by
  simp only [parse.isPlain, Bool.and_eq_true, bne_iff_ne, ne_eq, decide_eq_true_eq,
    decide_not, Bool.not_eq_true', decide_eq_false_iff_not] at h
  obtain ⟨⟨⟨⟨h1, h2⟩, h3⟩, h4⟩, h5⟩ := h
  simp only [parse.parseStep, Bool.false_eq_true, if_false, h1, h2, h3, h4, h5, or_self]

theorem parse.foldl_parseStep_plain (tv : List parse.Token) :
    ∀ (cs cur : List Char), (∀ c ∈ cs, parse.isPlain c = true) →
      cs.foldl parse.parseStep ⟨tv, cur, false⟩ = ⟨tv, cur ++ cs, false⟩
  | [], cur, _ => by simp
  | c :: cs, cur, h => by
    rw [List.foldl_cons, parse.parseStep_plain tv cur c (h c (List.mem_cons_self _ _)),
      parse.foldl_parseStep_plain tv cs (cur ++ [c])
        (fun x hx => h x (List.mem_cons_of_mem _ hx))]
    simp

theorem isword_plain (c : Char) (h : (isalnum c || c = '_') = true) :
    parse.isPlain c = true ∧ parse.isword c = true ∧ parse.isdigit '$' = false := by
  refine ⟨?_, h, by decide⟩
  simp only [Bool.or_eq_true, decide_eq_true_eq] at h
  simp only [parse.isPlain, Bool.and_eq_true, bne_iff_ne, ne_eq, decide_eq_true_eq,
    decide_not, Bool.not_eq_true', decide_eq_false_iff_not]
  rcases h with h | h
  · refine ⟨⟨⟨⟨?_, ?_⟩, ?_⟩, ?_⟩, ?_⟩ <;>
    · intro hc
      rw [hc] at h
      revert h
      decide
  · rw [h]
    decide

/-- The text `$name` of a valid column name is one token: the first loop of `parseToTokens`
collects it and the final blank ends it. -/
theorem parse.lex_column_reference (n : String) (h : isValidColumnName n = true) :
    (("$" ++ n).data ++ [' ']).foldl parse.parseStep ⟨[], [], false⟩ =
      ⟨[parse.Token.new ("$" ++ n)], [], false⟩ := by
  have hd : ("$" ++ n).data = '$' :: n.data := by
    rw [String.data_append]
    rfl
  unfold isValidColumnName at h
  cases hn : n.data with
  | nil =>
    rw [hn] at h
    cases h
  | cons c rest =>
    rw [hn] at h
    simp only at h
    split_ifs at h with h1
    have hall : ∀ x ∈ '$' :: c :: rest, parse.isPlain x = true := by
      intro x hx
      rcases List.mem_cons.1 hx with rfl | hx
      · decide
      · exact (isword_plain x (List.all_eq_true.1 h x hx)).1
    rw [hd, hn, List.foldl_append, parse.foldl_parseStep_plain [] _ [] hall]
    simp only [List.nil_append, List.foldl_cons, List.foldl_nil, parse.parseStep,
      Bool.false_eq_true, if_false, Char.reduceEq, true_or, if_true,
      parse.LexState.flush, List.isEmpty_cons]
    have hs : String.mk ('$' :: c :: rest) = "$" ++ n := by
      apply String.ext
      rw [hd, hn]
    rw [hs]

/-- The text `$name` of a valid column name matches the regular expression of `COLUMN` and
none of those tried before it. -/
theorem parse.resolveTokenType_column (n : String) (h : isValidColumnName n = true)
    (token : parse.Token) (ht : token.text = "$" ++ n) :
    parse.resolveTokenType token = { token with token_type := parse.COLUMN } := by
  have hd : token.text.data = '$' :: n.data := by
    rw [ht, String.data_append]
    rfl
  unfold isValidColumnName at h
  cases hn : n.data with
  | nil =>
    rw [hn] at h
    cases h
  | cons c rest =>
    rw [hn] at h hd
    simp only at h
    split_ifs at h with h1
    have hfirst : (isalpha c || decide (c = '_')) = true := by
      cases hf : (isalpha c || decide (c = '_'))
      · rw [hf] at h1
        exact absurd rfl h1
      · rfl
    have hrest : rest.all parse.isword = true := by
      rw [List.all_eq_true]
      intro x hx
      exact List.all_eq_true.1 h x (List.mem_cons_of_mem _ hx)
    have h32 : parse.regexInt32 ('$' :: c :: rest) = false := by
      simp [parse.regexInt32, parse.stripMinus, parse.matchDigits, parse.isdigit]
    have h64 : parse.regexInt64 ('$' :: c :: rest) = false := by
      have hs : parse.stripMinus ('$' :: c :: rest) = '$' :: c :: rest := by
        simp [parse.stripMinus]
      have hdl : ('$' :: c :: rest).dropLast = '$' :: (c :: rest).dropLast := rfl
      unfold parse.regexInt64
      rw [hs, hdl]
      have hm1 : parse.matchDigits ('$' :: c :: rest) = false := by
        simp [parse.matchDigits, parse.isdigit]
      have hm2 : parse.matchDigits ('$' :: (c :: rest).dropLast) = false := by
        simp [parse.matchDigits, parse.isdigit]
      rw [hm1, hm2]
      cases ('$' :: c :: rest).getLast? <;> simp
    have hf32 : parse.regexFloat32 ('$' :: c :: rest) = false := by
      simp [parse.regexFloat32, parse.stripMinus, parse.matchDecimal, parse.isdigit]
    have hf64 : parse.regexFloat64 ('$' :: c :: rest) = false := by
      simp [parse.regexFloat64, parse.stripMinus, parse.matchDecimal, parse.isdigit]
    have hstr : parse.regexString ('$' :: c :: rest) = false := by
      simp [parse.regexString]
    have hbool : parse.regexBoolean ('$' :: c :: rest) = false := by
      simp [parse.regexBoolean]
    have hcol : parse.regexColumn ('$' :: c :: rest) = true := by
      simp only [parse.regexColumn, decide_True, Bool.true_and, Bool.and_eq_true]
      exact ⟨hfirst, hrest⟩
    unfold parse.resolveTokenType
    rw [hd, h32, h64, hf32, hf64, hstr, hbool, hcol]
    simp

end km

namespace km

theorem fnc.wrapSigned_int16 (x : Int) (h1 : -32768 ≤ x) (h2 : x ≤ 32767) :
    fnc.wrapSigned 16 x = x := by
  unfold fnc.wrapSigned
  norm_num
  omega

theorem fnc.wrapSigned_int16_max : fnc.wrapSigned 16 (32767 + 1) = -32768 := by
  unfold fnc.wrapSigned
  norm_num

open parse in
theorem parse.loop_stop (size fuel i : Nat) (st : GrammarState)
    (h : ¬ (i < size ∧ st.is_vld_tkn = true ∧
      ¬ ((st.fst_op_paren = true ∧ st.p_level = 0) ∨ st.p_level < 0))) :
    checkGrammarLoop size fuel i st = .ok (i, st) := by
  cases fuel with
  | zero => rfl
  | succ n => simp only [checkGrammarLoop, h, if_false]

open parse in
theorem parse.loop_step (size i : Nat) (st st1 : GrammarState) (hi : i < size)
    (hv : st.is_vld_tkn = true) (hp : 0 ≤ st.p_level)
    (hf : st.fst_op_paren = true → 1 ≤ st.p_level)
    (hs : checkGrammarStep st i = .ok st1) :
    checkGrammarLoop size (size - i) i st = checkGrammarLoop size (size - (i + 1)) (i + 1) st1 := by
  have hfuel : size - i = (size - (i + 1)) + 1 := by omega
  rw [hfuel]
  have hc : i < size ∧ st.is_vld_tkn = true ∧
      ¬ ((st.fst_op_paren = true ∧ st.p_level = 0) ∨ st.p_level < 0) := by
    refine ⟨hi, hv, ?_⟩
    rintro (⟨h1, h2⟩ | h3)
    · have := hf h1
      omega
    · omega
  simp only [checkGrammarLoop]
  rw [if_pos hc, hs]

theorem list_getD_middle {α : Type} (pre : List α) (t : α) (post : List α) (d : α) :
    (pre ++ t :: post).getD pre.length d = t := by
  rw [List.getD_eq_getElem?_getD, List.getElem?_append_right (Nat.le_refl _)]
  simp

theorem list_getD_middle_succ {α : Type} (pre : List α) (t u : α) (post : List α) (d : α) :
    (pre ++ t :: u :: post).getD (pre.length + 1) d = u := by
  rw [List.getD_eq_getElem?_getD, List.getElem?_append_right (by omega)]
  simp

theorem list_set_middle {α : Type} (pre : List α) (t u : α) (post : List α) :
    (pre ++ t :: post).set pre.length u = pre ++ u :: post := by
  rw [List.set_append_right _ _ (Nat.le_refl _)]
  simp

open parse in
theorem parse.step_data (tv : List Token) (p : Int) (v f : Bool) (stk : List Nat) (i : Nat)
    (h : (tv.getD i default).token_type = INT32 ∨ (tv.getD i default).token_type = INT64 ∨
      (tv.getD i default).token_type = FLOAT32 ∨ (tv.getD i default).token_type = FLOAT64 ∨
      (tv.getD i default).token_type = STRING ∨ (tv.getD i default).token_type = BOOLEAN ∨
      (tv.getD i default).token_type = COLUMN) :
    checkGrammarStep ⟨tv, p, v, f, stk⟩ i =
      .ok ⟨tv, p, hasBit (tv.getD (i + 1) default).token_type (COMMA ||| P_CLOSE), f, stk⟩ := by
  simp only [checkGrammarStep, h, if_true]

open parse in
theorem parse.step_function (tv : List Token) (p : Int) (v f : Bool) (stk : List Nat) (i : Nat)
    (h : (tv.getD i default).token_type = FUNCTION) :
    checkGrammarStep ⟨tv, p, v, f, stk⟩ i =
      .ok ⟨tv, p, hasBit (tv.getD (i + 1) default).token_type P_OPEN, f, i :: stk⟩ := by
  simp only [checkGrammarStep, h]
  rfl

open parse in
theorem parse.step_comma (tv : List Token) (p : Int) (v f : Bool) (stk : List Nat) (i : Nat)
    (h : (tv.getD i default).token_type = COMMA) :
    checkGrammarStep ⟨tv, p, v, f, stk⟩ i =
      .ok ⟨tv, p, hasBit (tv.getD (i + 1) default).token_type (TT_DATAC ||| FUNCTION), f,
        stk⟩ := by
  simp only [checkGrammarStep, h]
  rfl

open parse in
theorem parse.step_p_open_raw (tv : List Token) (p : Int) (v f : Bool) (stk : List Nat)
    (i : Nat) (h : (tv.getD i default).token_type = P_OPEN) :
    checkGrammarStep ⟨tv, p, v, f, stk⟩ i =
      .ok ⟨tv, fnc.wrapSigned 16 (p + 1),
        hasBit (tv.getD (i + 1) default).token_type (TT_DATAC ||| FUNCTION ||| P_CLOSE), true,
        stk⟩ := by
  simp only [checkGrammarStep, h]
  rfl

open parse in
theorem parse.step_p_open (tv : List Token) (p : Int) (v f : Bool) (stk : List Nat) (i : Nat)
    (h : (tv.getD i default).token_type = P_OPEN) (hp : 0 ≤ p) (h16 : p < 32767) :
    checkGrammarStep ⟨tv, p, v, f, stk⟩ i =
      .ok ⟨tv, p + 1,
        hasBit (tv.getD (i + 1) default).token_type (TT_DATAC ||| FUNCTION ||| P_CLOSE), true,
        stk⟩ := by
  rw [parse.step_p_open_raw tv p v f stk i h,
    fnc.wrapSigned_int16 (p + 1) (by omega) (by omega)]

open parse in
theorem parse.step_p_close (tv : List Token) (p : Int) (v f : Bool) (stk : List Nat)
    (i top : Nat) (info : function_info_t)
    (h : (tv.getD i default).token_type = P_CLOSE)
    (he : (tv.getD top default).element = Element.fncInfo info)
    (hp : 0 ≤ p) (h16 : p ≤ 32767) :
    checkGrammarStep ⟨tv, p, v, f, top :: stk⟩ i =
      .ok ⟨tv.set top { tv.getD top default with
            element := Element.fncInfo { info with end_token := i } },
        p - 1, hasBit (tv.getD (i + 1) default).token_type (COMMA ||| P_CLOSE ||| INVALID), f,
        stk⟩ := by
  have hw : fnc.wrapSigned 16 (p - 1) = p - 1 :=
    fnc.wrapSigned_int16 (p - 1) (by omega) (by omega)
  simp only [checkGrammarStep, h, he, Element.asFncInfo, hw]
  rfl

end km

namespace km

open parse

mutual
theorem parse.Expr.tokensAt_length (a : Bool) : ∀ (e : Expr) (offset : Nat),
    (e.tokensAt a offset).length = e.size
  | .literal _ _, _ => rfl
  | .column _, _ => rfl
  | .call _ args, offset => by
    simp only [Expr.tokensAt, Expr.size, List.length_cons, List.length_append, List.length_tail,
      List.length_nil, parse.Args.tokensAt_length_args a args (offset + 1)]
    omega
theorem parse.Args.tokensAt_length_args (a : Bool) : ∀ (args : Args) (offset : Nat),
    (args.tokensAt a offset).length = args.size
  | .nil, _ => rfl
  | .cons e rest, offset => by
    simp only [Args.tokensAt, Args.size, List.length_cons, List.length_append,
      parse.Expr.tokensAt_length a e (offset + 1),
      parse.Args.tokensAt_length_args a rest (offset + 1 + e.size)]
    omega
end

theorem parse.Expr.size_pos (e : Expr) : 1 ≤ e.size := by
  cases e <;> simp only [Expr.size] <;> omega

theorem parse.LiteralKind.isData (kind : LiteralKind) :
    kind.token_type = INT32 ∨ kind.token_type = INT64 ∨ kind.token_type = FLOAT32 ∨
      kind.token_type = FLOAT64 ∨ kind.token_type = STRING ∨ kind.token_type = BOOLEAN ∨
      kind.token_type = COLUMN := by
  cases kind <;> simp [LiteralKind.token_type]

/-- The first token of an expression is a literal, a column reference or a function name. -/
theorem parse.Expr.tokensAt_head (a : Bool) (e : Expr) (offset : Nat) (rest : List Token) :
    hasBit ((e.tokensAt a offset ++ rest).headD default).token_type (TT_DATAC ||| FUNCTION) =
        true ∧
      hasBit ((e.tokensAt a offset ++ rest).headD default).token_type
        (TT_DATAC ||| FUNCTION ||| P_CLOSE) = true := by
  cases e with
  | literal kind text =>
    cases kind <;>
      simp only [Expr.tokensAt, Token.fresh, List.cons_append, List.headD_cons,
        LiteralKind.token_type] <;> exact ⟨by decide, by decide⟩
  | column text =>
    simp only [Expr.tokensAt, Token.fresh, List.cons_append, List.headD_cons]
    exact ⟨by decide, by decide⟩
  | call name args =>
    simp only [Expr.tokensAt, Token.function, List.cons_append, List.headD_cons]
    exact ⟨by decide, by decide⟩

theorem list_getD_at {α : Type} (tv pre : List α) (t : α) (post : List α) (i : Nat) (d : α)
    (htv : tv = pre ++ t :: post) (hi : i = pre.length) : tv.getD i d = t := by
  rw [htv, hi]
  exact list_getD_middle pre t post d

theorem list_getD_next {α : Type} (tv pre : List α) (t : α) (post : List α) (i : Nat) (d : α)
    (htv : tv = pre ++ t :: post) (hi : i = pre.length) :
    tv.getD (i + 1) d = post.headD d := by
  rw [htv, hi, List.getD_eq_getElem?_getD, List.getElem?_append_right (by omega)]
  cases post <;> simp

theorem parse.loop_data (size i : Nat) (tv P : List Token) (t : Token) (R : List Token)
    (p : Int) (f : Bool) (stk : List Nat) (htv : tv = P ++ t :: R) (hi : i = P.length)
    (hlt : i < size) (hp : 0 ≤ p) (hf : f = true → 1 ≤ p)
    (ht : t.token_type = INT32 ∨ t.token_type = INT64 ∨ t.token_type = FLOAT32 ∨
      t.token_type = FLOAT64 ∨ t.token_type = STRING ∨ t.token_type = BOOLEAN ∨
      t.token_type = COLUMN)
    (hn : hasBit (R.headD default).token_type (COMMA ||| P_CLOSE) = true) :
    checkGrammarLoop size (size - i) i ⟨tv, p, true, f, stk⟩ =
      checkGrammarLoop size (size - (i + 1)) (i + 1) ⟨tv, p, true, f, stk⟩ := by
  apply parse.loop_step size i _ _ hlt rfl hp hf
  rw [parse.step_data _ _ _ _ _ _ (by rw [list_getD_at tv P t R i default htv hi]; exact ht),
    list_getD_next tv P t R i default htv hi, hn]

theorem parse.loop_function (size i : Nat) (tv P : List Token) (t : Token) (R : List Token)
    (p : Int) (f : Bool) (stk : List Nat) (htv : tv = P ++ t :: R) (hi : i = P.length)
    (hlt : i < size) (hp : 0 ≤ p) (hf : f = true → 1 ≤ p) (ht : t.token_type = FUNCTION)
    (hn : hasBit (R.headD default).token_type P_OPEN = true) :
    checkGrammarLoop size (size - i) i ⟨tv, p, true, f, stk⟩ =
      checkGrammarLoop size (size - (i + 1)) (i + 1) ⟨tv, p, true, f, i :: stk⟩ := by
  apply parse.loop_step size i _ _ hlt rfl hp hf
  rw [parse.step_function _ _ _ _ _ _
      (by rw [list_getD_at tv P t R i default htv hi]; exact ht),
    list_getD_next tv P t R i default htv hi, hn]

theorem parse.loop_comma (size i : Nat) (tv P : List Token) (t : Token) (R : List Token)
    (p : Int) (f : Bool) (stk : List Nat) (htv : tv = P ++ t :: R) (hi : i = P.length)
    (hlt : i < size) (hp : 0 ≤ p) (hf : f = true → 1 ≤ p) (ht : t.token_type = COMMA)
    (hn : hasBit (R.headD default).token_type (TT_DATAC ||| FUNCTION) = true) :
    checkGrammarLoop size (size - i) i ⟨tv, p, true, f, stk⟩ =
      checkGrammarLoop size (size - (i + 1)) (i + 1) ⟨tv, p, true, f, stk⟩ := by
  apply parse.loop_step size i _ _ hlt rfl hp hf
  rw [parse.step_comma _ _ _ _ _ _ (by rw [list_getD_at tv P t R i default htv hi]; exact ht),
    list_getD_next tv P t R i default htv hi, hn]

theorem parse.loop_p_open (size i : Nat) (tv P : List Token) (t : Token) (R : List Token)
    (p : Int) (f : Bool) (stk : List Nat) (htv : tv = P ++ t :: R) (hi : i = P.length)
    (hlt : i < size) (hp : 0 ≤ p) (hf : f = true → 1 ≤ p) (ht : t.token_type = P_OPEN)
    (hn : hasBit (R.headD default).token_type (TT_DATAC ||| FUNCTION ||| P_CLOSE) = true)
    (h16 : p < 32767) :
    checkGrammarLoop size (size - i) i ⟨tv, p, true, f, stk⟩ =
      checkGrammarLoop size (size - (i + 1)) (i + 1) ⟨tv, p + 1, true, true, stk⟩ := by
  apply parse.loop_step size i _ _ hlt rfl hp hf
  rw [parse.step_p_open _ _ _ _ _ _ (by rw [list_getD_at tv P t R i default htv hi]; exact ht)
      hp h16,
    list_getD_next tv P t R i default htv hi, hn]

theorem parse.loop_p_close (size i : Nat) (tv P : List Token) (t : Token) (R : List Token)
    (p : Int) (f : Bool) (stk : List Nat) (top : Nat) (name : String)
    (htv : tv = P ++ t :: R) (hi : i = P.length)
    (hlt : i < size) (hp : 0 ≤ p) (hf : f = true → 1 ≤ p) (ht : t.token_type = P_CLOSE)
    (he : tv.getD top default = Token.function name 0)
    (hn : hasBit (R.headD default).token_type (COMMA ||| P_CLOSE ||| INVALID) = true)
    (h16 : p ≤ 32767) :
    checkGrammarLoop size (size - i) i ⟨tv, p, true, f, top :: stk⟩ =
      checkGrammarLoop size (size - (i + 1)) (i + 1)
        ⟨tv.set top (Token.function name i), p - 1, true, f, stk⟩ := by
  apply parse.loop_step size i _ _ hlt rfl hp hf
  rw [parse.step_p_close _ _ _ _ _ _ top ⟨nullFunction, 0, 0⟩
      (by rw [list_getD_at tv P t R i default htv hi]; exact ht) (by rw [he]; rfl) hp h16,
    list_getD_next tv P t R i default htv hi, hn, he]
  rfl

end km


namespace km

open parse

theorem parse.parenLevel_append (p : Int) (a b : List Token) :
    parenLevel p (a ++ b) = parenLevel (parenLevel p a) b := by
  simp only [parenLevel, List.foldl_append]

theorem parse.parenLevel_cons (p : Int) (t : Token) (a : List Token) :
    parenLevel p (t :: a) =
      parenLevel (if t.token_type = P_OPEN then p + 1
        else if t.token_type = P_CLOSE then p - 1 else p) a := by
  simp only [parenLevel, List.foldl_cons]

theorem parse.balanced_nil : Balanced [] := by
  intro p
  exact ⟨rfl, fun k => by simp [parenLevel]⟩

theorem parse.balanced_single (t : Token) (h1 : t.token_type ≠ P_OPEN)
    (h2 : t.token_type ≠ P_CLOSE) : Balanced [t] := by
  intro p
  have h : parenLevel p [t] = p := by
    simp only [parenLevel, List.foldl_cons, List.foldl_nil, h1, h2, if_false]
  refine ⟨h, fun k => ?_⟩
  cases k with
  | zero => simp [parenLevel]
  | succ k =>
    simp only [List.take_succ_cons, List.take_nil]
    rw [h]

theorem parse.balanced_append (a b : List Token) (ha : Balanced a) (hb : Balanced b) :
    Balanced (a ++ b) := by
  intro p
  refine ⟨by rw [parse.parenLevel_append, (ha p).1, (hb p).1], fun k => ?_⟩
  rw [List.take_append_eq_append_take, parse.parenLevel_append]
  exact le_trans ((ha p).2 k) ((hb _).2 _)

theorem parse.balanced_wrap (a : List Token) (ha : Balanced a) :
    Balanced (Token.p_open :: (a ++ [Token.p_close])) := by
  have hopen : ∀ (p : Int) (l : List Token),
      parenLevel p (Token.p_open :: l) = parenLevel (p + 1) l := by
    intro p l
    rw [parse.parenLevel_cons]
    rfl
  have hclose : ∀ p : Int, parenLevel p [Token.p_close] = p - 1 := by
    intro p
    rw [parse.parenLevel_cons]
    rfl
  intro p
  refine ⟨?_, fun k => ?_⟩
  · rw [hopen, parse.parenLevel_append, (ha _).1, hclose]
    omega
  · cases k with
    | zero => simp [parenLevel]
    | succ k =>
      rw [List.take_succ_cons, hopen, List.take_append_eq_append_take,
        parse.parenLevel_append]
      have hq := (ha (p + 1)).2 k
      cases hk : k - a.length with
      | zero =>
        simp only [List.take_zero, parenLevel, List.foldl_nil]
        simp only [parenLevel] at hq
        omega
      | succ j =>
        simp only [List.take_succ_cons, List.take_nil]
        rw [hclose]
        omega

theorem parse.literal_not_paren (kind : LiteralKind) :
    kind.token_type ≠ P_OPEN ∧ kind.token_type ≠ P_CLOSE := by
  cases kind <;> decide

theorem parse.plain_not_paren :
    (COLUMN ≠ P_OPEN ∧ COLUMN ≠ P_CLOSE) ∧ (FUNCTION ≠ P_OPEN ∧ FUNCTION ≠ P_CLOSE) ∧
      (COMMA ≠ P_OPEN ∧ COMMA ≠ P_CLOSE) := by decide

mutual
theorem parse.Expr.balanced : ∀ (e : Expr) (o : Nat), Balanced (e.tokensAt false o)
  | .literal kind text, _ =>
    parse.balanced_single _ (parse.literal_not_paren kind).1 (parse.literal_not_paren kind).2
  | .column text, _ =>
    parse.balanced_single _ parse.plain_not_paren.1.1 parse.plain_not_paren.1.2
  | .call name .nil, o => by
    simp only [Expr.tokensAt, Args.tokensAt, List.tail_nil]
    exact parse.balanced_append [_] _
      (parse.balanced_single _ parse.plain_not_paren.2.1.1 parse.plain_not_paren.2.1.2)
      (parse.balanced_wrap [] parse.balanced_nil)
  | .call name (.cons e rest), o => by
    simp only [Expr.tokensAt, Args.tokensAt, List.tail_cons]
    exact parse.balanced_append [_] _
      (parse.balanced_single _ parse.plain_not_paren.2.1.1 parse.plain_not_paren.2.1.2)
      (parse.balanced_wrap _ (parse.balanced_append _ _ (parse.Expr.balanced e _)
        (parse.Args.balanced_args rest _)))
theorem parse.Args.balanced_args : ∀ (args : Args) (o : Nat),
    Balanced (args.tokensAt false o)
  | .nil, _ => parse.balanced_nil
  | .cons e rest, o => by
    simp only [Args.tokensAt]
    exact parse.balanced_append [_] _
      (parse.balanced_single _ parse.plain_not_paren.2.2.1 parse.plain_not_paren.2.2.2)
      (parse.balanced_append _ _ (parse.Expr.balanced e _) (parse.Args.balanced_args rest _))
end

end km

namespace km

open parse

theorem parse.parenLevel_nil (p : Int) : parenLevel p [] = p := rfl

/-- The levels of parentheses inside a part of a token sequence are among the levels inside
the sequence. -/
theorem parse.levels_infix (p M : Int) (A B C : List Token)
    (h : ∀ k, parenLevel p ((A ++ (B ++ C)).take k) ≤ M) :
    ∀ k, parenLevel (parenLevel p A) (B.take k) ≤ M := by
  intro k
  have hk := h (A.length + min k B.length)
  rw [List.take_append_eq_append_take, List.take_of_length_le (by omega),
    parse.parenLevel_append, Nat.add_sub_cancel_left, List.take_append_eq_append_take,
    Nat.sub_eq_zero_of_le (Nat.min_le_right _ _), List.take_zero, List.append_nil] at hk
  by_cases hkb : k ≤ B.length
  · rw [Nat.min_eq_left hkb] at hk
    exact hk
  · rw [Nat.min_eq_right (by omega), List.take_of_length_le (Nat.le_refl _)] at hk
    rw [List.take_of_length_le (by omega)]
    exact hk

theorem parse.parenLevel_le (ts : List Token) : ∀ p : Int, parenLevel p ts ≤ p + ts.length := by
  induction ts with
  | nil =>
    intro p
    simp [parenLevel]
  | cons t rest ih =>
    intro p
    rw [parse.parenLevel_cons]
    simp only [List.length_cons, Nat.cast_add, Nat.cast_one]
    split_ifs
    · have := ih (p + 1)
      omega
    · have := ih (p - 1)
      omega
    · have := ih p
      omega

/-- A sequence of at most 32767 tokens has no level of parentheses above 32767. -/
theorem parse.levels_of_short (ts : List Token) (h : ts.length ≤ 32767) :
    ∀ k, parenLevel 0 (ts.take k) ≤ 32767 := by
  intro k
  have h1 := parse.parenLevel_le (ts.take k) 0
  have h2 : (ts.take k).length ≤ ts.length := by
    rw [List.length_take]
    exact Nat.min_le_right _ _
  omega

end km

namespace km

open parse

theorem parse.followMask_comma (e : Expr) (t : Token) (h : t.token_type = COMMA) :
    hasBit t.token_type e.followMask = true := by
  rw [h]
  unfold Expr.followMask
  cases e.isCall <;> decide

theorem parse.followMask_p_close (e : Expr) (t : Token) (h : t.token_type = P_CLOSE) :
    hasBit t.token_type e.followMask = true := by
  rw [h]
  unfold Expr.followMask
  cases e.isCall <;> decide

/-- The token behind an argument of a call is a comma or the closing parenthesis. -/
theorem parse.Args.tokensAt_follow (a : Bool) (rest : Args) (offset : Nat) (post : List Token)
    (e : Expr) (hpost : (post.headD default).token_type = P_CLOSE) :
    hasBit ((rest.tokensAt a offset ++ post).headD default).token_type e.followMask = true := by
  cases rest with
  | nil => exact parse.followMask_p_close e _ hpost
  | cons e1 rest1 => exact parse.followMask_comma e _ rfl

theorem list_set_at {α : Type} (tv pre : List α) (t u : α) (post : List α) (i : Nat)
    (htv : tv = pre ++ t :: post) (hi : i = pre.length) : tv.set i u = pre ++ u :: post := by
  rw [htv, hi]
  exact list_set_middle pre t u post

theorem parse.level_function_open (p : Int) (name : String) (n : Nat) :
    parenLevel p [Token.function name n, Token.p_open] = p + 1 := rfl

theorem parse.level_comma (p : Int) : parenLevel p [Token.comma] = p := rfl

/-- The levels of parentheses inside the parentheses of a call. -/
theorem parse.levels_call (p : Int) (name : String) (n : Nat) (body : List Token)
    (h : ∀ k, parenLevel p ((Token.function name n :: Token.p_open :: body).take k) ≤ 32767) :
    p < 32767 ∧ ∀ k, parenLevel (p + 1) (body.take k) ≤ 32767 := by
  have h1 := parse.levels_infix p 32767 [Token.function name n, Token.p_open] body []
    (by simpa using h)
  rw [parse.level_function_open] at h1
  refine ⟨?_, h1⟩
  have := h1 0
  rw [List.take_zero, parse.parenLevel_nil] at this
  omega

/-- The levels of parentheses inside the arguments of a call, each with its comma. -/
theorem parse.levels_args (p : Int) (E R : List Token) (hE : parenLevel p E = p)
    (h : ∀ k, parenLevel p ((Token.comma :: (E ++ R)).take k) ≤ 32767) :
    (∀ k, parenLevel p (E.take k) ≤ 32767) ∧ ∀ k, parenLevel p (R.take k) ≤ 32767 := by
  constructor
  · have h1 := parse.levels_infix p 32767 [Token.comma] E R (by simpa using h)
    rw [parse.level_comma] at h1
    exact h1
  · have h1 := parse.levels_infix p 32767 (Token.comma :: E) R [] (by simpa using h)
    rw [parse.parenLevel_cons] at h1
    have hc : (if Token.comma.token_type = P_OPEN then p + 1
        else if Token.comma.token_type = P_CLOSE then p - 1 else p) = p := rfl
    rw [hc, hE] at h1
    exact h1

theorem parse.grammar_literal (kind : LiteralKind) (text : String) :
    (Expr.literal kind text).GrammarRun := by
  intro tv tv1 pre post p fst stk size i o htv htv1 hi hsize hp hf hmax hpost
  simp only [Expr.size] at hsize
  have h := parse.loop_data size i tv pre (Token.fresh text kind.token_type) post p fst stk
    (by rw [htv]; simp [Expr.tokensAt]) hi (by omega) hp hf (parse.LiteralKind.isData kind)
    (by
      simp only [Expr.followMask, Expr.isCall, Bool.false_eq_true, if_false] at hpost
      exact hpost)
  have e1 : tv1 = tv := by rw [htv, htv1]; simp [Expr.tokensAt]
  rw [h, e1]
  simp [Expr.size, Expr.isCall]

theorem parse.grammar_column (text : String) : (Expr.column text).GrammarRun := by
  intro tv tv1 pre post p fst stk size i o htv htv1 hi hsize hp hf hmax hpost
  simp only [Expr.size] at hsize
  have h := parse.loop_data size i tv pre (Token.fresh text COLUMN) post p fst stk
    (by rw [htv]; simp [Expr.tokensAt]) hi (by omega) hp hf (by simp [Token.fresh])
    (by
      simp only [Expr.followMask, Expr.isCall, Bool.false_eq_true, if_false] at hpost
      exact hpost)
  have e1 : tv1 = tv := by rw [htv, htv1]; simp [Expr.tokensAt]
  rw [h, e1]
  simp [Expr.size, Expr.isCall]

theorem parse.grammar_call_nil (name : String) : (Expr.call name Args.nil).GrammarRun := by
  intro tv tv1 pre post p fst stk size i o htv htv1 hi hsize hp hf hmax hpost
  simp only [Expr.size] at hsize
  have h16 : p < 32767 := (parse.levels_call p name _ _ hmax).1
  have hm : hasBit (post.headD default).token_type (COMMA ||| P_CLOSE ||| INVALID) = true := by
    simp only [Expr.followMask, Expr.isCall, if_true] at hpost
    exact hpost
  have hshape : tv = pre ++ Token.function name 0 :: Token.p_open ::
      ((Args.nil.tokensAt false (o + 1)).tail ++ Token.p_close :: post) := by
    rw [htv]
    simp [Expr.tokensAt]
  have hshape1 : tv1 = pre ++ Token.function name (i + 2 + (Args.nil.size - 1)) :: Token.p_open ::
      ((Args.nil.tokensAt true (i + 1)).tail ++ Token.p_close :: post) := by
    rw [htv1]
    simp [Expr.tokensAt]
  -- the function name
  have h1 : checkGrammarLoop size (size - i) i ⟨tv, p, true, fst, stk⟩ =
      checkGrammarLoop size (size - (i + 1)) (i + 1) ⟨tv, p, true, fst, i :: stk⟩ :=
    parse.loop_function size i tv pre (Token.function name 0) _ p fst stk hshape hi
      (by omega) hp hf rfl (by simp only [List.headD_cons]; decide)
  -- the opening parenthesis
  have h2 : checkGrammarLoop size (size - (i + 1)) (i + 1) ⟨tv, p, true, fst, i :: stk⟩ =
      checkGrammarLoop size (size - (i + 2)) (i + 2) ⟨tv, p + 1, true, true, i :: stk⟩ :=
    parse.loop_p_open size (i + 1) tv (pre ++ [Token.function name 0]) Token.p_open
      ((Args.nil.tokensAt false (o + 1)).tail ++ Token.p_close :: post) p fst (i :: stk)
      (by rw [hshape]; simp) (by simp [hi]) (by omega) hp hf rfl
      (by
        simp only [Args.tokensAt, List.tail_nil, List.nil_append, List.headD_cons]
        decide) h16
  rw [h1, h2]
  have htop : tv.getD i default = Token.function name 0 :=
    list_getD_at tv pre _ _ i default hshape hi
  have h3 : checkGrammarLoop size (size - (i + 2)) (i + 2)
        ⟨tv, p + 1, true, true, i :: stk⟩ =
      checkGrammarLoop size (size - (i + 2 + 1)) (i + 2 + 1)
        ⟨tv.set i (Token.function name (i + 2)), p + 1 - 1, true, true, stk⟩ :=
    parse.loop_p_close size (i + 2) tv (pre ++ [Token.function name 0, Token.p_open])
      Token.p_close post (p + 1) true stk i name
      (by rw [hshape]; simp [Args.tokensAt]) (by simp [hi])
      (by simp only [Args.size] at hsize; omega) (by omega) (fun _ => by omega) rfl htop hm
      (by omega)
  rw [h3, list_set_at tv pre _ (Token.function name (i + 2)) _ i hshape hi, hshape1]
  have hp1 : p + 1 - 1 = p := by omega
  simp [Args.tokensAt, Args.size, Expr.size, Expr.isCall, hp1]

theorem parse.grammar_call_cons (name : String) (e1 : Expr) (rest : Args)
    (ih1 : e1.GrammarRun) (ih2 : rest.GrammarRun) :
    (Expr.call name (Args.cons e1 rest)).GrammarRun := by
  intro tv tv1 pre post p fst stk size i o htv htv1 hi hsize hp hf hmax hpost
  simp only [Expr.size] at hsize
  have hlev := parse.levels_call p name 0
    (e1.tokensAt false (o + 1 + 1) ++ (rest.tokensAt false (o + 1 + 1 + e1.size) ++
      [Token.p_close]))
    (by
      simpa [Expr.tokensAt, Args.tokensAt] using hmax)
  have h16 : p < 32767 := hlev.1
  have hlev1 : ∀ k, parenLevel (p + 1) ((e1.tokensAt false (o + 1 + 1)).take k) ≤ 32767 :=
    parse.levels_infix (p + 1) 32767 [] _ _ hlev.2
  have hlev2 : ∀ k, parenLevel (p + 1)
      ((rest.tokensAt false (o + 1 + 1 + e1.size)).take k) ≤ 32767 := by
    have := parse.levels_infix (p + 1) 32767 _ _ _ hlev.2
    rw [((parse.Expr.balanced e1 (o + 1 + 1)) (p + 1)).1] at this
    exact this
  have hm : hasBit (post.headD default).token_type (COMMA ||| P_CLOSE ||| INVALID) = true := by
    simp only [Expr.followMask, Expr.isCall, if_true] at hpost
    exact hpost
  have hshape : tv = pre ++ Token.function name 0 :: Token.p_open ::
      (((Args.cons e1 rest).tokensAt false (o + 1)).tail ++ Token.p_close :: post) := by
    rw [htv]
    simp [Expr.tokensAt]
  have hshape1 : tv1 = pre ++ Token.function name (i + 2 + ((Args.cons e1 rest).size - 1)) :: Token.p_open ::
      (((Args.cons e1 rest).tokensAt true (i + 1)).tail ++ Token.p_close :: post) := by
    rw [htv1]
    simp [Expr.tokensAt]
  -- the function name
  have h1 : checkGrammarLoop size (size - i) i ⟨tv, p, true, fst, stk⟩ =
      checkGrammarLoop size (size - (i + 1)) (i + 1) ⟨tv, p, true, fst, i :: stk⟩ :=
    parse.loop_function size i tv pre (Token.function name 0) _ p fst stk hshape hi
      (by omega) hp hf rfl (by simp only [List.headD_cons]; decide)
  -- the opening parenthesis
  have h2 : checkGrammarLoop size (size - (i + 1)) (i + 1) ⟨tv, p, true, fst, i :: stk⟩ =
      checkGrammarLoop size (size - (i + 2)) (i + 2) ⟨tv, p + 1, true, true, i :: stk⟩ :=
    parse.loop_p_open size (i + 1) tv (pre ++ [Token.function name 0]) Token.p_open
      (((Args.cons e1 rest).tokensAt false (o + 1)).tail ++ Token.p_close :: post) p fst (i :: stk)
      (by rw [hshape]; simp) (by simp [hi]) (by omega) hp hf rfl
      (by
        simp only [Args.tokensAt, List.tail_cons, List.append_assoc]
        exact (parse.Expr.tokensAt_head false e1 _ _).2) h16
  rw [h1, h2]
  have htop : tv.getD i default = Token.function name 0 :=
    list_getD_at tv pre _ _ i default hshape hi
  simp only [Args.size] at hsize
  have hs1 := parse.Expr.size_pos e1
  -- the first argument
  have h3 := ih1 tv
    (pre ++ Token.function name 0 :: Token.p_open ::
      (e1.tokensAt true (i + 2) ++ (rest.tokensAt false (o + 1 + 1 + e1.size) ++
        Token.p_close :: post)))
    (pre ++ [Token.function name 0, Token.p_open])
    (rest.tokensAt false (o + 1 + 1 + e1.size) ++ Token.p_close :: post) (p + 1) true
    (i :: stk) size (i + 2) (o + 1 + 1)
    (by rw [hshape]; simp [Args.tokensAt]) (by simp) (by simp [hi]) (by omega) (by omega)
    (fun _ => by omega) hlev1 (parse.Args.tokensAt_follow false rest _ _ e1 rfl)
  -- the other arguments
  have h4 := ih2
    (pre ++ Token.function name 0 :: Token.p_open ::
      (e1.tokensAt true (i + 2) ++ (rest.tokensAt false (o + 1 + 1 + e1.size) ++
        Token.p_close :: post)))
    (pre ++ Token.function name 0 :: Token.p_open ::
      (e1.tokensAt true (i + 2) ++ (rest.tokensAt true (i + 2 + e1.size) ++
        Token.p_close :: post)))
    (pre ++ Token.function name 0 :: Token.p_open :: e1.tokensAt true (i + 2))
    (Token.p_close :: post) (p + 1) (i :: stk) size (i + 2 + e1.size)
    (o + 1 + 1 + e1.size)
    (by simp) (by simp)
    (by simp [hi, parse.Expr.tokensAt_length]; omega) (by omega) (by omega) hlev2 rfl
  -- the closing parenthesis
  have htop2 : (pre ++ Token.function name 0 :: Token.p_open ::
      (e1.tokensAt true (i + 2) ++ (rest.tokensAt true (i + 2 + e1.size) ++
        Token.p_close :: post))).getD i default = Token.function name 0 :=
    list_getD_at _ pre _ _ i default rfl hi
  have h5 := parse.loop_p_close size (i + 2 + e1.size + rest.size)
    (pre ++ Token.function name 0 :: Token.p_open ::
      (e1.tokensAt true (i + 2) ++ (rest.tokensAt true (i + 2 + e1.size) ++
        Token.p_close :: post)))
    (pre ++ Token.function name 0 :: Token.p_open ::
      (e1.tokensAt true (i + 2) ++ rest.tokensAt true (i + 2 + e1.size)))
    Token.p_close post (p + 1) true stk i name
    (by simp) (by simp [hi, parse.Expr.tokensAt_length, parse.Args.tokensAt_length_args]; omega)
    (by omega) (by omega) (fun _ => by omega) rfl htop2 hm (by omega)
  simp only [Bool.true_or] at h3
  rw [h3, h4, h5, list_set_at _ pre _ (Token.function name (i + 2 + e1.size + rest.size)) _ i
    rfl hi, hshape1]
  have hp1 : p + 1 - 1 = p := by omega
  have hidx : i + 2 + e1.size + rest.size + 1 = i + (3 + (1 + e1.size + rest.size - 1)) := by
    omega
  have hend : i + 2 + (1 + e1.size + rest.size - 1) = i + 2 + e1.size + rest.size := by
    omega
  simp only [Expr.size, Args.size, Expr.isCall, Bool.or_true, hp1, hidx, hend,
    Args.tokensAt, List.tail_cons, List.append_assoc, List.cons_append]

theorem parse.grammar_args_cons (e : Expr) (rest : Args) (ih1 : e.GrammarRun)
    (ih2 : rest.GrammarRun) : (Args.cons e rest).GrammarRun := by
  intro tv tv1 pre post p stk size i o htv htv1 hi hsize hp hmax hpost
  simp only [Args.size] at hsize
  have hs1 := parse.Expr.size_pos e
  have hlev := parse.levels_args p (e.tokensAt false (o + 1))
    (rest.tokensAt false (o + 1 + e.size)) ((parse.Expr.balanced e (o + 1)) p).1
    (by simpa [Args.tokensAt] using hmax)
  have hshape : tv = pre ++ Token.comma ::
      (e.tokensAt false (o + 1) ++ (rest.tokensAt false (o + 1 + e.size) ++ post)) := by
    rw [htv]
    simp [Args.tokensAt]
  have hshape1 : tv1 = pre ++ Token.comma ::
      (e.tokensAt true (i + 1) ++ (rest.tokensAt true (i + 1 + e.size) ++ post)) := by
    rw [htv1]
    simp [Args.tokensAt]
  have h1 : checkGrammarLoop size (size - i) i ⟨tv, p, true, true, stk⟩ =
      checkGrammarLoop size (size - (i + 1)) (i + 1) ⟨tv, p, true, true, stk⟩ :=
    parse.loop_comma size i tv pre Token.comma _ p true stk hshape hi (by omega) (by omega)
      (fun _ => hp) rfl (parse.Expr.tokensAt_head false e _ _).1
  have h2 := ih1 tv
    (pre ++ Token.comma ::
      (e.tokensAt true (i + 1) ++ (rest.tokensAt false (o + 1 + e.size) ++ post)))
    (pre ++ [Token.comma]) (rest.tokensAt false (o + 1 + e.size) ++ post) p true stk size
    (i + 1) (o + 1)
    (by rw [hshape]; simp) (by simp) (by simp [hi]) (by omega) (by omega) (fun _ => hp)
    hlev.1 (parse.Args.tokensAt_follow false rest _ _ e hpost)
  have h3 := ih2
    (pre ++ Token.comma ::
      (e.tokensAt true (i + 1) ++ (rest.tokensAt false (o + 1 + e.size) ++ post)))
    tv1 (pre ++ Token.comma :: e.tokensAt true (i + 1)) post p stk size (i + 1 + e.size)
    (o + 1 + e.size)
    (by simp) (by rw [hshape1]; simp)
    (by simp [hi, parse.Expr.tokensAt_length]; omega) (by omega) hp hlev.2 hpost
  simp only [Bool.true_or] at h2
  rw [h1, h2, h3]
  have hidx : i + 1 + e.size + rest.size = i + (1 + e.size + rest.size) := by omega
  simp only [Args.size, hidx]

theorem parse.grammar_args_nil : Args.nil.GrammarRun := by
  intro tv tv1 pre post p stk size i o htv htv1 hi hsize hp hmax hpost
  have e1 : tv1 = tv := by rw [htv, htv1]; simp [Args.tokensAt]
  rw [e1]
  simp [Args.size]

mutual
/-- The loop of `checkGrammar` runs over the tokens of every expression. -/
theorem parse.Expr.grammar_run : ∀ (e : Expr), e.GrammarRun
  | .literal kind text => parse.grammar_literal kind text
  | .column text => parse.grammar_column text
  | .call name .nil => parse.grammar_call_nil name
  | .call name (.cons e1 rest) =>
    parse.grammar_call_cons name e1 rest (parse.Expr.grammar_run e1)
      (parse.Args.grammar_run_args rest)
/-- The loop of `checkGrammar` runs over the tokens of every list of further arguments. -/
theorem parse.Args.grammar_run_args : ∀ (args : Args), args.GrammarRun
  | .nil => parse.grammar_args_nil
  | .cons e rest =>
    parse.grammar_args_cons e rest (parse.Expr.grammar_run e) (parse.Args.grammar_run_args rest)
end

end km

namespace km

open parse

/-- Function `checkGrammar` accepts the tokens of every expression whose level of parentheses
stays within the range of `p_level`, and records the end of every call. -/
theorem parse.checkGrammar_tokens (e : Expr)
    (hmax : ∀ k, parenLevel 0 (e.tokens.take k) ≤ 32767) :
    checkGrammar e.tokens = .ok (some (e.tokensAt true 0)) := by
  cases e with
  | literal kind text =>
    have hb : hasBit kind.token_type TT_DATAC = true := by cases kind <;> decide
    simp only [checkGrammar, Expr.tokens, Expr.tokensAt, List.length_singleton, one_ne_zero,
      if_false, if_true, List.headD_cons, Token.fresh, hb]
  | column text =>
    have hb : hasBit COLUMN TT_DATAC = true := by decide
    simp only [checkGrammar, Expr.tokens, Expr.tokensAt, List.length_singleton, one_ne_zero,
      if_false, if_true, List.headD_cons, Token.fresh, hb]
  | call name args =>
    have hlen : (Expr.call name args).tokens.length = (Expr.call name args).size :=
      parse.Expr.tokensAt_length false _ 0
    have hsz : 3 ≤ (Expr.call name args).size := by
      simp only [Expr.size]
      omega
    have hhead : hasBit ((Expr.call name args).tokens.headD default).token_type FUNCTION =
        true := by
      simp only [Expr.tokens, Expr.tokensAt, List.headD_cons, Token.function]
      decide
    have hrun := parse.Expr.grammar_run (Expr.call name args)
      ((Expr.call name args).tokens ++ [Token.new "Invalid"])
      ((Expr.call name args).tokensAt true 0 ++ [Token.new "Invalid"])
      [] [Token.new "Invalid"] 0 false [] (Expr.call name args).size 0 0
      (by simp [Expr.tokens]) (by simp) rfl (by omega) (le_refl _)
      (fun h => absurd h (by decide)) hmax
      (by
        simp only [Expr.followMask, Expr.isCall, if_true, List.headD_cons, Token.new]
        decide)
    simp only [Nat.sub_zero, Nat.zero_add, Nat.sub_self, Bool.false_or, Expr.isCall] at hrun
    unfold checkGrammar
    rw [hlen, if_neg (by omega), if_neg (by omega), hhead]
    simp only [Bool.not_true, Bool.false_eq_true, if_false]
    rw [hrun, parse.loop_stop _ _ _ _ (by
      intro h
      exact absurd h.1 (Nat.lt_irrefl _))]
    simp

end km

namespace km

open parse

theorem parse.functionKey_push (name : String) (cs : List Char) (c : Char) :
    (functionKey name cs).push c = functionKey name (cs ++ [c]) := by
  simp [functionKey, String.push]

theorem parse.functionKey_nil (name : String) : name.push '_' = functionKey name [] := by
  simp [functionKey, String.push]

theorem parse.appendText_function (A rest : List Token) (name : String) (cs : List Char)
    (endF : Nat) (c : Char) :
    appendText (A ++ Token.function (functionKey name cs) endF :: rest) A.length c =
      A ++ Token.function (functionKey name (cs ++ [c])) endF :: rest := by
  unfold appendText
  rw [list_getD_middle, list_set_middle]
  simp only [Token.function, parse.functionKey_push]

theorem parse.appendText_underscore (A rest : List Token) (name : String) (endF : Nat) :
    appendText (A ++ Token.function name endF :: rest) A.length '_' =
      A ++ Token.function (functionKey name []) endF :: rest := by
  unfold appendText
  rw [list_getD_middle, list_set_middle]
  simp only [Token.function, parse.functionKey_nil]

theorem parse.shift_fold : ∀ (X pre : List Token) (a : Token) (post : List Token),
    (List.range' pre.length X.length).foldl
        (fun tv i => tv.set i (tv.getD (i + 1) default)) (pre ++ a :: (X ++ post)) =
      pre ++ (X ++ (a :: X).getLast (List.cons_ne_nil _ _) :: post)
  | [], pre, a, post => by simp
  | x :: X, pre, a, post => by
    have h1 : (pre ++ a :: (x :: X ++ post)).getD (pre.length + 1) default = x := by
      rw [list_getD_next _ pre a (x :: X ++ post) pre.length default rfl rfl]
      rfl
    have h2 : (pre ++ a :: (x :: X ++ post)).set pre.length x =
        (pre ++ [x]) ++ x :: (X ++ post) := by
      rw [list_set_middle]
      simp
    have hlen : pre.length + 1 = (pre ++ [x]).length := by simp
    simp only [List.length_cons, List.range'_succ, List.foldl_cons]
    rw [h1, h2, hlen, parse.shift_fold X (pre ++ [x]) x post]
    simp [List.getLast_cons]

/-- Function `leftCircularShift` moves the token at `f_pos` behind the tokens up to
`end_pos`. -/
theorem parse.leftCircularShift_eq (pre X post : List Token) (a : Token) (end_pos : Nat)
    (he : end_pos = pre.length + X.length) :
    leftCircularShift (pre ++ a :: (X ++ post)) pre.length end_pos =
      pre ++ (X ++ a :: post) := by
  unfold leftCircularShift
  have hn : end_pos - pre.length = X.length := by omega
  rw [hn, parse.shift_fold X pre a post, list_getD_middle, he]
  have hl : pre.length + X.length = (pre ++ X).length := by simp
  have hs : pre ++ (X ++ (a :: X).getLast (List.cons_ne_nil _ _) :: post) =
      (pre ++ X) ++ (a :: X).getLast (List.cons_ne_nil _ _) :: post := by simp
  rw [hs, hl, list_set_middle]
  simp

theorem parse.toDataVariant_fresh (kind : LiteralKind) (text : String) :
    toDataVariant (Token.fresh text kind.token_type) =
      match literalValue kind text with
      | .error ex => .error ex
      | .ok v => .ok (Token.literal text kind.token_type v) := by
  unfold literalValue
  cases kind
  · simp only [toDataVariant, Token.fresh, LiteralKind.token_type, if_true]
    cases stoll text.data <;> rfl
  · have h1 : ¬ (INT64 = INT32) := by decide
    simp only [toDataVariant, Token.fresh, LiteralKind.token_type, h1, if_false, if_true]
    cases stoll text.data <;> rfl
  · have h1 : ¬ (FLOAT32 = INT32) := by decide
    have h2 : ¬ (FLOAT32 = INT64) := by decide
    simp only [toDataVariant, Token.fresh, LiteralKind.token_type, h1, h2, if_false, if_true]
    cases stof text.data <;> rfl
  · have h1 : ¬ (FLOAT64 = INT32) := by decide
    have h2 : ¬ (FLOAT64 = INT64) := by decide
    have h3 : ¬ (FLOAT64 = FLOAT32) := by decide
    simp only [toDataVariant, Token.fresh, LiteralKind.token_type, h1, h2, h3, if_false,
      if_true]
    cases stod text.data <;> rfl
  · have h1 : ¬ (STRING = INT32) := by decide
    have h2 : ¬ (STRING = INT64) := by decide
    have h3 : ¬ (STRING = FLOAT32) := by decide
    have h4 : ¬ (STRING = FLOAT64) := by decide
    simp only [toDataVariant, Token.fresh, LiteralKind.token_type, h1, h2, h3, h4, if_false,
      if_true]
    rfl
  · have h1 : ¬ (BOOLEAN = INT32) := by decide
    have h2 : ¬ (BOOLEAN = INT64) := by decide
    have h3 : ¬ (BOOLEAN = FLOAT32) := by decide
    have h4 : ¬ (BOOLEAN = FLOAT64) := by decide
    have h5 : ¬ (BOOLEAN = STRING) := by decide
    simp only [toDataVariant, Token.fresh, LiteralKind.token_type, h1, h2, h3, h4, h5,
      if_false, if_true]
    rfl

theorem parse.findColumn_fresh (table : AbstractTable) (text : String) :
    parse.findColumn table (Token.fresh text COLUMN) =
      (table.findColumn (String.mk text.data.tail)).map
        (fun found => Token.column text found.1 found.2) := by
  unfold parse.findColumn
  have ht : (Token.fresh text COLUMN).text = text := rfl
  rw [ht]
  cases table.findColumn (String.mk text.data.tail) with
  | none => rfl
  | some found => rfl

theorem parse.literal_bits (kind : LiteralKind) :
    hasBit TT_DATA kind.token_type = true := by
  cases kind <;> decide

theorem parse.resolveArguments_stop (table : AbstractTable)
    (resolve : List Token → Nat → Nat → Except Exn (Option (List Token × DataType)))
    (f_pos f_end_pos fuel i : Nat) (tv : List Token) (h : ¬ i < f_end_pos) :
    resolveArguments table resolve f_pos f_end_pos (fuel + 1) i tv = .ok (some tv) := by
  simp only [resolveArguments, h, if_false]

theorem parse.resolveArguments_data (table : AbstractTable)
    (resolve : List Token → Nat → Nat → Except Exn (Option (List Token × DataType)))
    (f_pos f_end_pos fuel i : Nat) (tv : List Token) (h : i < f_end_pos)
    (hb : hasBit TT_DATA (tv.getD i default).token_type = true) :
    resolveArguments table resolve f_pos f_end_pos (fuel + 1) i tv =
      match toDataVariant (tv.getD i default) with
      | .error e => .error e
      | .ok token =>
        resolveArguments table resolve f_pos f_end_pos fuel (i + 1)
          (appendText (tv.set i token) f_pos (datatypeToChar token.token_type)) := by
  simp only [resolveArguments, h, if_true, hb]
  try rfl

theorem parse.resolveArguments_column (table : AbstractTable)
    (resolve : List Token → Nat → Nat → Except Exn (Option (List Token × DataType)))
    (f_pos f_end_pos fuel i : Nat) (tv : List Token) (h : i < f_end_pos)
    (hb : hasBit TT_DATA (tv.getD i default).token_type = false)
    (hc : hasBit COLUMN (tv.getD i default).token_type = true) :
    resolveArguments table resolve f_pos f_end_pos (fuel + 1) i tv =
      match parse.findColumn table (tv.getD i default) with
      | none => .ok none
      | some token =>
        match token.element.asColInfo with
        | .error e => .error e
        | .ok col =>
          resolveArguments table resolve f_pos f_end_pos fuel (i + 1)
            (appendText (tv.set i token) f_pos (datatypeToChar col.2)) := by
  simp only [resolveArguments, h, if_true, hb, hc, Bool.false_eq_true, if_false]
  try rfl

theorem parse.resolveArguments_function (table : AbstractTable)
    (resolve : List Token → Nat → Nat → Except Exn (Option (List Token × DataType)))
    (f_pos f_end_pos fuel i : Nat) (tv : List Token) (h : i < f_end_pos)
    (hb : hasBit TT_DATA (tv.getD i default).token_type = false)
    (hc : hasBit COLUMN (tv.getD i default).token_type = false)
    (hf : hasBit FUNCTION (tv.getD i default).token_type = true) :
    resolveArguments table resolve f_pos f_end_pos (fuel + 1) i tv =
      match (tv.getD i default).element.asFncInfo with
      | .error e => .error e
      | .ok info =>
        match resolve tv i info.end_token with
        | .error e => .error e
        | .ok none => .ok none
        | .ok (some (token_vec1, type_l)) =>
          resolveArguments table resolve f_pos f_end_pos fuel (info.end_token + 1)
            (appendText token_vec1 f_pos (datatypeToChar type_l)) := by
  simp only [resolveArguments, h, if_true, hb, hc, hf, Bool.false_eq_true, if_false]
  try rfl

theorem parse.resolveArguments_skip (table : AbstractTable)
    (resolve : List Token → Nat → Nat → Except Exn (Option (List Token × DataType)))
    (f_pos f_end_pos fuel i : Nat) (tv : List Token) (h : i < f_end_pos)
    (hb : hasBit TT_DATA (tv.getD i default).token_type = false)
    (hc : hasBit COLUMN (tv.getD i default).token_type = false)
    (hf : hasBit FUNCTION (tv.getD i default).token_type = false) :
    resolveArguments table resolve f_pos f_end_pos (fuel + 1) i tv =
      resolveArguments table resolve f_pos f_end_pos fuel (i + 1) tv := by
  simp only [resolveArguments, h, if_true, hb, hc, hf, Bool.false_eq_true, if_false]

end km

namespace km

open parse

theorem parse.column_bits :
    hasBit TT_DATA COLUMN = false ∧ hasBit COLUMN COLUMN = true := by decide

theorem parse.function_bits :
    hasBit TT_DATA FUNCTION = false ∧ hasBit COLUMN FUNCTION = false ∧
      hasBit FUNCTION FUNCTION = true := by decide

theorem parse.comma_bits :
    hasBit TT_DATA COMMA = false ∧ hasBit COLUMN COMMA = false ∧
      hasBit FUNCTION COMMA = false := by decide

theorem parse.resolve_step_literal (store : FunctionStore) (table : AbstractTable)
    (kind : LiteralKind) (text : String) : (Expr.literal kind text).ResolveStep store table := by
  intro depth fuel tv A B R name cs endF f_end_pos i _ htv hi hlt
  have hshape : tv = (A ++ Token.function (functionKey name cs) endF :: B) ++
      Token.fresh text kind.token_type :: R := by
    rw [htv]
    simp [Expr.tokensAt]
  have hlen : i = (A ++ Token.function (functionKey name cs) endF :: B).length := by
    simp only [List.length_append, List.length_cons]
    omega
  have hget : tv.getD i default = Token.fresh text kind.token_type :=
    list_getD_at tv _ _ R i default hshape hlen
  rw [parse.resolveArguments_data _ _ _ _ _ _ _ hlt (by rw [hget]; exact parse.literal_bits kind),
    hget, parse.toDataVariant_fresh]
  simp only [Expr.check, Expr.resolvedAt, Expr.size]
  cases literalValue kind text with
  | error ex => rfl
  | ok v =>
    simp only []
    rw [list_set_at tv _ _ (Token.literal text kind.token_type v) R i hshape hlen]
    have hre : (A ++ Token.function (functionKey name cs) endF :: B) ++
        Token.literal text kind.token_type v :: R =
        A ++ Token.function (functionKey name cs) endF ::
          (B ++ Token.literal text kind.token_type v :: R) := by simp
    rw [hre, parse.appendText_function]
    rfl

theorem parse.resolve_step_column (store : FunctionStore) (table : AbstractTable)
    (text : String) : (Expr.column text).ResolveStep store table := by
  intro depth fuel tv A B R name cs endF f_end_pos i _ htv hi hlt
  have hshape : tv = (A ++ Token.function (functionKey name cs) endF :: B) ++
      Token.fresh text COLUMN :: R := by
    rw [htv]
    simp [Expr.tokensAt]
  have hlen : i = (A ++ Token.function (functionKey name cs) endF :: B).length := by
    simp only [List.length_append, List.length_cons]
    omega
  have hget : tv.getD i default = Token.fresh text COLUMN :=
    list_getD_at tv _ _ R i default hshape hlen
  rw [parse.resolveArguments_column _ _ _ _ _ _ _ hlt (by rw [hget]; exact parse.column_bits.1)
    (by rw [hget]; exact parse.column_bits.2), hget, parse.findColumn_fresh]
  simp only [Expr.check, Expr.resolvedAt, Expr.size]
  cases table.findColumn (String.mk text.data.tail) with
  | none => rfl
  | some found =>
    simp only [Option.map_some', Token.column, Element.asColInfo]
    rw [list_set_at tv _ _ _ R i hshape hlen]
    have hre : (A ++ Token.function (functionKey name cs) endF :: B) ++
        (⟨text, COLUMN, Element.colInfo found.1 found.2⟩ : Token) :: R =
        A ++ Token.function (functionKey name cs) endF ::
          (B ++ (⟨text, COLUMN, Element.colInfo found.1 found.2⟩ : Token) :: R) := by simp
    rw [hre, parse.appendText_function]
    rfl

theorem parse.resolve_step_call (store : FunctionStore) (table : AbstractTable)
    (fname : String) (args : Args) (h : (Expr.call fname args).ResolveRun store table) :
    (Expr.call fname args).ResolveStep store table := by
  intro depth fuel tv A B R name cs endF f_end_pos i hd htv hi hlt
  have hshape : tv = (A ++ Token.function (functionKey name cs) endF :: B) ++
      ((Expr.call fname args).tokensAt true i ++ R) := by
    rw [htv]
    simp
  have hlen : i = (A ++ Token.function (functionKey name cs) endF :: B).length := by
    simp only [List.length_append, List.length_cons]
    omega
  have hshape2 : tv = (A ++ Token.function (functionKey name cs) endF :: B) ++
      Token.function fname (i + 2 + (args.size - 1)) ::
        (Token.p_open :: ((args.tokensAt true (i + 1)).tail ++ [Token.p_close]) ++ R) := by
    rw [hshape]
    simp [Expr.tokensAt]
  have hget : tv.getD i default = Token.function fname (i + 2 + (args.size - 1)) :=
    list_getD_at tv _ _ _ i default hshape2 hlen
  have hrun := h depth tv _ R i rfl hd hshape hlen
  have hend : i + (Expr.call fname args).size - 1 = i + 2 + (args.size - 1) := by
    simp only [Expr.size]
    omega
  rw [hend] at hrun
  rw [parse.resolveArguments_function _ _ _ _ _ _ _ hlt (by rw [hget]; exact parse.function_bits.1)
    (by rw [hget]; exact parse.function_bits.2.1) (by rw [hget]; exact parse.function_bits.2.2), hget]
  simp only [Token.function, Element.asFncInfo]
  rw [hrun]
  cases (Expr.call fname args).check store table with
  | error ex => rfl
  | ok o =>
    cases o with
    | none => rfl
    | some type =>
      simp only []
      have hre : (A ++ Token.function (functionKey name cs) endF :: B) ++
          ((Expr.call fname args).resolvedAt store table i ++ R) =
          A ++ Token.function (functionKey name cs) endF ::
            (B ++ ((Expr.call fname args).resolvedAt store table i ++ R)) := by simp
      have hnext : i + 2 + (args.size - 1) + 1 = i + (Expr.call fname args).size := by
        simp only [Expr.size]
        omega
      rw [hre, parse.appendText_function, hnext]
      rfl

end km

namespace km

open parse

mutual
theorem parse.Expr.resolvedAt_length (store : FunctionStore) (table : AbstractTable) :
    ∀ (e : Expr) (offset : Nat), (e.resolvedAt store table offset).length = e.size
  | .literal kind text, _ => by
    simp only [Expr.resolvedAt, Expr.size]
    cases literalValue kind text <;> rfl
  | .column text, _ => by
    simp only [Expr.resolvedAt, Expr.size]
    cases table.findColumn (String.mk text.data.tail) <;> rfl
  | .call _ args, offset => by
    simp only [Expr.resolvedAt, Expr.size, List.length_cons, List.length_append,
      List.length_tail, List.length_nil,
      parse.Args.resolvedAt_length_args store table args (offset + 1)]
    omega
theorem parse.Args.resolvedAt_length_args (store : FunctionStore) (table : AbstractTable) :
    ∀ (args : Args) (offset : Nat), (args.resolvedAt store table offset).length = args.size
  | .nil, _ => rfl
  | .cons e rest, offset => by
    simp only [Args.resolvedAt, Args.size, List.length_cons, List.length_append,
      parse.Expr.resolvedAt_length store table e (offset + 1),
      parse.Args.resolvedAt_length_args store table rest (offset + 1 + e.size)]
    omega
end

theorem parse.resolve_loop_nil (store : FunctionStore) (table : AbstractTable) :
    Args.nil.ResolveLoop store table := by
  intro depth fuel tv A B R name cs endF i _ htv _ hfuel
  obtain ⟨f, rfl⟩ : ∃ f, fuel = f + 1 := ⟨fuel - 1, by omega⟩
  rw [parse.resolveArguments_stop _ _ _ _ _ _ _ (by simp only [Args.size]; omega), htv]
  simp [Args.checkAll, Args.resolvedAt, Args.tokensAt]

theorem parse.resolve_loop_cons (store : FunctionStore) (table : AbstractTable)
    (e : Expr) (rest : Args) (he : e.ResolveStep store table)
    (hrest : rest.ResolveLoop store table) : (Args.cons e rest).ResolveLoop store table := by
  intro depth fuel tv A B R name cs endF i hd htv hi hfuel
  have hpos := parse.Expr.size_pos e
  simp only [Args.size] at hd hfuel ⊢
  obtain ⟨f, rfl⟩ : ∃ f, fuel = f + 1 + 1 := ⟨fuel - 2, by omega⟩
  have hshape : tv = (A ++ Token.function (functionKey name cs) endF :: B) ++
      Token.comma :: (e.tokensAt true (i + 1) ++
        (rest.tokensAt true (i + 1 + e.size) ++ Token.p_close :: R)) := by
    rw [htv]
    simp [Args.tokensAt]
  have hlen : i = (A ++ Token.function (functionKey name cs) endF :: B).length := by
    simp only [List.length_append, List.length_cons]
    omega
  have hget : tv.getD i default = Token.comma := list_getD_at tv _ _ _ i default hshape hlen
  rw [parse.resolveArguments_skip _ _ _ _ _ _ _ (by omega)
    (by rw [hget]; exact parse.comma_bits.1) (by rw [hget]; exact parse.comma_bits.2.1)
    (by rw [hget]; exact parse.comma_bits.2.2)]
  have hshape1 : tv = A ++ Token.function (functionKey name cs) endF ::
      ((B ++ [Token.comma]) ++ (e.tokensAt true (i + 1) ++
        (rest.tokensAt true (i + 1 + e.size) ++ Token.p_close :: R))) := by
    rw [hshape]
    simp
  rw [he depth f tv A (B ++ [Token.comma]) _ name cs endF _ (i + 1) (by omega) hshape1
    (by simp only [List.length_append, List.length_singleton]; omega) (by omega)]
  simp only [Args.checkAll]
  cases e.check store table with
  | error ex => rfl
  | ok o =>
    cases o with
    | none => rfl
    | some type =>
      simp only []
      have hend : i + (1 + e.size + rest.size) = i + 1 + e.size + rest.size := by omega
      rw [hend, hrest depth f _ A (B ++ Token.comma :: e.resolvedAt store table (i + 1)) R name
        (cs ++ [datatypeToChar type]) endF (i + 1 + e.size) (by omega) (by simp)
        (by
          simp only [List.length_append, List.length_cons,
            parse.Expr.resolvedAt_length store table e (i + 1)]
          omega) (by omega)]
      cases rest.checkAll store table with
      | error ex => rfl
      | ok o =>
        cases o with
        | none => rfl
        | some types =>
          simp [Args.resolvedAt]

theorem parse.resolve_first_nil (store : FunctionStore) (table : AbstractTable) :
    Args.nil.ResolveFirst store table := by
  intro depth fuel tv A R name endF i _ htv _ hfuel
  obtain ⟨f, rfl⟩ : ∃ f, fuel = f + 1 := ⟨fuel - 1, by omega⟩
  rw [parse.resolveArguments_stop _ _ _ _ _ _ _ (by simp only [Args.size]; omega), htv]
  simp [Args.checkAll, Args.resolvedAt, Args.tokensAt]

theorem parse.resolve_first_cons (store : FunctionStore) (table : AbstractTable)
    (e : Expr) (rest : Args) (he : e.ResolveStep store table)
    (hrest : rest.ResolveLoop store table) : (Args.cons e rest).ResolveFirst store table := by
  intro depth fuel tv A R name endF i hd htv hi hfuel
  have hpos := parse.Expr.size_pos e
  simp only [Args.size] at hd hfuel ⊢
  obtain ⟨f, rfl⟩ : ∃ f, fuel = f + 1 := ⟨fuel - 1, by omega⟩
  have hshape1 : tv = A ++ Token.function (functionKey name []) endF ::
      ([Token.p_open] ++ (e.tokensAt true (i + 2) ++
        (rest.tokensAt true (i + 2 + e.size) ++ Token.p_close :: R))) := by
    rw [htv]
    simp [Args.tokensAt]
  rw [he depth f tv A [Token.p_open] _ name [] endF _ (i + 2) (by omega) hshape1
    (by simp only [List.length_singleton]; omega) (by omega)]
  simp only [Args.checkAll]
  cases e.check store table with
  | error ex => rfl
  | ok o =>
    cases o with
    | none => rfl
    | some type =>
      simp only []
      have hend : i + 2 + (1 + e.size + rest.size - 1) = i + 2 + e.size + rest.size := by omega
      rw [hend, hrest depth f _ A ([Token.p_open] ++ e.resolvedAt store table (i + 2)) R name
        ([] ++ [datatypeToChar type]) endF (i + 2 + e.size) (by omega) (by simp)
        (by
          simp only [List.length_append, List.length_cons, List.length_nil,
            parse.Expr.resolvedAt_length store table e (i + 2)]
          omega) (by omega)]
      cases rest.checkAll store table with
      | error ex => rfl
      | ok o =>
        cases o with
        | none => rfl
        | some types =>
          simp [Args.resolvedAt]

theorem parse.resolve_run_call (store : FunctionStore) (table : AbstractTable)
    (fname : String) (args : Args) (h : args.ResolveFirst store table) :
    (Expr.call fname args).ResolveRun store table := by
  intro depth tv pre post i _ hd htv hi
  simp only [Expr.size] at hd ⊢
  obtain ⟨d, rfl⟩ : ∃ d, depth = d + 1 := ⟨depth - 1, by omega⟩
  have hshape : tv = pre ++ Token.function fname (i + 2 + (args.size - 1)) ::
      (Token.p_open :: ((args.tokensAt true (i + 1)).tail ++ Token.p_close :: post)) := by
    rw [htv]
    simp [Expr.tokensAt]
  have hlentv : args.size < tv.length + 1 := by
    rw [hshape]
    simp only [List.length_append, List.length_cons, List.length_tail,
      parse.Args.tokensAt_length_args]
    omega
  have happ : appendText tv i '_' = pre ++ Token.function (functionKey fname [])
      (i + 2 + (args.size - 1)) ::
      (Token.p_open :: ((args.tokensAt true (i + 1)).tail ++ Token.p_close :: post)) := by
    rw [hshape, hi]
    exact parse.appendText_underscore _ _ _ _
  have hend : i + (3 + (args.size - 1)) - 1 = i + 2 + (args.size - 1) := by omega
  have hloop := h d (tv.length + 1) _ pre post fname (i + 2 + (args.size - 1)) i (by omega)
    happ hi hlentv
  rw [hend]
  unfold resolveFunction
  rw [hi] at hloop ⊢
  rw [hloop]
  simp only [Expr.check, Expr.resolvedAt]
  cases args.checkAll store table with
  | error ex => rfl
  | ok o =>
    cases o with
    | none => rfl
    | some types =>
      simp only [list_getD_middle, Token.function]
      cases hfind : store.find (functionKey fname types) with
      | none => rfl
      | some it =>
        simp only [Element.asFncInfo, if_true, list_set_middle, Option.map_some']
        have hX : (Token.p_open :: ((args.resolvedAt store table (pre.length + 1)).tail ++
            Token.p_close :: post)) =
            (Token.p_open :: ((args.resolvedAt store table (pre.length + 1)).tail ++
              [Token.p_close])) ++ post := by simp
        rw [hX, parse.leftCircularShift_eq pre _ post _ _ (by
          simp only [List.length_cons, List.length_append, List.length_tail,
            parse.Args.resolvedAt_length_args, List.length_nil]
          omega)]
        simp [Token.resolved]

end km

namespace km

open parse

mutual
theorem parse.Expr.resolve_step (store : FunctionStore) (table : AbstractTable) :
    ∀ e : Expr, e.ResolveStep store table
  | .literal kind text => parse.resolve_step_literal store table kind text
  | .column text => parse.resolve_step_column store table text
  | .call name args =>
    parse.resolve_step_call store table name args
      (parse.resolve_run_call store table name args
        (parse.Args.resolve_args store table args).1)
theorem parse.Args.resolve_args (store : FunctionStore) (table : AbstractTable) :
    ∀ args : Args, args.ResolveFirst store table ∧ args.ResolveLoop store table
  | .nil => ⟨parse.resolve_first_nil store table, parse.resolve_loop_nil store table⟩
  | .cons e rest =>
    ⟨parse.resolve_first_cons store table e rest (parse.Expr.resolve_step store table e)
        (parse.Args.resolve_args store table rest).2,
      parse.resolve_loop_cons store table e rest (parse.Expr.resolve_step store table e)
        (parse.Args.resolve_args store table rest).2⟩
end

/-- Function `checkReference` on the tokens of a call: the outcome of the check of the
expression, and with the type asked for the resolved tokens, every call shifted. -/
theorem parse.checkReference_call (store : FunctionStore) (table : AbstractTable)
    (required_type : DataType) (name : String) (args : Args) :
    checkReference store ((Expr.call name args).tokensAt true 0) table required_type true =
      match (Expr.call name args).check store table with
      | .error ex => .error ex
      | .ok none => .ok none
      | .ok (some type) =>
        if type ≠ required_type then .ok none
        else .ok (some ((Expr.call name args).resolvedAt store table 0)) := by
  have hlen := parse.Expr.tokensAt_length true (Expr.call name args) 0
  have hsize : (Expr.call name args).size = 3 + (args.size - 1) := by simp only [Expr.size]
  have hne : ¬ ((Expr.call name args).tokensAt true 0).length = 1 := by omega
  have hrun := parse.resolve_run_call store table name args
    (parse.Args.resolve_args store table args).1
    ((Expr.call name args).tokensAt true 0).length ((Expr.call name args).tokensAt true 0)
    [] [] 0 rfl (by omega) (by simp) rfl
  have hend : sizeDec ((Expr.call name args).tokensAt true 0).length =
      0 + (Expr.call name args).size - 1 := by
    rw [hlen]
    unfold sizeDec
    rw [if_neg (by omega)]
    omega
  unfold checkReference
  rw [if_neg hne, hend, hrun]
  cases (Expr.call name args).check store table with
  | error ex => rfl
  | ok o =>
    cases o with
    | none => rfl
    | some type => simp

end km

namespace km

open parse

mutual
/-- An expression that passes the reference check has the type that the check delivers. -/
theorem parse.Expr.check_typeOf (store : FunctionStore) (table : AbstractTable) :
    ∀ (e : Expr) (type : DataType), e.check store table = .ok (some type) →
      e.typeOf store table = some type
  | .literal kind text, type, h => by
    simp only [Expr.check] at h
    cases hv : literalValue kind text with
    | error ex => rw [hv] at h; cases h
    | ok v =>
      rw [hv] at h
      simp only [Except.ok.injEq] at h
      simpa only [Expr.typeOf] using h
  | .column text, type, h => by
    simp only [Expr.check, Except.ok.injEq] at h
    simpa only [Expr.typeOf] using h
  | .call name args, type, h => by
    simp only [Expr.check] at h
    cases hc : args.checkAll store table with
    | error ex => rw [hc] at h; cases h
    | ok o =>
      cases o with
      | none => rw [hc] at h; cases h
      | some types =>
        rw [hc] at h
        simp only [Except.ok.injEq] at h
        simp only [Expr.typeOf, parse.Args.checkAll_typeChars store table args types hc]
        exact h
theorem parse.Args.checkAll_typeChars (store : FunctionStore) (table : AbstractTable) :
    ∀ (args : Args) (types : List Char), args.checkAll store table = .ok (some types) →
      args.typeChars store table = some types
  | .nil, types, h => by
    simp only [Args.checkAll, Except.ok.injEq] at h
    simpa only [Args.typeChars] using h
  | .cons e rest, types, h => by
    simp only [Args.checkAll] at h
    cases he : e.check store table with
    | error ex => rw [he] at h; cases h
    | ok o =>
      cases o with
      | none => rw [he] at h; cases h
      | some type =>
        rw [he] at h
        simp only [] at h
        cases hr : rest.checkAll store table with
        | error ex => rw [hr] at h; cases h
        | ok o2 =>
          cases o2 with
          | none => rw [hr] at h; cases h
          | some types2 =>
            rw [hr] at h
            simp only [Except.ok.injEq] at h
            simp only [Args.typeChars, parse.Expr.check_typeOf store table e type he,
              parse.Args.checkAll_typeChars store table rest types2 hr]
            exact h
end

theorem parse.removeSeparator_append (a b : List Token) :
    removeSeparator (a ++ b) = removeSeparator a ++ removeSeparator b := by
  simp [removeSeparator]

theorem parse.removeSeparator_token (t : Token)
    (h : hasBit t.token_type (P_OPEN ||| P_CLOSE ||| COMMA ||| INVALID) = false) :
    removeSeparator [t] = [t] := by
  simp [removeSeparator, h]

theorem parse.removeSeparator_separator (t : Token)
    (h : hasBit t.token_type (P_OPEN ||| P_CLOSE ||| COMMA ||| INVALID) = true) :
    removeSeparator [t] = [] := by
  simp [removeSeparator, h]

theorem parse.separator_bits :
    hasBit P_OPEN (P_OPEN ||| P_CLOSE ||| COMMA ||| INVALID) = true ∧
      hasBit P_CLOSE (P_OPEN ||| P_CLOSE ||| COMMA ||| INVALID) = true ∧
      hasBit COMMA (P_OPEN ||| P_CLOSE ||| COMMA ||| INVALID) = true ∧
      hasBit COLUMN (P_OPEN ||| P_CLOSE ||| COMMA ||| INVALID) = false ∧
      hasBit FUNCTION (P_OPEN ||| P_CLOSE ||| COMMA ||| INVALID) = false := by decide

theorem parse.literal_not_separator (kind : LiteralKind) :
    hasBit kind.token_type (P_OPEN ||| P_CLOSE ||| COMMA ||| INVALID) = false := by
  cases kind <;> decide

theorem parse.removeSeparator_cons_separator (t : Token) (l : List Token)
    (h : hasBit t.token_type (P_OPEN ||| P_CLOSE ||| COMMA ||| INVALID) = true) :
    removeSeparator (t :: l) = removeSeparator l := by
  simp [removeSeparator, h]

theorem parse.removeSeparator_tail_comma (l : List Token)
    (h : l = [] ∨ ∃ r, l = Token.comma :: r) :
    removeSeparator l.tail = removeSeparator l := by
  rcases h with rfl | ⟨r, rfl⟩
  · rfl
  · rw [List.tail_cons, parse.removeSeparator_cons_separator _ _ parse.separator_bits.2.2.1]

theorem parse.Args.resolvedAt_comma (store : FunctionStore) (table : AbstractTable)
    (args : Args) (i : Nat) :
    args.resolvedAt store table i = [] ∨
      ∃ r, args.resolvedAt store table i = Token.comma :: r := by
  cases args with
  | nil => exact Or.inl rfl
  | cons e rest => exact Or.inr ⟨_, rfl⟩

mutual
/-- Function `removeSeparator` leaves of the resolved tokens the postfix program. -/
theorem parse.Expr.removeSeparator_resolvedAt (store : FunctionStore) (table : AbstractTable) :
    ∀ (e : Expr) (i : Nat),
      removeSeparator (e.resolvedAt store table i) = e.postfixAt store table i
  | .literal kind text, i => by
    simp only [Expr.resolvedAt, Expr.postfixAt]
    cases literalValue kind text with
    | error ex => exact parse.removeSeparator_token _ (parse.literal_not_separator kind)
    | ok v => exact parse.removeSeparator_token _ (parse.literal_not_separator kind)
  | .column text, i => by
    simp only [Expr.resolvedAt, Expr.postfixAt]
    cases table.findColumn (String.mk text.data.tail) with
    | none => exact parse.removeSeparator_token _ parse.separator_bits.2.2.2.1
    | some found => exact parse.removeSeparator_token _ parse.separator_bits.2.2.2.1
  | .call name args, i => by
    simp only [Expr.resolvedAt, Expr.postfixAt]
    rw [parse.removeSeparator_cons_separator _ _ parse.separator_bits.1,
      parse.removeSeparator_append,
      parse.removeSeparator_tail_comma _ (parse.Args.resolvedAt_comma store table args (i + 1)),
      parse.Args.removeSeparator_resolvedAt_args store table args (i + 1),
      parse.removeSeparator_cons_separator _ _ parse.separator_bits.2.1]
    congr 1
    apply parse.removeSeparator_token
    cases args.checkAll store table with
    | error ex => exact parse.separator_bits.2.2.2.2
    | ok o =>
      cases o with
      | none => exact parse.separator_bits.2.2.2.2
      | some types =>
        simp only []
        cases store.find (functionKey name types) with
        | none => exact parse.separator_bits.2.2.2.2
        | some it => exact parse.separator_bits.2.2.2.2
theorem parse.Args.removeSeparator_resolvedAt_args (store : FunctionStore)
    (table : AbstractTable) :
    ∀ (args : Args) (i : Nat),
      removeSeparator (args.resolvedAt store table i) = args.postfixAt store table i
  | .nil, _ => rfl
  | .cons e rest, i => by
    simp only [Args.resolvedAt, Args.postfixAt]
    rw [parse.removeSeparator_cons_separator _ _ parse.separator_bits.2.2.1,
      parse.removeSeparator_append, parse.Expr.removeSeparator_resolvedAt store table e (i + 1),
      parse.Args.removeSeparator_resolvedAt_args store table rest (i + 1 + e.size)]
end

end km

namespace km

open parse

theorem parse.evaluateLoop_append (table : AbstractTable) (row_index : Nat) :
    ∀ (a b : List Token) (data_stack : List Variant),
      evaluateLoop table row_index data_stack (a ++ b) =
        match evaluateLoop table row_index data_stack a with
        | .error ex => .error ex
        | .ok data_stack1 => evaluateLoop table row_index data_stack1 b
  | [], b, data_stack => rfl
  | t :: a, b, data_stack => by
    simp only [List.cons_append, evaluateLoop]
    cases evaluateStep table row_index data_stack t with
    | error ex => rfl
    | ok s => exact parse.evaluateLoop_append table row_index a b s

theorem parse.evaluateLoop_cons (table : AbstractTable) (row_index : Nat) (t : Token)
    (rest : List Token) (data_stack : List Variant) :
    evaluateLoop table row_index data_stack (t :: rest) =
      match evaluateStep table row_index data_stack t with
      | .error ex => .error ex
      | .ok data_stack1 => evaluateLoop table row_index data_stack1 rest := by
  simp only [evaluateLoop]
  try rfl

theorem parse.literal_flags (kind : LiteralKind) :
    hasBit kind.token_type FUNCTION = false ∧ hasBit kind.token_type COLUMN = false := by
  cases kind <;> decide

theorem parse.evaluateStep_data (table : AbstractTable) (row_index : Nat)
    (data_stack : List Variant) (text : String) (type : Nat) (v : Variant)
    (hf : hasBit type FUNCTION = false) (hc : hasBit type COLUMN = false)
    (hd : hasBit type TT_DATA = true) :
    evaluateStep table row_index data_stack ⟨text, type, Element.data v⟩ =
      .ok (data_stack ++ [v]) := by
  simp only [evaluateStep, hf, hc, hd, Bool.false_eq_true, if_false, if_true, Element.asData]

theorem parse.evaluateStep_column (table : AbstractTable) (row_index : Nat)
    (data_stack : List Variant) (text : String) (index : Nat) (type : DataType) :
    evaluateStep table row_index data_stack (Token.column text index type) =
      .ok (data_stack ++ [table.getDataWC row_index index]) := by
  simp only [evaluateStep, Token.column, parse.column_bits.2, parse.separator_bits,
    if_true, Element.asColInfo]
  have h : hasBit COLUMN FUNCTION = false := by decide
  simp only [h, Bool.false_eq_true, if_false]

theorem parse.evaluateStep_function (table : AbstractTable) (row_index : Nat)
    (data_stack values : List Variant) (key : String) (it : FunctionInfo) (end_token : Nat)
    (h : it.argc = values.length) :
    evaluateStep table row_index (data_stack ++ values) (Token.resolved key it end_token) =
      match it.function values with
      | .error ex => .error ex
      | .ok v => .ok (data_stack ++ [v]) := by
  have hlt : ¬ (data_stack ++ values).length < it.argc := by
    simp only [List.length_append]
    omega
  have hsub : (data_stack ++ values).length - it.argc = data_stack.length := by
    simp only [List.length_append]
    omega
  simp only [evaluateStep, Token.resolved, parse.function_bits.2.2, if_true,
    Element.asFncInfo, hlt, if_false, hsub, List.drop_left, List.take_left]
  try (cases it.function values <;> rfl)

theorem parse.datatypeToChar_ne (type : DataType) : datatypeToChar type ≠ '_' := by
  unfold datatypeToChar
  generalize indexForDataType type 8 = k
  match k with
  | 0 => decide
  | 1 => decide
  | 2 => decide
  | 3 => decide
  | 4 => decide
  | 5 => decide
  | 6 => decide
  | 7 => decide
  | 8 => decide
  | n + 9 =>
    have h : ['i', 'I', 'f', 'F', 's', 'b', 'd', 'D', 'u'].getD (n + 9) 'u' = 'u' := by
      simp [List.getD_eq_getElem?_getD]
    rw [h]
    decide

theorem parse.keyArity_functionKey (name : String) (types : List Char)
    (h : ∀ c ∈ types, c ≠ '_') : keyArity (functionKey name types) = types.length := by
  unfold keyArity functionKey
  simp only [List.reverse_append, List.reverse_cons, List.append_assoc, List.singleton_append]
  rw [List.takeWhile_append_of_pos]
  · simp
  · intro c hc
    simpa using h c (List.mem_reverse.mp hc)

mutual
theorem parse.Args.checkAll_chars (store : FunctionStore) (table : AbstractTable) :
    ∀ (args : Args) (types : List Char), args.checkAll store table = .ok (some types) →
      types.length = args.length ∧ ∀ c ∈ types, c ≠ '_'
  | .nil, types, h => by
    simp only [Args.checkAll, Except.ok.injEq, Option.some.injEq] at h
    subst h
    exact ⟨rfl, by simp⟩
  | .cons e rest, types, h => by
    simp only [Args.checkAll] at h
    cases he : e.check store table with
    | error ex => rw [he] at h; cases h
    | ok o =>
      cases o with
      | none => rw [he] at h; cases h
      | some type =>
        rw [he] at h
        simp only [] at h
        cases hr : rest.checkAll store table with
        | error ex => rw [hr] at h; cases h
        | ok o2 =>
          cases o2 with
          | none => rw [hr] at h; cases h
          | some types2 =>
            rw [hr] at h
            simp only [Except.ok.injEq, Option.some.injEq] at h
            subst h
            have ih := parse.Args.checkAll_chars store table rest types2 hr
            refine ⟨by simp only [List.length_cons, Args.length, ih.1]; omega, ?_⟩
            intro c hc
            rcases List.mem_cons.mp hc with rfl | hc
            · exact parse.datatypeToChar_ne type
            · exact ih.2 c hc
end

theorem parse.Args.evalAll_length (store : FunctionStore) (table : AbstractTable)
    (row_index : Nat) :
    ∀ (args : Args) (values : List Variant),
      args.evalAll store table row_index = .ok values → values.length = args.length
  | .nil, values, h => by
    simp only [Args.evalAll, Except.ok.injEq] at h
    subst h
    rfl
  | .cons e rest, values, h => by
    simp only [Args.evalAll] at h
    cases he : e.eval store table row_index with
    | error ex => rw [he] at h; cases h
    | ok v =>
      rw [he] at h
      simp only [] at h
      cases hr : rest.evalAll store table row_index with
      | error ex => rw [hr] at h; cases h
      | ok vs =>
        rw [hr] at h
        simp only [Except.ok.injEq] at h
        subst h
        simp only [List.length_cons, Args.length,
          parse.Args.evalAll_length store table row_index rest vs hr]
        omega

end km

namespace km

open parse

theorem parse.check_literal_value (store : FunctionStore) (table : AbstractTable)
    (kind : LiteralKind) (text : String) (type : DataType)
    (h : (Expr.literal kind text).check store table = .ok (some type)) :
    ∃ v, literalValue kind text = .ok v := by
  simp only [Expr.check] at h
  cases hv : literalValue kind text with
  | error ex => rw [hv] at h; cases h
  | ok v => exact ⟨v, rfl⟩

theorem parse.check_column_found (store : FunctionStore) (table : AbstractTable)
    (text : String) (type : DataType)
    (h : (Expr.column text).check store table = .ok (some type)) :
    ∃ found, table.findColumn (String.mk text.data.tail) = some found := by
  simp only [Expr.check, Except.ok.injEq] at h
  cases hf : table.findColumn (String.mk text.data.tail) with
  | none => rw [hf] at h; cases h
  | some found => exact ⟨found, rfl⟩

theorem parse.check_call_found (store : FunctionStore) (table : AbstractTable)
    (name : String) (args : Args) (type : DataType)
    (h : (Expr.call name args).check store table = .ok (some type)) :
    ∃ types it, args.checkAll store table = .ok (some types) ∧
      store.find (functionKey name types) = some it := by
  simp only [Expr.check] at h
  cases hc : args.checkAll store table with
  | error ex => rw [hc] at h; cases h
  | ok o =>
    cases o with
    | none => rw [hc] at h; cases h
    | some types =>
      rw [hc] at h
      simp only [Except.ok.injEq] at h
      cases hf : store.find (functionKey name types) with
      | none => rw [hf] at h; cases h
      | some it => exact ⟨types, it, rfl, hf⟩

theorem parse.check_cons (store : FunctionStore) (table : AbstractTable)
    (e : Expr) (rest : Args) (types : List Char)
    (h : (Args.cons e rest).checkAll store table = .ok (some types)) :
    ∃ type types2, e.check store table = .ok (some type) ∧
      rest.checkAll store table = .ok (some types2) := by
  simp only [Args.checkAll] at h
  cases he : e.check store table with
  | error ex => rw [he] at h; cases h
  | ok o =>
    cases o with
    | none => rw [he] at h; cases h
    | some type =>
      rw [he] at h
      simp only [] at h
      cases hr : rest.checkAll store table with
      | error ex => rw [hr] at h; cases h
      | ok o2 =>
        cases o2 with
        | none => rw [hr] at h; cases h
        | some types2 => exact ⟨type, types2, rfl, rfl⟩

theorem parse.literal_data_bit (kind : LiteralKind) :
    hasBit kind.token_type TT_DATA = true := by
  cases kind <;> decide

theorem parse.eval_run_literal (store : FunctionStore) (table : AbstractTable)
    (kind : LiteralKind) (text : String) : (Expr.literal kind text).EvalRun store table := by
  intro row_index i data_stack rest type _ hc
  obtain ⟨v, hv⟩ := parse.check_literal_value store table kind text type hc
  simp only [Expr.postfixAt, Expr.eval, hv, List.singleton_append, Token.literal]
  rw [parse.evaluateLoop_cons, parse.evaluateStep_data table row_index data_stack text _ v
    (parse.literal_flags kind).1 (parse.literal_flags kind).2 (parse.literal_data_bit kind)]

theorem parse.eval_run_column (store : FunctionStore) (table : AbstractTable)
    (text : String) : (Expr.column text).EvalRun store table := by
  intro row_index i data_stack rest type _ hc
  obtain ⟨found, hf⟩ := parse.check_column_found store table text type hc
  simp only [Expr.postfixAt, Expr.eval, hf, List.singleton_append]
  rw [parse.evaluateLoop_cons, parse.evaluateStep_column]

theorem parse.eval_run_call (store : FunctionStore) (table : AbstractTable)
    (name : String) (args : Args) (h : args.EvalRun store table) :
    (Expr.call name args).EvalRun store table := by
  intro row_index i data_stack rest type hs hc
  obtain ⟨types, it, hca, hf⟩ := parse.check_call_found store table name args type hc
  have hchars := parse.Args.checkAll_chars store table args types hca
  have hargc : it.argc = types.length := by
    rw [hs _ it hf, parse.keyArity_functionKey name types hchars.2]
  simp only [Expr.postfixAt, Expr.eval, hca, hf,
    parse.Args.checkAll_typeChars store table args types hca, List.append_assoc,
    List.singleton_append]
  rw [h row_index (i + 1) data_stack _ types hs hca]
  cases hv : args.evalAll store table row_index with
  | error ex => rfl
  | ok values =>
    simp only []
    have hlen := parse.Args.evalAll_length store table row_index args values hv
    rw [parse.evaluateLoop_cons, parse.evaluateStep_function table row_index data_stack values
      _ it _ (by omega)]
    cases it.function values <;> rfl

theorem parse.eval_run_nil (store : FunctionStore) (table : AbstractTable) :
    Args.nil.EvalRun store table := by
  intro row_index i data_stack rest types _ _
  simp [Args.postfixAt, Args.evalAll]

theorem parse.eval_run_cons (store : FunctionStore) (table : AbstractTable)
    (e : Expr) (rest : Args) (he : e.EvalRun store table) (hr : rest.EvalRun store table) :
    (Args.cons e rest).EvalRun store table := by
  intro row_index i data_stack tail types hs hc
  obtain ⟨type, types2, hce, hcr⟩ := parse.check_cons store table e rest types hc
  simp only [Args.postfixAt, Args.evalAll, List.append_assoc]
  rw [he row_index (i + 1) data_stack _ type hs hce]
  cases e.eval store table row_index with
  | error ex => rfl
  | ok v =>
    simp only []
    rw [hr row_index (i + 1 + e.size) (data_stack ++ [v]) tail types2 hs hcr]
    cases rest.evalAll store table row_index with
    | error ex => rfl
    | ok values => simp

mutual
theorem parse.Expr.eval_run (store : FunctionStore) (table : AbstractTable) :
    ∀ e : Expr, e.EvalRun store table
  | .literal kind text => parse.eval_run_literal store table kind text
  | .column text => parse.eval_run_column store table text
  | .call name args =>
    parse.eval_run_call store table name args (parse.Args.eval_run_args store table args)
theorem parse.Args.eval_run_args (store : FunctionStore) (table : AbstractTable) :
    ∀ args : Args, args.EvalRun store table
  | .nil => parse.eval_run_nil store table
  | .cons e rest =>
    parse.eval_run_cons store table e rest (parse.Expr.eval_run store table e)
      (parse.Args.eval_run_args store table rest)
end

end km

namespace km

open parse

theorem parse.optimizeLoop_cons (container : List Token) (t : Token) (rest : List Token) :
    optimizeLoop container (t :: rest) =
      match optimizeStep container t with
      | .error ex => .error ex
      | .ok container1 => optimizeLoop container1 rest := by
  simp only [optimizeLoop]
  try rfl

theorem parse.optimizeStep_plain (container : List Token) (t : Token)
    (h : hasBit t.token_type FUNCTION = false) :
    optimizeStep container t = .ok (container ++ [t]) := by
  simp only [optimizeStep, h, Bool.false_eq_true, if_false]

theorem parse.Expr.folded_literal (store : FunctionStore) (table : AbstractTable) (e : Expr)
    (v : Variant) (h : e.closed = true) :
    ∃ text type, e.folded store table v = Token.literal text type v ∧
      hasBit type TT_DATA = true := by
  cases e with
  | literal kind text => exact ⟨text, kind.token_type, rfl, parse.literal_data_bit kind⟩
  | column text => simp [Expr.closed] at h
  | call name args =>
    simp only [Expr.folded]
    cases args.checkAll store table with
    | error ex => exact ⟨_, _, rfl, by decide⟩
    | ok o =>
      cases o with
      | none => exact ⟨_, _, rfl, by decide⟩
      | some types => exact ⟨_, _, rfl, by decide⟩

theorem parse.Args.collectLiterals_foldedAll (store : FunctionStore) (table : AbstractTable) :
    ∀ (args : Args) (values acc : List Variant), args.closed = true →
      values.length = args.length →
      collectLiterals (args.foldedAll store table values) acc = .ok (some (acc ++ values)) ∧
        (args.foldedAll store table values).length = values.length
  | .nil, values, acc, _, hl => by
    cases values with
    | nil => simp [Args.foldedAll, collectLiterals]
    | cons v vs => simp [Args.length] at hl
  | .cons e rest, values, acc, hc, hl => by
    cases values with
    | nil =>
      simp only [Args.length, List.length_nil] at hl
      omega
    | cons v vs =>
      simp only [Args.closed, Bool.and_eq_true] at hc
      simp only [Args.length, List.length_cons] at hl
      obtain ⟨text, type, hf, hb⟩ := parse.Expr.folded_literal store table e v hc.1
      have ih := parse.Args.collectLiterals_foldedAll store table rest vs (acc ++ [v]) hc.2
        (by omega)
      have hstep : ∀ L : List Token, collectLiterals (Token.literal text type v :: L) acc =
          collectLiterals L (acc ++ [v]) := by
        intro L
        simp only [collectLiterals, Token.literal, hb, Bool.not_true, Bool.false_eq_true,
          if_false, Element.asData]
      simp only [Args.foldedAll, List.length_cons]
      rw [hf, hstep, ih.1, ih.2]
      simp

theorem parse.optimizeStep_fold (container literals : List Token) (values : List Variant)
    (key : String) (it : FunctionInfo) (end_token : Nat)
    (hc : collectLiterals literals [] = .ok (some values))
    (hl : literals.length = it.argc) :
    optimizeStep (container ++ literals) (Token.resolved key it end_token) =
      match it.function values with
      | .error ex => .error ex
      | .ok result => .ok (container ++ [Token.literal key INT32 result]) := by
  have hlt : ¬ (container ++ literals).length < it.argc := by
    simp only [List.length_append]
    omega
  have hsub : (container ++ literals).length - it.argc = container.length := by
    simp only [List.length_append]
    omega
  simp only [optimizeStep, Token.resolved, parse.function_bits.2.2, if_true,
    Element.asFncInfo, hlt, if_false, hsub, List.drop_left, List.take_left, hc]
  try (cases it.function values <;> rfl)

theorem parse.fold_run_literal (store : FunctionStore) (table : AbstractTable)
    (kind : LiteralKind) (text : String) : (Expr.literal kind text).FoldRun store table := by
  intro row_index i container rest type _ _ hc
  obtain ⟨v, hv⟩ := parse.check_literal_value store table kind text type hc
  simp only [Expr.postfixAt, Expr.eval, hv, List.singleton_append, Expr.folded]
  rw [parse.optimizeLoop_cons, parse.optimizeStep_plain _ _ (parse.literal_flags kind).1]

theorem parse.fold_run_column (store : FunctionStore) (table : AbstractTable)
    (text : String) : (Expr.column text).FoldRun store table := by
  intro row_index i container rest type _ hcl _
  simp [Expr.closed] at hcl

theorem parse.fold_run_call (store : FunctionStore) (table : AbstractTable)
    (name : String) (args : Args) (h : args.FoldRun store table) :
    (Expr.call name args).FoldRun store table := by
  intro row_index i container rest type hs hcl hc
  obtain ⟨types, it, hca, hf⟩ := parse.check_call_found store table name args type hc
  have hchars := parse.Args.checkAll_chars store table args types hca
  have hargc : it.argc = types.length := by
    rw [hs _ it hf, parse.keyArity_functionKey name types hchars.2]
  simp only [Expr.closed] at hcl
  simp only [Expr.postfixAt, Expr.eval, hca, hf,
    parse.Args.checkAll_typeChars store table args types hca, List.append_assoc,
    List.singleton_append, Expr.folded]
  rw [h row_index (i + 1) container _ types hs hcl hca]
  cases hv : args.evalAll store table row_index with
  | error ex => rfl
  | ok values =>
    simp only []
    have hlen := parse.Args.evalAll_length store table row_index args values hv
    have hcol := parse.Args.collectLiterals_foldedAll store table args values [] hcl hlen
    rw [parse.optimizeLoop_cons, parse.optimizeStep_fold container _ values _ it _
      (by simpa using hcol.1) (by rw [hcol.2]; omega)]
    cases it.function values <;> rfl

theorem parse.fold_run_nil (store : FunctionStore) (table : AbstractTable) :
    Args.nil.FoldRun store table := by
  intro row_index i container rest types _ _ _
  simp [Args.postfixAt, Args.evalAll, Args.foldedAll]

theorem parse.fold_run_cons (store : FunctionStore) (table : AbstractTable)
    (e : Expr) (rest : Args) (he : e.FoldRun store table) (hr : rest.FoldRun store table) :
    (Args.cons e rest).FoldRun store table := by
  intro row_index i container tail types hs hcl hc
  obtain ⟨type, types2, hce, hcr⟩ := parse.check_cons store table e rest types hc
  simp only [Args.closed, Bool.and_eq_true] at hcl
  simp only [Args.postfixAt, Args.evalAll, List.append_assoc]
  rw [he row_index (i + 1) container _ type hs hcl.1 hce]
  cases e.eval store table row_index with
  | error ex => rfl
  | ok v =>
    simp only []
    rw [hr row_index (i + 1 + e.size) (container ++ [e.folded store table v]) tail types2 hs
      hcl.2 hcr]
    cases rest.evalAll store table row_index with
    | error ex => rfl
    | ok values => simp [Args.foldedAll]

mutual
theorem parse.Expr.fold_run (store : FunctionStore) (table : AbstractTable) :
    ∀ e : Expr, e.FoldRun store table
  | .literal kind text => parse.fold_run_literal store table kind text
  | .column text => parse.fold_run_column store table text
  | .call name args =>
    parse.fold_run_call store table name args (parse.Args.fold_run_args store table args)
theorem parse.Args.fold_run_args (store : FunctionStore) (table : AbstractTable) :
    ∀ args : Args, args.FoldRun store table
  | .nil => parse.fold_run_nil store table
  | .cons e rest =>
    parse.fold_run_cons store table e rest (parse.Expr.fold_run store table e)
      (parse.Args.fold_run_args store table rest)
end

end km

namespace km

open parse

theorem parse.stackDepth_append : ∀ (a b : List Token) (depth : Nat),
    stackDepth depth (a ++ b) =
      match stackDepth depth a with
      | none => none
      | some depth1 => stackDepth depth1 b
  | [], b, depth => rfl
  | t :: a, b, depth => by
    simp only [List.cons_append, stackDepth]
    by_cases hf : hasBit t.token_type FUNCTION = true
    · simp only [hf, if_true]
      cases t.element.asFncInfo with
      | error ex => rfl
      | ok info =>
        simp only []
        by_cases hlt : depth < info.argc
        · simp only [hlt, if_true]
        · simp only [hlt, if_false]
          exact parse.stackDepth_append a b _
    · simp only [hf, if_false]
      by_cases hc : hasBit t.token_type COLUMN = true
      · simp only [hc, if_true]
        exact parse.stackDepth_append a b _
      · simp only [hc, if_false]
        by_cases hd : hasBit t.token_type TT_DATA = true
        · simp only [hd, if_true]
          exact parse.stackDepth_append a b _
        · simp only [hd, if_false]
          exact parse.stackDepth_append a b _

theorem parse.collectLiterals_run (table : AbstractTable) (row_index : Nat) :
    ∀ (literals : List Token) (acc arguments : List Variant),
      (∀ t ∈ literals, t.Proper) → collectLiterals literals acc = .ok (some arguments) →
      ∃ values, arguments = acc ++ values ∧ values.length = literals.length ∧
        (∀ data_stack, evaluateLoop table row_index data_stack literals =
          .ok (data_stack ++ values)) ∧
        ∀ depth, stackDepth depth literals = some (depth + literals.length)
  | [], acc, arguments, _, h => by
    simp only [collectLiterals, Except.ok.injEq, Option.some.injEq] at h
    subst h
    exact ⟨[], by simp, rfl, fun s => by simp [evaluateLoop], fun d => rfl⟩
  | t :: literals, acc, arguments, hp, h => by
    simp only [collectLiterals] at h
    by_cases hd : hasBit t.token_type TT_DATA = true
    · simp only [hd, Bool.not_true, Bool.false_eq_true, if_false] at h
      cases hv : t.element.asData with
      | error ex => rw [hv] at h; cases h
      | ok v =>
        rw [hv] at h
        simp only [] at h
        obtain ⟨values, ha, hl, he, hs⟩ := parse.collectLiterals_run table row_index literals
          (acc ++ [v]) arguments (fun t ht => hp t (List.mem_cons_of_mem _ ht)) h
        have hpt := hp t (List.mem_cons_self _ _) hd
        refine ⟨v :: values, by simpa using ha, by simp [hl], ?_, ?_⟩
        · intro data_stack
          have hstep : evaluateStep table row_index data_stack t = .ok (data_stack ++ [v]) := by
            simp only [evaluateStep, hpt.1, hpt.2, hd, hv, Bool.false_eq_true, if_false,
              if_true]
          rw [parse.evaluateLoop_cons, hstep]
          simp only []
          rw [he]
          simp
        · intro depth
          simp only [stackDepth, hpt.1, hpt.2, hd, Bool.false_eq_true, if_false, if_true]
          rw [hs]
          simp only [List.length_cons]
          congr 1
          omega
    · simp only [hd, Bool.not_false, if_true] at h
      cases h

theorem parse.optimizeStep_cases (container : List Token) (token : Token)
    (container1 : List Token) (h : optimizeStep container token = .ok container1) :
    container1 = container ++ [token] ∨
      ∃ finfo arguments result, hasBit token.token_type FUNCTION = true ∧
        token.element.asFncInfo = .ok finfo ∧ finfo.argc ≤ container.length ∧
        collectLiterals (container.drop (container.length - finfo.argc)) [] =
          .ok (some arguments) ∧
        finfo.function arguments = .ok result ∧
        container1 = container.take (container.length - finfo.argc) ++
          [⟨token.text, INT32, Element.data result⟩] := by
  unfold optimizeStep at h
  by_cases hf : hasBit token.token_type FUNCTION = true
  · simp only [hf, if_true] at h
    cases hi : token.element.asFncInfo with
    | error ex => rw [hi] at h; cases h
    | ok finfo =>
      rw [hi] at h
      simp only [] at h
      by_cases hlt : container.length < finfo.argc
      · simp only [hlt, if_true] at h
        cases h
      · simp only [hlt, if_false] at h
        cases hc : collectLiterals (container.drop (container.length - finfo.argc)) [] with
        | error ex => rw [hc] at h; cases h
        | ok o =>
          rw [hc] at h
          cases o with
          | none =>
            simp only [Except.ok.injEq] at h
            exact Or.inl h.symm
          | some arguments =>
            simp only [] at h
            cases hr : finfo.function arguments with
            | error ex => rw [hr] at h; cases h
            | ok result =>
              rw [hr] at h
              simp only [Except.ok.injEq] at h
              exact Or.inr ⟨finfo, arguments, result, hf, rfl, by omega, hc, hr, h.symm⟩
  · have hf2 : hasBit token.token_type FUNCTION = false := by
      cases hb : hasBit token.token_type FUNCTION
      · rfl
      · exact absurd hb hf
    simp only [hf2, Bool.false_eq_true, if_false, Except.ok.injEq] at h
    exact Or.inl h.symm

/-- One step of `optimize` leaves the run of the stack machine and the depth of the stack as
they are. -/
theorem parse.optimizeStep_run (table : AbstractTable) (row_index : Nat)
    (container : List Token) (token : Token) (container1 : List Token)
    (hp : ∀ t ∈ container, t.Proper) (h : optimizeStep container token = .ok container1) :
    (∀ data_stack, evaluateLoop table row_index data_stack (container ++ [token]) =
        evaluateLoop table row_index data_stack container1) ∧
      (∀ depth, stackDepth depth (container ++ [token]) = stackDepth depth container1) ∧
      ∀ t ∈ container1, t ∈ container ∨ t = token ∨ t.token_type = INT32 := by
  rcases parse.optimizeStep_cases container token container1 h with
    rfl | ⟨finfo, arguments, result, hf, hi, hle, hc, hr, rfl⟩
  · refine ⟨fun _ => rfl, fun _ => rfl, ?_⟩
    intro t ht
    rcases List.mem_append.mp ht with ht | ht
    · exact Or.inl ht
    · exact Or.inr (Or.inl (by simpa using ht))
  · obtain ⟨values, ha, hl, he, hs⟩ := parse.collectLiterals_run table row_index _ [] arguments
      (fun t ht => hp t (List.mem_of_mem_drop ht)) hc
    simp only [List.nil_append] at ha
    subst ha
    have hlen : arguments.length = finfo.argc := by
      rw [hl, List.length_drop]
      omega
    have hsplit : container = container.take (container.length - finfo.argc) ++
        container.drop (container.length - finfo.argc) := (List.take_append_drop _ _).symm
    refine ⟨?_, ?_, ?_⟩
    · intro data_stack
      conv_lhs => rw [hsplit, List.append_assoc]
      rw [parse.evaluateLoop_append, parse.evaluateLoop_append table row_index (container.take _)]
      cases evaluateLoop table row_index data_stack
          (container.take (container.length - finfo.argc)) with
      | error ex => rfl
      | ok s =>
        simp only []
        rw [parse.evaluateLoop_append, he s]
        simp only []
        have hlt : ¬ (s ++ arguments).length < finfo.argc := by
          simp only [List.length_append]
          omega
        have hsub : (s ++ arguments).length - finfo.argc = s.length := by
          simp only [List.length_append]
          omega
        have h1 : evaluateStep table row_index (s ++ arguments) token = .ok (s ++ [result]) := by
          simp only [evaluateStep, hf, if_true, hi, hlt, if_false, hsub, List.drop_left,
            List.take_left, hr]
        have h2 : evaluateStep table row_index s ⟨token.text, INT32, Element.data result⟩ =
            .ok (s ++ [result]) :=
          parse.evaluateStep_data table row_index s token.text INT32 result (by decide)
            (by decide) (by decide)
        rw [parse.evaluateLoop_cons, parse.evaluateLoop_cons, h1, h2]
    · intro depth
      conv_lhs => rw [hsplit, List.append_assoc]
      rw [parse.stackDepth_append, parse.stackDepth_append (container.take _)]
      cases stackDepth depth (container.take (container.length - finfo.argc)) with
      | none => rfl
      | some d =>
        simp only []
        rw [parse.stackDepth_append, hs d]
        simp only []
        have hlt : ¬ d + (container.drop (container.length - finfo.argc)).length <
            finfo.argc := by
          rw [← hl]
          omega
        have hsub : d + (container.drop (container.length - finfo.argc)).length -
            finfo.argc + 1 = d + 1 := by
          rw [← hl]
          omega
        have h1 : hasBit INT32 FUNCTION = false := by decide
        have h2 : hasBit INT32 COLUMN = false := by decide
        have h3 : hasBit INT32 TT_DATA = true := by decide
        simp only [stackDepth, hf, if_true, hi, hlt, if_false, hsub, h1, h2, h3,
          Bool.false_eq_true]
    · intro t ht
      rcases List.mem_append.mp ht with ht | ht
      · exact Or.inl (List.mem_of_mem_take ht)
      · refine Or.inr (Or.inr ?_)
        rw [List.mem_singleton.mp ht]

theorem parse.proper_int32 (t : Token) (h : t.token_type = INT32) : t.Proper := by
  intro _
  rw [h]
  decide

theorem parse.optimizeLoop_run (table : AbstractTable) (row_index : Nat) :
    ∀ (token_vec container out : List Token), (∀ t ∈ container, t.Proper) →
      (∀ t ∈ token_vec, t.Proper) → optimizeLoop container token_vec = .ok out →
      (∀ data_stack, evaluateLoop table row_index data_stack (container ++ token_vec) =
        evaluateLoop table row_index data_stack out) ∧
      ∀ depth, stackDepth depth (container ++ token_vec) = stackDepth depth out
  | [], container, out, _, _, h => by
    simp only [optimizeLoop, Except.ok.injEq] at h
    subst h
    simp
  | token :: rest, container, out, hc, hp, h => by
    rw [parse.optimizeLoop_cons] at h
    cases hs : optimizeStep container token with
    | error ex => rw [hs] at h; cases h
    | ok container1 =>
      rw [hs] at h
      simp only [] at h
      obtain ⟨he, hd, hm⟩ := parse.optimizeStep_run table row_index container token container1
        hc hs
      have hc1 : ∀ t ∈ container1, t.Proper := by
        intro t ht
        rcases hm t ht with h1 | h1 | h1
        · exact hc t h1
        · rw [h1]
          exact hp token (List.mem_cons_self _ _)
        · exact parse.proper_int32 t h1
      obtain ⟨ihe, ihd⟩ := parse.optimizeLoop_run table row_index rest container1 out hc1
        (fun t ht => hp t (List.mem_cons_of_mem _ ht)) h
      have hre : container ++ token :: rest = (container ++ [token]) ++ rest := by simp
      refine ⟨?_, ?_⟩
      · intro data_stack
        rw [hre, parse.evaluateLoop_append, he, ← parse.evaluateLoop_append, ihe]
      · intro depth
        rw [hre, parse.stackDepth_append, hd, ← parse.stackDepth_append, ihd]

/-- Function `optimize` preserves the run of the stack machine on every row and the depth of
the stack. -/
theorem parse.optimize_run (table : AbstractTable) (row_index : Nat)
    (token_vec out : List Token) (hp : ∀ t ∈ token_vec, t.Proper)
    (h : optimize token_vec = .ok out) :
    (∀ data_stack, evaluateLoop table row_index data_stack out =
        evaluateLoop table row_index data_stack token_vec) ∧
      ∀ depth, stackDepth depth out = stackDepth depth token_vec := by
  obtain ⟨he, hd⟩ := parse.optimizeLoop_run table row_index token_vec [] out (by simp) hp h
  exact ⟨fun s => (he s).symm, fun d => (hd d).symm⟩

end km

namespace km

open parse

/-- A program that the depth count accepts never makes the stack machine take more values
than the stack holds, and the stack it leaves has the counted depth. -/
theorem parse.stackDepth_safe (table : AbstractTable) (row_index : Nat) :
    ∀ (token_vec : List Token) (data_stack : List Variant) (n : Nat),
      stackDepth data_stack.length token_vec = some n →
      StackSafe table row_index data_stack token_vec ∧
        ∀ s, evaluateLoop table row_index data_stack token_vec = .ok s → s.length = n
  | [], data_stack, n, h => by
    simp only [stackDepth, Option.some.injEq] at h
    refine ⟨trivial, ?_⟩
    intro s hs
    simp only [evaluateLoop, Except.ok.injEq] at hs
    rw [← hs, h]
  | token :: rest, data_stack, n, h => by
    have key : (hasBit token.token_type FUNCTION = true →
          ∃ info, token.element.asFncInfo = .ok info ∧ info.argc ≤ data_stack.length) ∧
        ∀ data_stack1, evaluateStep table row_index data_stack token = .ok data_stack1 →
          stackDepth data_stack1.length rest = some n := by
      simp only [stackDepth] at h
      by_cases hf : hasBit token.token_type FUNCTION = true
      · simp only [hf, if_true] at h
        cases hi : token.element.asFncInfo with
        | error ex => rw [hi] at h; cases h
        | ok info =>
          rw [hi] at h
          simp only [] at h
          by_cases hlt : data_stack.length < info.argc
          · simp only [hlt, if_true] at h
            cases h
          · simp only [hlt, if_false] at h
            refine ⟨fun _ => ⟨info, rfl, by omega⟩, ?_⟩
            intro s1 hs1
            simp only [evaluateStep, hf, if_true, hi, hlt, if_false] at hs1
            cases hr : info.function (data_stack.drop (data_stack.length - info.argc)) with
            | error ex => rw [hr] at hs1; cases hs1
            | ok v =>
              rw [hr] at hs1
              simp only [Except.ok.injEq] at hs1
              rw [← hs1]
              simp only [List.length_append, List.length_take, List.length_singleton]
              rw [Nat.min_eq_left (by omega)]
              exact h
      · have hf2 : hasBit token.token_type FUNCTION = false := by
          cases hb : hasBit token.token_type FUNCTION
          · rfl
          · exact absurd hb hf
        refine ⟨fun hx => absurd hx hf, ?_⟩
        intro s1 hs1
        simp only [hf2, Bool.false_eq_true, if_false] at h
        simp only [evaluateStep, hf2, Bool.false_eq_true, if_false] at hs1
        by_cases hc : hasBit token.token_type COLUMN = true
        · simp only [hc, if_true] at h hs1
          cases hcol : token.element.asColInfo with
          | error ex => rw [hcol] at hs1; cases hs1
          | ok col =>
            rw [hcol] at hs1
            simp only [Except.ok.injEq] at hs1
            rw [← hs1]
            simpa using h
        · have hc2 : hasBit token.token_type COLUMN = false := by
            cases hb : hasBit token.token_type COLUMN
            · rfl
            · exact absurd hb hc
          simp only [hc2, Bool.false_eq_true, if_false] at h hs1
          by_cases hd : hasBit token.token_type TT_DATA = true
          · simp only [hd, if_true] at h hs1
            cases hv : token.element.asData with
            | error ex => rw [hv] at hs1; cases hs1
            | ok v =>
              rw [hv] at hs1
              simp only [Except.ok.injEq] at hs1
              rw [← hs1]
              simpa using h
          · have hd2 : hasBit token.token_type TT_DATA = false := by
              cases hb : hasBit token.token_type TT_DATA
              · rfl
              · exact absurd hb hd
            simp only [hd2, Bool.false_eq_true, if_false, Except.ok.injEq] at h hs1
            rw [← hs1]
            exact h
    refine ⟨⟨key.1, fun s1 hs1 =>
      (parse.stackDepth_safe table row_index rest s1 n (key.2 s1 hs1)).1⟩, ?_⟩
    intro s hs
    rw [parse.evaluateLoop_cons] at hs
    cases hs1 : evaluateStep table row_index data_stack token with
    | error ex => rw [hs1] at hs; cases hs
    | ok s1 =>
      rw [hs1] at hs
      exact (parse.stackDepth_safe table row_index rest s1 n (key.2 s1 hs1)).2 s hs

theorem parse.proper_literal (kind : LiteralKind) (text : String) (element : Element) :
    Token.Proper ⟨text, kind.token_type, element⟩ := fun _ => parse.literal_flags kind

theorem parse.proper_column (text : String) (element : Element) :
    Token.Proper ⟨text, COLUMN, element⟩ := by
  intro h
  have hx : hasBit COLUMN TT_DATA = false := by decide
  exact absurd h (by simp only [hx, Bool.false_eq_true, not_false_eq_true])

theorem parse.proper_function (text : String) (element : Element) :
    Token.Proper ⟨text, FUNCTION, element⟩ := by
  intro h
  have hx : hasBit FUNCTION TT_DATA = false := by decide
  exact absurd h (by simp only [hx, Bool.false_eq_true, not_false_eq_true])

mutual
theorem parse.Expr.postfixAt_proper (store : FunctionStore) (table : AbstractTable) :
    ∀ (e : Expr) (i : Nat), ∀ t ∈ e.postfixAt store table i, t.Proper
  | .literal kind text, i, t, ht => by
    cases hv : literalValue kind text with
    | error ex =>
      simp only [Expr.postfixAt, hv, List.mem_singleton] at ht
      rw [ht]
      exact parse.proper_literal kind text _
    | ok v =>
      simp only [Expr.postfixAt, hv, List.mem_singleton] at ht
      rw [ht]
      exact parse.proper_literal kind text _
  | .column text, i, t, ht => by
    cases hv : table.findColumn (String.mk text.data.tail) with
    | none =>
      simp only [Expr.postfixAt, hv, List.mem_singleton] at ht
      rw [ht]
      exact parse.proper_column text _
    | some found =>
      simp only [Expr.postfixAt, hv, List.mem_singleton] at ht
      rw [ht]
      exact parse.proper_column text _
  | .call name args, i, t, ht => by
    simp only [Expr.postfixAt, List.mem_append, List.mem_singleton] at ht
    rcases ht with ht | ht
    · exact parse.Args.postfixAt_proper_args store table args (i + 1) t ht
    · rw [ht]
      cases args.checkAll store table with
      | error ex => exact parse.proper_function _ _
      | ok o =>
        cases o with
        | none => exact parse.proper_function _ _
        | some types =>
          simp only []
          cases store.find (functionKey name types) with
          | none => exact parse.proper_function _ _
          | some it => exact parse.proper_function _ _
theorem parse.Args.postfixAt_proper_args (store : FunctionStore) (table : AbstractTable) :
    ∀ (args : Args) (i : Nat), ∀ t ∈ args.postfixAt store table i, t.Proper
  | .nil, _, t, ht => by simp [Args.postfixAt] at ht
  | .cons e rest, i, t, ht => by
    simp only [Args.postfixAt, List.mem_append] at ht
    rcases ht with ht | ht
    · exact parse.Expr.postfixAt_proper store table e (i + 1) t ht
    · exact parse.Args.postfixAt_proper_args store table rest (i + 1 + e.size) t ht
end

theorem parse.stackDepth_cons_data (depth : Nat) (text : String) (type : Nat)
    (element : Element) (rest : List Token)
    (hf : hasBit type FUNCTION = false)
    (hd : hasBit type COLUMN = true ∨ hasBit type TT_DATA = true) :
    stackDepth depth (⟨text, type, element⟩ :: rest) = stackDepth (depth + 1) rest := by
  rcases hd with hd | hd
  · simp only [stackDepth, hf, hd, Bool.false_eq_true, if_false, if_true]
  · by_cases hc : hasBit type COLUMN = true
    · simp only [stackDepth, hf, hc, Bool.false_eq_true, if_false, if_true]
    · simp only [stackDepth, hf, hc, hd, Bool.false_eq_true, if_false, if_true]

theorem parse.depth_run_literal (store : FunctionStore) (table : AbstractTable)
    (kind : LiteralKind) (text : String) : (Expr.literal kind text).DepthRun store table := by
  intro i depth rest type _ hc
  obtain ⟨v, hv⟩ := parse.check_literal_value store table kind text type hc
  simp only [Expr.postfixAt, hv, List.singleton_append, Token.literal]
  exact parse.stackDepth_cons_data depth text _ _ rest (parse.literal_flags kind).1
    (Or.inr (parse.literal_data_bit kind))

theorem parse.depth_run_column (store : FunctionStore) (table : AbstractTable)
    (text : String) : (Expr.column text).DepthRun store table := by
  intro i depth rest type _ hc
  obtain ⟨found, hf⟩ := parse.check_column_found store table text type hc
  simp only [Expr.postfixAt, hf, List.singleton_append, Token.column]
  exact parse.stackDepth_cons_data depth text _ _ rest (by decide) (Or.inl (by decide))

theorem parse.depth_run_call (store : FunctionStore) (table : AbstractTable)
    (name : String) (args : Args) (h : args.DepthRun store table) :
    (Expr.call name args).DepthRun store table := by
  intro i depth rest type hs hc
  obtain ⟨types, it, hca, hf⟩ := parse.check_call_found store table name args type hc
  have hchars := parse.Args.checkAll_chars store table args types hca
  have hargc : it.argc = args.length := by
    rw [hs _ it hf, parse.keyArity_functionKey name types hchars.2, hchars.1]
  simp only [Expr.postfixAt, hca, hf, List.append_assoc, List.singleton_append]
  rw [h (i + 1) depth _ types hs hca]
  have hlt : ¬ depth + args.length < it.argc := by omega
  have hsub : depth + args.length - it.argc + 1 = depth + 1 := by omega
  simp only [stackDepth, Token.resolved, parse.function_bits.2.2, if_true, Element.asFncInfo,
    hlt, if_false, hsub]

theorem parse.depth_run_nil (store : FunctionStore) (table : AbstractTable) :
    Args.nil.DepthRun store table := by
  intro i depth rest types _ _
  simp [Args.postfixAt, Args.length]

theorem parse.depth_run_cons (store : FunctionStore) (table : AbstractTable)
    (e : Expr) (rest : Args) (he : e.DepthRun store table) (hr : rest.DepthRun store table) :
    (Args.cons e rest).DepthRun store table := by
  intro i depth tail types hs hc
  obtain ⟨type, types2, hce, hcr⟩ := parse.check_cons store table e rest types hc
  simp only [Args.postfixAt, List.append_assoc, Args.length]
  rw [he (i + 1) depth _ type hs hce, hr (i + 1 + e.size) (depth + 1) tail types2 hs hcr]
  congr 1
  omega

mutual
theorem parse.Expr.depth_run (store : FunctionStore) (table : AbstractTable) :
    ∀ e : Expr, e.DepthRun store table
  | .literal kind text => parse.depth_run_literal store table kind text
  | .column text => parse.depth_run_column store table text
  | .call name args =>
    parse.depth_run_call store table name args (parse.Args.depth_run_args store table args)
theorem parse.Args.depth_run_args (store : FunctionStore) (table : AbstractTable) :
    ∀ args : Args, args.DepthRun store table
  | .nil => parse.depth_run_nil store table
  | .cons e rest =>
    parse.depth_run_cons store table e rest (parse.Expr.depth_run store table e)
      (parse.Args.depth_run_args store table rest)
end

end km

namespace km

open parse

theorem parse.nextType_cons (t : Token) (rest : List Token) :
    nextType (t :: rest) = t.token_type := rfl

theorem parse.nextType_nil : nextType [] = INVALID := rfl

theorem parse.inside_stop (size : Nat) (processed remaining : List Token) (p : Int)
    (stk : List Nat) :
    grammarLoopInside size processed remaining p false stk =
      .ok (processed.length,
        ⟨processed ++ (remaining ++ [Token.new "Invalid"]), p, false, true, stk⟩) := by
  unfold grammarLoopInside
  apply parse.loop_stop
  rintro ⟨_, h, _⟩
  cases h

theorem parse.inside_end (size : Nat) (processed : List Token) (p : Int) (v : Bool)
    (stk : List Nat) :
    grammarLoopInside size processed [] p v stk =
      .ok (processed.length, ⟨processed ++ ([] ++ [Token.new "Invalid"]), p, v, true, stk⟩) :=
  rfl

theorem parse.rejects_level (size i : Nat) (st : GrammarState) (h : st.p_level ≠ 0) :
    Rejects size (.ok (i, st)) := Or.inr h

theorem parse.rejects_position (size i : Nat) (st : GrammarState) (h : i ≠ size) :
    Rejects size (.ok (i, st)) := Or.inl h

/-- One iteration of the loop of `checkGrammar` inside parentheses. -/
theorem parse.inside_step (size : Nat) (processed : List Token) (t : Token)
    (remaining : List Token) (p : Int) (stk : List Nat) (st1 : GrammarState)
    (hsize : size = processed.length + (t :: remaining).length) (hp : 1 ≤ p)
    (hs : checkGrammarStep
      ⟨processed ++ ((t :: remaining) ++ [Token.new "Invalid"]), p, true, true, stk⟩
      processed.length = .ok st1) :
    grammarLoopInside size processed (t :: remaining) p true stk =
      checkGrammarLoop size remaining.length (processed.length + 1) st1 := by
  unfold grammarLoopInside
  simp only [List.length_cons] at hsize
  have h1 : (t :: remaining).length = size - processed.length := by
    simp only [List.length_cons]
    omega
  have h2 : remaining.length = size - (processed.length + 1) := by omega
  rw [h1, h2]
  exact parse.loop_step size processed.length _ st1 (by omega) rfl (by simpa using by omega)
    (fun _ => hp) hs

theorem parse.inside_step_error (size : Nat) (processed : List Token) (t : Token)
    (remaining : List Token) (p : Int) (stk : List Nat) (ex : Exn)
    (hsize : size = processed.length + (t :: remaining).length) (hp : 1 ≤ p)
    (hs : checkGrammarStep
      ⟨processed ++ ((t :: remaining) ++ [Token.new "Invalid"]), p, true, true, stk⟩
      processed.length = .error ex) :
    grammarLoopInside size processed (t :: remaining) p true stk = .error ex := by
  unfold grammarLoopInside
  simp only [List.length_cons] at hsize
  have hc : processed.length < size ∧ True ∧ ¬ ((True ∧ p = 0) ∨ p < 0) := by
    refine ⟨by omega, trivial, ?_⟩
    rintro (⟨_, h2⟩ | h3) <;> omega
  simp only [List.length_cons, checkGrammarLoop]
  rw [if_pos hc, hs]

theorem parse.inside_shape (processed : List Token) (t : Token) (remaining : List Token) :
    processed ++ ((t :: remaining) ++ [Token.new "Invalid"]) =
      (processed ++ [t]) ++ (remaining ++ [Token.new "Invalid"]) := by simp

theorem parse.inside_get (processed : List Token) (t : Token) (remaining : List Token) :
    (processed ++ ((t :: remaining) ++ [Token.new "Invalid"])).getD processed.length default =
      t := by
  rw [List.cons_append]
  exact list_getD_middle processed t _ default

theorem parse.inside_next (processed : List Token) (t : Token) (remaining : List Token) :
    ((processed ++ ((t :: remaining) ++ [Token.new "Invalid"])).getD (processed.length + 1)
      default).token_type = nextType remaining := by
  rw [List.cons_append, list_getD_next _ processed t _ processed.length default rfl rfl]
  rfl

theorem parse.inside_data (size : Nat) (processed : List Token) (t : Token)
    (remaining : List Token) (p : Int) (stk : List Nat)
    (hsize : size = processed.length + (t :: remaining).length) (hp : 1 ≤ p)
    (ht : t.token_type = INT32 ∨ t.token_type = INT64 ∨ t.token_type = FLOAT32 ∨
      t.token_type = FLOAT64 ∨ t.token_type = STRING ∨ t.token_type = BOOLEAN ∨
      t.token_type = COLUMN) :
    grammarLoopInside size processed (t :: remaining) p true stk =
      grammarLoopInside size (processed ++ [t]) remaining p
        (hasBit (nextType remaining) (COMMA ||| P_CLOSE)) stk := by
  rw [parse.inside_step size processed t remaining p stk _ hsize hp
    (parse.step_data _ p true true stk processed.length
      (by rw [parse.inside_get]; exact ht))]
  unfold grammarLoopInside
  rw [parse.inside_next, parse.inside_shape, List.length_append, List.length_singleton]

theorem parse.inside_function (size : Nat) (processed : List Token) (t : Token)
    (remaining : List Token) (p : Int) (stk : List Nat)
    (hsize : size = processed.length + (t :: remaining).length) (hp : 1 ≤ p)
    (ht : t.token_type = FUNCTION) :
    grammarLoopInside size processed (t :: remaining) p true stk =
      grammarLoopInside size (processed ++ [t]) remaining p
        (hasBit (nextType remaining) P_OPEN) (processed.length :: stk) := by
  rw [parse.inside_step size processed t remaining p stk _ hsize hp
    (parse.step_function _ p true true stk processed.length
      (by rw [parse.inside_get]; exact ht))]
  unfold grammarLoopInside
  rw [parse.inside_next, parse.inside_shape, List.length_append, List.length_singleton]

theorem parse.inside_comma (size : Nat) (processed : List Token) (t : Token)
    (remaining : List Token) (p : Int) (stk : List Nat)
    (hsize : size = processed.length + (t :: remaining).length) (hp : 1 ≤ p)
    (ht : t.token_type = COMMA) :
    grammarLoopInside size processed (t :: remaining) p true stk =
      grammarLoopInside size (processed ++ [t]) remaining p
        (hasBit (nextType remaining) (TT_DATAC ||| FUNCTION)) stk := by
  rw [parse.inside_step size processed t remaining p stk _ hsize hp
    (parse.step_comma _ p true true stk processed.length
      (by rw [parse.inside_get]; exact ht))]
  unfold grammarLoopInside
  rw [parse.inside_next, parse.inside_shape, List.length_append, List.length_singleton]

theorem parse.inside_p_open (size : Nat) (processed : List Token) (t : Token)
    (remaining : List Token) (p : Int) (stk : List Nat)
    (hsize : size = processed.length + (t :: remaining).length) (hp : 1 ≤ p)
    (ht : t.token_type = P_OPEN) (h16 : p < 32767) :
    grammarLoopInside size processed (t :: remaining) p true stk =
      grammarLoopInside size (processed ++ [t]) remaining (p + 1)
        (hasBit (nextType remaining) (TT_DATAC ||| FUNCTION ||| P_CLOSE)) stk := by
  rw [parse.inside_step size processed t remaining p stk _ hsize hp
    (parse.step_p_open _ p true true stk processed.length
      (by rw [parse.inside_get]; exact ht) (by omega) h16)]
  unfold grammarLoopInside
  rw [parse.inside_next, parse.inside_shape, List.length_append, List.length_singleton]

/-- The loop of `checkGrammar` at an opening parenthesis on the highest level that `p_level`
holds: the level becomes negative, and the loop ends in a way that makes `checkGrammar`
fail. -/
theorem parse.inside_p_open_wrap (size : Nat) (processed : List Token) (t : Token)
    (remaining : List Token) (p : Int) (stk : List Nat)
    (hsize : size = processed.length + (t :: remaining).length) (hp : p = 32767)
    (ht : t.token_type = P_OPEN) :
    Rejects size (grammarLoopInside size processed (t :: remaining) p true stk) := by
  subst hp
  rw [parse.inside_step size processed t remaining 32767 stk _ hsize (by decide)
    (parse.step_p_open_raw _ 32767 true true stk processed.length
      (by rw [parse.inside_get]; exact ht)), fnc.wrapSigned_int16_max]
  rw [parse.loop_stop _ _ _ _ (by
    rintro ⟨_, _, hx⟩
    exact hx (Or.inr (by show (-32768 : Int) < 0; decide)))]
  exact Or.inr (by show (-32768 : Int) ≠ 0; decide)

/-- The loop of `checkGrammar` at a closing parenthesis: it ends with an exception, or goes
on behind the parenthesis one level lower, the stack popped. -/
theorem parse.inside_p_close (size : Nat) (processed : List Token) (t : Token)
    (remaining : List Token) (p : Int) (top : Nat) (stk : List Nat)
    (hsize : size = processed.length + (t :: remaining).length) (hp : 1 ≤ p)
    (htop : top < processed.length) (ht : t.token_type = P_CLOSE) (h16 : p ≤ 32767) :
    Rejects size (grammarLoopInside size processed (t :: remaining) p true (top :: stk)) ∨
      ∃ processed1 : List Token, processed1.length = processed.length + 1 ∧
        grammarLoopInside size processed (t :: remaining) p true (top :: stk) =
          grammarLoopInside size processed1 remaining (p - 1)
            (hasBit (nextType remaining) (COMMA ||| P_CLOSE ||| INVALID)) stk := by
  cases he : ((processed ++ ((t :: remaining) ++ [Token.new "Invalid"])).getD top
      default).element with
  | fncInfo info =>
    right
    refine ⟨processed.set top
      { (processed ++ ((t :: remaining) ++ [Token.new "Invalid"])).getD top default with
        element := Element.fncInfo { info with end_token := processed.length } } ++ [t],
      by simp, ?_⟩
    rw [parse.inside_step size processed t remaining p (top :: stk) _ hsize hp
      (parse.step_p_close _ p true true stk processed.length top info
        (by rw [parse.inside_get]; exact ht) he (by omega) h16)]
    unfold grammarLoopInside
    rw [parse.inside_next, List.set_append_left _ _ htop]
    simp only [List.length_append, List.length_singleton, List.length_set, List.append_assoc,
      List.cons_append, List.nil_append, List.singleton_append]
  | colInfo index type =>
    left
    rw [parse.inside_step_error size processed t remaining p (top :: stk) .bad_variant_access
      hsize hp (by
        simp only [checkGrammarStep, parse.inside_get, ht, he, Element.asFncInfo]
        rfl)]
    trivial
  | data v =>
    left
    rw [parse.inside_step_error size processed t remaining p (top :: stk) .bad_variant_access
      hsize hp (by
        simp only [checkGrammarStep, parse.inside_get, ht, he, Element.asFncInfo]
        rfl)]
    trivial

end km

namespace km

open parse

mutual
theorem parse.Expr.tokensAt_false : ∀ (e : Expr) (o : Nat),
    e.tokensAt false o = e.tokensAt false 0
  | .literal _ _, _ => rfl
  | .column _, _ => rfl
  | .call name args, o => by
    simp only [Expr.tokensAt, Bool.false_eq_true, if_false]
    rw [parse.Args.tokensAt_false_args args (o + 1), parse.Args.tokensAt_false_args args (0 + 1)]
theorem parse.Args.tokensAt_false_args : ∀ (args : Args) (o : Nat),
    args.tokensAt false o = args.tokensAt false 0
  | .nil, _ => rfl
  | .cons e rest, o => by
    simp only [Args.tokensAt]
    rw [parse.Expr.tokensAt_false e (o + 1), parse.Expr.tokensAt_false e (0 + 1),
      parse.Args.tokensAt_false_args rest (o + 1 + e.size),
      parse.Args.tokensAt_false_args rest (0 + 1 + e.size)]
end

theorem parse.mask_bits :
    hasBit INVALID (TT_DATAC ||| FUNCTION ||| P_CLOSE) = false ∧
      hasBit INVALID (TT_DATAC ||| FUNCTION) = false ∧ hasBit INVALID P_OPEN = false ∧
      hasBit P_OPEN (TT_DATAC ||| FUNCTION ||| P_CLOSE) = false ∧
      hasBit COMMA (TT_DATAC ||| FUNCTION ||| P_CLOSE) = false ∧
      hasBit P_CLOSE (TT_DATAC ||| FUNCTION ||| P_CLOSE) = true ∧
      hasBit P_OPEN (TT_DATAC ||| FUNCTION) = false ∧
      hasBit COMMA (TT_DATAC ||| FUNCTION) = false ∧
      hasBit P_CLOSE (TT_DATAC ||| FUNCTION) = false ∧
      hasBit COLUMN P_OPEN = false ∧ hasBit FUNCTION P_OPEN = false ∧
      hasBit P_CLOSE P_OPEN = false ∧ hasBit COMMA P_OPEN = false := by decide

theorem parse.literal_start (kind : LiteralKind) :
    hasBit kind.token_type (TT_DATAC ||| FUNCTION) = true ∧
      hasBit kind.token_type (TT_DATAC ||| FUNCTION ||| P_CLOSE) = true := by
  cases kind <;> decide

theorem parse.column_start :
    hasBit COLUMN (TT_DATAC ||| FUNCTION) = true ∧
      hasBit COLUMN (TT_DATAC ||| FUNCTION ||| P_CLOSE) = true := by decide

theorem parse.function_start :
    hasBit FUNCTION (TT_DATAC ||| FUNCTION) = true ∧
      hasBit FUNCTION (TT_DATAC ||| FUNCTION ||| P_CLOSE) = true := by decide

theorem parse.literal_not_open (kind : LiteralKind) :
    hasBit kind.token_type P_OPEN = false := by
  cases kind <;> decide

theorem parse.follow_bits (mask : Nat)
    (hm : mask = COMMA ||| P_CLOSE ∨ mask = COMMA ||| P_CLOSE ||| INVALID) :
    hasBit COMMA mask = true ∧ hasBit P_CLOSE mask = true ∧ hasBit COLUMN mask = false ∧
      hasBit FUNCTION mask = false ∧ hasBit P_OPEN mask = false ∧
      ∀ kind : LiteralKind, hasBit kind.token_type mask = false := by
  rcases hm with rfl | rfl
  · exact ⟨by decide, by decide, by decide, by decide, by decide,
      fun kind => by cases kind <;> decide⟩
  · exact ⟨by decide, by decide, by decide, by decide, by decide,
      fun kind => by cases kind <;> decide⟩

theorem parse.followMask_cases (e : Expr) :
    e.followMask = COMMA ||| P_CLOSE ∨ e.followMask = COMMA ||| P_CLOSE ||| INVALID := by
  cases e with
  | literal kind text =>
    left
    simp only [Expr.followMask, Expr.isCall, Bool.false_eq_true, if_false]
  | column text =>
    left
    simp only [Expr.followMask, Expr.isCall, Bool.false_eq_true, if_false]
  | call name args =>
    right
    simp only [Expr.followMask, Expr.isCall, if_true]

theorem parse.rejects_stop (size : Nat) (processed remaining : List Token) (p : Int)
    (stk : List Nat) (hp : 1 ≤ p) :
    Rejects size (grammarLoopInside size processed remaining p false stk) := by
  rw [parse.inside_stop]
  exact Or.inr (by show p ≠ 0; omega)

theorem parse.sound_zero : SoundExpr 0 ∧ SoundArgs 0 := by
  constructor
  · intro size P S p stk hlen _ _ _ _ hstart
    have hS : S = [] := List.length_eq_zero.mp (by omega)
    subst hS
    rw [parse.nextType_nil, parse.mask_bits.2.1] at hstart
    cases hstart
  · intro size P S p top stk mask hlen _ _ hp _ _ _
    have hS : S = [] := List.length_eq_zero.mp (by omega)
    subst hS
    left
    rw [parse.inside_end]
    exact Or.inr (by show p ≠ 0; omega)

/-- The loop of `checkGrammar` behind the opening parenthesis of a call that has an
argument. -/
theorem parse.sound_call_start (n : Nat) (hE : SoundExpr n) (hA : SoundArgs n)
    (size : Nat) (P S : List Token) (q : Int) (top : Nat) (stk : List Nat)
    (hlen : S.length ≤ n) (hsize : size = P.length + S.length) (hlex : ∀ t ∈ S, t.Lexed)
    (hq : 1 ≤ q) (hq16 : q ≤ 32767) (htop : top < P.length)
    (hb : hasBit (nextType S) (TT_DATAC ||| FUNCTION) = true) :
    Rejects size (grammarLoopInside size P S q true (top :: stk)) ∨
      ∃ (args : Args) (S1 P1 : List Token),
        S = (args.tokensAt false 0).tail ++ Token.p_close :: S1 ∧
        P1.length = P.length + (args.size - 1) + 1 ∧
        grammarLoopInside size P S q true (top :: stk) =
          grammarLoopInside size P1 S1 (q - 1)
            (hasBit (nextType S1) (COMMA ||| P_CLOSE ||| INVALID)) stk := by
  rcases hE size P S q (top :: stk) hlen hsize hlex hq hq16 hb with
    hr | ⟨e, S1', P1', hSe, hP1', hloop⟩
  · exact Or.inl hr
  · have hel : e.tokens.length = e.size := parse.Expr.tokensAt_length false e 0
    have hSlen : S.length = e.size + S1'.length := by
      rw [hSe, List.length_append, hel]
    rcases hA size P1' S1' q top stk e.followMask (by omega) (by omega)
      (fun t ht => hlex t (by rw [hSe]; exact List.mem_append_right _ ht)) hq hq16 (by omega)
      (parse.followMask_cases e) with hr | ⟨args, S1, P1, hSa, hP1, hloop2⟩
    · exact Or.inl (by rw [hloop]; exact hr)
    · refine Or.inr ⟨Args.cons e args, S1, P1, ?_, ?_, by rw [hloop, hloop2]⟩
      · rw [hSe, hSa]
        simp only [Args.tokensAt, List.tail_cons, List.append_assoc]
        rw [parse.Expr.tokensAt_false e (0 + 1),
          parse.Args.tokensAt_false_args args (0 + 1 + e.size)]
        rfl
      · simp only [Args.size]
        omega

/-- The loop of `checkGrammar` behind the opening parenthesis of a call. -/
theorem parse.sound_call_body (n : Nat) (hE : SoundExpr n) (hA : SoundArgs n)
    (size : Nat) (P S : List Token) (q : Int) (top : Nat) (stk : List Nat)
    (hlen : S.length ≤ n) (hsize : size = P.length + S.length) (hlex : ∀ t ∈ S, t.Lexed)
    (hq : 1 ≤ q) (hq16 : q ≤ 32767) (htop : top < P.length) :
    Rejects size
        (grammarLoopInside size P S q
          (hasBit (nextType S) (TT_DATAC ||| FUNCTION ||| P_CLOSE)) (top :: stk)) ∨
      ∃ (args : Args) (S1 P1 : List Token),
        S = (args.tokensAt false 0).tail ++ Token.p_close :: S1 ∧
        P1.length = P.length + (args.size - 1) + 1 ∧
        grammarLoopInside size P S q
            (hasBit (nextType S) (TT_DATAC ||| FUNCTION ||| P_CLOSE)) (top :: stk) =
          grammarLoopInside size P1 S1 (q - 1)
            (hasBit (nextType S1) (COMMA ||| P_CLOSE ||| INVALID)) stk := by
  have hstart : hasBit (nextType S) (TT_DATAC ||| FUNCTION) = true →
      hasBit (nextType S) (TT_DATAC ||| FUNCTION ||| P_CLOSE) = true →
      Rejects size
        (grammarLoopInside size P S q
          (hasBit (nextType S) (TT_DATAC ||| FUNCTION ||| P_CLOSE)) (top :: stk)) ∨
      ∃ (args : Args) (S1 P1 : List Token),
        S = (args.tokensAt false 0).tail ++ Token.p_close :: S1 ∧
        P1.length = P.length + (args.size - 1) + 1 ∧
        grammarLoopInside size P S q
            (hasBit (nextType S) (TT_DATAC ||| FUNCTION ||| P_CLOSE)) (top :: stk) =
          grammarLoopInside size P1 S1 (q - 1)
            (hasBit (nextType S1) (COMMA ||| P_CLOSE ||| INVALID)) stk := by
    intro hb hb3
    rw [hb3]
    exact parse.sound_call_start n hE hA size P S q top stk hlen hsize hlex hq hq16 htop hb
  revert hstart
  cases S with
  | nil =>
    intro _
    left
    rw [parse.nextType_nil, parse.mask_bits.1]
    exact parse.rejects_stop size P [] q (top :: stk) hq
  | cons t S' =>
    intro hstart
    rcases hlex t (List.mem_cons_self _ _) with
      ⟨kind, text, rfl⟩ | ⟨text, rfl⟩ | ⟨name, rfl⟩ | rfl | rfl | rfl
    · exact hstart (by rw [parse.nextType_cons]; exact (parse.literal_start kind).1)
        (by rw [parse.nextType_cons]; exact (parse.literal_start kind).2)
    · exact hstart (by rw [parse.nextType_cons]; exact parse.column_start.1)
        (by rw [parse.nextType_cons]; exact parse.column_start.2)
    · exact hstart (by rw [parse.nextType_cons]; exact parse.function_start.1)
        (by rw [parse.nextType_cons]; exact parse.function_start.2)
    · left
      rw [parse.nextType_cons]
      have hb : hasBit Token.p_open.token_type (TT_DATAC ||| FUNCTION ||| P_CLOSE) = false :=
        parse.mask_bits.2.2.2.1
      rw [hb]
      exact parse.rejects_stop size P _ q (top :: stk) hq
    · rw [parse.nextType_cons]
      have hb : hasBit Token.p_close.token_type (TT_DATAC ||| FUNCTION ||| P_CLOSE) = true :=
        parse.mask_bits.2.2.2.2.2.1
      rw [hb]
      rcases parse.inside_p_close size P Token.p_close S' q top stk hsize hq htop rfl hq16 with
        hr | ⟨P1, hP1, hloop⟩
      · exact Or.inl hr
      · exact Or.inr ⟨Args.nil, S', P1, rfl, by simp only [Args.size]; omega, hloop⟩
    · left
      rw [parse.nextType_cons]
      have hb : hasBit Token.comma.token_type (TT_DATAC ||| FUNCTION ||| P_CLOSE) = false :=
        parse.mask_bits.2.2.2.2.1
      rw [hb]
      exact parse.rejects_stop size P _ q (top :: stk) hq

end km

namespace km

open parse

theorem parse.sound_expr_succ (n : Nat) (hE : SoundExpr n) (hA : SoundArgs n) :
    SoundExpr (n + 1) := by
  intro size P S p stk hlen hsize hlex hp h16 hstart
  cases S with
  | nil =>
    rw [parse.nextType_nil, parse.mask_bits.2.1] at hstart
    cases hstart
  | cons t S' =>
    have hlen' : S'.length ≤ n := by
      simp only [List.length_cons] at hlen
      omega
    have hlex' : ∀ u ∈ S', u.Lexed := fun u hu => hlex u (List.mem_cons_of_mem _ hu)
    rcases hlex t (List.mem_cons_self _ _) with
      ⟨kind, text, rfl⟩ | ⟨text, rfl⟩ | ⟨name, rfl⟩ | rfl | rfl | rfl
    · right
      refine ⟨Expr.literal kind text, S', P ++ [Token.fresh text kind.token_type], rfl,
        by simp [Expr.size], ?_⟩
      simp only [Expr.followMask, Expr.isCall, Bool.false_eq_true, if_false]
      exact parse.inside_data size P _ S' p stk hsize hp (parse.LiteralKind.isData kind)
    · right
      refine ⟨Expr.column text, S', P ++ [Token.fresh text COLUMN], rfl,
        by simp [Expr.size], ?_⟩
      simp only [Expr.followMask, Expr.isCall, Bool.false_eq_true, if_false]
      exact parse.inside_data size P _ S' p stk hsize hp
        (Or.inr (Or.inr (Or.inr (Or.inr (Or.inr (Or.inr rfl))))))
    · rw [parse.inside_function size P _ S' p stk hsize hp rfl]
      have hsize1 : size = (P ++ [Token.function name 0]).length + S'.length := by
        simp only [List.length_append, List.length_cons, List.length_nil] at hsize ⊢
        omega
      cases S' with
      | nil =>
        left
        rw [parse.nextType_nil, parse.mask_bits.2.2.1]
        exact parse.rejects_stop size _ [] p _ hp
      | cons t1 S2 =>
        have hrej : hasBit t1.token_type P_OPEN = false →
            Rejects size (grammarLoopInside size (P ++ [Token.function name 0]) (t1 :: S2) p
              (hasBit (nextType (t1 :: S2)) P_OPEN) (P.length :: stk)) := by
          intro hb
          rw [parse.nextType_cons, hb]
          exact parse.rejects_stop size _ _ p _ hp
        rcases hlex' t1 (List.mem_cons_self _ _) with
          ⟨kind, text, rfl⟩ | ⟨text, rfl⟩ | ⟨name1, rfl⟩ | rfl | rfl | rfl
        · exact Or.inl (hrej (parse.literal_not_open kind))
        · exact Or.inl (hrej parse.mask_bits.2.2.2.2.2.2.2.2.2.1)
        · exact Or.inl (hrej parse.mask_bits.2.2.2.2.2.2.2.2.2.2.1)
        · rw [parse.nextType_cons]
          have hb : hasBit Token.p_open.token_type P_OPEN = true := by decide
          rw [hb]
          by_cases hlt : p < 32767
          · rw [parse.inside_p_open size _ Token.p_open S2 p _ hsize1 hp rfl hlt]
            have hlen2 : S2.length ≤ n := by
              simp only [List.length_cons] at hlen'
              omega
            rcases parse.sound_call_body n hE hA size
              (P ++ [Token.function name 0] ++ [Token.p_open]) S2 (p + 1) P.length stk hlen2
              (by
                simp only [List.length_append, List.length_cons, List.length_nil] at hsize ⊢
                omega)
              (fun u hu => hlex' u (List.mem_cons_of_mem _ hu)) (by omega) (by omega)
              (by simp only [List.length_append, List.length_singleton]; omega) with
              hr | ⟨args, S1, P1, hS2, hP1, hloop⟩
            · exact Or.inl hr
            · refine Or.inr ⟨Expr.call name args, S1, P1, ?_, ?_, ?_⟩
              · rw [hS2]
                simp only [Expr.tokens, Expr.tokensAt, Bool.false_eq_true, if_false,
                  List.cons_append, List.append_assoc, List.singleton_append]
                rw [parse.Args.tokensAt_false_args args (0 + 1)]
                rfl
              · rw [hP1]
                simp only [List.length_append, List.length_singleton, Expr.size]
                omega
              · rw [hloop]
                have hq : p + 1 - 1 = p := by omega
                rw [hq]
                simp only [Expr.followMask, Expr.isCall, if_true]
          · exact Or.inl (parse.inside_p_open_wrap size _ Token.p_open S2 p _ hsize1 (by omega)
              rfl)
        · exact Or.inl (hrej parse.mask_bits.2.2.2.2.2.2.2.2.2.2.2.1)
        · exact Or.inl (hrej parse.mask_bits.2.2.2.2.2.2.2.2.2.2.2.2)
    · rw [parse.nextType_cons] at hstart
      exact absurd hstart (by
        have hb : hasBit Token.p_open.token_type (TT_DATAC ||| FUNCTION) = false :=
          parse.mask_bits.2.2.2.2.2.2.1
        rw [hb]
        exact Bool.false_ne_true)
    · rw [parse.nextType_cons] at hstart
      exact absurd hstart (by
        have hb : hasBit Token.p_close.token_type (TT_DATAC ||| FUNCTION) = false :=
          parse.mask_bits.2.2.2.2.2.2.2.2.1
        rw [hb]
        exact Bool.false_ne_true)
    · rw [parse.nextType_cons] at hstart
      exact absurd hstart (by
        have hb : hasBit Token.comma.token_type (TT_DATAC ||| FUNCTION) = false :=
          parse.mask_bits.2.2.2.2.2.2.2.1
        rw [hb]
        exact Bool.false_ne_true)

theorem parse.sound_args_succ (n : Nat) (hE : SoundExpr n) (hA : SoundArgs n) :
    SoundArgs (n + 1) := by
  intro size P S p top stk mask hlen hsize hlex hp h16 htop hm
  have hbits := parse.follow_bits mask hm
  cases S with
  | nil =>
    left
    rw [parse.inside_end]
    exact Or.inr (by show p ≠ 0; omega)
  | cons t S' =>
    have hlen' : S'.length ≤ n := by
      simp only [List.length_cons] at hlen
      omega
    have hlex' : ∀ u ∈ S', u.Lexed := fun u hu => hlex u (List.mem_cons_of_mem _ hu)
    have hrej : hasBit t.token_type mask = false →
        Rejects size (grammarLoopInside size P (t :: S') p
          (hasBit (nextType (t :: S')) mask) (top :: stk)) := by
      intro hb
      rw [parse.nextType_cons, hb]
      exact parse.rejects_stop size _ _ p _ hp
    rcases hlex t (List.mem_cons_self _ _) with
      ⟨kind, text, rfl⟩ | ⟨text, rfl⟩ | ⟨name, rfl⟩ | rfl | rfl | rfl
    · exact Or.inl (hrej (hbits.2.2.2.2.2 kind))
    · exact Or.inl (hrej hbits.2.2.1)
    · exact Or.inl (hrej hbits.2.2.2.1)
    · exact Or.inl (hrej hbits.2.2.2.2.1)
    · rw [parse.nextType_cons]
      have hb : hasBit Token.p_close.token_type mask = true := hbits.2.1
      rw [hb]
      rcases parse.inside_p_close size P Token.p_close S' p top stk hsize hp htop rfl h16 with
        hr | ⟨P1, hP1, hloop⟩
      · exact Or.inl hr
      · exact Or.inr ⟨Args.nil, S', P1, rfl, by simp only [Args.size]; omega, hloop⟩
    · rw [parse.nextType_cons]
      have hb : hasBit Token.comma.token_type mask = true := hbits.1
      rw [hb, parse.inside_comma size P Token.comma S' p _ hsize hp rfl]
      have hsize1 : size = (P ++ [Token.comma]).length + S'.length := by
        simp only [List.length_append, List.length_cons, List.length_nil] at hsize ⊢
        omega
      cases hv : hasBit (nextType S') (TT_DATAC ||| FUNCTION) with
      | false =>
        left
        exact parse.rejects_stop size _ _ p _ hp
      | true =>
        rcases hE size (P ++ [Token.comma]) S' p (top :: stk) hlen' hsize1 hlex' hp h16 hv with
          hr | ⟨e, S1', P1', hSe, hP1', hloop⟩
        · exact Or.inl hr
        · have hel : e.tokens.length = e.size := parse.Expr.tokensAt_length false e 0
          have hSlen : S'.length = e.size + S1'.length := by
            rw [hSe, List.length_append, hel]
          have hPl : (P ++ [Token.comma]).length = P.length + 1 := by simp
          rcases hA size P1' S1' p top stk e.followMask (by omega) (by omega)
            (fun u hu => hlex' u (by rw [hSe]; exact List.mem_append_right _ hu)) hp h16
            (by omega) (parse.followMask_cases e) with hr | ⟨args, S1, P1, hSa, hP1, hloop2⟩
          · exact Or.inl (by rw [hloop]; exact hr)
          · refine Or.inr ⟨Args.cons e args, S1, P1, ?_, ?_, by rw [hloop, hloop2]⟩
            · rw [hSe, hSa]
              simp only [Args.tokensAt, List.cons_append, List.append_assoc]
              rw [parse.Expr.tokensAt_false e (0 + 1),
                parse.Args.tokensAt_false_args args (0 + 1 + e.size)]
              rfl
            · simp only [Args.size]
              omega

theorem parse.sound_all : ∀ n, SoundExpr n ∧ SoundArgs n
  | 0 => parse.sound_zero
  | n + 1 =>
    ⟨parse.sound_expr_succ n (parse.sound_all n).1 (parse.sound_all n).2,
      parse.sound_args_succ n (parse.sound_all n).1 (parse.sound_all n).2⟩

end km

namespace km

open parse

theorem parse.flush_new (st : LexState)
    (h : ∀ t ∈ st.token_vec, ∃ text, t = Token.new text) :
    ∀ t ∈ st.flush.token_vec, ∃ text, t = Token.new text := by
  unfold LexState.flush
  by_cases hc : st.current_token.isEmpty = true
  · simpa only [hc, if_true] using h
  · simp only [hc, Bool.false_eq_true, if_false]
    intro t ht
    rcases List.mem_append.mp ht with ht | ht
    · exact h t ht
    · exact ⟨_, List.mem_singleton.mp ht⟩

theorem parse.parseStep_new (st : LexState) (c : Char)
    (h : ∀ t ∈ st.token_vec, ∃ text, t = Token.new text) :
    ∀ t ∈ (parseStep st c).token_vec, ∃ text, t = Token.new text := by
  have hfl := parse.flush_new st h
  unfold parseStep
  by_cases h1 : st.is_string = true
  · simp only [h1, if_true]
    by_cases h2 : c = '"'
    · simp only [h2, if_true]
      intro t ht
      rcases List.mem_append.mp ht with ht | ht
      · exact h t ht
      · exact ⟨_, List.mem_singleton.mp ht⟩
    · simpa only [h2, if_false] using h
  · simp only [h1, Bool.false_eq_true, if_false]
    by_cases h2 : c = '"'
    · simpa only [h2, if_true] using hfl
    · simp only [h2, if_false]
      by_cases h3 : c = ' ' ∨ c = ','
      · simp only [h3, if_true]
        by_cases h4 : c = ','
        · simp only [h4, if_true]
          intro t ht
          rcases List.mem_append.mp ht with ht | ht
          · exact hfl t ht
          · exact ⟨_, List.mem_singleton.mp ht⟩
        · simpa only [h4, if_false] using hfl
      · simp only [h3, if_false]
        by_cases h4 : c = '(' ∨ c = ')'
        · simp only [h4, if_true]
          intro t ht
          rcases List.mem_append.mp ht with ht | ht
          · exact hfl t ht
          · exact ⟨_, List.mem_singleton.mp ht⟩
        · simpa only [h4, if_false] using h

theorem parse.foldl_parseStep_new : ∀ (cs : List Char) (st : LexState),
    (∀ t ∈ st.token_vec, ∃ text, t = Token.new text) →
    ∀ t ∈ (cs.foldl parseStep st).token_vec, ∃ text, t = Token.new text
  | [], _, h => h
  | c :: cs, st, h => by
    rw [List.foldl_cons]
    exact parse.foldl_parseStep_new cs (parseStep st c) (parse.parseStep_new st c h)

theorem parse.string_of_data (text : String) (cs : List Char) (h : text.data = cs) :
    text = String.mk cs := by
  cases text
  simp only at h
  rw [h]

/-- A token that `resolveTokenType` gives a type other than `INVALID` is a token of the
formula language. -/
theorem parse.resolveTokenType_lexed (text : String)
    (h : (resolveTokenType (Token.new text)).token_type ≠ INVALID) :
    (resolveTokenType (Token.new text)).Lexed := by
  unfold resolveTokenType at h ⊢
  have ht : (Token.new text).text = text := rfl
  rw [ht] at h ⊢
  generalize regexInt32 text.data = b1 at h ⊢
  generalize regexInt64 text.data = b2 at h ⊢
  generalize regexFloat32 text.data = b3 at h ⊢
  generalize regexFloat64 text.data = b4 at h ⊢
  generalize regexString text.data = b5 at h ⊢
  generalize regexBoolean text.data = b6 at h ⊢
  generalize regexColumn text.data = b7 at h ⊢
  generalize regexFunction text.data = b8 at h ⊢
  generalize (text.data.all fun x => !isLineTerminator x) = b12 at h ⊢
  cases b1
  swap
  · exact Or.inl ⟨.int32, text, rfl⟩
  cases b2
  swap
  · exact Or.inl ⟨.int64, text, rfl⟩
  cases b3
  swap
  · exact Or.inl ⟨.float32, text, rfl⟩
  cases b4
  swap
  · exact Or.inl ⟨.float64, text, rfl⟩
  cases b5
  swap
  · exact Or.inl ⟨.string, text, rfl⟩
  cases b6
  swap
  · exact Or.inl ⟨.boolean, text, rfl⟩
  cases b7
  swap
  · exact Or.inr (Or.inl ⟨text, rfl⟩)
  cases b8
  swap
  · exact Or.inr (Or.inr (Or.inl ⟨text, rfl⟩))
  simp only [Bool.false_eq_true, if_false] at h ⊢
  by_cases h9 : text.data = ['(']
  · rw [if_pos h9]
    refine Or.inr (Or.inr (Or.inr (Or.inl ?_)))
    rw [parse.string_of_data text _ h9]
    rfl
  rw [if_neg h9] at h ⊢
  by_cases h10 : text.data = [')']
  · rw [if_pos h10]
    refine Or.inr (Or.inr (Or.inr (Or.inr (Or.inl ?_))))
    rw [parse.string_of_data text _ h10]
    rfl
  rw [if_neg h10] at h ⊢
  by_cases h11 : text.data = [',']
  · rw [if_pos h11]
    refine Or.inr (Or.inr (Or.inr (Or.inr (Or.inr ?_))))
    rw [parse.string_of_data text _ h11]
    rfl
  rw [if_neg h11] at h
  cases b12
  · exact absurd rfl h
  · exact absurd rfl h

/-- The tokens that `parseToTokens` delivers are tokens of the formula language. -/
theorem parse.parseToTokens_lexed (formula : String) (ts : List Token)
    (h : parseToTokens formula = some ts) : ∀ t ∈ ts, t.Lexed := by
  unfold parseToTokens at h
  simp only [] at h
  split_ifs at h with h1 h2
  simp only [Option.some.injEq] at h
  subst h
  intro t ht
  obtain ⟨raw, hraw, rfl⟩ := List.mem_map.mp ht
  obtain ⟨text, rfl⟩ := parse.foldl_parseStep_new (formula.data ++ [' ']) ⟨[], [], false⟩
    (by simp) raw hraw
  apply parse.resolveTokenType_lexed
  intro hinv
  apply h2
  rw [List.any_eq_true]
  exact ⟨_, ht, by simpa using hinv⟩

end km

namespace km

open parse

theorem parse.single_bits :
    hasBit FUNCTION TT_DATAC = false ∧ hasBit P_OPEN TT_DATAC = false ∧
      hasBit P_CLOSE TT_DATAC = false ∧ hasBit COMMA TT_DATAC = false ∧
      hasBit COLUMN FUNCTION = false ∧ hasBit P_OPEN FUNCTION = false ∧
      hasBit P_CLOSE FUNCTION = false ∧ hasBit COMMA FUNCTION = false := by decide

theorem parse.false_of_bit (a b : Nat) (hfalse : hasBit a b = false)
    (h : hasBit a b = true) : False := by
  rw [hfalse] at h
  cases h

theorem parse.checkGrammar_long (t t1 : Token) (S2 : List Token)
    (hf : hasBit t.token_type FUNCTION = true) :
    checkGrammar (t :: t1 :: S2) =
      match checkGrammarLoop (S2.length + 2) (S2.length + 2) 0
          ⟨(t :: t1 :: S2) ++ [Token.new "Invalid"], 0, true, false, []⟩ with
      | .error e => .error e
      | .ok (i, st) =>
        if i ≠ S2.length + 2 ∨ st.p_level ≠ 0 then .ok none
        else .ok (some st.token_vec.dropLast) := by
  unfold checkGrammar
  have h0 : ¬ (t :: t1 :: S2).length = 0 := by simp
  have h1 : ¬ (t :: t1 :: S2).length = 1 := by simp
  rw [if_neg h0, if_neg h1]
  simp only [List.headD_cons, hf, Bool.not_true, Bool.false_eq_true, if_false,
    List.length_cons]
  try rfl

theorem parse.rejects_not_accepted (size : Nat) (r : Except Exn (Nat × GrammarState))
    (ts1 : List Token) (hr : Rejects size r) :
    (match r with
      | .error e => (.error e : Except Exn (Option (List Token)))
      | .ok (i, st) =>
        if i ≠ size ∨ st.p_level ≠ 0 then .ok none
        else .ok (some st.token_vec.dropLast)) ≠ .ok (some ts1) := by
  cases r with
  | error ex =>
    intro h
    cases h
  | ok r =>
    obtain ⟨i, st⟩ := r
    have hc : i ≠ size ∨ st.p_level ≠ 0 := hr
    simp only [if_pos hc]
    intro h
    cases h

/-- A sequence of tokens of the formula language that `checkGrammar` accepts is the token
sequence of an expression. -/
theorem parse.checkGrammar_sound (ts ts1 : List Token) (hl : ∀ t ∈ ts, t.Lexed)
    (h : checkGrammar ts = .ok (some ts1)) : ∃ e : Expr, ts = e.tokens := by
  cases ts with
  | nil =>
    simp [checkGrammar] at h
  | cons t S1 =>
    cases S1 with
    | nil =>
      have hcases : hasBit t.token_type TT_DATAC = true := by
        cases hb : hasBit t.token_type TT_DATAC
        · simp [checkGrammar, hb] at h
        · rfl
      rcases hl t (List.mem_cons_self _ _) with
        ⟨kind, text, rfl⟩ | ⟨text, rfl⟩ | ⟨name, rfl⟩ | rfl | rfl | rfl
      · exact ⟨Expr.literal kind text, rfl⟩
      · exact ⟨Expr.column text, rfl⟩
      · exact (parse.false_of_bit _ _ parse.single_bits.1 hcases).elim
      · exact (parse.false_of_bit _ _ parse.single_bits.2.1 hcases).elim
      · exact (parse.false_of_bit _ _ parse.single_bits.2.2.1 hcases).elim
      · exact (parse.false_of_bit _ _ parse.single_bits.2.2.2.1 hcases).elim
    | cons t1 S2 =>
      have hfun : hasBit t.token_type FUNCTION = true := by
        cases hb : hasBit t.token_type FUNCTION
        · simp [checkGrammar, hb] at h
        · rfl
      rw [parse.checkGrammar_long t t1 S2 hfun] at h
      have hname : ∃ name, t = Token.function name 0 := by
        rcases hl t (List.mem_cons_self _ _) with
          ⟨kind, text, rfl⟩ | ⟨text, rfl⟩ | ⟨name, rfl⟩ | rfl | rfl | rfl
        · exact (parse.false_of_bit _ _ (parse.literal_flags kind).1 hfun).elim
        · exact (parse.false_of_bit _ _ parse.single_bits.2.2.2.2.1 hfun).elim
        · exact ⟨name, rfl⟩
        · exact (parse.false_of_bit _ _ parse.single_bits.2.2.2.2.2.1 hfun).elim
        · exact (parse.false_of_bit _ _ parse.single_bits.2.2.2.2.2.2.1 hfun).elim
        · exact (parse.false_of_bit _ _ parse.single_bits.2.2.2.2.2.2.2 hfun).elim
      obtain ⟨name, rfl⟩ := hname
      have hstep0 := parse.loop_step (S2.length + 2) 0
        ⟨(Token.function name 0 :: t1 :: S2) ++ [Token.new "Invalid"], 0, true, false, []⟩ _
        (by omega) rfl (le_refl _) (fun hx => absurd hx Bool.false_ne_true)
        (parse.step_function _ 0 true false [] 0 rfl)
      simp only [Nat.sub_zero, Nat.zero_add] at hstep0
      rw [hstep0] at h
      have hget1 : ((Token.function name 0 :: t1 :: S2) ++ [Token.new "Invalid"]).getD 1
          default = t1 := rfl
      rw [hget1] at h
      have hlex2 : ∀ u ∈ S2, u.Lexed := fun u hu =>
        hl u (List.mem_cons_of_mem _ (List.mem_cons_of_mem _ hu))
      have hrej : hasBit t1.token_type P_OPEN = false → False := by
        intro hb
        rw [hb, parse.loop_stop _ _ _ _ (by
          rintro ⟨_, hv, _⟩
          cases hv)] at h
        simp at h
      rcases hl t1 (List.mem_cons_of_mem _ (List.mem_cons_self _ _)) with
        ⟨kind, text, rfl⟩ | ⟨text, rfl⟩ | ⟨name1, rfl⟩ | rfl | rfl | rfl
      · exact (hrej (parse.literal_not_open kind)).elim
      · exact (hrej parse.mask_bits.2.2.2.2.2.2.2.2.2.1).elim
      · exact (hrej parse.mask_bits.2.2.2.2.2.2.2.2.2.2.1).elim
      · have hb : hasBit Token.p_open.token_type P_OPEN = true := by decide
        rw [hb] at h
        have hstep1 := parse.loop_step (S2.length + 2) 1
          ⟨(Token.function name 0 :: Token.p_open :: S2) ++ [Token.new "Invalid"], 0, true,
            false, [0]⟩ _
          (by omega) rfl (le_refl _) (fun hx => absurd hx Bool.false_ne_true)
          (parse.step_p_open _ 0 true false [0] 1 rfl (le_refl _) (by decide))
        have hfuel1 : S2.length + 2 - 1 = S2.length + 1 := by omega
        have hfuel2 : S2.length + 2 - (1 + 1) = S2.length := by omega
        rw [hfuel1, hfuel2] at hstep1
        rw [hfuel1, hstep1] at h
        have hinside : checkGrammarLoop (S2.length + 2) S2.length (1 + 1)
            ⟨(Token.function name 0 :: Token.p_open :: S2) ++ [Token.new "Invalid"], 0 + 1,
              hasBit (((Token.function name 0 :: Token.p_open :: S2) ++
                [Token.new "Invalid"]).getD (1 + 1) default).token_type
                (TT_DATAC ||| FUNCTION ||| P_CLOSE), true, [0]⟩ =
            grammarLoopInside (S2.length + 2) [Token.function name 0, Token.p_open] S2 1
              (hasBit (nextType S2) (TT_DATAC ||| FUNCTION ||| P_CLOSE)) [0] := by
          unfold grammarLoopInside
          cases S2 <;> rfl
        rw [hinside] at h
        rcases parse.sound_call_body S2.length (parse.sound_all S2.length).1
          (parse.sound_all S2.length).2 (S2.length + 2)
          [Token.function name 0, Token.p_open] S2 1 0 [] (le_refl _)
          (by simp only [List.length_cons, List.length_nil]; omega) hlex2 (le_refl _)
          (by decide) (by simp) with hr | ⟨args, S3, P1, hS2, hP1, hloop⟩
        · exact absurd h (parse.rejects_not_accepted _ _ ts1 hr)
        · rw [hloop] at h
          unfold grammarLoopInside at h
          rw [parse.loop_stop _ _ _ _ (by
            rintro ⟨_, _, hx⟩
            exact hx (Or.inl ⟨rfl, by simp⟩))] at h
          simp only [] at h
          have hP : P1.length = S2.length + 2 := by
            by_contra hne
            rw [if_pos (Or.inl hne)] at h
            cases h
          have hlen2 : S2.length = (args.size - 1) + 1 + S3.length := by
            rw [hS2]
            simp only [List.length_append, List.length_tail, List.length_cons,
              parse.Args.tokensAt_length_args]
            omega
          have hS3 : S3 = [] := by
            apply List.length_eq_zero.mp
            simp only [List.length_cons, List.length_nil] at hP1
            omega
          subst hS3
          refine ⟨Expr.call name args, ?_⟩
          rw [hS2]
          simp only [Expr.tokens, Expr.tokensAt, Bool.false_eq_true, if_false]
          rw [parse.Args.tokensAt_false_args args (0 + 1)]
      · exact (hrej parse.mask_bits.2.2.2.2.2.2.2.2.2.2.2.1).elim
      · exact (hrej parse.mask_bits.2.2.2.2.2.2.2.2.2.2.2.2).elim

end km
namespace km

open parse

theorem parse.parenLevel_congr : ∀ (a b : List Token),
    a.map Token.token_type = b.map Token.token_type → ∀ p, parenLevel p a = parenLevel p b
  | [], [], _, _ => rfl
  | [], _ :: _, h, _ => by simp at h
  | _ :: _, [], h, _ => by simp at h
  | t :: a, u :: b, h, p => by
    simp only [List.map_cons, List.cons.injEq] at h
    rw [parse.parenLevel_cons, parse.parenLevel_cons, h.1]
    exact parse.parenLevel_congr a b h.2 _

theorem parse.map_set_same : ∀ (l : List Token) (n : Nat) (t : Token),
    t.token_type = (l.getD n default).token_type →
    (l.set n t).map Token.token_type = l.map Token.token_type
  | [], _, _, _ => rfl
  | u :: l, 0, t, h => by
    simp only [List.set_cons_zero, List.map_cons, List.getD_cons_zero] at h ⊢
    rw [h]
  | u :: l, n + 1, t, h => by
    simp only [List.set_cons_succ, List.map_cons, List.getD_cons_succ] at h ⊢
    rw [parse.map_set_same l n t h]

/-- One iteration of the loop of `checkGrammar` leaves the types of the tokens as they are,
and moves the level of parentheses, within 16 bits, as the type of the token says. -/
theorem parse.step_types (st st1 : GrammarState) (i : Nat)
    (hs : checkGrammarStep st i = .ok st1) :
    st1.token_vec.map Token.token_type = st.token_vec.map Token.token_type ∧
      st1.token_vec.length = st.token_vec.length ∧
      st1.p_level =
        (if (st.token_vec.getD i default).token_type = P_OPEN then
          fnc.wrapSigned 16 (st.p_level + 1)
        else if (st.token_vec.getD i default).token_type = P_CLOSE then
          fnc.wrapSigned 16 (st.p_level - 1)
        else st.p_level) := by
  unfold checkGrammarStep at hs
  simp only [] at hs
  by_cases h1 : (st.token_vec.getD i default).token_type = INT32 ∨
      (st.token_vec.getD i default).token_type = INT64 ∨
      (st.token_vec.getD i default).token_type = FLOAT32 ∨
      (st.token_vec.getD i default).token_type = FLOAT64 ∨
      (st.token_vec.getD i default).token_type = STRING ∨
      (st.token_vec.getD i default).token_type = BOOLEAN ∨
      (st.token_vec.getD i default).token_type = COLUMN
  · rw [if_pos h1] at hs
    cases hs
    have hno : (st.token_vec.getD i default).token_type ≠ P_OPEN ∧
        (st.token_vec.getD i default).token_type ≠ P_CLOSE := by
      rcases h1 with h | h | h | h | h | h | h <;> rw [h] <;> decide
    exact ⟨rfl, rfl, by simp only [hno.1, hno.2, if_false]⟩
  rw [if_neg h1] at hs
  by_cases h2 : (st.token_vec.getD i default).token_type = FUNCTION
  · rw [if_pos h2] at hs
    cases hs
    have hno : (st.token_vec.getD i default).token_type ≠ P_OPEN ∧
        (st.token_vec.getD i default).token_type ≠ P_CLOSE := by
      rw [h2]
      decide
    exact ⟨rfl, rfl, by simp only [hno.1, hno.2, if_false]⟩
  rw [if_neg h2] at hs
  by_cases h3 : (st.token_vec.getD i default).token_type = COMMA
  · rw [if_pos h3] at hs
    cases hs
    have hno : (st.token_vec.getD i default).token_type ≠ P_OPEN ∧
        (st.token_vec.getD i default).token_type ≠ P_CLOSE := by
      rw [h3]
      decide
    exact ⟨rfl, rfl, by simp only [hno.1, hno.2, if_false]⟩
  rw [if_neg h3] at hs
  by_cases h4 : (st.token_vec.getD i default).token_type = P_OPEN
  · rw [if_pos h4] at hs
    cases hs
    exact ⟨rfl, rfl, by simp only [h4, if_true]⟩
  rw [if_neg h4] at hs
  by_cases h5 : (st.token_vec.getD i default).token_type = P_CLOSE
  · rw [if_pos h5] at hs
    cases hstk : st.function_stack with
    | nil =>
      rw [hstk] at hs
      cases hs
    | cons top rest =>
      rw [hstk] at hs
      simp only [] at hs
      cases hinfo : (st.token_vec.getD top default).element.asFncInfo with
      | error ex =>
        rw [hinfo] at hs
        cases hs
      | ok info =>
        rw [hinfo] at hs
        cases hs
        refine ⟨parse.map_set_same _ _ _ rfl, by simp, ?_⟩
        rw [if_neg h4, if_pos h5]
  · rw [if_neg h5] at hs
    cases hs
    exact ⟨rfl, rfl, by simp only [h4, h5, if_false]⟩

theorem parse.level_step (p : Int) (token_type : Nat) (hp0 : 0 ≤ p) (hp : p ≤ 32767) :
    ((if token_type = P_OPEN then fnc.wrapSigned 16 (p + 1)
      else if token_type = P_CLOSE then fnc.wrapSigned 16 (p - 1) else p) =
        (if token_type = P_OPEN then p + 1 else if token_type = P_CLOSE then p - 1 else p) ∧
      (if token_type = P_OPEN then p + 1 else if token_type = P_CLOSE then p - 1 else p) ≤
        32767) ∨
      (if token_type = P_OPEN then fnc.wrapSigned 16 (p + 1)
        else if token_type = P_CLOSE then fnc.wrapSigned 16 (p - 1) else p) = -32768 := by
  by_cases h1 : token_type = P_OPEN
  · simp only [h1, if_true]
    by_cases hlt : p < 32767
    · exact Or.inl ⟨fnc.wrapSigned_int16 _ (by omega) (by omega), by omega⟩
    · have : p = 32767 := by omega
      subst this
      exact Or.inr fnc.wrapSigned_int16_max
  · simp only [h1, if_false]
    by_cases h2 : token_type = P_CLOSE
    · simp only [h2, if_true]
      exact Or.inl ⟨fnc.wrapSigned_int16 _ (by omega) (by omega), by omega⟩
    · simp only [h2, if_false]
      exact Or.inl ⟨trivial, hp⟩

/-- Where the loop of `checkGrammar` ends behind the last token on the level 0, the level of
parentheses behind every token it has met lies within the range of `p_level`. -/
theorem parse.loop_levels (size : Nat) : ∀ (fuel i : Nat) (st : GrammarState) (i1 : Nat)
    (st1 : GrammarState), checkGrammarLoop size fuel i st = .ok (i1, st1) → i1 = size →
    st1.p_level = 0 → st.p_level ≤ 32767 → size < st.token_vec.length → i ≤ size →
    ∀ k, parenLevel st.p_level (((st.token_vec.take size).drop i).take k) ≤ 32767 := by
  have hend : ∀ (st : GrammarState) (k : Nat), st.p_level ≤ 32767 →
      size < st.token_vec.length →
      parenLevel st.p_level (((st.token_vec.take size).drop size).take k) ≤ 32767 := by
    intro st k hp hlen
    rw [List.drop_of_length_le (by rw [List.length_take]; omega)]
    simpa [parenLevel] using hp
  intro fuel
  induction fuel with
  | zero =>
    intro i st i1 st1 h hi1 _ hp hlen _ k
    have h2 : checkGrammarLoop size 0 i st = .ok (i, st) := rfl
    rw [h2] at h
    cases h
    subst hi1
    exact hend st k hp hlen
  | succ fuel ih =>
    intro i st i1 st1 h hi1 hp1 hp hlen hi k
    by_cases hc : i < size ∧ st.is_vld_tkn = true ∧
        ¬ ((st.fst_op_paren = true ∧ st.p_level = 0) ∨ st.p_level < 0)
    · simp only [checkGrammarLoop] at h
      rw [if_pos hc] at h
      cases hstep : checkGrammarStep st i with
      | error ex =>
        rw [hstep] at h
        cases h
      | ok st2 =>
        rw [hstep] at h
        simp only [] at h
        obtain ⟨hty, hlen2, hlev⟩ := parse.step_types st st2 i hstep
        have hp0 : 0 ≤ st.p_level := by
          have := hc.2.2
          by_contra hneg
          exact this (Or.inr (by omega))
        rcases parse.level_step st.p_level (st.token_vec.getD i default).token_type hp0 hp with
          ⟨hl, hle⟩ | hl
        · rw [hl] at hlev
          have hcons : (st.token_vec.take size).drop i =
              st.token_vec.getD i default :: (st.token_vec.take size).drop (i + 1) := by
            have hi2 : i < (st.token_vec.take size).length := by
              rw [List.length_take]
              omega
            rw [List.drop_eq_getElem_cons hi2, List.getD_eq_getElem _ _ (by omega)]
            congr 1
            simp [List.getElem_take]
          cases k with
          | zero => simpa [parenLevel] using hp
          | succ k =>
            rw [hcons, List.take_succ_cons, parse.parenLevel_cons, ← hlev]
            have hbound : st2.p_level ≤ 32767 := by
              rw [hlev]
              exact hle
            have := ih (i + 1) st2 i1 st1 h hi1 hp1 hbound (by omega) (by omega) k
            rw [parse.parenLevel_congr _ (((st2.token_vec.take size).drop (i + 1)).take k)
              (by rw [List.map_take, List.map_drop, List.map_take, List.map_take,
                List.map_drop, List.map_take, hty])]
            exact this
        · rw [hl] at hlev
          rw [parse.loop_stop _ _ _ _ (by
            rintro ⟨_, _, hx⟩
            exact hx (Or.inr (by rw [hlev]; decide)))] at h
          cases h
          rw [hlev] at hp1
          exact absurd hp1 (by decide)
    · simp only [checkGrammarLoop] at h
      rw [if_neg hc] at h
      cases h
      subst hi1
      exact hend st k hp hlen

/-- In a token sequence that `checkGrammar` accepts, the level of parentheses behind every
token lies within the range of `p_level`. -/
theorem parse.checkGrammar_levels (ts ts1 : List Token)
    (h : checkGrammar ts = .ok (some ts1)) : ∀ k, parenLevel 0 (ts.take k) ≤ 32767 := by
  cases ts with
  | nil => simp [checkGrammar] at h
  | cons t S1 =>
    cases S1 with
    | nil => exact parse.levels_of_short _ (by simp)
    | cons t1 S2 =>
      have hfun : hasBit t.token_type FUNCTION = true := by
        cases hb : hasBit t.token_type FUNCTION
        · simp [checkGrammar, hb] at h
        · rfl
      rw [parse.checkGrammar_long t t1 S2 hfun] at h
      cases hloop : checkGrammarLoop (S2.length + 2) (S2.length + 2) 0
          ⟨(t :: t1 :: S2) ++ [Token.new "Invalid"], 0, true, false, []⟩ with
      | error ex =>
        rw [hloop] at h
        cases h
      | ok r =>
        obtain ⟨i, st⟩ := r
        rw [hloop] at h
        simp only [] at h
        by_cases hc : i ≠ S2.length + 2 ∨ st.p_level ≠ 0
        · rw [if_pos hc] at h
          cases h
        · have hi : i = S2.length + 2 := by
            by_contra hne
            exact hc (Or.inl hne)
          have hp : st.p_level = 0 := by
            by_contra hne
            exact hc (Or.inr hne)
          intro k
          have := parse.loop_levels (S2.length + 2) (S2.length + 2) 0 _ i st hloop hi hp
            (by show (0 : Int) ≤ 32767; decide) (by simp) (Nat.zero_le _) k
          simpa using this

end km

namespace km

open parse

theorem parse.optimize_single (t : Token) (h : hasBit t.token_type FUNCTION = false) :
    optimize [t] = .ok [t] := by
  unfold optimize
  rw [parse.optimizeLoop_cons, parse.optimizeStep_plain _ _ h]
  rfl

/-- Function `getCheckedToken` on a formula whose tokens are those of a call. -/
theorem parse.getCheckedToken_call (store : FunctionStore) (table : AbstractTable)
    (formula : String) (data_type : DataType) (name : String) (args : Args)
    (hlex : parseToTokens formula = some (Expr.call name args).tokens)
    (hmax : ∀ k, parenLevel 0 ((Expr.call name args).tokens.take k) ≤ 32767) :
    getCheckedToken store formula table data_type =
      match (Expr.call name args).check store table with
      | .error ex => .error ex
      | .ok none => .ok none
      | .ok (some type) =>
        if type ≠ data_type then .ok none
        else
          match optimize ((Expr.call name args).postfixAt store table 0) with
          | .error ex => .error ex
          | .ok out => .ok (some out) := by
  unfold getCheckedToken
  rw [hlex]
  simp only []
  rw [parse.checkGrammar_tokens _ hmax]
  simp only []
  rw [parse.checkReference_call]
  cases (Expr.call name args).check store table with
  | error ex => rfl
  | ok o =>
    cases o with
    | none => rfl
    | some type =>
      simp only []
      by_cases ht : type ≠ data_type
      · rw [if_pos ht, if_pos ht]
      · rw [if_neg ht, if_neg ht]
        simp only []
        rw [parse.Expr.removeSeparator_resolvedAt]
        try rfl

/-- Function `getCheckedToken` on a formula that is one literal. -/
theorem parse.getCheckedToken_literal (store : FunctionStore) (table : AbstractTable)
    (formula : String) (data_type : DataType) (kind : LiteralKind) (text : String)
    (hlex : parseToTokens formula = some (Expr.literal kind text).tokens) :
    getCheckedToken store formula table data_type =
      if data_type ≠ kind.token_type then .ok none
      else
        match literalValue kind text with
        | .error ex => .error ex
        | .ok v => .ok (some [Token.literal text kind.token_type v]) := by
  unfold getCheckedToken
  rw [hlex]
  simp only []
  rw [parse.checkGrammar_tokens _ (parse.levels_of_short _ (by simp [Expr.tokens, Expr.tokensAt]))]
  have hnc : ¬ kind.token_type = COLUMN := by cases kind <;> decide
  simp only [Expr.tokensAt, checkReference, List.length_singleton, if_true, List.headD_cons,
    Token.fresh, hnc, if_false]
  by_cases ht : data_type ≠ kind.token_type
  · rw [if_pos ht, if_pos ht]
  · rw [if_neg ht, if_neg ht]
    have hv := parse.toDataVariant_fresh kind text
    simp only [Token.fresh] at hv
    rw [hv]
    cases literalValue kind text with
    | error ex => rfl
    | ok v =>
      simp only []
      rw [parse.removeSeparator_token _ (parse.literal_not_separator kind),
        parse.optimize_single _ (parse.literal_flags kind).1]

/-- Function `getCheckedToken` on a formula that is one column reference. -/
theorem parse.getCheckedToken_column (store : FunctionStore) (table : AbstractTable)
    (formula : String) (data_type : DataType) (text : String)
    (hlex : parseToTokens formula = some (Expr.column text).tokens) :
    getCheckedToken store formula table data_type =
      match table.findColumn (String.mk text.data.tail) with
      | none => .ok none
      | some found =>
        if found.2 ≠ data_type then .ok none
        else .ok (some [Token.column text found.1 found.2]) := by
  unfold getCheckedToken
  rw [hlex]
  simp only []
  rw [parse.checkGrammar_tokens _ (parse.levels_of_short _ (by simp [Expr.tokens, Expr.tokensAt]))]
  have hf := parse.findColumn_fresh table text
  simp only [Token.fresh] at hf
  simp only [Expr.tokensAt, checkReference, List.length_singleton, if_true, List.headD_cons,
    Token.fresh, hf]
  cases table.findColumn (String.mk text.data.tail) with
  | none => rfl
  | some found =>
    simp only [Option.map_some', Token.column, Element.asColInfo]
    by_cases ht : found.2 ≠ data_type
    · rw [if_pos ht]
    · rw [if_neg ht]
      simp only []
      rw [parse.removeSeparator_token _ parse.separator_bits.2.2.2.1,
        parse.optimize_single _ parse.single_bits.2.2.2.2.1]

/-- A formula whose tokens are those of the expression `e`, the level of parentheses within
the range of `p_level`, compiles to `prog` exactly when the expression passes the reference
check with the type asked for and `optimize` turns its postfix program into `prog`. -/
theorem parse.getCheckedToken_iff (store : FunctionStore) (table : AbstractTable)
    (formula : String) (data_type : DataType) (e : Expr) (prog : List Token)
    (hlex : parseToTokens formula = some e.tokens)
    (hmax : ∀ k, parenLevel 0 (e.tokens.take k) ≤ 32767) :
    getCheckedToken store formula table data_type = .ok (some prog) ↔
      e.check store table = .ok (some data_type) ∧
        optimize (e.postfixAt store table 0) = .ok prog := by
  cases e with
  | literal kind text =>
    rw [parse.getCheckedToken_literal store table formula data_type kind text hlex]
    simp only [Expr.check, Expr.postfixAt]
    by_cases ht : data_type ≠ kind.token_type
    · rw [if_pos ht]
      constructor
      · intro h
        cases h
      · rintro ⟨h, _⟩
        cases hv : literalValue kind text with
        | error ex => rw [hv] at h; cases h
        | ok v =>
          rw [hv] at h
          simp only [Except.ok.injEq, Option.some.injEq] at h
          exact absurd h.symm ht
    · rw [if_neg ht]
      have ht2 : data_type = kind.token_type := not_not.mp ht
      cases literalValue kind text with
      | error ex =>
        constructor
        · intro h
          cases h
        · rintro ⟨h, _⟩
          cases h
      | ok v =>
        simp only []
        rw [parse.optimize_single _ (parse.literal_flags kind).1, ht2]
        simp
  | column text =>
    rw [parse.getCheckedToken_column store table formula data_type text hlex]
    simp only [Expr.check, Expr.postfixAt]
    cases table.findColumn (String.mk text.data.tail) with
    | none => simp
    | some found =>
      simp only [Option.map_some']
      rw [parse.optimize_single _ parse.single_bits.2.2.2.2.1]
      by_cases ht : found.2 ≠ data_type
      · rw [if_pos ht]
        constructor
        · intro h
          cases h
        · rintro ⟨h, _⟩
          simp only [Except.ok.injEq, Option.some.injEq] at h
          exact absurd h ht
      · rw [if_neg ht]
        have ht2 : found.2 = data_type := not_not.mp ht
        simp [ht2]
  | call name args =>
    rw [parse.getCheckedToken_call store table formula data_type name args hlex hmax]
    cases (Expr.call name args).check store table with
    | error ex => simp
    | ok o =>
      cases o with
      | none => simp
      | some type =>
        simp only []
        by_cases ht : type ≠ data_type
        · rw [if_pos ht]
          constructor
          · intro h
            cases h
          · rintro ⟨h, _⟩
            simp only [Except.ok.injEq, Option.some.injEq] at h
            exact absurd h ht
        · rw [if_neg ht]
          have ht2 : type = data_type := not_not.mp ht
          subst ht2
          cases optimize ((Expr.call name args).postfixAt store table 0) with
          | error ex => simp
          | ok out => simp

/-- A formula that `getCheckedToken` compiles is the text of an expression that passes the
reference check with the type asked for. -/
theorem parse.getCheckedToken_accepted (store : FunctionStore) (table : AbstractTable)
    (formula : String) (data_type : DataType) (prog : List Token)
    (h : getCheckedToken store formula table data_type = .ok (some prog)) :
    ∃ e : Expr, parseToTokens formula = some e.tokens ∧
      e.check store table = .ok (some data_type) ∧
      optimize (e.postfixAt store table 0) = .ok prog := by
  have h0 := h
  unfold getCheckedToken at h0
  cases hp : parseToTokens formula with
  | none => rw [hp] at h0; cases h0
  | some ts =>
    rw [hp] at h0
    simp only [] at h0
    cases hg : checkGrammar ts with
    | error ex => rw [hg] at h0; cases h0
    | ok o =>
      cases o with
      | none => rw [hg] at h0; cases h0
      | some ts1 =>
        obtain ⟨e, rfl⟩ := parse.checkGrammar_sound ts ts1
          (parse.parseToTokens_lexed formula ts hp) hg
        exact ⟨e, rfl, (parse.getCheckedToken_iff store table formula data_type e prog hp
          (parse.checkGrammar_levels _ ts1 hg)).mp h⟩

/-- In a formula that `getCheckedToken` compiles, the level of parentheses behind every token
lies within the range of `p_level`. -/
theorem parse.getCheckedToken_levels (store : FunctionStore) (table : AbstractTable)
    (formula : String) (data_type : DataType) (prog ts : List Token)
    (h : getCheckedToken store formula table data_type = .ok (some prog))
    (hp : parseToTokens formula = some ts) : ∀ k, parenLevel 0 (ts.take k) ≤ 32767 := by
  unfold getCheckedToken at h
  rw [hp] at h
  simp only [] at h
  cases hg : checkGrammar ts with
  | error ex => rw [hg] at h; cases h
  | ok o =>
    cases o with
    | none => rw [hg] at h; cases h
    | some ts1 => exact parse.checkGrammar_levels ts ts1 hg

theorem FunctionStore.find_mem (store : FunctionStore) (function_name : String)
    (it : FunctionInfo) (h : store.find function_name = some it) :
    (function_name, it) ∈ store.m_map := by
  unfold FunctionStore.find at h
  cases hf : store.m_map.find? (fun entry => entry.1 == function_name) with
  | none => rw [hf] at h; cases h
  | some entry =>
    rw [hf] at h
    simp only [Option.map_some', Option.some.injEq] at h
    have hm := List.mem_of_find?_eq_some hf
    have hp := List.find?_some hf
    simp only [beq_iff_eq] at hp
    rw [← h, ← hp]
    exact hm

theorem FunctionStore.addEntries_mem (entries : List (String × FunctionInfo)) :
    ∀ (store : FunctionStore) (x : String × FunctionInfo),
      x ∈ (store.addEntries entries).m_map → x ∈ store.m_map ∨ x ∈ entries := by
  induction entries with
  | nil =>
    intro store x hx
    exact Or.inl hx
  | cons entry rest ih =>
    intro store x hx
    unfold FunctionStore.addEntries at hx
    rw [List.foldl_cons] at hx
    have hx2 := ih (store.addEntry entry.1 entry.2).1 x hx
    rcases hx2 with hx2 | hx2
    · unfold FunctionStore.addEntry at hx2
      cases hf : store.find entry.1 with
      | some _ =>
        rw [hf] at hx2
        exact Or.inl hx2
      | none =>
        rw [hf] at hx2
        simp only [List.mem_append, List.mem_singleton] at hx2
        rcases hx2 with hx2 | hx2
        · exact Or.inl hx2
        · exact Or.inr (by rw [hx2]; exact List.mem_cons_self _ _)
    · exact Or.inr (List.mem_cons_of_mem _ hx2)

/-- The built in functions follow the rule for function names: every entry takes as many
arguments as its name announces. -/
theorem parse.initAllFnc_arityConsistent : FunctionStore.ArityConsistent initAllFnc := by
  intro function_name it hfind
  have hm := FunctionStore.find_mem _ _ _ hfind
  have hall : ∀ x ∈ arithmeticEntries ++ logicalEntries ++ comparatorEntries,
      x.2.argc = keyArity x.1 := by decide
  apply hall (function_name, it)
  unfold initAllFnc at hm
  rcases FunctionStore.addEntries_mem _ _ _ hm with hm | hm
  · rcases FunctionStore.addEntries_mem _ _ _ hm with hm | hm
    · rcases FunctionStore.addEntries_mem _ _ _ hm with hm | hm
      · cases hm
      · exact List.mem_append_left _ (List.mem_append_left _ hm)
    · exact List.mem_append_left _ (List.mem_append_right _ hm)
  · exact List.mem_append_right _ hm

end km

namespace km

open parse

mutual
/-- A well typed expression that has a value passes the reference check. -/
theorem parse.Expr.check_of_eval (store : FunctionStore) (table : AbstractTable)
    (row_index : Nat) :
    ∀ (e : Expr) (type : DataType) (v : Variant), e.typeOf store table = some type →
      e.eval store table row_index = .ok v → e.check store table = .ok (some type)
  | .literal kind text, type, v, ht, hv => by
    simp only [Expr.typeOf, Option.some.injEq] at ht
    simp only [Expr.eval] at hv
    simp only [Expr.check, hv, ht]
  | .column text, type, v, ht, _ => by
    simp only [Expr.typeOf] at ht
    simp only [Expr.check, ht]
  | .call name args, type, v, ht, hv => by
    simp only [Expr.typeOf] at ht
    simp only [Expr.eval] at hv
    cases hc : args.typeChars store table with
    | none => rw [hc] at ht; cases ht
    | some types =>
      rw [hc] at ht hv
      simp only [] at ht hv
      cases hf : store.find (functionKey name types) with
      | none => rw [hf] at hv; cases hv
      | some it =>
        rw [hf] at hv
        simp only [] at hv
        cases hvs : args.evalAll store table row_index with
        | error ex => rw [hvs] at hv; cases hv
        | ok values =>
          simp only [Expr.check,
            parse.Args.checkAll_of_evalAll store table row_index args types values hc hvs]
          rw [ht]
theorem parse.Args.checkAll_of_evalAll (store : FunctionStore) (table : AbstractTable)
    (row_index : Nat) :
    ∀ (args : Args) (types : List Char) (values : List Variant),
      args.typeChars store table = some types →
      args.evalAll store table row_index = .ok values →
      args.checkAll store table = .ok (some types)
  | .nil, types, values, ht, _ => by
    simp only [Args.typeChars, Option.some.injEq] at ht
    simp only [Args.checkAll, ht]
  | .cons e rest, types, values, ht, hv => by
    simp only [Args.typeChars] at ht
    simp only [Args.evalAll] at hv
    cases hte : e.typeOf store table with
    | none => rw [hte] at ht; cases ht
    | some type =>
      rw [hte] at ht
      simp only [] at ht
      cases htr : rest.typeChars store table with
      | none => rw [htr] at ht; cases ht
      | some types2 =>
        rw [htr] at ht
        simp only [Option.some.injEq] at ht
        cases hve : e.eval store table row_index with
        | error ex => rw [hve] at hv; cases hv
        | ok v =>
          rw [hve] at hv
          simp only [] at hv
          cases hvr : rest.evalAll store table row_index with
          | error ex => rw [hvr] at hv; cases hv
          | ok vs =>
            simp only [Args.checkAll,
              parse.Expr.check_of_eval store table row_index e type v hte hve,
              parse.Args.checkAll_of_evalAll store table row_index rest types2 vs htr hvr]
            rw [ht]
end

theorem parse.Expr.folded_data (store : FunctionStore) (table : AbstractTable) (e : Expr)
    (v : Variant) (h : e.closed = true) :
    ∃ text type, e.folded store table v = Token.literal text type v ∧
      hasBit type FUNCTION = false ∧ hasBit type COLUMN = false ∧
      hasBit type TT_DATA = true := by
  cases e with
  | literal kind text =>
    exact ⟨text, kind.token_type, rfl, (parse.literal_flags kind).1,
      (parse.literal_flags kind).2, parse.literal_data_bit kind⟩
  | column text => simp [Expr.closed] at h
  | call name args =>
    simp only [Expr.folded]
    cases args.checkAll store table with
    | error ex => exact ⟨_, _, rfl, by decide, by decide, by decide⟩
    | ok o =>
      cases o with
      | none => exact ⟨_, _, rfl, by decide, by decide, by decide⟩
      | some types => exact ⟨_, _, rfl, by decide, by decide, by decide⟩

/-- The closed expression compiles to the one literal token that holds its value. -/
theorem parse.optimize_closed (store : FunctionStore) (table : AbstractTable) (e : Expr)
    (type : DataType) (row_index : Nat) (v : Variant)
    (hs : FunctionStore.ArityConsistent store) (hc : e.closed = true)
    (hk : e.check store table = .ok (some type))
    (hv : e.eval store table row_index = .ok v) :
    optimize (e.postfixAt store table 0) = .ok [e.folded store table v] := by
  have h := parse.Expr.fold_run store table e row_index 0 [] [] type hs hc hk
  rw [hv] at h
  simp only [List.append_nil, List.nil_append] at h
  unfold optimize
  rw [h]
  rfl

/-- The stack machine on the postfix program of a checked expression, from the empty stack:
it ends with the value of the expression as the one value on the stack. -/
theorem parse.evaluateLoop_postfix (store : FunctionStore) (table : AbstractTable) (e : Expr)
    (type : DataType) (row_index : Nat) (hs : FunctionStore.ArityConsistent store)
    (hk : e.check store table = .ok (some type)) :
    evaluateLoop table row_index [] (e.postfixAt store table 0) =
      match e.eval store table row_index with
      | .error ex => .error ex
      | .ok v => .ok [v] := by
  have h := parse.Expr.eval_run store table e row_index 0 [] [] type hs hk
  simp only [List.append_nil, List.nil_append] at h
  rw [h]
  cases e.eval store table row_index <;> rfl

theorem parse.evaluateFormula_of_loop (table : AbstractTable) (row_index : Nat)
    (token_vec : List Token) (r : Except Exn Variant)
    (h : evaluateLoop table row_index [] token_vec =
      match r with
      | .error ex => .error ex
      | .ok v => .ok [v]) :
    evaluateFormula token_vec table row_index = r := by
  unfold evaluateFormula
  rw [h]
  cases r <;> rfl

/-- What `checkReference` accepts of the tokens of an expression: the expression passes the
reference check with the type asked for, and the result holds its resolved tokens. -/
theorem parse.checkReference_accepted (store : FunctionStore) (table : AbstractTable)
    (e : Expr) (required_type : DataType) (ts2 : List Token)
    (h : checkReference store (e.tokensAt true 0) table required_type true = .ok (some ts2)) :
    e.check store table = .ok (some required_type) ∧ ts2 = e.resolvedAt store table 0 := by
  cases e with
  | literal kind text =>
    have hnc : ¬ kind.token_type = COLUMN := by cases kind <;> decide
    have hv := parse.toDataVariant_fresh kind text
    simp only [Token.fresh] at hv
    simp only [Expr.tokensAt, checkReference, List.length_singleton, if_true, List.headD_cons,
      Token.fresh, hnc, if_false, hv] at h
    by_cases ht : required_type ≠ kind.token_type
    · rw [if_pos ht] at h
      cases h
    · rw [if_neg ht] at h
      have ht2 : required_type = kind.token_type := not_not.mp ht
      simp only [Expr.check, Expr.resolvedAt]
      cases hl : literalValue kind text with
      | error ex => rw [hl] at h; cases h
      | ok v =>
        rw [hl] at h
        simp only [Except.ok.injEq, Option.some.injEq] at h
        exact ⟨by rw [ht2], h.symm⟩
  | column text =>
    have hf := parse.findColumn_fresh table text
    simp only [Token.fresh] at hf
    simp only [Expr.tokensAt, checkReference, List.length_singleton, if_true, List.headD_cons,
      Token.fresh, hf] at h
    simp only [Expr.check, Expr.resolvedAt]
    cases hc : table.findColumn (String.mk text.data.tail) with
    | none => rw [hc] at h; cases h
    | some found =>
      rw [hc] at h
      simp only [Option.map_some', Token.column, Element.asColInfo] at h
      by_cases ht : found.2 ≠ required_type
      · rw [if_pos ht] at h
        cases h
      · rw [if_neg ht] at h
        have ht2 : found.2 = required_type := not_not.mp ht
        simp only [Except.ok.injEq, Option.some.injEq] at h
        exact ⟨by simp [ht2], h.symm⟩
  | call name args =>
    rw [parse.checkReference_call] at h
    cases hk : (Expr.call name args).check store table with
    | error ex => rw [hk] at h; cases h
    | ok o =>
      cases o with
      | none => rw [hk] at h; cases h
      | some type =>
        rw [hk] at h
        simp only [] at h
        by_cases ht : type ≠ required_type
        · rw [if_pos ht] at h
          cases h
        · rw [if_neg ht] at h
          have ht2 : type = required_type := not_not.mp ht
          simp only [Except.ok.injEq, Option.some.injEq] at h
          exact ⟨by rw [ht2], h.symm⟩

end km

namespace km

/-- The rows of a source with one more row are the new row and the old rows, each old row from
the new row on moved one position up. -/
theorem shifted_range_perm (n row_index : Nat) (h : row_index ≤ n) :
    (List.range (n + 1)).Perm (row_index :: (List.range n).map (fun index =>
      if index ≥ row_index then index + 1 else index)) := by
  have hnd : (row_index :: (List.range n).map (fun index =>
      if index ≥ row_index then index + 1 else index)).Nodup := by
    refine List.nodup_cons.2 ⟨?_, ?_⟩
    · intro hm
      obtain ⟨i, _, hi⟩ := List.mem_map.1 hm
      by_cases hge : i ≥ row_index
      · rw [if_pos hge] at hi
        omega
      · rw [if_neg hge] at hi
        omega
    · refine List.Nodup.map_on ?_ (List.nodup_range n)
      intro a _ b _ hab
      by_cases ha : a ≥ row_index <;> by_cases hb : b ≥ row_index
      · rw [if_pos ha, if_pos hb] at hab
        omega
      · rw [if_pos ha, if_neg hb] at hab
        omega
      · rw [if_neg ha, if_pos hb] at hab
        omega
      · rw [if_neg ha, if_neg hb] at hab
        exact hab
  refine (List.perm_ext_iff_of_nodup (List.nodup_range _) hnd).2 ?_
  intro x
  simp only [List.mem_range, List.mem_cons, List.mem_map]
  constructor
  · intro hx
    by_cases h1 : x = row_index
    · exact Or.inl h1
    · right
      by_cases h2 : x < row_index
      · exact ⟨x, by omega, by rw [if_neg (by omega)]⟩
      · refine ⟨x - 1, by omega, ?_⟩
        rw [if_pos (by omega)]
        omega
  · rintro (h1 | ⟨i, hi, h2⟩)
    · omega
    · by_cases hge : i ≥ row_index
      · rw [if_pos hge] at h2
        omega
      · rw [if_neg hge] at h2
        omega

/-- The rows that `refresh` collects on a source with a new row: the rows it collects on the
source without it, moved as the source moved them, and the new row when it passes the
filter. -/
theorem BasicView.initialIndices_inserted (src0 src1 : AbstractTable) (formula : String)
    (tokens : FilterTokens) (row_index : Nat)
    (hcount : src1.rowCount = src0.rowCount + 1) (hrow : row_index ≤ src0.rowCount)
    (hlocal : ∀ r, r < src0.rowCount →
      tokens.run src1.getDataWC (if r ≥ row_index then r + 1 else r) =
        tokens.run src0.getDataWC r) :
    (BasicView.initialIndices src1 formula tokens).Perm
      (if (formula.isEmpty || tokens.run src1.getDataWC row_index) = true then
        row_index :: (BasicView.initialIndices src0 formula tokens).map (fun index =>
          if index ≥ row_index then index + 1 else index)
      else (BasicView.initialIndices src0 formula tokens).map (fun index =>
          if index ≥ row_index then index + 1 else index)) := by
  unfold BasicView.initialIndices
  rw [hcount]
  have hp := shifted_range_perm src0.rowCount row_index hrow
  cases he : formula.isEmpty with
  | true =>
    simp only [Bool.true_or, if_true]
    exact hp
  | false =>
    simp only [Bool.false_or, Bool.false_eq_true, if_false]
    have hf := hp.filter (fun r => tokens.run src1.getDataWC r)
    have hm : ((List.range src0.rowCount).map (fun index =>
        if index ≥ row_index then index + 1 else index)).filter
          (fun r => tokens.run src1.getDataWC r) =
        ((List.range src0.rowCount).filter (fun r => tokens.run src0.getDataWC r)).map
          (fun index => if index ≥ row_index then index + 1 else index) := by
      rw [List.filter_map]
      congr 1
      apply List.filter_congr
      intro r hr
      exact hlocal r (List.mem_range.1 hr)
    cases hrun : tokens.run src1.getDataWC row_index with
    | true =>
      rw [List.filter_cons_of_pos (by simpa using hrun), hm] at hf
      simpa using hf
    | false =>
      rw [List.filter_cons_of_neg (by simpa using hrun), hm] at hf
      simpa using hf

/-- Rows that the slot `rowInserted` leaves in the view: the rows it had, moved as the source
moved them, and the new row when the view has no filter or the row passes it. -/
theorem BasicView.rowInserted_indices (v v1 : BasicView) (src : AbstractTable)
    (row_index : Nat) (h : v.rowInserted src row_index = .ok v1) :
    v1.m_indices.Perm
      (if (v.m_filtered_token.empty || v.m_filtered_token.run src.getDataWC row_index) = true
        then row_index :: v.m_indices.map (fun index =>
          if index ≥ row_index then index + 1 else index)
        else v.m_indices.map (fun index => if index ≥ row_index then index + 1 else index)) := by
  unfold BasicView.rowInserted at h
  cases he : v.m_filtered_token.empty <;>
    cases hr : v.m_filtered_token.run src.getDataWC row_index <;>
    simp only [he, hr, Bool.not_true, Bool.not_false, Bool.and_true, Bool.and_false,
      Bool.true_and, Bool.false_and, Bool.false_eq_true, if_true, if_false, Bool.or_true,
      Bool.or_false, Bool.true_or, Bool.false_or] at h ⊢
  · cases h
    exact List.Perm.refl _
  all_goals
    split at h
    · cases h
    · cases h
      exact vectorInsert_perm _ _ _

/-- With every column of the view in the source, `findColumn` finds the first column that has
the name of a column of the view. -/
theorem BasicView.findColumn_first (v : BasicView) (src : AbstractTable)
    (hsel : ∀ i, i < v.columnCount → ∃ col, v.columnAt src i = some col) (k : Nat)
    (name : String) (dt : DataType) (hk : v.columnAt src k = some (name, dt)) :
    ∃ idx ty, v.findColumn src name = .ok (some (idx, ty)) ∧
      v.columnAt src idx = some (name, ty) := by
  classical
  have hex : ∃ i, ∃ ty, v.columnAt src i = some (name, ty) := ⟨k, dt, hk⟩
  obtain ⟨ty, hty⟩ := Nat.find_spec hex
  refine ⟨Nat.find hex, ty, (v.findColumn_spec src hsel name).2 _ ty hty ?_, hty⟩
  intro j col hj hcol hn
  refine Nat.find_min hex hj ⟨col.2, ?_⟩
  rw [hcol, ← hn]

end km

namespace km

/-- One step of the linear search of a `float64` value in a `float64` column: the row matches
when its cell is nearer to the value than the epsilon of the column. -/
theorem Table.searchLinear_float64 (c : Column) (hk : c.ktype = KType.KFloat64) (x z : ℚ)
    (slot : Nat) (rest : List Nat) (index : Nat) (result_indices : List Nat)
    (hd : c.getData slot = Variant.float64 x) :
    Table.searchLinear c (Variant.float64 z) (slot :: rest) index result_indices =
      Table.searchLinear c (Variant.float64 z) rest (index + 1)
        (if |x - z| < c.m_epsilon then result_indices ++ [index] else result_indices) := by
  have has : (Variant.float64 z).as c.ktype = .ok (Variant.float64 z) := by
    rw [hk]
    rfl
  rw [Table.searchLinear]
  simp only [Column.isEqualV, has, hd, Variant.equalEps_f64]
  by_cases h : |x - z| < c.m_epsilon
  · simp only [h, decide_True, if_true]
  · simp only [h, decide_False, if_false]

end km

namespace km

theorem utf8_toNat_lt (c : Char) : c.toNat < 0x110000 := by
  have h := c.valid
  unfold Char.toNat
  rcases h with h | h
  · have : c.val.toNat < 0xd800 := h
    omega
  · exact h.2

/-- The decoder reads back the bytes of a character. -/
theorem utf8Decode_char (c : Char) (rest : List Nat) (chars : List Char) :
    utf8Decode (utf8Char c ++ rest) chars 0 0 = utf8Decode rest (chars ++ [c]) 0 0 := by
  have hv := utf8_toNat_lt c
  unfold utf8Char
  by_cases h1 : c.toNat < 0x80
  · rw [if_pos h1]
    simp only [List.singleton_append, utf8Decode, h1, if_true, Char.ofNat_toNat]
    try rfl
  rw [if_neg h1]
  by_cases h2 : c.toNat < 0x800
  · rw [if_pos h2]
    have e : (0xC0 + c.toNat / 0x40 - 0xC0) * 0x40 + (0x80 + c.toNat % 0x40 - 0x80) =
        c.toNat := by
      omega
    have a1 : ¬ (0xC0 + c.toNat / 0x40 < 0x80) := by omega
    have a2 : ¬ (0xC0 + c.toNat / 0x40 < 0xC0) := by omega
    have a3 : 0xC0 + c.toNat / 0x40 < 0xE0 := by omega
    have a4 : 0x80 ≤ 0x80 + c.toNat % 0x40 ∧ 0x80 + c.toNat % 0x40 < 0xC0 := by omega
    simp only [List.cons_append, List.nil_append, utf8Decode, a1, a2, a3, a4, if_true, if_false,
      and_self, e, Char.ofNat_toNat]
    try rfl
  rw [if_neg h2]
  by_cases h3 : c.toNat < 0x10000
  · rw [if_pos h3]
    have e : ((0xE0 + c.toNat / 0x1000 - 0xE0) * 0x40 +
        (0x80 + c.toNat / 0x40 % 0x40 - 0x80)) * 0x40 + (0x80 + c.toNat % 0x40 - 0x80) =
        c.toNat := by
      omega
    have a1 : ¬ (0xE0 + c.toNat / 0x1000 < 0x80) := by omega
    have a2 : ¬ (0xE0 + c.toNat / 0x1000 < 0xC0) := by omega
    have a3 : ¬ (0xE0 + c.toNat / 0x1000 < 0xE0) := by omega
    have a4 : 0xE0 + c.toNat / 0x1000 < 0xF0 := by omega
    have a5 : 0x80 ≤ 0x80 + c.toNat / 0x40 % 0x40 ∧ 0x80 + c.toNat / 0x40 % 0x40 < 0xC0 := by
      omega
    have a6 : 0x80 ≤ 0x80 + c.toNat % 0x40 ∧ 0x80 + c.toNat % 0x40 < 0xC0 := by omega
    simp only [List.cons_append, List.nil_append, utf8Decode, a1, a2, a3, a4, a5, a6, if_true,
      if_false, and_self, e, Char.ofNat_toNat, one_ne_zero]
    try rfl
  rw [if_neg h3]
  have e : (((0xF0 + c.toNat / 0x40000 - 0xF0) * 0x40 +
      (0x80 + c.toNat / 0x1000 % 0x40 - 0x80)) * 0x40 +
      (0x80 + c.toNat / 0x40 % 0x40 - 0x80)) * 0x40 + (0x80 + c.toNat % 0x40 - 0x80) =
      c.toNat := by
    omega
  have a1 : ¬ (0xF0 + c.toNat / 0x40000 < 0x80) := by omega
  have a2 : ¬ (0xF0 + c.toNat / 0x40000 < 0xC0) := by omega
  have a3 : ¬ (0xF0 + c.toNat / 0x40000 < 0xE0) := by omega
  have a4 : ¬ (0xF0 + c.toNat / 0x40000 < 0xF0) := by omega
  have a5 : 0xF0 + c.toNat / 0x40000 < 0xF8 := by omega
  have a6 : 0x80 ≤ 0x80 + c.toNat / 0x1000 % 0x40 ∧
      0x80 + c.toNat / 0x1000 % 0x40 < 0xC0 := by
    omega
  have a7 : 0x80 ≤ 0x80 + c.toNat / 0x40 % 0x40 ∧ 0x80 + c.toNat / 0x40 % 0x40 < 0xC0 := by
    omega
  have a8 : 0x80 ≤ 0x80 + c.toNat % 0x40 ∧ 0x80 + c.toNat % 0x40 < 0xC0 := by omega
  simp only [List.cons_append, List.nil_append, utf8Decode, a1, a2, a3, a4, a5, a6, a7, a8,
    if_true, if_false, and_self, e, Char.ofNat_toNat, one_ne_zero, OfNat.ofNat_ne_zero]
  try rfl

theorem utf8Decode_chars : ∀ (cs : List Char) (rest : List Nat) (chars : List Char),
    utf8Decode ((cs.map utf8Char).flatten ++ rest) chars 0 0 =
      utf8Decode rest (chars ++ cs) 0 0
  | [], _, _ => by simp
  | c :: cs, rest, chars => by
    rw [List.map_cons, List.flatten_cons, List.append_assoc, utf8Decode_char,
      utf8Decode_chars cs rest (chars ++ [c])]
    simp

/-- The bytes of a string stand for this string. -/
theorem utf8String_bytes (s : String) : utf8String (utf8Bytes s) = some s := by
  have h := utf8Decode_chars s.data [] []
  rw [List.append_nil, List.nil_append] at h
  unfold utf8String
  have h2 : utf8Decode (utf8Bytes s) [] 0 0 = some s.data := by
    unfold utf8Bytes
    rw [h]
    rfl
  rw [h2]
  simp

theorem utf8Bytes_append (a b : String) : utf8Bytes (a ++ b) = utf8Bytes a ++ utf8Bytes b := by
  unfold utf8Bytes
  rw [String.data_append, List.map_append, List.flatten_append]

/-- The bytes of the name that `resolveFileName` returns end with those of the extension. -/
theorem resolveFileName_suffix (file_name path fl_ext : String) :
    utf8Bytes fl_ext <:+ utf8Bytes (resolveFileName file_name path fl_ext) := by
  have hinner : utf8Bytes fl_ext <:+
      utf8Bytes (if (utf8Bytes file_name).length ≤ (utf8Bytes fl_ext).length + 1 ∨
          ((utf8Bytes file_name).drop
            ((utf8Bytes file_name).length - (utf8Bytes fl_ext).length)).take
              (utf8Bytes fl_ext).length ≠ utf8Bytes fl_ext
        then file_name ++ ("." ++ fl_ext) else file_name) := by
    split
    · rw [utf8Bytes_append, utf8Bytes_append]
      exact (List.suffix_append _ _).trans (List.suffix_append _ _)
    · rename_i hc
      have hc2 := not_or.1 hc
      have h2 := not_not.1 hc2.2
      have hl : ((utf8Bytes file_name).drop
          ((utf8Bytes file_name).length - (utf8Bytes fl_ext).length)).length ≤
          (utf8Bytes fl_ext).length := by
        rw [List.length_drop]
        omega
      rw [List.take_of_length_le hl] at h2
      rw [← h2]
      exact List.drop_suffix _ _
  unfold resolveFileName
  simp only
  split
  · rw [utf8Bytes_append]
    exact hinner.trans (List.suffix_append _ _)
  · exact hinner

/-- The file of a table is not the file of a column. -/
theorem resolveFileName_kmt_ne_clm (a b path : String) :
    resolveFileName a path "kmt" ≠ resolveFileName b path "clm" := by
  intro h
  have h1 := resolveFileName_suffix a path "kmt"
  have h2 := resolveFileName_suffix b path "clm"
  rw [h] at h1
  have h3 := List.suffix_of_suffix_length_le h1 h2 (by decide)
  have h4 := h3.eq_of_length (by decide)
  exact absurd h4 (by decide)

/-- A valid column name has no dot. -/
theorem isValidColumnName_no_dot (name : String) (h : isValidColumnName name = true) :
    '.' ∉ name.data := by
  unfold isValidColumnName at h
  intro hm
  cases hd : name.data with
  | nil => rw [hd] at hm; cases hm
  | cons c rest =>
    rw [hd] at h
    simp only at h
    split at h
    · cases h
    · rw [← hd] at h
      have := List.all_eq_true.1 h '.' hm
      exact absurd this (by decide)

/-- The files of two valid column names are the same file only for the same name. -/
theorem resolveFileName_clm_inj (a b path : String) (ha : isValidColumnName a = true)
    (hb : isValidColumnName b = true)
    (h : resolveFileName a path "clm" = resolveFileName b path "clm") : a = b := by
  have hinner : (if (utf8Bytes a).length ≤ (utf8Bytes "clm").length + 1 ∨
        ((utf8Bytes a).drop ((utf8Bytes a).length - (utf8Bytes "clm").length)).take
          (utf8Bytes "clm").length ≠ utf8Bytes "clm"
      then a ++ ("." ++ "clm") else a) =
      (if (utf8Bytes b).length ≤ (utf8Bytes "clm").length + 1 ∨
        ((utf8Bytes b).drop ((utf8Bytes b).length - (utf8Bytes "clm").length)).take
          (utf8Bytes "clm").length ≠ utf8Bytes "clm"
      then b ++ ("." ++ "clm") else b) := by
    unfold resolveFileName at h
    simp only at h
    split at h
    · have h1 := congrArg String.data h
      rw [String.data_append, String.data_append] at h1
      exact String.ext (List.append_cancel_left h1)
    · exact h
  have hda := isValidColumnName_no_dot a ha
  have hdb := isValidColumnName_no_dot b hb
  split at hinner <;> split at hinner
  · have h1 := congrArg String.data hinner
    rw [String.data_append, String.data_append] at h1
    exact String.ext (List.append_cancel_right h1)
  · exfalso
    apply hdb
    rw [← hinner, String.data_append, String.data_append]
    simp
  · exfalso
    apply hda
    rw [hinner, String.data_append, String.data_append]
    simp
  · exact hinner

/-- Entry of a name in a file system to which files with other names were written later. -/
theorem lookup_append_of_not_mem (name : String) :
    ∀ (files : List (String × List Chunk)) (fs : FileSystem),
      (∀ f ∈ files, f.1 ≠ name) → List.lookup name (files ++ fs) = List.lookup name fs
  | [], _, _ => rfl
  | f :: files, fs, h => by
    have h1 : (name == f.1) = false := by
      rw [beq_eq_false_iff_ne]
      exact fun e => h f (List.mem_cons_self _ _) e.symm
    obtain ⟨k, v⟩ := f
    rw [List.cons_append, List.lookup_cons, h1]
    exact lookup_append_of_not_mem name files fs
      (fun g hg => h g (List.mem_cons_of_mem _ hg))

/-- Entry of a name in a file system to which files with pairwise different names were
written, one of them with this name. -/
theorem lookup_append_of_mem (name : String) (content : List Chunk) :
    ∀ (files : List (String × List Chunk)) (fs : FileSystem),
      (files.map Prod.fst).Nodup → (name, content) ∈ files →
      List.lookup name (files ++ fs) = some content
  | [], _, _, h => by cases h
  | f :: files, fs, hnd, h => by
    obtain ⟨k, v⟩ := f
    rw [List.map_cons, List.nodup_cons] at hnd
    rw [List.cons_append, List.lookup_cons]
    rcases List.mem_cons.1 h with h1 | h1
    · cases h1
      simp
    · have hne : (name == k) = false := by
        rw [beq_eq_false_iff_ne]
        intro e
        apply hnd.1
        rw [← e]
        exact List.mem_map.2 ⟨(name, content), h1, rfl⟩
      rw [hne]
      exact lookup_append_of_mem name content files fs hnd.2 h1

end km

namespace km

theorem IfStream.readChars_bytes : ∀ (s : List Nat) (rest : List Chunk) (acc : List Nat),
    IfStream.readChars s.length (s.map Chunk.byte ++ rest) acc = some (acc ++ s, rest)
  | [], rest, acc => by simp [IfStream.readChars]
  | c :: s, rest, acc => by
    simp only [List.length_cons, List.map_cons, List.cons_append, IfStream.readChars,
      List.append_eq]
    rw [IfStream.readChars_bytes s rest (acc ++ [c])]
    simp

theorem Chunk.bytes_sum_ge : ∀ (s : List Nat) (rest : List Chunk),
    s.length ≤ ((s.map Chunk.byte ++ rest).map Chunk.bytes).sum
  | [], _ => Nat.zero_le _
  | c :: s, rest => by
    have ih := Chunk.bytes_sum_ge s rest
    simp only [List.length_cons, List.map_cons, List.cons_append, List.sum_cons, Chunk.bytes]
    omega

/-- Function `readLString` reads back a length and the bytes of a string of this length. -/
theorem readLString_written (s : String) (rest : List Chunk) :
    readLString ⟨Chunk.size (utf8Bytes s).length :: ((utf8Bytes s).map Chunk.byte ++ rest),
      true⟩ = some (s, ⟨rest, true⟩) := by
  have hb := Chunk.bytes_sum_ge (utf8Bytes s) rest
  have hr := IfStream.readChars_bytes (utf8Bytes s) rest []
  simp only [readLString, IfStream.readSize, Bool.not_true, Bool.false_eq_true, if_false]
  rw [if_pos hb, hr]
  simp only [List.nil_append, utf8String_bytes]

/-- The loop that reads the meta data reads back what `writeTableInfo` wrote for the
columns. -/
theorem readColumns_written : ∀ (cols : List Column) (rest : List Chunk)
    (column_vec : List ColumnMetaData),
    readColumns cols.length
      ⟨(cols.map (fun column_ptr =>
          [Chunk.type column_ptr.getMetaData.data_type,
            Chunk.size (utf8Bytes column_ptr.getMetaData.column_name).length] ++
          (utf8Bytes column_ptr.getMetaData.column_name).map Chunk.byte ++
          [Chunk.size (utf8Bytes column_ptr.getMetaData.display_name).length] ++
          (utf8Bytes column_ptr.getMetaData.display_name).map Chunk.byte)).flatten ++ rest,
        true⟩
      column_vec = some (some (column_vec ++ cols.map Column.getMetaData))
  | [], rest, column_vec => by simp [readColumns]
  | c :: cols, rest, column_vec => by
    have ih := readColumns_written cols rest (column_vec ++ [c.getMetaData])
    have e : (((c :: cols).map (fun column_ptr =>
          [Chunk.type column_ptr.getMetaData.data_type,
            Chunk.size (utf8Bytes column_ptr.getMetaData.column_name).length] ++
          (utf8Bytes column_ptr.getMetaData.column_name).map Chunk.byte ++
          [Chunk.size (utf8Bytes column_ptr.getMetaData.display_name).length] ++
          (utf8Bytes column_ptr.getMetaData.display_name).map Chunk.byte)).flatten ++ rest) =
        Chunk.type c.getMetaData.data_type ::
          Chunk.size (utf8Bytes c.getMetaData.column_name).length ::
          ((utf8Bytes c.getMetaData.column_name).map Chunk.byte ++
            (Chunk.size (utf8Bytes c.getMetaData.display_name).length ::
              ((utf8Bytes c.getMetaData.display_name).map Chunk.byte ++
                ((cols.map (fun column_ptr =>
                  [Chunk.type column_ptr.getMetaData.data_type,
                    Chunk.size (utf8Bytes column_ptr.getMetaData.column_name).length] ++
                  (utf8Bytes column_ptr.getMetaData.column_name).map Chunk.byte ++
                  [Chunk.size (utf8Bytes column_ptr.getMetaData.display_name).length] ++
                  (utf8Bytes column_ptr.getMetaData.display_name).map Chunk.byte)).flatten ++
                  rest)))) := by
      simp only [List.map_cons, List.flatten_cons, List.append_assoc, List.cons_append,
        List.nil_append]
    rw [e]
    simp only [List.length_cons, readColumns, IfStream.readType, Bool.not_true,
      Bool.false_eq_true, if_false, readLString_written]
    rw [ih]
    simp

theorem getlineLoop_written : ∀ (s : List Nat) (rest : List Chunk) (stored : List Nat),
    stored.length + s.length ≤ 255 → 0 ∉ s →
    getlineLoop (s.map Chunk.byte ++ Chunk.byte 0 :: rest) stored =
      some (stored ++ s, ⟨rest, true⟩)
  | [], rest, stored, _, _ => by simp [getlineLoop]
  | c :: s, rest, stored, hl, hn => by
    have hc : c ≠ 0 := fun e => hn (e ▸ List.mem_cons_self _ _)
    have hs : stored.length ≠ 255 := by
      simp only [List.length_cons] at hl
      omega
    simp only [List.map_cons, List.cons_append, getlineLoop, hc, hs, if_false, List.append_eq]
    rw [getlineLoop_written s rest (stored ++ [c]) (by
      simp only [List.length_append, List.length_cons, List.length_nil] at hl ⊢
      omega) (fun hm => hn (List.mem_cons_of_mem _ hm))]
    simp

/-- The reader of a type reads back what the writer of the type wrote for a readable value of
the type. -/
theorem readStreamData_writeCell (T : KType) (data : Variant) (rest : List Chunk)
    (hT : data.index = T.index) (hr : data.Readable) :
    readStreamData T ⟨writeCell T data ++ rest, true⟩ = some (data, ⟨rest, true⟩) := by
  by_cases hs : T = KType.KString
  · subst hs
    cases data with
    | string str =>
      have hg := getlineLoop_written (utf8Bytes str) rest [] (by
        simp only [List.length_nil, Nat.zero_add]
        exact hr.1) hr.2
      simp only [readStreamData, writeCell, if_true, Bool.not_true, Bool.false_eq_true,
        if_false, List.append_assoc, List.singleton_append, hg, List.nil_append,
        utf8String_bytes]
    | _ => simp [Variant.index, KType.index] at hT
  · simp only [readStreamData, writeCell, hs, if_false, Bool.not_true, Bool.false_eq_true,
      List.singleton_append, hT, if_true]

/-- The row loop of the column writer writes the cell of every row in turn. -/
theorem writeColumnRows_eq (T : KType) (table : Table) (column_index : Nat) :
    ∀ (count row_index : Nat) (out : List Chunk),
      (∀ r, row_index ≤ r → r < row_index + count →
        (table.getDataWC r column_index).index = T.index) →
      writeColumnRows T table column_index count row_index out =
        .ok (out ++ ((List.range' row_index count).map (fun r =>
          writeCell T (table.getDataWC r column_index))).flatten)
  | 0, _, out, _ => by simp [writeColumnRows]
  | count + 1, row_index, out, h => by
    have h0 : ((table.getDataWC row_index column_index).as T) =
        .ok (table.getDataWC row_index column_index) := by
      unfold Variant.as
      rw [if_pos (h row_index (Nat.le_refl _) (by omega))]
    simp only [writeColumnRows, h0]
    rw [writeColumnRows_eq T table column_index count (row_index + 1) _
      (fun r h1 h2 => h r (by omega) (by omega))]
    simp [List.range'_succ]

/-- The calls of the reader in `addColumnF` read back the cells written. -/
theorem readCells_written (T : KType) : ∀ (cells : List Variant) (rest : List Chunk),
    (∀ v ∈ cells, v.index = T.index ∧ v.Readable) →
    readCells T cells.length ⟨(cells.map (writeCell T)).flatten ++ rest, true⟩ = some cells
  | [], _, _ => rfl
  | v :: cells, rest, h => by
    have hv := h v (List.mem_cons_self _ _)
    simp only [List.length_cons, List.map_cons, List.flatten_cons, List.append_assoc,
      readCells, readStreamData_writeCell T v _ hv.1 hv.2]
    rw [readCells_written T cells rest (fun w hw => h w (List.mem_cons_of_mem _ hw))]

/-- The loop that inserts the keys inserts the cells written, in their order. -/
theorem insertKeys_written (T : KType) : ∀ (cells : List Variant) (table : Table)
    (rest : List Chunk), (∀ v ∈ cells, v.index = T.index ∧ v.Readable) →
    insertKeys T cells.length table ⟨(cells.map (writeCell T)).flatten ++ rest, true⟩ =
      some (cells.foldl (fun t v => (t.insertRow [v]).1) table, ⟨rest, true⟩)
  | [], _, _, _ => rfl
  | v :: cells, table, rest, h => by
    have hv := h v (List.mem_cons_self _ _)
    simp only [List.length_cons, List.map_cons, List.flatten_cons, List.append_assoc,
      insertKeys, readStreamData_writeCell T v _ hv.1 hv.2, List.foldl_cons]
    exact insertKeys_written T cells _ rest (fun w hw => h w (List.mem_cons_of_mem _ hw))

end km

namespace km

theorem ktypeAt_dataTypeFor (T : KType) :
    ktypeAt (indexForDataType (dataTypeFor T) 8) = some T := by
  cases T <;> rfl

theorem map_getD_range (xs : List Nat) :
    (List.range' 0 xs.length).map (fun r => xs.getD r 0) = xs := by
  apply List.ext_getElem
  · simp
  · intro i h1 h2
    simp only [List.getElem_map, List.getElem_range', Nat.zero_add, Nat.one_mul]
    exact List.getD_eq_getElem _ _ h2

theorem Table.columnAt_of_get (t : Table) (j : Nat) (c : Column)
    (h : t.m_columns[j]? = some c) : t.columnAt j = some (c.getName, c.getDataType) := by
  have hj : j < t.m_columns.length := (List.getElem?_eq_some.1 h).1
  unfold Table.columnAt Table.columnCount
  rw [if_neg (by omega), List.get?_eq_getElem?, h]
  rfl

theorem Table.getDataWC_of_get (t : Table) (r j : Nat) (c : Column)
    (h : t.m_columns[j]? = some c) : t.getDataWC r j = c.getData (t.m_indices.getD r 0) := by
  unfold Table.getDataWC
  rw [List.get?_eq_getElem?, h]

/-- The writer of a column writes the file of the column. -/
theorem writeColumnToStream_eq (t : Table) (j : Nat) (c : Column)
    (hc : t.m_columns[j]? = some c) (hty : c.Typed) (path : String) (fs : FileSystem) :
    writeColumnToStream c.ktype t j path fs = .ok (columnFile t path c :: fs, true) := by
  have hrows := writeColumnRows_eq c.ktype t j t.rowCount 0 [] (by
    intro r _ _
    rw [t.getDataWC_of_get r j c hc]
    exact c.getData_index hty _)
  have hcells : (List.range' 0 t.rowCount).map (fun r =>
      writeCell c.ktype (t.getDataWC r j)) =
      (t.m_indices.map c.getData).map (writeCell c.ktype) := by
    have e : (fun r => writeCell c.ktype (t.getDataWC r j)) =
        (fun s => writeCell c.ktype (c.getData s)) ∘ (fun r => t.m_indices.getD r 0) := by
      funext r
      simp only [Function.comp, t.getDataWC_of_get r j c hc]
    rw [e, ← List.map_map]
    unfold Table.rowCount
    rw [map_getD_range, List.map_map]
    rfl
  unfold writeColumnToStream
  rw [t.columnAt_of_get j c hc, hrows, hcells]
  rfl

/-- The column loop of `writeTableTo` writes the files of the columns in turn. -/
theorem writeColumns_eq (t : Table) (hty : ∀ c ∈ t.m_columns, c.Typed) (path : String) :
    ∀ (count column_index : Nat) (fs : FileSystem),
      column_index + count = t.columnCount →
      writeColumns t path count column_index fs =
        .ok (((t.m_columns.drop column_index).map (columnFile t path)).reverse ++ fs, true)
  | 0, column_index, fs, h => by
    have hd : t.m_columns.drop column_index = [] :=
      List.drop_eq_nil_of_le (by
        unfold Table.columnCount at h
        omega)
    rw [hd]
    rfl
  | count + 1, column_index, fs, h => by
    have hj : column_index < t.m_columns.length := by
      unfold Table.columnCount at h
      omega
    have hc : t.m_columns[column_index]? = some t.m_columns[column_index] :=
      List.getElem?_eq_getElem hj
    have hd : t.m_columns.drop column_index =
        t.m_columns[column_index] :: t.m_columns.drop (column_index + 1) :=
      List.drop_eq_getElem_cons hj
    have hw := writeColumnToStream_eq t column_index _ hc
      (hty _ (List.getElem_mem hj)) path fs
    have ih := writeColumns_eq t hty path count (column_index + 1)
      (columnFile t path t.m_columns[column_index] :: fs) (by omega)
    unfold writeColumns
    rw [t.columnAt_of_get column_index _ hc]
    simp only [optionalValue, Column.getDataType, getColumnWriter, ktypeAt_dataTypeFor, hw, ih,
      hd, List.map_cons, List.reverse_cons, List.append_assoc, List.singleton_append]

/-- Function `writeTableTo` returns true; the file system then holds the file of the table and
the file of every column. -/
theorem writeTableTo_eq (fs : FileSystem) (t : Table) (hty : ∀ c ∈ t.m_columns, c.Typed)
    (path : String) :
    writeTableTo fs t path =
      .ok ((t.m_columns.map (columnFile t path)).reverse ++
        (resolveFileName t.m_name path "kmt", writeTableInfo t) :: fs, true) := by
  unfold writeTableTo
  rw [writeColumns_eq t hty path t.columnCount 0 _ (Nat.zero_add _)]
  rfl

/-- The file of the table is found where `writeTableTo` has written. -/
theorem lookup_table_file (fs : FileSystem) (t : Table) (path : String) :
    List.lookup (resolveFileName t.m_name path "kmt")
      ((t.m_columns.map (columnFile t path)).reverse ++
        (resolveFileName t.m_name path "kmt", writeTableInfo t) :: fs) =
      some (writeTableInfo t) := by
  rw [lookup_append_of_not_mem]
  · simp [List.lookup]
  · intro f hf
    obtain ⟨c, _, rfl⟩ := List.mem_map.1 (List.mem_reverse.1 hf)
    exact fun e => resolveFileName_kmt_ne_clm _ _ _ e.symm

/-- The file of every column is found where `writeTableTo` has written, when the names of the
columns are valid and pairwise different. -/
theorem lookup_column_file (fs : FileSystem) (t : Table) (path : String)
    (hvalid : ∀ c ∈ t.m_columns, isValidColumnName c.getName = true)
    (hnd : (t.m_columns.map Column.getName).Nodup) (c : Column) (hc : c ∈ t.m_columns) :
    List.lookup (resolveFileName c.getName path "clm")
      ((t.m_columns.map (columnFile t path)).reverse ++
        (resolveFileName t.m_name path "kmt", writeTableInfo t) :: fs) =
      some (columnFile t path c).2 := by
  apply lookup_append_of_mem
  · rw [List.map_reverse, List.nodup_reverse, List.map_map]
    have e : (Prod.fst ∘ columnFile t path) =
        (fun name => resolveFileName name path "clm") ∘ Column.getName := rfl
    rw [e, ← List.map_map]
    refine List.Nodup.map_on ?_ hnd
    intro a ha b hb hab
    obtain ⟨ca, hca, rfl⟩ := List.mem_map.1 ha
    obtain ⟨cb, hcb, rfl⟩ := List.mem_map.1 hb
    exact resolveFileName_clm_inj _ _ path (hvalid ca hca) (hvalid cb hcb) hab
  · exact List.mem_reverse.2 (List.mem_map.2 ⟨c, hc, rfl⟩)

end km

namespace km

/-- Method `insertRow` on a table with one column, no free slot and paused sorting appends the
value to the column and the new slot to the rows. -/
theorem Table.insertRow_paused_key (nm deco : String) (so : SortingOrder) (pe : Bool)
    (key : Nat) (idxs : List Nat) (col : Column) (mfst : Nat) (v : Variant)
    (hv : v.index = col.ktype.index) :
    (Table.insertRow ⟨nm, deco, so, true, pe, key, idxs, [col], [], mfst⟩ [v]).1 =
      ⟨nm, deco, so, true, pe, key, idxs ++ [idxs.length],
        [⟨col.ktype, col.column_name, col.display_name, col.m_epsilon,
          col.m_data_vec ++ [v]⟩], [], mfst⟩ := by
  simp [Table.insertRow, Table.pushRowLoop, Column.pushData_ok col v hv,
    Table.insertIndex, Table.isSortingPaused]

theorem Table.insertRow_paused_fold (nm deco : String) (so : SortingOrder) (pe : Bool)
    (key : Nat) (mfst : Nat) : ∀ (cells : List Variant) (idxs : List Nat) (col : Column),
    (∀ v ∈ cells, v.index = col.ktype.index) →
    cells.foldl (fun (t : Table) v => (t.insertRow [v]).1)
        (⟨nm, deco, so, true, pe, key, idxs, [col], [], mfst⟩ : Table) =
      (⟨nm, deco, so, true, pe, key, idxs ++ List.range' idxs.length cells.length,
        [⟨col.ktype, col.column_name, col.display_name, col.m_epsilon,
          col.m_data_vec ++ cells⟩], [], mfst⟩ : Table)
  | [], idxs, col, _ => by
    simp only [List.foldl_nil, List.append_nil, List.length_nil, List.range'_zero]
  | v :: cells, idxs, col, hv => by
    rw [List.foldl_cons, Table.insertRow_paused_key nm deco so pe key idxs col mfst v
      (hv v (List.mem_cons_self _ _))]
    rw [Table.insertRow_paused_fold nm deco so pe key mfst cells _
      ⟨col.ktype, col.column_name, col.display_name, col.m_epsilon, col.m_data_vec ++ [v]⟩
      (fun w hw => hv w (List.mem_cons_of_mem _ hw))]
    simp [List.range'_succ]

theorem range_eq_range' (n : Nat) : List.range' 0 n = List.range n :=
  (List.range_eq_range' n).symm

/-- The table that `insertData` has after the first column: the key column rebuilt, the rows
in the order written, when the written table was in order. -/
theorem Table.keys_inserted (t : Table) (c0 : Column) (rest : List Column)
    (hcols : t.m_columns = c0 :: rest) (hty : ∀ c ∈ t.m_columns, c.Typed) (hs : t.Sorted) :
    ((t.m_indices.map c0.getData).foldl (fun tb v => (tb.insertRow [v]).1)
        (Table.init t.m_name [c0.getMetaData] t.m_sorder).pauseSorting).resumeSorting =
      ⟨t.m_name, "Table[" ++ t.m_name ++ "]", t.m_sorder, false, true, 0,
        List.range t.rowCount, [c0.compacted t.m_indices], [], 64⟩ := by
  have hc0 : c0.Typed := hty c0 (by rw [hcols]; exact List.mem_cons_self _ _)
  have hcreate : Table.createColumns [c0.getMetaData] =
      [Column.mk0 c0.ktype c0.column_name c0.display_name] := by
    have := createColumn_dataTypeFor c0.ktype c0.column_name c0.display_name
    simp only [Table.createColumns, Column.getMetaData, this]
  have hstart : (Table.init t.m_name [c0.getMetaData] t.m_sorder).pauseSorting =
      ⟨t.m_name, "Table[" ++ t.m_name ++ "]", t.m_sorder, true, false, 0, [],
        [Column.mk0 c0.ktype c0.column_name c0.display_name], [], 64⟩ := by
    simp only [Table.pauseSorting, Table.init, hcreate]
  rw [hstart, Table.insertRow_paused_fold _ _ _ _ _ _ (t.m_indices.map c0.getData) []
    (Column.mk0 c0.ktype c0.column_name c0.display_name) (by
      intro v hv
      obtain ⟨s, _, rfl⟩ := List.mem_map.1 hv
      exact c0.getData_index hc0 s)]
  have hidx : ([] : List Nat) ++ List.range' ([] : List Nat).length
      (t.m_indices.map c0.getData).length = List.range t.rowCount := by
    rw [List.nil_append, List.length_map, List.length_nil, range_eq_range']
    rfl
  have hcol : (⟨(Column.mk0 c0.ktype c0.column_name c0.display_name).ktype,
      (Column.mk0 c0.ktype c0.column_name c0.display_name).column_name,
      (Column.mk0 c0.ktype c0.column_name c0.display_name).display_name,
      (Column.mk0 c0.ktype c0.column_name c0.display_name).m_epsilon,
      (Column.mk0 c0.ktype c0.column_name c0.display_name).m_data_vec ++
        t.m_indices.map c0.getData⟩ : Column) = c0.compacted t.m_indices := by
    simp only [Column.compacted, Column.getSameTypeColumn, Column.getName,
      Column.getDisplayName, Column.mk0, List.nil_append]
  rw [hidx, hcol, Table.resumeSorting_eq _ rfl]
  have hsorted : (List.range t.rowCount).Pairwise (fun a b =>
      Table.baseCompare ⟨t.m_name, "Table[" ++ t.m_name ++ "]", t.m_sorder, true, false, 0,
        List.range t.rowCount, [c0.compacted t.m_indices], [], 64⟩ b a = false) := by
    have h1 := t.compacted_sorted hs
    have h2 : Table.Sorted ⟨t.m_name, "Table[" ++ t.m_name ++ "]", t.m_sorder, true, false, 0,
        List.range t.rowCount, [c0.compacted t.m_indices], [], 64⟩ := by
      refine (Table.sorted_congr t.compacted ⟨t.m_name, "Table[" ++ t.m_name ++ "]",
        t.m_sorder, true, false, 0, List.range t.rowCount, [c0.compacted t.m_indices], [],
        64⟩ rfl rfl ?_).2 h1
      simp only [Table.compacted, hcols, List.map_cons, List.getElem?_cons_zero]
    exact (Table.sorted_iff_idxSorted _ (by
      intro c hc
      simp only [List.mem_singleton] at hc
      rw [hc]
      exact c0.compacted_typed hc0 _)).1 h2
  simp only [stable_sort_of_sorted _ _ hsorted]

end km

namespace km

theorem writeCells_range (cells : List Variant) (z : Variant) (d : List Variant)
    (hd : d.length = cells.length) :
    writeCells (fun i => cells.getD i z) d 0 (List.range cells.length) = cells := by
  apply List.ext_getElem
  · rw [writeCells_length, hd]
  · intro j h1 h2
    have h := writeCells_getD_mem (fun i => cells.getD i z) z (List.range cells.length) d 0 j
      (List.nodup_range _) (by simpa using h2) (by
        rw [List.getElem_range]
        omega)
    rw [List.getElem_range, Nat.zero_add, List.getD_eq_getElem _ _ h1] at h
    exact h.trans (List.getD_eq_getElem _ _ h2)

/-- The column that `addColumnF` builds of the cells read for a column is the column
rebuilt from its cells in the order of the rows. -/
theorem Column.compacted_of_read (c : Column) (idxs : List Nat) :
    ({ (Column.mk0 c.ktype c.column_name c.display_name).resize (idxs.length + 0) with
        m_data_vec := writeCells (fun i => (idxs.map c.getData).getD i c.ktype.zero)
          ((Column.mk0 c.ktype c.column_name c.display_name).resize
            (idxs.length + 0)).m_data_vec 0 (List.range idxs.length) } : Column) =
      c.compacted idxs := by
  have h := writeCells_range (idxs.map c.getData) c.ktype.zero
    ((Column.mk0 c.ktype c.column_name c.display_name).resize (idxs.length + 0)).m_data_vec
    (by simp [Column.resize, Column.mk0])
  rw [List.length_map] at h
  rw [h]
  simp only [Column.compacted, Column.getSameTypeColumn, Column.getName, Column.getDisplayName,
    Column.resize, Column.mk0]

/-- The column loop of `insertData` after the first column appends every column, rebuilt from
the cells in its file. -/
theorem insertColumns_rest (fs : FileSystem) (row_count : Nat) (path : String)
    (idxs : List Nat) : ∀ (rest : List Column) (c_index : Nat) (tb : Table),
    c_index ≠ 0 → tb.m_columns ≠ [] → tb.m_indices = List.range idxs.length →
    tb.m_free_space = [] →
    (∀ c ∈ rest, isValidColumnName c.getName = true) →
    (∀ c ∈ rest, c.Typed) →
    (∀ c ∈ rest, ∀ s ∈ idxs, (c.getData s).Readable) →
    (tb.m_columns.map Column.getName ++ rest.map Column.getName).Nodup →
    (∀ c ∈ rest, List.lookup (resolveFileName c.getName path "clm") fs =
      some ((idxs.map c.getData).map (writeCell c.ktype)).flatten) →
    insertColumns fs row_count path (rest.map Column.getMetaData) c_index tb =
      some (.ok (some { tb with
        m_columns := tb.m_columns ++ rest.map (fun c => c.compacted idxs) }))
  | [], _, tb, _, _, _, _, _, _, _, _, _ => by
    simp [insertColumns]
  | c :: rest, c_index, tb, h0, hne, hidx, hfree, hvalid, hty, hread, hnd, hfile => by
    obtain ⟨nm, deco, so, ns, pe, key, tidx, cols, free, mfst⟩ := tb
    simp only at hidx hfree hne hnd
    subst hidx
    subst hfree
    have hc := List.mem_cons_self c rest
    have hval : Table.validateForNewColumn
        ⟨nm, deco, so, ns, pe, key, List.range idxs.length, cols, [], mfst⟩
        c.getMetaData.column_name c.getMetaData.data_type = true := by
      rw [Table.validateForNewColumn_iff]
      refine ⟨hvalid c hc, ?_, c.ktype, rfl⟩
      intro c1 hc1 he
      have hdis := (List.nodup_append.1 hnd).2.2
      exact hdis (List.mem_map.2 ⟨c1, hc1, rfl⟩)
        (List.mem_map.2 ⟨c, hc, he.symm⟩)
    have hrows : Table.rowCount ⟨nm, deco, so, ns, pe, key, List.range idxs.length, cols, [],
        mfst⟩ = (idxs.map c.getData).length := by
      unfold Table.rowCount
      rw [List.length_range, List.length_map]
    have hcells := readCells_written c.ktype (idxs.map c.getData) [] (by
      intro v hv
      obtain ⟨s, hs, rfl⟩ := List.mem_map.1 hv
      exact ⟨c.getData_index (hty c hc) s, hread c hc s hs⟩)
    rw [List.append_nil, ← hrows] at hcells
    have hadd := Table.addColumnF_accept
      ⟨nm, deco, so, ns, pe, key, List.range idxs.length, cols, [], mfst⟩ c.getMetaData
      (fun i => (idxs.map c.getData).getD i c.ktype.zero)
      (Column.mk0 c.ktype c.column_name c.display_name) hval
      (createColumn_dataTypeFor c.ktype c.column_name c.display_name) (by
        intro r hr
        apply (dataType_eq_iff _ c.ktype).2
        rw [hrows] at hr
        show ((idxs.map c.getData).getD r c.ktype.zero).index = _
        rw [List.getD_eq_getElem _ _ hr, List.getElem_map]
        exact c.getData_index (hty c hc) _)
    have hsort : ∀ x : Column, Table.sortIfFirstColumn
        ⟨nm, deco, so, ns, pe, key, List.range idxs.length, cols ++ [x], [], mfst⟩ =
        ⟨nm, deco, so, ns, pe, key, List.range idxs.length, cols ++ [x], [], mfst⟩ := by
      intro x
      unfold Table.sortIfFirstColumn
      rw [if_neg]
      cases cols with
      | nil => exact absurd rfl hne
      | cons a as => simp
    have hlen : Table.rowCount ⟨nm, deco, so, ns, pe, key, List.range idxs.length, cols, [],
        mfst⟩ + ([] : List Nat).length = idxs.length + 0 := by
      rw [hrows, List.length_map]
      rfl
    simp only [hsort, hlen, c.compacted_of_read idxs] at hadd
    have ih := insertColumns_rest fs row_count path idxs rest (c_index + 1)
      ⟨nm, deco, so, ns, pe, key, List.range idxs.length, cols ++ [c.compacted idxs], [],
        mfst⟩ (by omega)
      (by simp) rfl rfl
      (fun c1 h1 => hvalid c1 (List.mem_cons_of_mem _ h1))
      (fun c1 h1 => hty c1 (List.mem_cons_of_mem _ h1))
      (fun c1 h1 => hread c1 (List.mem_cons_of_mem _ h1))
      (by
        have e : (c.compacted idxs).getName = c.getName := rfl
        simpa [e] using hnd)
      (fun c1 h1 => hfile c1 (List.mem_cons_of_mem _ h1))
    rw [List.map_cons]
    have hf : List.lookup (resolveFileName c.getMetaData.column_name path "clm") fs =
        some ((idxs.map c.getData).map (writeCell c.ktype)).flatten := hfile c hc
    unfold insertColumns
    simp only [hf, h0, if_false, hval, Bool.not_true, Bool.false_eq_true, getStreamReader]
    have hk : ktypeAt (indexForDataType c.getMetaData.data_type 8) = some c.ktype :=
      ktypeAt_dataTypeFor c.ktype
    simp only [hk, hcells, hadd, ih, List.map_cons, List.append_assoc, List.singleton_append]

end km

namespace km

theorem Table.createColumns_metaData : ∀ (cols : List Column),
    Table.createColumns (cols.map Column.getMetaData) =
      cols.map (fun c => Column.mk0 c.ktype c.column_name c.display_name)
  | [] => rfl
  | c :: cols => by
    have h := createColumn_dataTypeFor c.ktype c.column_name c.display_name
    simp only [List.map_cons, Table.createColumns, Column.getMetaData, h]
    rw [← Table.createColumns_metaData cols]

/-- Function `insertData` rebuilds the written table from the files of its columns. -/
theorem insertData_written (fs : FileSystem) (t : Table) (path : String) (c0 : Column)
    (rest : List Column) (hcols : t.m_columns = c0 :: rest)
    (hty : ∀ c ∈ t.m_columns, c.Typed) (hs : t.Sorted)
    (hvalid : ∀ c ∈ t.m_columns, isValidColumnName c.getName = true)
    (hnd : (t.m_columns.map Column.getName).Nodup)
    (hread : ∀ c ∈ t.m_columns, ∀ s ∈ t.m_indices, (c.getData s).Readable)
    (hfile : ∀ c ∈ t.m_columns, List.lookup (resolveFileName c.getName path "clm") fs =
      some (columnFile t path c).2) :
    insertData fs (Table.init t.m_name [c0.getMetaData] t.m_sorder) t.rowCount
      (t.m_columns.map Column.getMetaData) path = some (.ok (some t.reread)) := by
  have hm0 : c0 ∈ t.m_columns := by
    rw [hcols]
    exact List.mem_cons_self _ _
  have hmr : ∀ c ∈ rest, c ∈ t.m_columns := by
    intro c hc
    rw [hcols]
    exact List.mem_cons_of_mem _ hc
  have hf0 : List.lookup (resolveFileName c0.getMetaData.column_name path "clm") fs =
      some ((t.m_indices.map c0.getData).map (writeCell c0.ktype)).flatten := hfile c0 hm0
  have hk : ktypeAt (indexForDataType c0.getMetaData.data_type 8) = some c0.ktype :=
    ktypeAt_dataTypeFor c0.ktype
  have hkeys := insertKeys_written c0.ktype (t.m_indices.map c0.getData)
    (Table.init t.m_name [c0.getMetaData] t.m_sorder).pauseSorting [] (by
      intro v hv
      obtain ⟨s, hs1, rfl⟩ := List.mem_map.1 hv
      exact ⟨c0.getData_index (hty c0 hm0) s, hread c0 hm0 s hs1⟩)
  rw [List.append_nil, List.length_map] at hkeys
  have hrest := insertColumns_rest fs t.rowCount path t.m_indices rest 1
    ⟨t.m_name, "Table[" ++ t.m_name ++ "]", t.m_sorder, false, true, 0,
      List.range t.rowCount, [c0.compacted t.m_indices], [], 64⟩ (by decide) (by simp)
    rfl rfl (fun c hc => hvalid c (hmr c hc)) (fun c hc => hty c (hmr c hc))
    (fun c hc => hread c (hmr c hc))
    (by
      have e : (c0.compacted t.m_indices).getName = c0.getName := rfl
      rw [hcols] at hnd
      simpa [e] using hnd)
    (fun c hc => hfile c (hmr c hc))
  unfold insertData
  rw [hcols, List.map_cons]
  unfold insertColumns
  simp only [hf0, if_true, getStreamReader, hk]
  have hkeys2 : insertKeys c0.ktype t.rowCount
      (Table.init t.m_name [c0.getMetaData] t.m_sorder).pauseSorting
      ⟨((t.m_indices.map c0.getData).map (writeCell c0.ktype)).flatten, true⟩ = _ := hkeys
  simp only [hkeys2, Nat.zero_add, t.keys_inserted c0 rest hcols hty hs, hrest]
  simp only [Table.reread, Table.init, Table.createColumns, hcols, List.map_cons,
    List.singleton_append]

/-- Function `readTableFrom` rebuilds a table from what `writeTableTo` wrote of it, when the
table is in order, its names are valid and its cells readable. -/
theorem readTableFrom_written (fs : FileSystem) (t : Table) (path : String)
    (hty : ∀ c ∈ t.m_columns, c.Typed) (hs : t.Sorted)
    (hname : isValidTableName t.m_name = true)
    (hlist : Table.validateColumnList (t.m_columns.map Column.getMetaData) = 0)
    (hrows : t.m_columns = [] → t.m_indices = [])
    (hread : ∀ c ∈ t.m_columns, ∀ s ∈ t.m_indices, (c.getData s).Readable) :
    readTableFrom ((t.m_columns.map (columnFile t path)).reverse ++
        (resolveFileName t.m_name path "kmt", writeTableInfo t) :: fs) t.m_name path =
      some (some t.reread) := by
  obtain ⟨hv1, hv2, _⟩ := (Table.validateColumnList_eq_zero _).1 hlist
  have hvalid : ∀ c ∈ t.m_columns, isValidColumnName c.getName = true :=
    fun c hc => hv1 c.getMetaData (List.mem_map.2 ⟨c, hc, rfl⟩)
  have hnd : (t.m_columns.map Column.getName).Nodup := by
    rw [List.map_map] at hv2
    exact hv2
  have hinfo : writeTableInfo t = Chunk.size (utf8Bytes t.m_name).length ::
      ((utf8Bytes t.m_name).map Chunk.byte ++ (Chunk.order t.m_sorder ::
        Chunk.size t.columnCount :: Chunk.size t.rowCount ::
        ((t.m_columns.map (fun column_ptr =>
          [Chunk.type column_ptr.getMetaData.data_type,
            Chunk.size (utf8Bytes column_ptr.getMetaData.column_name).length] ++
          (utf8Bytes column_ptr.getMetaData.column_name).map Chunk.byte ++
          [Chunk.size (utf8Bytes column_ptr.getMetaData.display_name).length] ++
          (utf8Bytes column_ptr.getMetaData.display_name).map Chunk.byte)).flatten ++
            []))) := by
    simp only [writeTableInfo, Table.getSortingOrder, List.singleton_append, List.cons_append,
      List.append_assoc, List.nil_append, List.append_nil]
  have hnew : ∀ cols : List ColumnMetaData, Table.validateColumnList cols = 0 →
      Table.new t.m_name cols t.m_sorder = .ok (Table.init t.m_name cols t.m_sorder) := by
    intro cols h
    simp [Table.new, hname, h]
  have hcc : t.columnCount = t.m_columns.length := rfl
  have hlook := lookup_table_file fs t path
  have hfiles := fun c hc => lookup_column_file fs t path hvalid hnd c hc
  generalize ((t.m_columns.map (columnFile t path)).reverse ++
    (resolveFileName t.m_name path "kmt", writeTableInfo t) :: fs) = fsw at hlook hfiles ⊢
  unfold readTableFrom
  rw [hlook, hinfo]
  simp only [readLString_written, IfStream.readOrder, IfStream.readSize, Bool.not_true,
    Bool.false_eq_true, if_false, Bool.and_self]
  rw [hcc, readColumns_written, List.nil_append]
  simp only [readTableBody]
  cases hcols : t.m_columns with
  | nil =>
    have hi := hrows hcols
    simp only [List.length_nil, if_true, hnew [] rfl]
    simp only [Table.reread, Table.rowCount, hi, hcols, List.length_nil, List.range_zero,
      List.map_nil, Table.init, Table.createColumns]
  | cons c0 rest =>
    rw [← hcols]
    have hne : ¬ t.m_columns.length = 0 := by
      rw [hcols]
      simp
    simp only [hne, if_false]
    by_cases hr : t.rowCount = 0
    · simp only [hr, if_true, hnew _ hlist]
      have hi : t.m_indices = [] := List.length_eq_zero.1 hr
      simp only [Table.reread, Table.rowCount, hi, List.length_nil, List.range_zero,
        Table.init, Table.createColumns_metaData, Column.compacted, Column.getSameTypeColumn,
        Column.getName, Column.getDisplayName, List.map_nil, Column.mk0]
    · simp only [hr, if_false]
      have htake : (t.m_columns.map Column.getMetaData).take 1 = [c0.getMetaData] := by
        rw [hcols]
        rfl
      have hl1 : Table.validateColumnList [c0.getMetaData] = 0 := by
        rw [Table.validateColumnList_eq_zero] at hlist ⊢
        rw [hcols] at hlist
        obtain ⟨h1, h2, h3⟩ := hlist
        refine ⟨?_, ?_, ?_⟩
        · intro c hc
          exact h1 c (by
            rw [List.mem_singleton] at hc
            rw [hc]
            exact List.mem_cons_self _ _)
        · simp
        · intro c hc
          exact h3 c (by
            rw [List.mem_singleton] at hc
            rw [hc]
            exact List.mem_cons_self _ _)
      have hins := insertData_written fsw t path c0 rest hcols hty hs hvalid hnd hread hfiles
      simp only [htake, hnew _ hl1, hins]

end km
namespace km

open parse

theorem parse.nestedCall_tokens_zero (o : Nat) :
    (nestedCall 0).tokensAt false o = [Token.function "f" 0, Token.p_open, Token.p_close] :=
  rfl

theorem parse.nestedCall_tokens_succ (n o : Nat) :
    (nestedCall (n + 1)).tokensAt false o =
      Token.function "f" 0 :: Token.p_open ::
        ((nestedCall n).tokensAt false (o + 1 + 1) ++ [Token.p_close]) := by
  simp [nestedCall, Expr.tokensAt, Args.tokensAt]

theorem parse.nestedCall_size (n : Nat) : (nestedCall n).size = 3 * (n + 1) := by
  induction n with
  | zero => rfl
  | succ n ih =>
    simp only [nestedCall, Expr.size, Args.size, ih]
    omega

theorem parse.nestedCall_head (n o : Nat) (rest : List Token) :
    (((nestedCall n).tokensAt false o ++ rest).headD default).token_type = FUNCTION := by
  cases n with
  | zero => rfl
  | succ n =>
    rw [parse.nestedCall_tokens_succ]
    rfl

theorem parse.nestedCall_lexed (n : Nat) : ∀ o, ∀ t ∈ (nestedCall n).tokensAt false o,
    t.Lexed := by
  induction n with
  | zero =>
    intro o t ht
    rw [parse.nestedCall_tokens_zero] at ht
    simp only [List.mem_cons, List.mem_singleton, List.not_mem_nil, or_false] at ht
    rcases ht with rfl | rfl | rfl
    · exact Or.inr (Or.inr (Or.inl ⟨"f", rfl⟩))
    · exact Or.inr (Or.inr (Or.inr (Or.inl rfl)))
    · exact Or.inr (Or.inr (Or.inr (Or.inr (Or.inl rfl))))
  | succ n ih =>
    intro o t ht
    rw [parse.nestedCall_tokens_succ] at ht
    simp only [List.mem_cons, List.mem_append, List.mem_singleton, List.not_mem_nil,
      or_false] at ht
    rcases ht with rfl | rfl | ht | rfl
    · exact Or.inr (Or.inr (Or.inl ⟨"f", rfl⟩))
    · exact Or.inr (Or.inr (Or.inr (Or.inl rfl)))
    · exact ih _ t ht
    · exact Or.inr (Or.inr (Or.inr (Or.inr (Or.inl rfl))))

/-- The loop of `checkGrammar` at an opening parenthesis on the level 32767: the level wraps
to -32768 and the loop ends behind the parenthesis. -/
theorem parse.loop_p_open_wrap (size i : Nat) (tv P : List Token) (t : Token)
    (R : List Token) (f : Bool) (stk : List Nat) (htv : tv = P ++ t :: R) (hi : i = P.length)
    (hlt : i < size) (ht : t.token_type = P_OPEN) :
    ∃ st1, checkGrammarLoop size (size - i) i ⟨tv, 32767, true, f, stk⟩ = .ok (i + 1, st1) ∧
      st1.p_level = -32768 := by
  refine ⟨⟨tv, fnc.wrapSigned 16 (32767 + 1),
    hasBit (tv.getD (i + 1) default).token_type (TT_DATAC ||| FUNCTION ||| P_CLOSE), true,
    stk⟩, ?_, fnc.wrapSigned_int16_max⟩
  rw [parse.loop_step size i _ _ hlt rfl (by show (0 : Int) ≤ 32767; decide)
    (fun _ => by show (1 : Int) ≤ 32767; decide)
    (parse.step_p_open_raw _ _ _ _ _ _
      (by rw [list_getD_at tv P t R i default htv hi]; exact ht))]
  exact parse.loop_stop _ _ _ _ (by
    rintro ⟨_, _, hx⟩
    exact hx (Or.inr (by
      show fnc.wrapSigned 16 (32767 + 1) < 0
      rw [fnc.wrapSigned_int16_max]
      decide)))

/-- The loop of `checkGrammar` on nested calls that lead beyond the level 32767: it ends
inside them, on the level -32768. -/
theorem parse.nestedCall_loop (n : Nat) : ∀ (tv pre post : List Token) (p : Int) (f : Bool)
    (stk : List Nat) (size i o : Nat),
    tv = pre ++ ((nestedCall n).tokensAt false o ++ post) → i = pre.length →
    i + (nestedCall n).size ≤ size → 0 ≤ p → (f = true → 1 ≤ p) → p ≤ 32767 →
    32767 < p + (n + 1 : Nat) →
    ∃ i1 st1, checkGrammarLoop size (size - i) i ⟨tv, p, true, f, stk⟩ = .ok (i1, st1) ∧
      st1.p_level = -32768 := by
  induction n with
  | zero =>
    intro tv pre post p f stk size i o htv hi hsize hp hf h16 hdeep
    have hp2 : p = 32767 := by omega
    subst hp2
    rw [parse.nestedCall_size] at hsize
    rw [parse.nestedCall_tokens_zero] at htv
    have h1 := parse.loop_function size i tv pre (Token.function "f" 0)
      (Token.p_open :: Token.p_close :: post) 32767 f stk (by rw [htv]; simp) hi (by omega)
      hp hf rfl (by simp only [List.headD_cons]; decide)
    obtain ⟨st1, h2, h3⟩ := parse.loop_p_open_wrap size (i + 1) tv
      (pre ++ [Token.function "f" 0]) Token.p_open (Token.p_close :: post) f (i :: stk)
      (by rw [htv]; simp) (by simp [hi]) (by omega) rfl
    exact ⟨_, st1, by rw [h1, h2], h3⟩
  | succ n ih =>
    intro tv pre post p f stk size i o htv hi hsize hp hf h16 hdeep
    rw [parse.nestedCall_size] at hsize
    rw [parse.nestedCall_tokens_succ] at htv
    have h1 := parse.loop_function size i tv pre (Token.function "f" 0)
      (Token.p_open :: (((nestedCall n).tokensAt false (o + 1 + 1) ++ [Token.p_close]) ++
        post)) p f stk (by rw [htv]; simp) hi (by omega) hp hf rfl
      (by simp only [List.headD_cons]; decide)
    by_cases hlt : p < 32767
    · have h2 := parse.loop_p_open size (i + 1) tv (pre ++ [Token.function "f" 0])
        Token.p_open (((nestedCall n).tokensAt false (o + 1 + 1) ++ [Token.p_close]) ++ post)
        p f (i :: stk) (by rw [htv]; simp) (by simp [hi]) (by omega) hp hf rfl
        (by
          rw [List.append_assoc, parse.nestedCall_head]
          decide) hlt
      obtain ⟨i1, st1, h3, h4⟩ := ih tv (pre ++ [Token.function "f" 0, Token.p_open])
        ([Token.p_close] ++ post) (p + 1) true (i :: stk) size (i + 1 + 1) (o + 1 + 1)
        (by rw [htv]; simp) (by simp [hi])
        (by rw [parse.nestedCall_size]; omega) (by omega) (fun _ => by omega) (by omega)
        (by push_cast at hdeep ⊢; omega)
      exact ⟨i1, st1, by rw [h1, h2, h3], h4⟩
    · have hp2 : p = 32767 := by omega
      subst hp2
      obtain ⟨st1, h2, h3⟩ := parse.loop_p_open_wrap size (i + 1) tv
        (pre ++ [Token.function "f" 0]) Token.p_open
        (((nestedCall n).tokensAt false (o + 1 + 1) ++ [Token.p_close]) ++ post) f (i :: stk)
        (by rw [htv]; simp) (by simp [hi]) (by omega) rfl
      exact ⟨_, st1, by rw [h1, h2], h3⟩

/-- Function `checkGrammar` returns `false` on more than 32767 calls nested in each other. -/
theorem parse.nestedCall_rejected (n : Nat) (h : 32767 ≤ n) :
    checkGrammar (nestedCall n).tokens = .ok none := by
  have hlen : (nestedCall n).tokens.length = 3 * (n + 1) := by
    rw [← parse.nestedCall_size]
    exact parse.Expr.tokensAt_length false _ 0
  obtain ⟨i1, st1, hloop, hlev⟩ := parse.nestedCall_loop n
    ((nestedCall n).tokens ++ [Token.new "Invalid"]) [] [Token.new "Invalid"] 0 false []
    (3 * (n + 1)) 0 0 (by simp [Expr.tokens]) rfl (by rw [parse.nestedCall_size]; omega)
    (le_refl _) (fun hx => absurd hx Bool.false_ne_true) (by decide)
    (by push_cast; omega)
  have hhead : hasBit ((nestedCall n).tokens.headD default).token_type FUNCTION = true := by
    have := parse.nestedCall_head n 0 []
    rw [List.append_nil] at this
    unfold Expr.tokens
    rw [this]
    decide
  unfold checkGrammar
  rw [hlen, if_neg (by omega), if_neg (by omega), hhead]
  simp only [Bool.not_true, Bool.false_eq_true, if_false]
  simp only [Nat.sub_zero] at hloop
  rw [hloop]
  simp only []
  rw [if_pos (Or.inr (by rw [hlev]; decide))]

/-- The level of parentheses behind the last opening parenthesis of nested calls. -/
theorem parse.nestedCall_level (n : Nat) : ∀ (o : Nat) (p : Int),
    parenLevel p (((nestedCall n).tokensAt false o).take (2 * (n + 1))) = p + (n + 1 : Nat) := by
  induction n with
  | zero =>
    intro o p
    rfl
  | succ n ih =>
    intro o p
    rw [parse.nestedCall_tokens_succ]
    have h2 : 2 * (n + 1 + 1) = (2 * (n + 1)) + 1 + 1 := by omega
    rw [h2, List.take_succ_cons, List.take_succ_cons, parse.parenLevel_cons,
      parse.parenLevel_cons, List.take_append_of_le_length (by
        rw [parse.Expr.tokensAt_length, parse.nestedCall_size]
        omega)]
    have hf : (if (Token.function "f" 0).token_type = P_OPEN then p + 1
        else if (Token.function "f" 0).token_type = P_CLOSE then p - 1 else p) = p := rfl
    have ho : ∀ q : Int, (if Token.p_open.token_type = P_OPEN then q + 1
        else if Token.p_open.token_type = P_CLOSE then q - 1 else q) = q + 1 := fun _ => rfl
    rw [hf, ho, ih]
    push_cast
    omega

end km

namespace km

/-- C21. Method `insertablePosition` on a view that is sorted by its key column, for a value
of the key column's type: it returns 0 on an empty view; when the key column exists it
returns a position `p` within the view such that every row before `p` has a key equal to or
ordered before the value and every row from `p` on has a key ordered strictly after it, so
the position lies directly behind all rows with an equal key; and inserting at `p` a source
row that holds the value as its key leaves the view sorted. -/
theorem C21_insertablePosition (v : BasicView) (src : AbstractTable) (hc : src.Coherent)
    (data : Variant) (hd : ∀ r, data.index = (v.keyOf src r).index) (hs : v.Sorted src) :
    (v.m_indices = [] → v.insertablePosition src data = .ok 0) ∧
    ((∃ col, v.columnAt src v.getKeyColumn = some col) →
      ∃ p, v.insertablePosition src data = .ok p ∧ p ≤ v.rowCount ∧
        (∀ i, i < p → v.keyOrdered (v.keyOf src (v.m_indices.getD i 0)) data = true) ∧
        (∀ i, p ≤ i → i < v.rowCount →
          v.keyOrdered (v.keyOf src (v.m_indices.getD i 0)) data = false) ∧
        (∀ r, v.keyOf src r = data →
          BasicView.Sorted { v with m_indices := vectorInsert v.m_indices p r } src)) := by
  constructor
  · intro he
    unfold BasicView.insertablePosition
    rw [he]
    rfl
  · rintro ⟨col, hcol⟩
    obtain ⟨h1, h2, h3⟩ := v.upper_bound_key src hc data hd hs
    refine ⟨_, v.insertablePosition_key src col hcol data, h1, ?_, ?_, ?_⟩
    · intro i hi
      rw [v.keyOrdered_eq_comparator _ _ (hd _).symm, h2 i hi]
      rfl
    · intro i hi hn
      rw [v.keyOrdered_eq_comparator _ _ (hd _).symm, h3 i hi hn]
      rfl
    · intro r hr
      rw [BasicView.sorted_iff _ _ hc] at hs ⊢
      have hfun : (fun middle => comparatorFor v.m_sorder 0 data (v.keyOf src middle)) =
          (fun mid => v.compare src r mid) := by
        funext mid
        unfold BasicView.compare
        rw [hr]
      rw [hfun]
      exact upper_bound_insert_sorted (v.compare_strictWeak src hc) v.m_indices r hs

set_option maxRecDepth 100000 in
/-- Witness of C21: on the view of the student table the name Hema is placed at position 5,
behind the two rows of that name. -/
theorem C21_insertablePosition_witness :
    studentTable.toAbstractTable.Coherent ∧
    studentView.Sorted studentTable.toAbstractTable ∧
    studentView.insertablePosition studentTable.toAbstractTable (Variant.string "Hema") =
      .ok 5 ∧
    ∃ p, studentView.insertablePosition studentTable.toAbstractTable (Variant.string "Hema") =
        .ok p ∧ p ≤ studentView.rowCount ∧
      (∀ i, i < p → studentView.keyOrdered (studentView.keyOf studentTable.toAbstractTable
        (studentView.m_indices.getD i 0)) (Variant.string "Hema") = true) ∧
      (∀ i, p ≤ i → i < studentView.rowCount →
        studentView.keyOrdered (studentView.keyOf studentTable.toAbstractTable
          (studentView.m_indices.getD i 0)) (Variant.string "Hema") = false) ∧
      (∀ r, studentView.keyOf studentTable.toAbstractTable r = Variant.string "Hema" →
        BasicView.Sorted
          { studentView with m_indices := vectorInsert studentView.m_indices p r }
          studentTable.toAbstractTable) :=
  ⟨studentSource_coherent, by decide, rfl,
    (C21_insertablePosition studentView studentTable.toAbstractTable studentSource_coherent
      (Variant.string "Hema") (fun r => (studentSource_coherent.typed 0 r 0).symm.trans rfl)
      (by decide)).2 ⟨("name", DataType.STRING), rfl⟩⟩

end km

namespace km

/-- C22. Method `sortBy(column_name)` on a view whose columns all exist in its source. If no
column of the view has the name, the view is returned unchanged (same rows, same key
column). Otherwise, with `i` the first view column of that name, the rows become the stable
sort of the previous rows by the source cells of that column under the view's current order,
a permutation of the previous rows; the key column becomes `i`; order and selected columns
are kept. -/
theorem C22_sortBy_column (v : BasicView) (src : AbstractTable)
    (hsel : ∀ i, i < v.columnCount → ∃ col, v.columnAt src i = some col)
    (column_name : String) :
    ((∀ i col, v.columnAt src i = some col → col.1 ≠ column_name) →
      v.sortByColumn src column_name = .ok v) ∧
    (∀ i ty, v.columnAt src i = some (column_name, ty) →
      (∀ j col, j < i → v.columnAt src j = some col → col.1 ≠ column_name) →
      ∃ v1, v.sortByColumn src column_name = .ok v1 ∧
        v1.m_key_column = i ∧
        v1.m_indices = stable_sort v.m_indices (fun index1 index2 =>
          comparatorFor v.m_sorder ty
            (src.getDataWC index1 (v.m_selected_columns.getD i 0))
            (src.getDataWC index2 (v.m_selected_columns.getD i 0))) ∧
        v1.m_indices.Perm v.m_indices ∧
        v1.m_sorder = v.m_sorder ∧ v1.m_selected_columns = v.m_selected_columns ∧
        v1.m_filtered_token = v.m_filtered_token ∧ v1.m_name = v.m_name) := by
  obtain ⟨hnone, hsome⟩ := v.findColumn_spec src hsel column_name
  constructor
  · intro h
    simp only [BasicView.sortByColumn, hnone h]
  · intro i ty hi hfirst
    refine ⟨{ v with
      m_indices := (stable_sort v.m_indices (fun index1 index2 =>
        comparatorFor v.getSortingOrder ty
          (src.getDataWC index1 (v.m_selected_columns.getD i 0))
          (src.getDataWC index2 (v.m_selected_columns.getD i 0))))
      m_key_column := i }, ?_, rfl, rfl, stable_sort_perm _ _, rfl, rfl, rfl, rfl⟩
    simp only [BasicView.sortByColumn, hsome i ty hi hfirst]

theorem studentView_columns (i : Nat) (hi : i < studentView.columnCount) :
    ∃ col, studentView.columnAt studentTable.toAbstractTable i = some col := by
  have h2 : i < 2 := hi
  interval_cases i
  · exact ⟨_, rfl⟩
  · exact ⟨_, rfl⟩

theorem studentView_first_is_name (j : Nat) (col : String × DataType) (hj : j < 1)
    (h : studentView.columnAt studentTable.toAbstractTable j = some col) : col.1 ≠ "id" := by
  have h0 : j = 0 := by omega
  subst h0
  have hc : some col = some ("name", DataType.STRING) := h.symm.trans rfl
  rw [Option.some.inj hc]
  decide

set_option maxRecDepth 100000 in
/-- Witness of C22: the view of the student table sorted by the column `id`, as in the test
`SortByColumnName`: the rows come in the order of the ids 1 to 10. -/
theorem C22_sortBy_column_witness :
    (∀ i, i < studentView.columnCount →
      ∃ col, studentView.columnAt studentTable.toAbstractTable i = some col) ∧
    (studentView.sortByColumn studentTable.toAbstractTable "id").map
      (fun v1 => (v1.m_indices, v1.m_key_column)) =
        .ok ([7, 5, 3, 4, 2, 0, 1, 8, 9, 6], 1) ∧
    ∃ v1, studentView.sortByColumn studentTable.toAbstractTable "id" = .ok v1 ∧
      v1.m_key_column = 1 ∧
      v1.m_indices = stable_sort studentView.m_indices (fun index1 index2 =>
        comparatorFor studentView.m_sorder DataType.INT32
          (studentTable.toAbstractTable.getDataWC index1
            (studentView.m_selected_columns.getD 1 0))
          (studentTable.toAbstractTable.getDataWC index2
            (studentView.m_selected_columns.getD 1 0))) ∧
      v1.m_indices.Perm studentView.m_indices ∧
      v1.m_sorder = studentView.m_sorder ∧
      v1.m_selected_columns = studentView.m_selected_columns ∧
      v1.m_filtered_token = studentView.m_filtered_token ∧ v1.m_name = studentView.m_name :=
  ⟨studentView_columns, rfl,
    (C22_sortBy_column studentView studentTable.toAbstractTable studentView_columns "id").2 1
      DataType.INT32 rfl studentView_first_is_name⟩

end km

namespace km

set_option maxRecDepth 100000 in
/-- C23, the code at the failing input. The list of column names holds `name` twice; the
constructor does not throw: `UniqueNameContainer` keeps the first occurrence, and the view is
built on the single column `name` with all ten rows. -/
theorem C23_duplicate_names_accepted :
    ¬ ["name", "name"].Nodup ∧
    uniqueNames [] ["name", "name"] = ["name"] ∧
    (BasicView.new noCompiler "view" studentTable.toAbstractTable ["name", "name"] "" ""
        SortingOrder.ASCENDING).map
      (fun v => (v.m_selected_columns, v.m_key_column, v.m_indices)) =
      .ok ([0], 0, [0, 1, 2, 3, 4, 5, 6, 7, 8, 9]) :=
  ⟨by decide, by decide, rfl⟩

end km

namespace km

set_option maxRecDepth 100000 in
/-- C24, the code at two failing inputs. When the view `v1` of `nestedViews` is destructed,
the view `v2` installed on it is not notified: it keeps its ten rows and its pointer to the
destructed view. When the table of `threeViews` is destructed, the first and the third view
are detached, and the second view, which moved to the first slot of the vector when the first
view uninstalled itself during the loop, is skipped: it keeps its rows and its pointer to the
destructed table. With one view installed, or two, every view is detached. -/
theorem C24_views_left_dangling :
    ((nestedViews.destructView 1).object 1).destructed = true ∧
    (nestedViews.destructView 1).Dangling 2 ∧
    ((nestedViews.destructView 1).object 2).view.map (fun v => v.m_indices.length) = some 10 ∧
    ((threeViews.destructTable 2 0).object 0).destructed = true ∧
    (threeViews.destructTable 2 0).Detached 1 ∧
    (threeViews.destructTable 2 0).Dangling 2 ∧
    ((threeViews.destructTable 2 0).object 2).view.map (fun v => v.m_indices.length) =
      some 10 ∧
    (threeViews.destructTable 2 0).Detached 3 ∧
    (nestedViews.destructTable 3 0).Detached 1 ∧ (nestedViews.destructTable 3 0).Detached 2 :=
  ⟨rfl, ⟨1, rfl, rfl⟩, rfl, rfl, ⟨rfl, rfl⟩, ⟨0, rfl, rfl⟩, rfl, ⟨rfl, rfl⟩, ⟨rfl, rfl⟩,
    ⟨rfl, rfl⟩⟩

end km

namespace km

open parse

/-- Claim C25. A formula that `getCheckedToken` compiles for the type `data_type` is the text
of an expression of the grammar that is well typed with that type: every column reference
names a column of the table and every call has a store entry under its name, `_` and the type
characters of its arguments, nested calls contributing their return type. Every expression
with the tokens of the formula has the type asked for, so a formula that lexes to a
grammatical token sequence but is ill typed, or has another type, is not compiled. -/
theorem C25_compile_implies_well_typed (store : FunctionStore) (table : AbstractTable)
    (formula : String) (data_type : DataType) (prog : List Token)
    (h : getCheckedToken store formula table data_type = .ok (some prog)) :
    (∃ e : Expr, parseToTokens formula = some e.tokens ∧
        e.typeOf store table = some data_type) ∧
      ∀ e : Expr, parseToTokens formula = some e.tokens →
        e.typeOf store table = some data_type := by
  refine ⟨?_, ?_⟩
  · obtain ⟨e, hlex, hk, _⟩ := parse.getCheckedToken_accepted store table formula data_type
      prog h
    exact ⟨e, hlex, parse.Expr.check_typeOf store table e data_type hk⟩
  · intro e hlex
    exact parse.Expr.check_typeOf store table e data_type
      ((parse.getCheckedToken_iff store table formula data_type e prog hlex
        (parse.getCheckedToken_levels store table formula data_type prog _ h hlex)).mp h).1

/-- The formula `add($id, intDiv(7,2))` compiles for the student table with the type
`INT32`, and is well typed. -/
theorem C25_compile_implies_well_typed_witness :
    getCheckedToken initAllFnc "add($id, intDiv(7,2))" studentTable.toAbstractTable INT32 =
        .ok (some [Token.column "$id" 1 DataType.INT32,
          Token.literal "intDiv_ii" INT32 (.int32 3),
          Token.resolved "add_ii" ⟨fnc.add_ KType.KInt32, DataType.INT32, 2⟩ 10]) ∧
      ((∃ e : Expr, parseToTokens "add($id, intDiv(7,2))" = some e.tokens ∧
          e.typeOf initAllFnc studentTable.toAbstractTable = some INT32) ∧
        ∀ e : Expr, parseToTokens "add($id, intDiv(7,2))" = some e.tokens →
          e.typeOf initAllFnc studentTable.toAbstractTable = some INT32) :=
  ⟨rfl, C25_compile_implies_well_typed initAllFnc studentTable.toAbstractTable
    "add($id, intDiv(7,2))" INT32 _ rfl⟩

end km

namespace km

open parse

/-- Counterexample to C26 as stated. The formula `99999999999999999999` is one literal of the
type `INT32`: it lexes to one token of that type, holds no column reference and is well
typed. `getCheckedToken` produces no program for it: the conversion of the literal throws
`std::out_of_range`. -/
theorem C26_counterexample :
    parseToTokens "99999999999999999999" =
        some (Expr.literal .int32 "99999999999999999999").tokens ∧
      (Expr.literal .int32 "99999999999999999999").closed = true ∧
      (Expr.literal .int32 "99999999999999999999").typeOf initAllFnc
        studentTable.toAbstractTable = some INT32 ∧
      getCheckedToken initAllFnc "99999999999999999999" studentTable.toAbstractTable INT32 =
        .error (.exception "std::out_of_range") :=
  ⟨rfl, rfl, rfl, rfl⟩

/-- Claim C26, amended. With a store that follows the rule for function names, a formula that
is the text of a well typed expression without column reference, whose parentheses are nested
no deeper than the level 32767 that `p_level` holds, and whose expression has a value `v`
(every literal converts and every function returns), compiles to a program of exactly one
token; the token is a literal (its type marks it as data, neither as function nor as column)
that holds `v`, and the program evaluates to `v` on every row. -/
theorem C26_constant_folding (store : FunctionStore) (table : AbstractTable)
    (formula : String) (e : Expr) (data_type : DataType) (row_index : Nat) (v : Variant)
    (hs : FunctionStore.ArityConsistent store)
    (hlex : parseToTokens formula = some e.tokens) (hc : e.closed = true)
    (hdepth : ∀ k, parenLevel 0 (e.tokens.take k) ≤ 32767)
    (ht : e.typeOf store table = some data_type)
    (hv : e.eval store table row_index = .ok v) :
    getCheckedToken store formula table data_type = .ok (some [e.folded store table v]) ∧
      (∃ text type, e.folded store table v = ⟨text, type, Element.data v⟩ ∧
        hasBit type TT_DATA = true ∧ hasBit type FUNCTION = false ∧
        hasBit type COLUMN = false) ∧
      ∀ r, evaluateFormula [e.folded store table v] table r = .ok v := by
  have hk := parse.Expr.check_of_eval store table row_index e data_type v ht hv
  obtain ⟨text, type, hf, hb1, hb2, hb3⟩ := parse.Expr.folded_data store table e v hc
  refine ⟨?_, ⟨text, type, hf, hb3, hb1, hb2⟩, ?_⟩
  · exact (parse.getCheckedToken_iff store table formula data_type e _ hlex hdepth).mpr
      ⟨hk, parse.optimize_closed store table e data_type row_index v hs hc hk hv⟩
  · intro r
    apply parse.evaluateFormula_of_loop table r _ (.ok v)
    rw [hf, parse.evaluateLoop_cons]
    simp only [Token.literal]
    rw [parse.evaluateStep_data table r [] text type v hb1 hb2 hb3]
    rfl

/-- The formula `IF(isEqual(add(5,10),15), 0, 1)` compiles to the single literal `0` and
evaluates to `0` on every row. -/
theorem C26_constant_folding_witness :
    getCheckedToken initAllFnc "IF(isEqual(add(5,10),15), 0, 1)" studentTable.toAbstractTable
        INT32 = .ok (some [⟨"IF_bii", INT32, Element.data (.int32 0)⟩]) ∧
      ∀ r, evaluateFormula [⟨"IF_bii", INT32, Element.data (.int32 0)⟩]
        studentTable.toAbstractTable r = .ok (.int32 0) :=
  ⟨(C26_constant_folding initAllFnc studentTable.toAbstractTable
      "IF(isEqual(add(5,10),15), 0, 1)"
      (Expr.call "IF" (.cons (.call "isEqual" (.cons (.call "add"
        (.cons (.literal .int32 "5") (.cons (.literal .int32 "10") .nil)))
        (.cons (.literal .int32 "15") .nil)))
        (.cons (.literal .int32 "0") (.cons (.literal .int32 "1") .nil))))
      INT32 0 (.int32 0) parse.initAllFnc_arityConsistent rfl rfl
      (parse.levels_of_short _ (by decide)) rfl rfl).1,
    (C26_constant_folding initAllFnc studentTable.toAbstractTable
      "IF(isEqual(add(5,10),15), 0, 1)"
      (Expr.call "IF" (.cons (.call "isEqual" (.cons (.call "add"
        (.cons (.literal .int32 "5") (.cons (.literal .int32 "10") .nil)))
        (.cons (.literal .int32 "15") .nil)))
        (.cons (.literal .int32 "0") (.cons (.literal .int32 "1") .nil))))
      INT32 0 (.int32 0) parse.initAllFnc_arityConsistent rfl rfl
      (parse.levels_of_short _ (by decide)) rfl rfl).2.2⟩

end km

namespace km

/-- C27. Every valid column name parses as a reference: for a string `n` that
`isValidColumnName` accepts, the formula `$n` lexes to exactly one token, with the text `$n`
and the type `COLUMN`, and this token sequence passes the grammar check. -/
theorem C27_column_reference (n : String) (h : isValidColumnName n = true) :
    parse.parseToTokens ("$" ++ n) =
      some [{ parse.Token.new ("$" ++ n) with token_type := parse.COLUMN }] ∧
    parse.checkGrammar [{ parse.Token.new ("$" ++ n) with token_type := parse.COLUMN }] =
      .ok (some [{ parse.Token.new ("$" ++ n) with token_type := parse.COLUMN }]) := by
  constructor
  · unfold parse.parseToTokens
    rw [parse.lex_column_reference n h]
    simp only [Bool.false_eq_true, if_false, List.map_cons, List.map_nil,
      parse.resolveTokenType_column n h (parse.Token.new ("$" ++ n)) rfl]
    rfl
  · unfold parse.checkGrammar
    have hb : parse.hasBit parse.COLUMN parse.TT_DATAC = true := by decide
    simp only [List.length_singleton, one_ne_zero, if_false, if_true, List.headD_cons, hb]

/-- Witness of C27: the column names `True`, `False` and `IF`, which are also a literal of the
expression language and a function name. -/
theorem C27_column_reference_witness :
    isValidColumnName "True" = true ∧ isValidColumnName "IF" = true ∧
    parse.parseToTokens ("$" ++ "True") =
      some [{ parse.Token.new ("$" ++ "True") with token_type := parse.COLUMN }] ∧
    parse.parseToTokens ("$" ++ "IF") =
      some [{ parse.Token.new ("$" ++ "IF") with token_type := parse.COLUMN }] :=
  ⟨by decide, by decide, (C27_column_reference "True" (by decide)).1,
    (C27_column_reference "IF" (by decide)).1⟩

end km

namespace km

end km

namespace km

/-- C29 does not hold without a restriction on month and day. Day 0 of month 2 and day 100
of month 1 of the year 2020 have the same integral representation 20200200: neither is less
or greater than the other, and they are not equal; each is less than or equal to the other. -/
theorem C29_counterexample :
    integralRepresentationOf ⟨2020, 2, 0⟩ = 20200200 ∧
    integralRepresentationOf ⟨2020, 1, 100⟩ = 20200200 ∧
    KDate.lt ⟨2020, 2, 0⟩ ⟨2020, 1, 100⟩ = false ∧
    KDate.eq ⟨2020, 2, 0⟩ ⟨2020, 1, 100⟩ = false ∧
    KDate.gt ⟨2020, 2, 0⟩ ⟨2020, 1, 100⟩ = false ∧
    KDate.le ⟨2020, 2, 0⟩ ⟨2020, 1, 100⟩ = true ∧
    KDate.le ⟨2020, 1, 100⟩ ⟨2020, 2, 0⟩ = true := by
  decide

/-- C29, amended. For dates whose month and day are below 100 (every calendar date), exactly
one of `a < b`, `a == b`, `a > b` holds, and `a <= b` with `b <= a` implies `a == b`. For all
dates, at most one of the three holds. -/
theorem C29_date_order (a b : KDate) :
    (a.month.val < 100 ∧ a.day.val < 100 → b.month.val < 100 ∧ b.day.val < 100 →
      ((KDate.lt a b = true ∧ KDate.eq a b = false ∧ KDate.gt a b = false) ∨
        (KDate.lt a b = false ∧ KDate.eq a b = true ∧ KDate.gt a b = false) ∨
        (KDate.lt a b = false ∧ KDate.eq a b = false ∧ KDate.gt a b = true)) ∧
      (KDate.le a b = true → KDate.le b a = true → KDate.eq a b = true)) ∧
    ¬ (KDate.lt a b = true ∧ KDate.eq a b = true) ∧
    ¬ (KDate.gt a b = true ∧ KDate.eq a b = true) ∧
    ¬ (KDate.lt a b = true ∧ KDate.gt a b = true) := by
  refine ⟨?_, ?_, ?_, ?_⟩
  · intro ha hb
    have hrep := KDate.eq_of_rep a b ha hb
    constructor
    · rcases lt_trichotomy (integralRepresentationOf a) (integralRepresentationOf b) with
        h | h | h
      · refine Or.inl ⟨by simp [KDate.lt, h], ?_, by simp [KDate.gt]; omega⟩
        cases he : KDate.eq a b
        · rfl
        · rw [(KDate.eq_iff a b).1 he] at h
          omega
      · refine Or.inr (Or.inl ⟨by simp [KDate.lt, h], ?_, by simp [KDate.gt, h]⟩)
        exact (KDate.eq_iff a b).2 (hrep h)
      · refine Or.inr (Or.inr ⟨by simp [KDate.lt]; omega, ?_, by simp [KDate.gt, h]⟩)
        cases he : KDate.eq a b
        · rfl
        · rw [(KDate.eq_iff a b).1 he] at h
          omega
    · intro h1 h2
      simp only [KDate.le, decide_eq_true_eq] at h1 h2
      exact (KDate.eq_iff a b).2 (hrep (by omega))
  · rintro ⟨h1, h2⟩
    rw [(KDate.eq_iff a b).1 h2] at h1
    simp [KDate.lt] at h1
  · rintro ⟨h1, h2⟩
    rw [(KDate.eq_iff a b).1 h2] at h1
    simp [KDate.gt] at h1
  · rintro ⟨h1, h2⟩
    simp only [KDate.lt, KDate.gt, decide_eq_true_eq] at h1 h2
    omega

/-- Witness of C29: the dates of the test `DateTime`, 28 April 2022 and 29 April 2022. -/
theorem C29_date_order_witness :
    ((KDate.lt ⟨2022, 4, 28⟩ ⟨2022, 4, 29⟩ = true ∧ KDate.eq ⟨2022, 4, 28⟩ ⟨2022, 4, 29⟩ = false ∧
        KDate.gt ⟨2022, 4, 28⟩ ⟨2022, 4, 29⟩ = false) ∨
      (KDate.lt ⟨2022, 4, 28⟩ ⟨2022, 4, 29⟩ = false ∧ KDate.eq ⟨2022, 4, 28⟩ ⟨2022, 4, 29⟩ = true ∧
        KDate.gt ⟨2022, 4, 28⟩ ⟨2022, 4, 29⟩ = false) ∨
      (KDate.lt ⟨2022, 4, 28⟩ ⟨2022, 4, 29⟩ = false ∧
        KDate.eq ⟨2022, 4, 28⟩ ⟨2022, 4, 29⟩ = false ∧
        KDate.gt ⟨2022, 4, 28⟩ ⟨2022, 4, 29⟩ = true)) ∧
    (KDate.le ⟨2022, 4, 28⟩ ⟨2022, 4, 29⟩ = true → KDate.le ⟨2022, 4, 29⟩ ⟨2022, 4, 28⟩ = true →
      KDate.eq ⟨2022, 4, 28⟩ ⟨2022, 4, 29⟩ = true) :=
  (C29_date_order ⟨2022, 4, 28⟩ ⟨2022, 4, 29⟩).1 (by decide) (by decide)

end km
namespace km

/-- The functions registered as `intDiv_ii` and `intDiv_II` are `divide_<KInt32>` and
`divide_<KInt64>` with the return types `INT32` and `INT64`. On two `Int32` (two `Int64`)
arguments they return 0 of that type when the divisor is 0, and the quotient truncated toward
zero for every other pair except the least integer of the type divided by -1; every value
returned has the registered return type. -/
theorem fnc.intDiv_representable (a b : Int) :
    (∃ info, initAllFnc.find "intDiv_ii" = some info ∧
      info.function = fnc.divide_ KType.KInt32 KType.KInt32 ∧
      info.return_type = DataType.INT32 ∧ info.argc = 2) ∧
    (∃ info, initAllFnc.find "intDiv_II" = some info ∧
      info.function = fnc.divide_ KType.KInt64 KType.KInt64 ∧
      info.return_type = DataType.INT64 ∧ info.argc = 2) ∧
    fnc.divide_ KType.KInt32 KType.KInt32 [Variant.int32 a, Variant.int32 0] =
      .ok (Variant.int32 0) ∧
    fnc.divide_ KType.KInt64 KType.KInt64 [Variant.int64 a, Variant.int64 0] =
      .ok (Variant.int64 0) ∧
    (b ≠ 0 → ¬ (a = -2147483648 ∧ b = -1) →
      fnc.divide_ KType.KInt32 KType.KInt32 [Variant.int32 a, Variant.int32 b] =
        .ok (Variant.int32 (Int.tdiv a b))) ∧
    (b ≠ 0 → ¬ (a = -9223372036854775808 ∧ b = -1) →
      fnc.divide_ KType.KInt64 KType.KInt64 [Variant.int64 a, Variant.int64 b] =
        .ok (Variant.int64 (Int.tdiv a b))) ∧
    (∀ v, fnc.divide_ KType.KInt32 KType.KInt32 [Variant.int32 a, Variant.int32 b] = .ok v →
      dataTypeOf v = DataType.INT32) ∧
    (∀ v, fnc.divide_ KType.KInt64 KType.KInt64 [Variant.int64 a, Variant.int64 b] = .ok v →
      dataTypeOf v = DataType.INT64) := by
  have h32 : ∀ x y : Int, fnc.divide_ KType.KInt32 KType.KInt32
      [Variant.int32 x, Variant.int32 y] =
      if y = 0 then .ok (Variant.int32 0)
      else if x = -2147483648 ∧ y = -1 then .error (.exception "undefined integer division")
      else .ok (Variant.int32 (Int.tdiv x y)) := by
    intro x y
    by_cases hy : y = 0
    · subst hy
      rfl
    · have hz : fnc.isZero (Variant.int32 y) = false := by simp [fnc.isZero, hy]
      have hd : fnc.divide_ KType.KInt32 KType.KInt32 [Variant.int32 x, Variant.int32 y] =
          if (KType.KInt32 = KType.KInt32 ∨ KType.KInt32 = KType.KInt64) ∧
              fnc.isZero (Variant.int32 y) = true then .ok (KType.zero KType.KInt32)
          else fnc.quotient (Variant.int32 x) (Variant.int32 y) := rfl
      rw [hd, hz]
      simp only [Bool.false_eq_true, and_false, if_false, fnc.quotient, hy, false_or]
  have h64 : ∀ x y : Int, fnc.divide_ KType.KInt64 KType.KInt64
      [Variant.int64 x, Variant.int64 y] =
      if y = 0 then .ok (Variant.int64 0)
      else if x = -9223372036854775808 ∧ y = -1 then
        .error (.exception "undefined integer division")
      else .ok (Variant.int64 (Int.tdiv x y)) := by
    intro x y
    by_cases hy : y = 0
    · subst hy
      rfl
    · have hz : fnc.isZero (Variant.int64 y) = false := by simp [fnc.isZero, hy]
      have hd : fnc.divide_ KType.KInt64 KType.KInt64 [Variant.int64 x, Variant.int64 y] =
          if (KType.KInt64 = KType.KInt32 ∨ KType.KInt64 = KType.KInt64) ∧
              fnc.isZero (Variant.int64 y) = true then .ok (KType.zero KType.KInt64)
          else fnc.quotient (Variant.int64 x) (Variant.int64 y) := rfl
      rw [hd, hz]
      simp only [Bool.false_eq_true, and_false, if_false, fnc.quotient, hy, false_or]
  refine ⟨⟨_, rfl, rfl, rfl, rfl⟩, ⟨_, rfl, rfl, rfl, rfl⟩, ?_, ?_, ?_, ?_, ?_, ?_⟩
  · rw [h32]
    simp
  · rw [h64]
    simp
  · intro hb hne
    rw [h32, if_neg hb, if_neg hne]
  · intro hb hne
    rw [h64, if_neg hb, if_neg hne]
  · intro v hv
    rw [h32] at hv
    split_ifs at hv
    · cases hv
      rfl
    · cases hv
      rfl
  · intro v hv
    rw [h64] at hv
    split_ifs at hv
    · cases hv
      rfl
    · cases hv
      rfl

/-- C30 fails in the code at one pair of arguments for each width: the least integer divided
by -1. The divisor is not 0, so `divide_` passes its guard and evaluates `t1 / t2`; the
quotient truncated toward zero is 2147483648 (9223372036854775808 for `Int64`), which is no
value of the type, and the division of the code has no defined result (the x86 `idiv` traps):
`intDiv_ii` and `intDiv_II`, which are these functions, return no value. -/
theorem C30_intDiv_overflow :
    (∃ info, initAllFnc.find "intDiv_ii" = some info ∧
      info.function = fnc.divide_ KType.KInt32 KType.KInt32) ∧
    (∃ info, initAllFnc.find "intDiv_II" = some info ∧
      info.function = fnc.divide_ KType.KInt64 KType.KInt64) ∧
    fnc.isZero (Variant.int32 (-1)) = false ∧ fnc.isZero (Variant.int64 (-1)) = false ∧
    Int.tdiv (-2147483648) (-1) = 2147483648 ∧ ¬ (2147483648 : Int) < 2 ^ 31 ∧
    fnc.divide_ KType.KInt32 KType.KInt32
      [Variant.int32 (-2147483648), Variant.int32 (-1)] =
        .error (.exception "undefined integer division") ∧
    Int.tdiv (-9223372036854775808) (-1) = 9223372036854775808 ∧
    ¬ (9223372036854775808 : Int) < 2 ^ 63 ∧
    fnc.divide_ KType.KInt64 KType.KInt64
      [Variant.int64 (-9223372036854775808), Variant.int64 (-1)] =
        .error (.exception "undefined integer division") :=
  ⟨⟨_, rfl, rfl⟩, ⟨_, rfl, rfl⟩, rfl, rfl, by decide, by decide, rfl, by decide, by decide,
    rfl⟩

end km

namespace km

open parse

/-- Claim C31 as stated fails on calls nested deeper than `p_level` counts. The 32768 calls
`f(f(...f()...))` nested in each other make a sequence of 98304 tokens of the formula language
that is derivable from the grammar; behind its 32768th opening parenthesis, the token at
position 65535, the level of parentheses is 32768, which the `int16_t` holds as -32768, and
`checkGrammar` returns `false`. -/
theorem C31_counterexample :
    (∀ t ∈ (nestedCall 32767).tokens, t.Lexed) ∧
      (∃ e : Expr, (nestedCall 32767).tokens = e.tokens) ∧
      (nestedCall 32767).tokens.length = 98304 ∧
      parenLevel 0 ((nestedCall 32767).tokens.take 65536) = 32768 ∧
      checkGrammar (nestedCall 32767).tokens = .ok none :=
  ⟨parse.nestedCall_lexed 32767 0, ⟨_, rfl⟩,
    ((parse.Expr.tokensAt_length false _ 0).trans (parse.nestedCall_size 32767)),
    parse.nestedCall_level 32767 0 0,
    parse.nestedCall_rejected 32767 (Nat.le_refl _)⟩

/-- Claim C31, amended. On a sequence of tokens of the formula language, as `parseToTokens`
delivers them, `checkGrammar` returns `true` exactly when the sequence is the token sequence
of an expression of the grammar `E ::= Literal | ColumnRef | FunctionName '(' [ E (',' E)* ] ')'`
and the level of parentheses behind every token is at most 32767, the largest value of
`p_level`. For an accepted sequence the expression is a literal or a column reference exactly
when the sequence has one token, and a call that spans the whole sequence otherwise; the level
of parentheses is never negative and never above 32767, and is zero at the end; and the tokens
that `checkGrammar` delivers are those of the expression with the position of the closing
parenthesis of each call recorded on its function token. -/
theorem C31_grammar_check (ts : List Token) (hl : ∀ t ∈ ts, t.Lexed) :
    ((∃ ts1, checkGrammar ts = .ok (some ts1)) ↔
        (∃ e : Expr, ts = e.tokens) ∧ ∀ k, parenLevel 0 (ts.take k) ≤ 32767) ∧
      ∀ ts1, checkGrammar ts = .ok (some ts1) →
        ∃ e : Expr, ts = e.tokens ∧ ts1 = e.tokensAt true 0 ∧
          (ts.length = 1 ↔ e.isCall = false) ∧
          parenLevel 0 ts = 0 ∧
          ∀ k, 0 ≤ parenLevel 0 (ts.take k) ∧ parenLevel 0 (ts.take k) ≤ 32767 := by
  refine ⟨⟨?_, ?_⟩, ?_⟩
  · rintro ⟨ts1, h⟩
    exact ⟨parse.checkGrammar_sound ts ts1 hl h, parse.checkGrammar_levels ts ts1 h⟩
  · rintro ⟨⟨e, rfl⟩, hmax⟩
    exact ⟨_, parse.checkGrammar_tokens e hmax⟩
  · intro ts1 h
    have hmax := parse.checkGrammar_levels ts ts1 h
    obtain ⟨e, rfl⟩ := parse.checkGrammar_sound ts ts1 hl h
    rw [parse.checkGrammar_tokens e hmax] at h
    simp only [Except.ok.injEq, Option.some.injEq] at h
    refine ⟨e, rfl, h.symm, ?_, (parse.Expr.balanced e 0 0).1,
      fun k => ⟨(parse.Expr.balanced e 0 0).2 k, hmax k⟩⟩
    have hlen : e.tokens.length = e.size := parse.Expr.tokensAt_length false e 0
    rw [hlen]
    cases e with
    | literal kind text => simp [Expr.size, Expr.isCall]
    | column text => simp [Expr.size, Expr.isCall]
    | call name args =>
      simp only [Expr.size, Expr.isCall]
      constructor
      · intro hx
        omega
      · intro hx
        cases hx

/-- The tokens of `add(1,max(2,3))` are accepted, and the function tokens record the
positions 10 and 9 of their closing parentheses. -/
theorem C31_grammar_check_witness :
    (∀ t ∈ [Token.function "add" 0, Token.p_open, Token.fresh "1" INT32, Token.comma,
        Token.function "max" 0, Token.p_open, Token.fresh "2" INT32, Token.comma,
        Token.fresh "3" INT32, Token.p_close, Token.p_close], t.Lexed) ∧
      checkGrammar [Token.function "add" 0, Token.p_open, Token.fresh "1" INT32, Token.comma,
        Token.function "max" 0, Token.p_open, Token.fresh "2" INT32, Token.comma,
        Token.fresh "3" INT32, Token.p_close, Token.p_close] =
        .ok (some [Token.function "add" 10, Token.p_open, Token.fresh "1" INT32, Token.comma,
          Token.function "max" 9, Token.p_open, Token.fresh "2" INT32, Token.comma,
          Token.fresh "3" INT32, Token.p_close, Token.p_close]) ∧
      ((∃ ts1, checkGrammar [Token.function "add" 0, Token.p_open, Token.fresh "1" INT32,
          Token.comma, Token.function "max" 0, Token.p_open, Token.fresh "2" INT32,
          Token.comma, Token.fresh "3" INT32, Token.p_close, Token.p_close] =
            .ok (some ts1)) ↔
        (∃ e : Expr, [Token.function "add" 0, Token.p_open, Token.fresh "1" INT32, Token.comma,
          Token.function "max" 0, Token.p_open, Token.fresh "2" INT32, Token.comma,
          Token.fresh "3" INT32, Token.p_close, Token.p_close] = e.tokens) ∧
        ∀ k, parenLevel 0 ([Token.function "add" 0, Token.p_open, Token.fresh "1" INT32,
          Token.comma, Token.function "max" 0, Token.p_open, Token.fresh "2" INT32,
          Token.comma, Token.fresh "3" INT32, Token.p_close, Token.p_close].take k) ≤
            32767) :=
  ⟨parse.parseToTokens_lexed "add(1,max(2,3))" _ rfl, rfl,
    (C31_grammar_check _ (parse.parseToTokens_lexed "add(1,max(2,3))" _ rfl)).1⟩

end km

namespace km

open parse

/-- Claim C32. With a store that follows the rule for function names, a program that
`getCheckedToken` compiles from a formula is the program of a well typed expression with the
tokens of the formula, and on every row the stack machine of `evaluateFormula` and `filter`
never has a function token find fewer values on the stack than its argument count, ends with
exactly one value on the stack, and that value is the value of the recursive evaluation of
the expression, which applies each function to the values of its arguments from left to
right, takes a literal as itself and `$name` as the cell of the row; an exception of a
function ends both in the same way. -/
theorem C32_compiled_program (store : FunctionStore) (table : AbstractTable)
    (formula : String) (data_type : DataType) (prog : List Token)
    (hs : FunctionStore.ArityConsistent store)
    (h : getCheckedToken store formula table data_type = .ok (some prog)) :
    ∃ e : Expr, parseToTokens formula = some e.tokens ∧
      e.typeOf store table = some data_type ∧
      ∀ row_index,
        StackSafe table row_index [] prog ∧
        evaluateLoop table row_index [] prog =
          (match e.eval store table row_index with
            | .error ex => .error ex
            | .ok v => .ok [v]) ∧
        evaluateFormula prog table row_index = e.eval store table row_index ∧
        filter prog table row_index =
          (match e.eval store table row_index with
            | .error ex => .error ex
            | .ok v =>
              match v with
              | .boolean b => .ok b
              | _ => .error .bad_variant_access) := by
  obtain ⟨e, hlex, hk, hopt⟩ := parse.getCheckedToken_accepted store table formula data_type
    prog h
  refine ⟨e, hlex, parse.Expr.check_typeOf store table e data_type hk, ?_⟩
  intro row_index
  obtain ⟨hrun, hdepth⟩ := parse.optimize_run table row_index _ prog
    (parse.Expr.postfixAt_proper store table e 0) hopt
  have hd : stackDepth 0 prog = some 1 := by
    rw [hdepth 0]
    have := parse.Expr.depth_run store table e 0 0 [] data_type hs hk
    simpa [stackDepth] using this
  have hloop : evaluateLoop table row_index [] prog =
      (match e.eval store table row_index with
        | .error ex => .error ex
        | .ok v => .ok [v]) := by
    rw [hrun []]
    exact parse.evaluateLoop_postfix store table e data_type row_index hs hk
  have hev := parse.evaluateFormula_of_loop table row_index prog _ hloop
  refine ⟨(parse.stackDepth_safe table row_index prog [] 1 hd).1, hloop, hev, ?_⟩
  unfold filter
  rw [hev]
  try (cases e.eval store table row_index <;> try rfl) <;> rename_i v <;> cases v <;> rfl

/-- The program of `add($id, intDiv(7,2))` on the student table: on row 0 it leaves the one
value 9. -/
theorem C32_compiled_program_witness :
    getCheckedToken initAllFnc "add($id, intDiv(7,2))" studentTable.toAbstractTable INT32 =
        .ok (some [Token.column "$id" 1 DataType.INT32,
          Token.literal "intDiv_ii" INT32 (.int32 3),
          Token.resolved "add_ii" ⟨fnc.add_ KType.KInt32, DataType.INT32, 2⟩ 10]) ∧
      evaluateLoop studentTable.toAbstractTable 0 []
        [Token.column "$id" 1 DataType.INT32, Token.literal "intDiv_ii" INT32 (.int32 3),
          Token.resolved "add_ii" ⟨fnc.add_ KType.KInt32, DataType.INT32, 2⟩ 10] =
        .ok [.int32 9] ∧
      ∃ e : Expr, parseToTokens "add($id, intDiv(7,2))" = some e.tokens ∧
        e.typeOf initAllFnc studentTable.toAbstractTable = some INT32 ∧
        ∀ row_index,
          StackSafe studentTable.toAbstractTable row_index []
            [Token.column "$id" 1 DataType.INT32, Token.literal "intDiv_ii" INT32 (.int32 3),
              Token.resolved "add_ii" ⟨fnc.add_ KType.KInt32, DataType.INT32, 2⟩ 10] ∧
          evaluateLoop studentTable.toAbstractTable row_index []
            [Token.column "$id" 1 DataType.INT32, Token.literal "intDiv_ii" INT32 (.int32 3),
              Token.resolved "add_ii" ⟨fnc.add_ KType.KInt32, DataType.INT32, 2⟩ 10] =
            (match e.eval initAllFnc studentTable.toAbstractTable row_index with
              | .error ex => .error ex
              | .ok v => .ok [v]) ∧
          evaluateFormula
            [Token.column "$id" 1 DataType.INT32, Token.literal "intDiv_ii" INT32 (.int32 3),
              Token.resolved "add_ii" ⟨fnc.add_ KType.KInt32, DataType.INT32, 2⟩ 10]
            studentTable.toAbstractTable row_index =
            e.eval initAllFnc studentTable.toAbstractTable row_index ∧
          filter
            [Token.column "$id" 1 DataType.INT32, Token.literal "intDiv_ii" INT32 (.int32 3),
              Token.resolved "add_ii" ⟨fnc.add_ KType.KInt32, DataType.INT32, 2⟩ 10]
            studentTable.toAbstractTable row_index =
            (match e.eval initAllFnc studentTable.toAbstractTable row_index with
              | .error ex => .error ex
              | .ok v =>
                match v with
                | .boolean b => .ok b
                | _ => .error .bad_variant_access) :=
  ⟨rfl, rfl, C32_compiled_program initAllFnc studentTable.toAbstractTable
    "add($id, intDiv(7,2))" INT32 _ parse.initAllFnc_arityConsistent rfl⟩

end km

namespace km

set_option maxRecDepth 100000 in
/-- C33, the code at the failing input. The view `nameBonusView` is the view that the
constructor builds on the student table with the column "bonus" for the columns "name" and
"bonus": it selects the source columns 0 and 2, so the source column 2 is the view's own column
1. Source row 0 stands at position 0 of the view. When the cell of source row 0 in the source
column 2 changes, the slot `dataUpdated` leaves the view as it is and emits
`dataUpdateEvent(0, 2, old)`: the column index it passes on is the source column index 2, not
the view's own column index 1. -/
theorem C33_relay_emits_source_column :
    BasicView.new noCompiler "v" studentTableWithBonus.toAbstractTable ["name", "bonus"] "" ""
        SortingOrder.ASCENDING = .ok nameBonusView ∧
      nameBonusView.m_selected_columns = [0, 2] ∧
      nameBonusView.m_selected_columns.indexOf 2 = 1 ∧
      nameBonusView.m_selected_columns.getD nameBonusView.getKeyColumn 0 = 0 ∧
      nameBonusView.mapToLocal (some studentTableWithBonus.toAbstractTable) 0 = .ok 0 ∧
      nameBonusView.dataUpdated studentTableWithBonus.toAbstractTable 0 2 (.int32 0) =
        .ok nameBonusView ∧
      nameBonusView.dataUpdatedSignals studentTableWithBonus.toAbstractTable 0 2 (.int32 0) =
        .ok [Event.dataUpdate 0 2 (.int32 0)] :=
  ⟨rfl, rfl, by decide, rfl, rfl, rfl, rfl⟩

end km

namespace km

set_option maxRecDepth 100000 in
/-- C34, the code at the failing input and at the example of the claim. The view
`studentIdView` is the view that the constructor builds on the student table keyed by "id"; it
is in order and source row 1 stands at its position 6. When the table drops row 1, the slot
`rowDropped` reads the key of row 1 from the table that has already lost the row, the search
of `mapToLocal` ends without a match, no entry is erased and the signal carries
`INVALID_INDEX`: the view is left with ten entries, 1 twice among them, where the old indices
without 1 and with the larger ones decreased are 6, 4, 2, 3, 1, 0, 7, 8, 5. In the example of
the claim the slot does what the claim says: with the view `studentView` and the view
`oddIdView` nested on it, dropping row 3 leaves 9 and 4 rows, and the first row of the nested
view is Teman. -/
theorem C34_rowDropped_misses_row :
    BasicView.new noCompiler "by_id" studentTable.toAbstractTable [] "" "id"
        SortingOrder.ASCENDING = .ok studentIdView ∧
      studentIdView.Sorted studentTable.toAbstractTable ∧
      studentIdView.m_indices.getD 6 0 = 1 ∧
      (studentTable.dropRow 1).map (fun p => p.1.rowCount) = .ok 9 ∧
      (studentIdView.rowDropped (studentTableWithout 1).toAbstractTable 1).map
        (fun v => v.m_indices) = .ok [6, 4, 2, 3, 1, 0, 1, 7, 8, 5] ∧
      studentIdView.rowDroppedSignals (studentTableWithout 1).toAbstractTable 1 =
        .ok [Event.rowDrop INVALID_INDEX] ∧
      ((studentIdView.m_indices.eraseIdx 6).map (fun index =>
        if index > 1 then index - 1 else index)) = [6, 4, 2, 3, 1, 0, 7, 8, 5] ∧
      (studentView.rowDropped (studentTableWithout 3).toAbstractTable 3).map
        (fun v => v.m_indices) = .ok [0, 1, 2, 3, 4, 5, 6, 7, 8] ∧
      studentView.rowDroppedSignals (studentTableWithout 3).toAbstractTable 3 =
        .ok [Event.rowDrop 3] ∧
      BasicView.new oddIdCompiler "v2"
        (studentView.toAbstractTable studentTable.toAbstractTable) [] "isOdd($id)" "id"
        SortingOrder.DESCENDING = .ok oddIdView ∧
      (oddIdView.rowDropped
        (BasicView.toAbstractTable { studentView with m_indices := [0, 1, 2, 3, 4, 5, 6, 7, 8] }
          (studentTableWithout 3).toAbstractTable) 3).map (fun v => v.m_indices) =
        .ok [8, 1, 2, 6] ∧
      BasicView.getDataWC { oddIdView with m_indices := [8, 1, 2, 6] }
        (BasicView.toAbstractTable { studentView with m_indices := [0, 1, 2, 3, 4, 5, 6, 7, 8] }
          (studentTableWithout 3).toAbstractTable) 0 0 = .string "Teman" :=
  ⟨rfl, by decide, rfl, rfl, rfl, rfl, rfl, rfl, rfl, rfl, rfl, rfl⟩

end km

namespace km

set_option maxRecDepth 100000 in
/-- C35, the code at the failing input. The view `nameBonusView` selects the source columns 0
and 2 of the student table with the column "bonus"; after `sortBy(DESCENDING)` its rows stand
in the order 9, 8, ..., 0. The source column 1 is not selected and is not the key column. On
`columnTransformed(1)` the slot compares the iterator that `std::find` returns with the end of
`m_indices`, not of `m_selected_columns`, so it takes the branch of the full refresh: it emits
`refreshEvent` and recomputes the rows, which changes the order of the two rows named Hema. -/
theorem C35_refresh_on_unselected_column :
    (nameBonusView.sortByOrder SortingOrder.DESCENDING).m_indices =
        [9, 8, 7, 6, 5, 4, 3, 2, 1, 0] ∧
      (1 ∈ (nameBonusView.sortByOrder SortingOrder.DESCENDING).m_selected_columns) = False ∧
      ((nameBonusView.sortByOrder SortingOrder.DESCENDING).columnTransformed
          studentTableWithBonus.toAbstractTable 1).map (fun v => v.m_indices) =
        .ok [9, 8, 7, 6, 5, 3, 4, 2, 1, 0] ∧
      (nameBonusView.sortByOrder SortingOrder.DESCENDING).columnTransformed
          studentTableWithBonus.toAbstractTable 1 =
        (nameBonusView.sortByOrder SortingOrder.DESCENDING).refresh
          studentTableWithBonus.toAbstractTable ∧
      (nameBonusView.sortByOrder SortingOrder.DESCENDING).columnTransformedSignals 1 =
        [Event.refresh] :=
  ⟨rfl, by decide, rfl, rfl, rfl⟩

end km

namespace km

set_option maxRecDepth 100000 in
/-- C36, the code at the failing input. The view `studentView` on the student table has 10
rows and 2 columns, and the view `nestedStudentView` is the view that the constructor builds on
it. `sortBy(DESCENDING)` reverses the rows of `studentView` and emits `sourceReversedEvent`.
The slot `sourceReversed` of the nested view replaces each index by `2 - 1 - index`, with the
column count 2 of its source in place of the row count 10, computed on `std::size_t`: the
indices become 1, 0 and eight values just below `2 ^ 64`, where the remapping `10 - 1 - index`
of the claim gives 9, 8, ..., 0; the first row of the nested view was Aarati and is now
Ketan. -/
theorem C36_sourceReversed_uses_column_count :
    BasicView.new noCompiler "v2" (studentView.toAbstractTable studentTable.toAbstractTable)
        [] "" "" SortingOrder.ASCENDING = .ok nestedStudentView ∧
      (studentView.sortByOrder SortingOrder.DESCENDING).m_indices =
        [9, 8, 7, 6, 5, 4, 3, 2, 1, 0] ∧
      studentView.sortByOrderSignals SortingOrder.DESCENDING = [Event.sourceReversed] ∧
      ((studentView.sortByOrder SortingOrder.DESCENDING).toAbstractTable
        studentTable.toAbstractTable).rowCount = 10 ∧
      ((studentView.sortByOrder SortingOrder.DESCENDING).toAbstractTable
        studentTable.toAbstractTable).columnCount = 2 ∧
      (nestedStudentView.sourceReversed
        ((studentView.sortByOrder SortingOrder.DESCENDING).toAbstractTable
          studentTable.toAbstractTable)).m_indices =
        [1, 0, 18446744073709551615, 18446744073709551614, 18446744073709551613,
          18446744073709551612, 18446744073709551611, 18446744073709551610,
          18446744073709551609, 18446744073709551608] ∧
      nestedStudentView.m_indices.map (fun index => 10 - 1 - index) =
        [9, 8, 7, 6, 5, 4, 3, 2, 1, 0] ∧
      nestedStudentView.getDataWC (studentView.toAbstractTable studentTable.toAbstractTable)
        0 0 = .string "Aarati" ∧
      (nestedStudentView.sourceReversed
        ((studentView.sortByOrder SortingOrder.DESCENDING).toAbstractTable
          studentTable.toAbstractTable)).getDataWC
        ((studentView.sortByOrder SortingOrder.DESCENDING).toAbstractTable
          studentTable.toAbstractTable) 0 0 = .string "Ketan" :=
  ⟨rfl, rfl, rfl, rfl, rfl, by decide, rfl, rfl, rfl⟩

end km

namespace km

end km

namespace km

open parse

/-- Claim C38. For the postfix token sequence that reference resolution and separator removal
produce from a formula, the sequence that `optimize` returns evaluates on every row as the
unoptimized sequence does (the same value, or the same exception of a function), and it
leaves the same number of values on the stack; with a store that follows the rule for
function names both sequences are well formed postfix programs: no function token finds
fewer values than its argument count, and one value is left. -/
theorem C38_optimize_preserves_meaning (store : FunctionStore) (table : AbstractTable)
    (formula : String) (data_type : DataType) (ts ts1 ts2 out : List Token)
    (h1 : parseToTokens formula = some ts) (h2 : checkGrammar ts = .ok (some ts1))
    (h3 : checkReference store ts1 table data_type true = .ok (some ts2))
    (h4 : optimize (removeSeparator ts2) = .ok out) :
    (∀ row_index, evaluateFormula out table row_index =
        evaluateFormula (removeSeparator ts2) table row_index) ∧
      stackDepth 0 out = stackDepth 0 (removeSeparator ts2) ∧
      (FunctionStore.ArityConsistent store →
        stackDepth 0 (removeSeparator ts2) = some 1 ∧ stackDepth 0 out = some 1 ∧
        ∀ row_index, StackSafe table row_index [] out) := by
  obtain ⟨e, rfl⟩ := parse.checkGrammar_sound ts ts1 (parse.parseToTokens_lexed formula ts h1) h2
  rw [parse.checkGrammar_tokens e (parse.checkGrammar_levels _ ts1 h2)] at h2
  simp only [Except.ok.injEq, Option.some.injEq] at h2
  subst h2
  obtain ⟨hk, rfl⟩ := parse.checkReference_accepted store table e data_type ts2 h3
  rw [parse.Expr.removeSeparator_resolvedAt] at h4 ⊢
  have hrun := fun row_index => parse.optimize_run table row_index _ out
    (parse.Expr.postfixAt_proper store table e 0) h4
  refine ⟨?_, (hrun 0).2 0, ?_⟩
  · intro row_index
    unfold evaluateFormula
    rw [(hrun row_index).1 []]
  · intro hs
    have hd : stackDepth 0 (e.postfixAt store table 0) = some 1 := by
      have := parse.Expr.depth_run store table e 0 0 [] data_type hs hk
      simpa [stackDepth] using this
    have hd2 : stackDepth 0 out = some 1 := by rw [(hrun 0).2 0, hd]
    exact ⟨hd, hd2, fun row_index => (parse.stackDepth_safe table row_index out [] 1 hd2).1⟩

/-- The formula `add($id, intDiv(7,2))` on the student table: `optimize` folds the inner call
and both programs evaluate alike. -/
theorem C38_optimize_preserves_meaning_witness :
    optimize [Token.column "$id" 1 DataType.INT32, Token.literal "7" INT32 (.int32 7),
        Token.literal "2" INT32 (.int32 2),
        Token.resolved "intDiv_ii" ⟨fnc.divide_ KType.KInt32 KType.KInt32, DataType.INT32, 2⟩
          9,
        Token.resolved "add_ii" ⟨fnc.add_ KType.KInt32, DataType.INT32, 2⟩ 10] =
      .ok [Token.column "$id" 1 DataType.INT32, Token.literal "intDiv_ii" INT32 (.int32 3),
        Token.resolved "add_ii" ⟨fnc.add_ KType.KInt32, DataType.INT32, 2⟩ 10] ∧
    ∀ row_index,
      evaluateFormula
        [Token.column "$id" 1 DataType.INT32, Token.literal "intDiv_ii" INT32 (.int32 3),
          Token.resolved "add_ii" ⟨fnc.add_ KType.KInt32, DataType.INT32, 2⟩ 10]
        studentTable.toAbstractTable row_index =
      evaluateFormula
        [Token.column "$id" 1 DataType.INT32, Token.literal "7" INT32 (.int32 7),
          Token.literal "2" INT32 (.int32 2),
          Token.resolved "intDiv_ii"
            ⟨fnc.divide_ KType.KInt32 KType.KInt32, DataType.INT32, 2⟩ 9,
          Token.resolved "add_ii" ⟨fnc.add_ KType.KInt32, DataType.INT32, 2⟩ 10]
        studentTable.toAbstractTable row_index :=
  ⟨rfl, (C38_optimize_preserves_meaning initAllFnc studentTable.toAbstractTable
    "add($id, intDiv(7,2))" INT32 _ _ _ _ rfl rfl rfl rfl).1⟩

end km

namespace km

set_option maxRecDepth 100000 in
/-- C39, the code at the failing input. The view `studentView` on the student table is in
order, ascending, and has no column "nosuch". The call `sortBy("nosuch", DESCENDING)` stores
the new order before it looks for the column and returns when the column is not found: the
rows and the key column stay as they were, the recorded order is `DESCENDING`, and the view is
no longer in order under its recorded order. -/
theorem C39_sortBy_unknown_column_changes_order :
    studentView.findColumn studentTable.toAbstractTable "nosuch" = .ok none ∧
      studentView.m_sorder = SortingOrder.ASCENDING ∧
      studentView.Sorted studentTable.toAbstractTable ∧
      studentView.sortBy studentTable.toAbstractTable "nosuch" SortingOrder.DESCENDING =
        .ok { studentView with m_sorder := SortingOrder.DESCENDING } ∧
      ¬ BasicView.Sorted { studentView with m_sorder := SortingOrder.DESCENDING }
        studentTable.toAbstractTable ∧
      studentView.sortByColumn studentTable.toAbstractTable "nosuch" = .ok studentView :=
  ⟨rfl, rfl, by decide, rfl, by decide, rfl⟩

end km

namespace km

set_option maxRecDepth 100000 in
/-- C40 fails in the code. The table of readings has the `float64` column "x" with the cells
1, 1.25, 2 and 9 and the epsilon 0.5 set through `setEpsilon`, and tolerates one free slot.
Searching "x" for 1 finds the rows 0 and 1. `dropRow(3)` removes the row with the reading 9
and compacts the table: the columns keep name, display name and type, but the epsilon of "x"
is again the default 2^-52, and the same search finds only the row 0. With the default
tolerance of 64 free slots `dropRow(3)` does not compact, the epsilon stays 0.5 and the search
finds the rows 0 and 1. -/
theorem C40_compaction_resets_epsilon :
    (readingTable 1).m_columns.map (fun c => c.m_epsilon) = [0, 1 / 2] ∧
    (readingTable 1).search "x" (Variant.float64 1) = .ok [0, 1] ∧
    (readingTable 1).dropRow 3 = .ok (readingTableWithout 1 3, true) ∧
    (readingTableWithout 1 3).m_free_space = [] ∧
    (readingTableWithout 1 3).m_columns.map (fun c => c.getMetaData) =
      (readingTable 1).m_columns.map (fun c => c.getMetaData) ∧
    (readingTableWithout 1 3).m_columns.map (fun c => c.m_epsilon) = [0, 1 / 2 ^ 52] ∧
    (readingTableWithout 1 3).search "x" (Variant.float64 1) = .ok [0] ∧
    (readingTableWithout 64 3).m_free_space = [3] ∧
    (readingTableWithout 64 3).m_columns.map (fun c => c.m_epsilon) = [0, 1 / 2] ∧
    (readingTableWithout 64 3).search "x" (Variant.float64 1) = .ok [0, 1] := by
  have h1 : (readingTable 1).search "x" (Variant.float64 1) =
      Table.searchLinear ⟨KType.KFloat64, "x", "x", 1 / 2,
        [.float64 1, .float64 (5 / 4), .float64 2, .float64 9]⟩ (Variant.float64 1)
        [0, 1, 2, 3] 0 [] := rfl
  have h2 : (readingTableWithout 1 3).search "x" (Variant.float64 1) =
      Table.searchLinear ⟨KType.KFloat64, "x", "x", 1 / 2 ^ 52,
        [.float64 1, .float64 (5 / 4), .float64 2]⟩ (Variant.float64 1) [0, 1, 2] 0 [] := rfl
  have h3 : (readingTableWithout 64 3).search "x" (Variant.float64 1) =
      Table.searchLinear ⟨KType.KFloat64, "x", "x", 1 / 2,
        [.float64 1, .float64 (5 / 4), .float64 2, .float64 9]⟩ (Variant.float64 1)
        [0, 1, 2] 0 [] := rfl
  refine ⟨rfl, ?_, rfl, rfl, rfl, rfl, ?_, rfl, rfl, ?_⟩
  · rw [h1, Table.searchLinear_float64 _ ?_ 1 1 0 _ _ _ ?_,
      Table.searchLinear_float64 _ ?_ (5 / 4) 1 1 _ _ _ ?_,
      Table.searchLinear_float64 _ ?_ 2 1 2 _ _ _ ?_,
      Table.searchLinear_float64 _ ?_ 9 1 3 _ _ _ ?_]
    · norm_num [abs_lt, Table.searchLinear]
    all_goals rfl
  · rw [h2, Table.searchLinear_float64 _ ?_ 1 1 0 _ _ _ ?_,
      Table.searchLinear_float64 _ ?_ (5 / 4) 1 1 _ _ _ ?_,
      Table.searchLinear_float64 _ ?_ 2 1 2 _ _ _ ?_]
    · norm_num [abs_lt, Table.searchLinear]
    all_goals rfl
  · rw [h3, Table.searchLinear_float64 _ ?_ 1 1 0 _ _ _ ?_,
      Table.searchLinear_float64 _ ?_ (5 / 4) 1 1 _ _ _ ?_,
      Table.searchLinear_float64 _ ?_ 2 1 2 _ _ _ ?_]
    · norm_num [abs_lt, Table.searchLinear]
    all_goals rfl

end km
